import Mathlib

/-!
# Call-chain construction of the object system (tclOOCall.c)

A shallow embedding of the call-chain engine of `generic/tclOOCall.c`.

Pointers are natural numbers indexing per-type stores (`OOState.objects`,
`OOState.classes`, `OOState.methods`, `OOState.contexts`); a pointer that may be
`NULL` is an `Option Nat`.  Arrays with a `num` field are lists.  Hash tables
keyed by a `Tcl_Obj *` method name are association lists keyed by the string of
the name.  The recursive walks over the class graph take a fuel argument and
return `none` when it runs out, since the graph of an arbitrary state may be
cyclic.  The epoch counters are C `int`s: their values are integers, and the
increment `++` is `incrInt`, which wraps around from `INT_MAX` to `INT_MIN`.

The header `tclOOInt.h` (structure layouts and the values of the flag bits) is
not part of the sources at hand.  The structures below carry the fields that
`tclOOCall.c` and `tclOODefineCmds.c` read and write, and a flag word is modelled
as one boolean per named bit.
-/

namespace TclOO

/-! ## Data model -/

/-- Flag word: one boolean for each named bit that the call-chain code tests or
sets.  `DEFINITE_PROTECTED` and `DEFINITE_PUBLIC` are the two extra bits defined
in `tclOOCall.c`; `KNOWN_STATE` and `SPECIAL` are the unions defined there. -/
structure Flags where
  PUBLIC_METHOD : Bool := false
  PRIVATE_METHOD : Bool := false
  CONSTRUCTOR : Bool := false
  DESTRUCTOR : Bool := false
  FILTER_HANDLING : Bool := false
  OO_UNKNOWN_METHOD : Bool := false
  DEFINITE_PROTECTED : Bool := false
  DEFINITE_PUBLIC : Bool := false
  deriving DecidableEq, Repr

/-- Test `flags & KNOWN_STATE`. -/
def Flags.KNOWN_STATE (f : Flags) : Bool := f.DEFINITE_PROTECTED || f.DEFINITE_PUBLIC

/-- Test `flags & SPECIAL`. -/
def Flags.SPECIAL (f : Flags) : Bool := f.CONSTRUCTOR || f.DESTRUCTOR

/-- Hash table keyed by method name. -/
abbrev HashTable (β : Type) := List (String × β)

/-- Lookup `Tcl_FindHashEntry` followed by `Tcl_GetHashValue`. -/
def Tcl_FindHashEntry {β : Type} (tbl : HashTable β) (key : String) : Option β :=
  List.lookup key tbl

/-- Record `Method`. -/
structure Method where
  namePtr : String
  typePtr : Option Nat
  flags : Flags
  declaringClassPtr : Option Nat
  declaringObjectPtr : Option Nat
  deriving DecidableEq, Repr

/-- Record `Object`. -/
structure Object where
  selfCls : Nat
  classPtr : Option Nat
  methodsPtr : Option (HashTable Nat)
  mixins : List Nat
  filters : List String
  epoch : Int
  creationEpoch : Int
  flags : Flags
  deriving DecidableEq, Repr

/-- Record `Class`. -/
structure Class where
  thisPtr : Nat
  superclasses : List Nat
  subclasses : List Nat
  mixins : List Nat
  mixinSubs : List Nat
  instances : List Nat
  classMethods : HashTable Nat
  filters : List String
  constructorPtr : Option Nat
  destructorPtr : Option Nat
  classHierarchy : List Nat
  classHierarchyEpoch : Int
  deriving DecidableEq, Repr

/-- Record `Foundation`. -/
structure Foundation where
  objectCls : Nat
  classCls : Nat
  epoch : Int
  unknownMethodNameObj : String
  deriving DecidableEq, Repr

/-- One entry `struct MInvoke` of a call chain. -/
structure MInvoke where
  mPtr : Nat
  isFilter : Bool
  filterDeclarer : Option Nat
  deriving DecidableEq, Repr

/-- Record `CallContext`; `chain` is `call.chain` with `call.numChain` its length. -/
structure CallContext where
  oPtr : Nat
  globalEpoch : Int
  localEpoch : Int
  flags : Flags
  index : Nat
  skip : Nat
  chain : List MInvoke
  refCount : Int
  deriving DecidableEq, Repr

/-- Pair `struct ChainBuilder`. -/
structure ChainBuilder where
  contextPtr : CallContext
  filterLength : Nat
  deriving DecidableEq, Repr

/-- Stores of the interpreter: the foundation and what each pointer points to.
A freed or never allocated call context is `none`. -/
structure OOState where
  fPtr : Foundation
  objects : Nat → Object
  classes : Nat → Class
  methods : Nat → Method
  contexts : Nat → Option CallContext

/-- Method-name value: its string and, when its type is `methodNameType`, the
call context stashed in its internal representation. -/
structure MethodNameObj where
  bytes : String
  stash : Option Nat
  deriving DecidableEq, Repr

/-- Store update at one pointer. -/
def setAt {β : Type} (f : Nat → β) (p : Nat) (v : β) : Nat → β :=
  fun q => if q = p then v else f q

/-! ## AddMethodToCallChain -/

/-- The scan of `AddMethodToCallChain` over the entries from `filterLength` on:
at the first entry holding `(mPtr, isFilter)` the later entries are copied down
and the entry is rewritten at the end with its old `filterDeclarer`.  The result
is `none` when the loop ends without a match. -/
def moveToEnd (mPtr : Nat) (isFilter : Bool) : List MInvoke → Option (List MInvoke)
  | [] => none
  | e :: es =>
    if e.mPtr = mPtr ∧ e.isFilter = isFilter then
      some (es ++ [⟨mPtr, isFilter, e.filterDeclarer⟩])
    else
      (moveToEnd mPtr isFilter es).map (fun r => e :: r)

/-- Function `AddMethodToCallChain`.  The argument `doneFilters` is the truth
value of `doneFilters != NULL`, the only use the function makes of that table. -/
def AddMethodToCallChain (st : OOState) (mPtr : Option Nat) (cb : ChainBuilder)
    (doneFilters : Bool) (filterDecl : Option Nat) : ChainBuilder :=
  match mPtr with
  | none => cb
  | some m =>
    if (st.methods m).typePtr = none then cb
    else if !cb.contextPtr.flags.PRIVATE_METHOD
        && (st.methods m).flags.PRIVATE_METHOD
        && (st.methods m).declaringClassPtr != none
        && (st.methods m).declaringClassPtr
            != some (st.objects cb.contextPtr.oPtr).selfCls then cb
    else
      let chain := cb.contextPtr.chain
      match moveToEnd m doneFilters (chain.drop cb.filterLength) with
      | some moved =>
        { cb with contextPtr :=
            { cb.contextPtr with chain := chain.take cb.filterLength ++ moved } }
      | none =>
        { cb with contextPtr :=
            { cb.contextPtr with chain := chain ++ [⟨m, doneFilters, filterDecl⟩] } }

/-! ## AddSimpleClassChainToCallContext -/

/-- Function `AddSimpleClassChainToCallContext`.  The `goto tailRecurse` of the
single-superclass case is a recursive call.  An early `return` yields the
builder as it stands. -/
def AddSimpleClassChainToCallContext (st : OOState) (methodNameObj : String)
    (doneFilters : Bool) (filterDecl : Option Nat) :
    Nat → Nat → ChainBuilder → Flags → Option ChainBuilder
  | 0, _, _, _ => none
  | fuel + 1, classPtr, cb, flags =>
    let cls := st.classes classPtr
    let step : Option (ChainBuilder × Flags) :=
      if flags.CONSTRUCTOR then
        some (AddMethodToCallChain st cls.constructorPtr cb doneFilters filterDecl, flags)
      else if flags.DESTRUCTOR then
        some (AddMethodToCallChain st cls.destructorPtr cb doneFilters filterDecl, flags)
      else
        match Tcl_FindHashEntry cls.classMethods methodNameObj with
        | none => some (cb, flags)
        | some mPtr =>
          if !flags.KNOWN_STATE then
            if flags.PUBLIC_METHOD then
              if (st.methods mPtr).flags.PUBLIC_METHOD then
                some (AddMethodToCallChain st (some mPtr) cb doneFilters filterDecl,
                  { flags with DEFINITE_PUBLIC := true })
              else none
            else
              some (AddMethodToCallChain st (some mPtr) cb doneFilters filterDecl,
                { flags with DEFINITE_PROTECTED := true })
          else
            some (AddMethodToCallChain st (some mPtr) cb doneFilters filterDecl, flags)
    match step with
    | none => some cb
    | some (cb1, flags1) =>
      match cls.superclasses with
      | [] => some cb1
      | [superPtr] =>
        AddSimpleClassChainToCallContext st methodNameObj doneFilters filterDecl
          fuel superPtr cb1 flags1
      | supers =>
        supers.foldlM (fun acc superPtr =>
          AddSimpleClassChainToCallContext st methodNameObj doneFilters filterDecl
            fuel superPtr acc flags1) cb1

/-! ## AddSimpleChainToCallContext -/

/-- Function `AddSimpleChainToCallContext`. -/
def AddSimpleChainToCallContext (st : OOState) (fuel : Nat) (oPtr : Nat)
    (methodNameObj : String) (cb : ChainBuilder) (doneFilters : Bool) (flags : Flags)
    (filterDecl : Option Nat) : Option ChainBuilder :=
  let o := st.objects oPtr
  let checked : Option Flags :=
    if !(flags.KNOWN_STATE || flags.SPECIAL) && o.methodsPtr.isSome then
      match o.methodsPtr.bind (fun tbl => Tcl_FindHashEntry tbl methodNameObj) with
      | some mPtr =>
        if flags.PUBLIC_METHOD then
          if !(st.methods mPtr).flags.PUBLIC_METHOD then none
          else some { flags with DEFINITE_PUBLIC := true }
        else some { flags with DEFINITE_PROTECTED := true }
      | none => some flags
    else some flags
  match checked with
  | none => some cb
  | some flags1 =>
    let walk := fun (acc : ChainBuilder) (mixinPtr : Nat) =>
      AddSimpleClassChainToCallContext st methodNameObj doneFilters filterDecl
        fuel mixinPtr acc flags1
    let mixed : Option ChainBuilder :=
      if !flags1.SPECIAL then do
        let cb1 ← o.mixins.foldlM walk cb
        let cb2 ← (st.classes o.selfCls).mixins.foldlM walk cb1
        let cb3 ← (st.classes o.selfCls).classHierarchy.foldlM
          (fun acc superPtr => (st.classes superPtr).mixins.foldlM walk acc) cb2
        match o.methodsPtr.bind (fun tbl => Tcl_FindHashEntry tbl methodNameObj) with
        | some mPtr => some (AddMethodToCallChain st (some mPtr) cb3 doneFilters filterDecl)
        | none => some cb3
      else some cb
    mixed.bind (fun cb4 =>
      AddSimpleClassChainToCallContext st methodNameObj doneFilters filterDecl
        fuel o.selfCls cb4 flags1)

/-! ## AddClassFiltersToCallContext -/

/-- Function `AddClassFiltersToCallContext`; `doneFilters` is the set of filter
names already processed, returned with the builder. -/
def AddClassFiltersToCallContext (st : OOState) (oPtr : Nat) :
    Nat → Option Nat → ChainBuilder → List String →
    Option (ChainBuilder × List String)
  | 0, _, _, _ => none
  | _ + 1, none, cb, doneFilters => some (cb, doneFilters)
  | fuel + 1, some clsPtr, cb, doneFilters => do
    let cls := st.classes clsPtr
    let r1 ← cls.mixins.foldlM (fun acc mixinPtr =>
      AddClassFiltersToCallContext st oPtr fuel (some mixinPtr) acc.1 acc.2)
      (cb, doneFilters)
    let r2 ← cls.filters.foldlM (fun acc filterObj =>
      if filterObj ∈ acc.2 then some acc
      else
        (AddSimpleChainToCallContext st fuel oPtr filterObj acc.1 true {} (some clsPtr)).map
          (fun cb1 => (cb1, filterObj :: acc.2))) r1
    match cls.superclasses with
    | [] => some r2
    | [superPtr] => AddClassFiltersToCallContext st oPtr fuel (some superPtr) r2.1 r2.2
    | supers =>
      supers.foldlM (fun acc superPtr =>
        AddClassFiltersToCallContext st oPtr fuel (some superPtr) acc.1 acc.2) r2

/-! ## InitClassHierarchy -/

/-- The pass of `InitClassHierarchy` that sets to `NULL` every entry of the work
list equal to a later entry, followed by the copy of the entries left. -/
def dropEarlierDuplicates : List Nat → List Nat
  | [] => []
  | x :: xs =>
    if x ∈ xs then dropEarlierDuplicates xs else x :: dropEarlierDuplicates xs

/-- Function `InitClassHierarchy`, acting on the class store.  The root class
returns at once, so its own `classHierarchy` is never filled and stays empty; the
work list of the general path is then exactly the slots the copy loop writes. -/
def InitClassHierarchy (fPtr : Foundation) :
    Nat → (Nat → Class) → Nat → Option (Nat → Class)
  | 0, _, _ => none
  | fuel + 1, classes, classPtr =>
    if classPtr = fPtr.objectCls then some classes
    else if (classes classPtr).classHierarchyEpoch ≠ fPtr.epoch then
      match (classes classPtr).superclasses.foldlM
          (fun acc superPtr => InitClassHierarchy fPtr fuel acc superPtr) classes with
      | none => none
      | some classes1 =>
        match (classes1 classPtr).superclasses with
        | [superPtr] =>
          some (setAt classes1 classPtr
            { classes1 classPtr with
              classHierarchy := superPtr :: (classes1 superPtr).classHierarchy
              classHierarchyEpoch := fPtr.epoch })
        | supers =>
          let hierlist := supers.flatMap (fun superPtr =>
            superPtr :: (if superPtr = fPtr.objectCls then []
              else (classes1 superPtr).classHierarchy))
          some (setAt classes1 classPtr
            { classes1 classPtr with classHierarchy := dropEarlierDuplicates hierlist })
    else some classes

/-! ## TclOOGetCallContext -/

/-- Function `TclOODeleteContext` on the context store: the reference count
drops by one and the context is freed when it falls below one.  Releasing a
context that is not allocated has no defined behaviour (`none`). -/
def TclOODeleteContext (contexts : Nat → Option CallContext) (p : Nat) :
    Option (Nat → Option CallContext) :=
  match contexts p with
  | none => none
  | some c =>
    if c.refCount - 1 ≥ 1 then
      some (setAt contexts p (some { c with refCount := c.refCount - 1 }))
    else some (setAt contexts p none)

/-- Assignment `Tcl_SetHashValue` on the entry of `key`, created when absent. -/
def Tcl_SetHashValue {β : Type} (tbl : HashTable β) (key : String) (v : β) :
    HashTable β :=
  if (Tcl_FindHashEntry tbl key).isSome then
    tbl.map (fun kv => if kv.1 = key then (kv.1, v) else kv)
  else tbl ++ [(key, v)]

/-- Which `return` of `TclOOGetCallContext` was taken: the stashed context, the
context detached from the per-object cache, a newly allocated context (given by
its contents), or `NULL`. -/
inductive CallResult where
  | stashed (p : Nat)
  | cached (p : Nat)
  | built (c : CallContext)
  | null
  deriving DecidableEq, Repr

/-- Everything `TclOOGetCallContext` leaves behind: the value returned, the
stores, the method-name value and the per-object cache. -/
structure GetResult where
  ret : CallResult
  st : OOState
  methodNameObj : MethodNameObj
  cache : HashTable (Option Nat)

/-- The flag bits kept in a new context:
`flags & (PUBLIC_METHOD|PRIVATE_METHOD|SPECIAL|FILTER_HANDLING)`. -/
def contextFlags (flags : Flags) : Flags :=
  { PUBLIC_METHOD := flags.PUBLIC_METHOD
    PRIVATE_METHOD := flags.PRIVATE_METHOD
    CONSTRUCTOR := flags.CONSTRUCTOR
    DESTRUCTOR := flags.DESTRUCTOR
    FILTER_HANDLING := flags.FILTER_HANDLING }

/-- The filter phase of `TclOOGetCallContext` (the body of `if (doFilters)`). -/
def addAllFilters (st : OOState) (fuel : Nat) (oPtr : Nat) (cb : ChainBuilder) :
    Option ChainBuilder := do
  let o := st.objects oPtr
  let r1 ← o.mixins.foldlM (fun acc mixinPtr =>
    AddClassFiltersToCallContext st oPtr fuel (some mixinPtr) acc.1 acc.2) (cb, [])
  let cb2 ← o.filters.foldlM (fun acc filterObj =>
    AddSimpleChainToCallContext st fuel oPtr filterObj acc true {} none) r1.1
  let r3 ← AddClassFiltersToCallContext st oPtr fuel (some o.selfCls) cb2 r1.2
  pure r3.1

/-- The context as `TclOOGetCallContext` initialises it right after allocation. -/
def newContext (st : OOState) (oPtr : Nat) (flags : Flags) : CallContext :=
  { oPtr := oPtr, globalEpoch := st.fPtr.epoch, localEpoch := (st.objects oPtr).epoch
    flags := contextFlags flags, index := 0, skip := 2, chain := [], refCount := 1 }

/-- The part of `TclOOGetCallContext` from the allocation of a new context to the end:
the construction of a chain.  It yields the value returned, the class store
(changed by `InitClassHierarchy`) and the per-object cache. -/
def buildCallContext (fuel : Nat) (st : OOState) (oPtr : Nat) (methodNameObj : String)
    (flags : Flags) (doFilters : Bool) (cachePtr : HashTable (Option Nat)) :
    Option (CallResult × (Nat → Class) × HashTable (Option Nat)) :=
  match InitClassHierarchy st.fPtr fuel st.classes (st.objects oPtr).selfCls with
  | none => none
  | some classes1 =>
    let st1 : OOState := { st with classes := classes1 }
    let cb0 : ChainBuilder := ⟨newContext st oPtr flags, 0⟩
    match (if doFilters then addAllFilters st1 fuel oPtr cb0 else some cb0) with
    | none => none
    | some cb1 =>
      let count := cb1.contextPtr.chain.length
      let cb2 : ChainBuilder := { cb1 with filterLength := count }
      match AddSimpleChainToCallContext st1 fuel oPtr methodNameObj cb2 false flags none with
      | none => none
      | some cb3 =>
        if count = cb3.contextPtr.chain.length then
          if flags.SPECIAL then some (CallResult.null, classes1, cachePtr)
          else
            match AddSimpleChainToCallContext st1 fuel oPtr st.fPtr.unknownMethodNameObj
                cb3 false {} none with
            | none => none
            | some cb4 =>
              let ctx : CallContext :=
                { cb4.contextPtr with
                  flags := { cb4.contextPtr.flags with OO_UNKNOWN_METHOD := true }
                  globalEpoch := -1 }
              if count = ctx.chain.length then some (CallResult.null, classes1, cachePtr)
              else some (CallResult.built ctx, classes1, cachePtr)
        else if doFilters then
          some (CallResult.built cb3.contextPtr, classes1,
            Tcl_SetHashValue cachePtr methodNameObj none)
        else some (CallResult.built cb3.contextPtr, classes1, cachePtr)

/-- Function `TclOOGetCallContext`.  Reading a stashed or cached pointer whose
context is not allocated has no defined behaviour (`none`). -/
def TclOOGetCallContext (fuel : Nat) (st : OOState) (oPtr : Nat)
    (methodNameObj : MethodNameObj) (flags : Flags)
    (cachePtr : HashTable (Option Nat)) : Option GetResult :=
  let o := st.objects oPtr
  let finish := fun (contexts : Nat → Option CallContext) (nameObj : MethodNameObj)
      (cache : HashTable (Option Nat)) (doFilters : Bool) =>
    (buildCallContext fuel st oPtr methodNameObj.bytes flags doFilters cache).map
      (fun r => (⟨r.1, { st with classes := r.2.1, contexts := contexts }, nameObj,
        r.2.2⟩ : GetResult))
  let lookupCache := fun (contexts : Nat → Option CallContext)
      (nameObj : MethodNameObj) =>
    match Tcl_FindHashEntry cachePtr methodNameObj.bytes with
    | some (some p) =>
      let cache1 := Tcl_SetHashValue cachePtr methodNameObj.bytes none
      match contexts p with
      | none => none
      | some c =>
        if c.globalEpoch = st.fPtr.epoch ∧ c.localEpoch = o.epoch then
          some (⟨CallResult.cached p, { st with contexts := contexts }, nameObj,
            cache1⟩ : GetResult)
        else
          (TclOODeleteContext contexts p).bind
            (fun contexts1 => finish contexts1 nameObj cache1 true)
    | _ => finish contexts nameObj cachePtr true
  if flags.SPECIAL || flags.FILTER_HANDLING || o.flags.FILTER_HANDLING then
    finish st.contexts methodNameObj cachePtr false
  else
    match methodNameObj.stash with
    | some p =>
      match st.contexts p with
      | none => none
      | some c =>
        if (st.objects c.oPtr).creationEpoch = o.creationEpoch
            ∧ c.globalEpoch = st.fPtr.epoch
            ∧ c.localEpoch = o.epoch
            ∧ c.flags = flags then
          let contexts1 := setAt st.contexts p (some { c with refCount := c.refCount + 1 })
          some ⟨CallResult.stashed p, { st with contexts := contexts1 }, methodNameObj,
            cachePtr⟩
        else
          (TclOODeleteContext st.contexts p).bind
            (fun contexts1 => lookupCache contexts1 { methodNameObj with stash := none })
    | none => lookupCache st.contexts methodNameObj

/-! ## Predicates and auxiliary functions of the statements and proofs -/

/-- The chain of the value returned, when a context was built. -/
def builtChain (r : GetResult) : Option (List MInvoke) :=
  match r.ret with
  | CallResult.built c => some c.chain
  | _ => none

/-- An entry holds the pair `(mPtr, isFilter)` that the scan of
`AddMethodToCallChain` looks for. -/
def holds (m : Nat) (b : Bool) (e : MInvoke) : Prop := e.mPtr = m ∧ e.isFilter = b

instance (m : Nat) (b : Bool) (e : MInvoke) : Decidable (holds m b e) := by
  unfold holds; infer_instance

/-- The private-method gate of `AddMethodToCallChain` lets method `m` through:
one of its four conditions for dropping the method fails. -/
def passesGate (st : OOState) (cb : ChainBuilder) (m : Nat) : Prop :=
  cb.contextPtr.flags.PRIVATE_METHOD = true ∨ (st.methods m).flags.PRIVATE_METHOD = false
    ∨ (st.methods m).declaringClassPtr = none
    ∨ (st.methods m).declaringClassPtr = some (st.objects cb.contextPtr.oPtr).selfCls

instance (st : OOState) (cb : ChainBuilder) (m : Nat) : Decidable (passesGate st cb m) := by
  unfold passesGate; infer_instance

/-- What `AddMethodToCallChain` does to the entries from `filterLength` on, for a
method that is implemented and passes the gate. -/
def insertLate (m : Nat) (b : Bool) (fd : Option Nat) (region : List MInvoke) :
    List MInvoke :=
  match moveToEnd m b region with
  | some moved => moved
  | none => region ++ [⟨m, b, fd⟩]

/-- A sequence of calls of `AddMethodToCallChain`, one for each candidate
`(mPtr, filterDecl)`. -/
def addAll (st : OOState) (df : Bool) :
    List (Option Nat × Option Nat) → ChainBuilder → ChainBuilder
  | [], cb => cb
  | c :: rest, cb => addAll st df rest (AddMethodToCallChain st c.1 cb df c.2)

/-- A walk `w` acts on every builder as one fixed sequence of
`AddMethodToCallChain` calls, or fails on every builder. -/
def Rep (st : OOState) (df : Bool) (w : ChainBuilder → Option ChainBuilder) : Prop :=
  ∃ L : Option (List (Option Nat × Option Nat)),
    ∀ cb, w cb = L.map (fun l => addAll st df l cb)

/-- A filter walk `w`, which also threads the set of processed filter names, acts
on every builder as one fixed sequence of `AddMethodToCallChain` calls (with
`doneFilters` non-null) and yields one fixed set, or fails on every builder. -/
def Rep2 (st : OOState)
    (w : ChainBuilder → List String → Option (ChainBuilder × List String)) : Prop :=
  ∀ done, ∃ L : Option (List (Option Nat × Option Nat) × List String),
    ∀ cb, w cb done = L.map (fun l => (addAll st true l.1 cb, l.2))

/-- The two tests of `AddMethodToCallChain` ahead of the scan: the method is
implemented and the private-method gate does not drop it.  `priv` is the
`PRIVATE_METHOD` bit of the context flags, `selfCls` the class of its object. -/
def admitted (st : OOState) (priv : Bool) (selfCls : Nat) (m : Nat) : Bool :=
  (st.methods m).typePtr.isSome
    && !(!priv && (st.methods m).flags.PRIVATE_METHOD
        && (st.methods m).declaringClassPtr != none
        && (st.methods m).declaringClassPtr != some selfCls)

/-- Effect of one `AddMethodToCallChain` call on the entries from `filterLength`
on. -/
def regionAdd (st : OOState) (priv : Bool) (selfCls : Nat) (df : Bool)
    (region : List MInvoke) (c : Option Nat × Option Nat) : List MInvoke :=
  match c.1 with
  | none => region
  | some m => if admitted st priv selfCls m then insertLate m df c.2 region else region

/-- Effect of a sequence of `AddMethodToCallChain` calls on the entries from
`filterLength` on. -/
def regionAll (st : OOState) (priv : Bool) (selfCls : Nat) (df : Bool)
    (l : List (Option Nat × Option Nat)) (region : List MInvoke) : List MInvoke :=
  l.foldl (regionAdd st priv selfCls df) region

/-- The pair `(mPtr, isFilter)` of an entry. -/
def pairOf (e : MInvoke) : Nat × Bool := (e.mPtr, e.isFilter)

/-- A builder with another chain. -/
def withChain (cb : ChainBuilder) (chain : List MInvoke) : ChainBuilder :=
  { cb with contextPtr := { cb.contextPtr with chain := chain } }

/-- Two class stores differ at most in the cached linearizations and their
stamps. -/
def onlyHierarchyChanged (a b : Nat → Class) : Prop :=
  ∀ x, b x = { a x with classHierarchy := (b x).classHierarchy
                        classHierarchyEpoch := (b x).classHierarchyEpoch }

/-- The classes `cs` form a single-inheritance chain: each has exactly the next
one as superclass and the last has none. -/
def isChain (classes : Nat → Class) : List Nat → Prop
  | [] => False
  | [c] => (classes c).superclasses = []
  | c :: d :: rest => (classes c).superclasses = [d] ∧ isChain classes (d :: rest)

/-- The method records for `name` along a list of classes, in order. -/
def records (st : OOState) (name : String) (cs : List Nat) : List Nat :=
  cs.filterMap (fun c => Tcl_FindHashEntry (st.classes c).classMethods name)

/-- Decision procedure for `isChain`. -/
def isChain.decide (classes : Nat → Class) : (cs : List Nat) → Decidable (isChain classes cs)
  | [] => isFalse (fun h => h)
  | [c] => decEq (classes c).superclasses []
  | c :: d :: rest =>
    match decEq (classes c).superclasses [d], isChain.decide classes (d :: rest) with
    | isTrue h1, isTrue h2 => isTrue ⟨h1, h2⟩
    | isFalse h1, _ => isFalse (fun h => h1 h.1)
    | _, isFalse h2 => isFalse (fun h => h2 h.2)

instance (classes : Nat → Class) (cs : List Nat) : Decidable (isChain classes cs) :=
  isChain.decide classes cs

/-- Class `b` is reached from class `a` along superclass links. -/
def reaches (classes : Nat → Class) (a b : Nat) : Prop :=
  Relation.ReflTransGen (fun x y => y ∈ (classes x).superclasses) a b

/-- The walk of the core phase for one name (`AddSimpleChainToCallContext` with
`doneFilters` null), run on the empty chain of a new context, in the state left
by `InitClassHierarchy`: what that name contributes as non-filter entries. -/
def coreWalk (st : OOState) (classes1 : Nat → Class) (fuel : Nat) (oPtr : Nat)
    (name : String) (flags walkFlags : Flags) : Option ChainBuilder :=
  AddSimpleChainToCallContext { st with classes := classes1 } fuel oPtr name
    ⟨newContext st oPtr flags, 0⟩ false walkFlags none

/-- The non-filter entries of a context, in order. -/
def nonFilterPart (c : CallContext) : List MInvoke :=
  c.chain.filter (fun e => !e.isFilter)

/-- The context at `p` was released between two context stores: it was allocated
before, and afterwards it is freed or is the same context with a smaller
reference count. -/
def released (before after : Nat → Option CallContext) (p : Nat) : Prop :=
  match before p, after p with
  | some _, none => True
  | some c, some c1 => c1.refCount < c.refCount ∧ c1 = { c with refCount := c1.refCount }
  | none, _ => False

instance (before after : Nat → Option CallContext) (p : Nat) :
    Decidable (released before after p) := by
  unfold released
  split <;> infer_instance

/-! ## Scenario states -/

/-- A class given by its superclasses, method table and filters, everything else
empty and the linearization not yet built. -/
def plainClass (supers : List Nat) (methods : HashTable Nat) (filters : List String) :
    Class :=
  { thisPtr := 0, superclasses := supers, subclasses := [], mixins := [],
    mixinSubs := [], instances := [], classMethods := methods, filters := filters,
    constructorPtr := none, destructorPtr := none, classHierarchy := [],
    classHierarchyEpoch := 0 }

/-- A plain object of a class: no methods, mixins or filters. -/
def plainObject (cls : Nat) (filters : List String) : Object :=
  { selfCls := cls, classPtr := none, methodsPtr := none, mixins := [],
    filters := filters, epoch := 0, creationEpoch := 0, flags := {} }

/-- An implemented method declared by a class. -/
def classMethod (name : String) (cls : Nat) (flags : Flags) : Method :=
  { namePtr := name, typePtr := some 1, flags := flags, declaringClassPtr := some cls,
    declaringObjectPtr := none }

/-- The foundation of the scenarios: root class 0, class of classes 1, epoch 1. -/
def scenarioFoundation : Foundation :=
  { objectCls := 0, classCls := 1, epoch := 1, unknownMethodNameObj := "unknown" }

/-- Scenario S2: classes A = 2, B = 3 (superclass A), C = 4 (superclass A) and
D = 5 (superclasses B, C); method `m` of A, B, C, D is method 12, 13, 14, 15;
object 100 is a direct instance of D.  `aSupers` is the superclass list of A. -/
def diamondState (aSupers : List Nat) : OOState :=
  { fPtr := scenarioFoundation
    objects := fun _ => plainObject 5 []
    classes := fun c =>
      match c with
      | 2 => plainClass aSupers [("m", 12)] []
      | 3 => plainClass [2] [("m", 13)] []
      | 4 => plainClass [2] [("m", 14)] []
      | 5 => plainClass [3, 4] [("m", 15)] []
      | _ => plainClass [] [] []
    methods := fun m => classMethod "m" (m - 10) { PUBLIC_METHOD := true }
    contexts := fun _ => none }

/-- Scenario S3: class C = 2 (superclass the root class 0) declares the class
filter `f`; `f` is method 21 and `m` is method 22, both of C.  Objects 100 and 101
are instances of C; object 101 has the instance filter `g`.  With `gOnClass` the
method `g` is method 23 of C, otherwise it is method 24 of object 101 itself. -/
def filterState (gOnClass : Bool) : OOState :=
  { fPtr := scenarioFoundation
    objects := fun o =>
      match o with
      | 101 =>
        { plainObject 2 ["g"] with
          methodsPtr := if gOnClass then none else some [("g", 24)] }
      | _ => plainObject 2 []
    classes := fun c =>
      match c with
      | 2 =>
        plainClass [0]
          (if gOnClass then [("f", 21), ("m", 22), ("g", 23)] else [("f", 21), ("m", 22)])
          ["f"]
      | _ => plainClass [] [] []
    methods := fun m =>
      match m with
      | 21 => classMethod "f" 2 { PUBLIC_METHOD := true }
      | 22 => classMethod "m" 2 { PUBLIC_METHOD := true }
      | 23 => classMethod "g" 2 { PUBLIC_METHOD := true }
      | _ =>
        { namePtr := "g", typePtr := some 1, flags := { PUBLIC_METHOD := true },
          declaringClassPtr := none, declaringObjectPtr := some 101 }
    contexts := fun _ => none }

/-- Scenario S4: class C = 2 declares the private method `p` (method 31); class
D = 3 has superclass C and the public method `w` (method 32); object 100 is a
direct instance of D and object 101 a direct instance of C. -/
def privateState : OOState :=
  { fPtr := scenarioFoundation
    objects := fun o =>
      match o with
      | 101 => plainObject 2 []
      | _ => plainObject 3 []
    classes := fun c =>
      match c with
      | 2 => plainClass [0] [("p", 31)] []
      | 3 => plainClass [2] [("w", 32)] []
      | _ => plainClass [] [] []
    methods := fun m =>
      match m with
      | 31 => classMethod "p" 2 { PRIVATE_METHOD := true }
      | _ => classMethod "w" 3 { PUBLIC_METHOD := true }
    contexts := fun _ => none }

/-- The context built in scenario S3 for `m` on object 101 when `g` is a method of
the class: filters `g` and `f`, then `m`. -/
def filterContext : CallContext :=
  { oPtr := 101, globalEpoch := 1, localEpoch := 0, flags := { PUBLIC_METHOD := true },
    index := 0, skip := 2, refCount := 1,
    chain := [⟨23, true, none⟩, ⟨21, true, some 2⟩, ⟨22, false, none⟩] }

/-- Scenario S1: class A = 2 (superclass the root class 0) and class B = 3 with
superclass A; method `m` of A is method 12 and method `m` of B is method 13;
object 100 is an instance of B. -/
def linearState : OOState :=
  { fPtr := scenarioFoundation
    objects := fun _ => plainObject 3 []
    classes := fun c =>
      match c with
      | 2 => plainClass [0] [("m", 12)] []
      | 3 => plainClass [2] [("m", 13)] []
      | _ => plainClass [] [] []
    methods := fun m => classMethod "m" (m - 10) { PUBLIC_METHOD := true }
    contexts := fun _ => none }

/-- Scenario S5: class C = 2 (superclass the root class 0) defines `unknown`
(method 41) and no method `x`; object 100 is an instance of C. -/
def unknownState : OOState :=
  { fPtr := scenarioFoundation
    objects := fun _ => plainObject 2 []
    classes := fun c =>
      match c with
      | 2 => plainClass [0] [("unknown", 41)] []
      | _ => plainClass [] [] []
    methods := fun _ => classMethod "unknown" 2 { PUBLIC_METHOD := true }
    contexts := fun _ => none }

/-- Scenario for the lookups: the state of S1 at foundation epoch 1 with two call
contexts for object 100, context 7 built at global epoch 0 (stale) and held
twice, context 8 built at global epoch 1 (current). -/
def staleState : OOState :=
  { linearState with
    contexts := fun p =>
      match p with
      | 7 => some { oPtr := 100, globalEpoch := 0, localEpoch := 0,
                    flags := { PUBLIC_METHOD := true }, index := 0, skip := 2,
                    chain := [⟨12, false, none⟩], refCount := 2 }
      | 8 => some { oPtr := 100, globalEpoch := 1, localEpoch := 0,
                    flags := { PUBLIC_METHOD := true }, index := 0, skip := 2,
                    chain := [⟨13, false, none⟩, ⟨12, false, none⟩], refCount := 1 }
      | _ => none }

/-- The context built in scenario S5 for the name `x`: the `unknown` method, with
`OO_UNKNOWN_METHOD` set and `globalEpoch = -1`. -/
def unknownContext : CallContext :=
  { oPtr := 100, globalEpoch := -1, localEpoch := 0,
    flags := { PUBLIC_METHOD := true, OO_UNKNOWN_METHOD := true },
    index := 0, skip := 2, refCount := 1, chain := [⟨41, false, none⟩] }

/-- A lookup in the scenario of the stale contexts: the method name `m` carries the
stale context 7 as stash and the cache of object 100 holds context 8 for `m`. -/
def staleLookup : Option GetResult :=
  TclOOGetCallContext 3 staleState 100 ⟨"m", some 7⟩ { PUBLIC_METHOD := true }
    [("m", some 8)]

/-! ## The epoch bump of tclOODefineCmds.c -/

/-- The C operator `++` on an `int` of 32 bits in two's complement, as it is
applied to the epoch counters: one more, and from `INT_MAX` = 2147483647 the
value wraps around to `INT_MIN` = -2147483648. -/
def incrInt (e : Int) : Int := (e + 1 + 2147483648) % 4294967296 - 2147483648

/-- `BumpGlobalEpoch`: a change to a class that has no subclasses, no instances and
is mixed into nothing only bumps the epoch of the object representing the class,
and only when that object has mixins; every other change (also the one reported
with no class) bumps the epoch of the foundation. -/
def BumpGlobalEpoch (st : OOState) (classPtr : Option Nat) : OOState :=
  match classPtr with
  | some cls =>
    if (st.classes cls).subclasses.length = 0 ∧ (st.classes cls).instances.length = 0
        ∧ (st.classes cls).mixinSubs.length = 0 then
      if (st.objects (st.classes cls).thisPtr).mixins.length > 0 then
        let o := st.objects (st.classes cls).thisPtr
        { st with objects := setAt st.objects (st.classes cls).thisPtr
                    { o with epoch := incrInt o.epoch } }
      else st
    else
      let f := st.fPtr
      { st with fPtr := { f with epoch := incrInt f.epoch } }
  | none =>
    let f := st.fPtr
    { st with fPtr := { f with epoch := incrInt f.epoch } }

/-- The context built in scenario S3 for `m` on object 101 while a filter is being
resolved: the method `m` alone, no filter. -/
def filteringContext : CallContext :=
  { oPtr := 101, globalEpoch := 1, localEpoch := 0,
    flags := { PUBLIC_METHOD := true, FILTER_HANDLING := true },
    index := 0, skip := 2, refCount := 1, chain := [⟨22, false, none⟩] }

/-- The lookup of C12: scenario S3 (class filter `f`, instance filter `g`), the
dispatch of `m` on object 101 with `FILTER_HANDLING`, the name carrying context 8
as stash and the cache holding context 7 for `m`. -/
def filteringLookup : Option GetResult :=
  TclOOGetCallContext 3 (filterState true) 101 ⟨"m", some 8⟩
    { PUBLIC_METHOD := true, FILTER_HANDLING := true } [("m", some 7)]

/-! ## Devices for the linearization -/

/-- The superclass links never lead back to a class: `rank` strictly decreases
along every link. -/
def acyclic (classes : Nat → Class) (rank : Nat → Nat) : Prop :=
  ∀ c s, s ∈ (classes c).superclasses → rank s < rank c

/-- The list that a rebuild by `InitClassHierarchy` stores in `classPtr`, computed
from the store that the recursion into the superclasses leaves. -/
def rebuilt (fPtr : Foundation) (classes : Nat → Class) (classPtr : Nat) : List Nat :=
  match (classes classPtr).superclasses with
  | [superPtr] => superPtr :: (classes superPtr).classHierarchy
  | supers =>
    dropEarlierDuplicates (supers.flatMap (fun superPtr =>
      superPtr :: (if superPtr = fPtr.objectCls then []
        else (classes superPtr).classHierarchy)))

/-- The stamp that a rebuild leaves in `classPtr`. -/
def restamped (fPtr : Foundation) (classes : Nat → Class) (classPtr : Nat) : Int :=
  match (classes classPtr).superclasses with
  | [_] => fPtr.epoch
  | _ => (classes classPtr).classHierarchyEpoch

/-- A class store in which the root class has no cached list and the list of
every class stamped with the current epoch satisfies `Q`. -/
def settled (fPtr : Foundation) (Q : Nat → List Nat → Prop) (classes : Nat → Class) :
    Prop :=
  (classes fPtr.objectCls).classHierarchy = []
  ∧ ∀ x, x ≠ fPtr.objectCls → (classes x).classHierarchyEpoch = fPtr.epoch →
      Q x (classes x).classHierarchy

/-- A list without repetition whose members all rank below `x`. -/
def wellRanked (rank : Nat → Nat) (x : Nat) (h : List Nat) : Prop :=
  h.Nodup ∧ ∀ y ∈ h, rank y < rank x

/-- The depth-first walk of the superclasses in declared order, every superclass
listed before its own walk, nothing removed; `fuel` bounds the depth. -/
def ancestors (classes : Nat → Class) : Nat → Nat → List Nat
  | 0, _ => []
  | fuel + 1, c =>
    (classes c).superclasses.flatMap (fun s => s :: ancestors classes fuel s)

/-- The list `h` is the walk of the superclasses of `x` with only the last
occurrence of every class kept. -/
def coherent (classes : Nat → Class) (rank : Nat → Nat) (x : Nat) (h : List Nat) : Prop :=
  h = (ancestors classes (rank x) x).dedup

/-- The first-occurrence order of a listing: every element is kept where it first
occurs and dropped afterwards. -/
def keepFirstOccurrence : List Nat → List Nat
  | [] => []
  | x :: xs => x :: (keepFirstOccurrence xs).filter (fun y => y ≠ x)

/-! ## TclOOGetSortedMethodList -/

/-- A value of the `names` table of `TclOOGetSortedMethodList`: the bits `IN_LIST`
and `NO_IMPLEMENTATION`. -/
structure Wanted where
  IN_LIST : Bool := false
  NO_IMPLEMENTATION : Bool := false
  deriving DecidableEq, Repr

/-- Body of the loop over the methods of the object in `TclOOGetSortedMethodList`:
`entry` is a key of the method table with its method. -/
def addObjectMethodName (st : OOState) (flags : Flags) (names : HashTable Wanted)
    (entry : String × Nat) : HashTable Wanted :=
  let m := st.methods entry.2
  if m.flags.PRIVATE_METHOD && !flags.PRIVATE_METHOD then names
  else
    match Tcl_FindHashEntry names entry.1 with
    | none =>
      names ++ [(entry.1,
        { IN_LIST := !flags.PUBLIC_METHOD || m.flags.PUBLIC_METHOD
          NO_IMPLEMENTATION := m.typePtr.isNone })]
    | some _ => names

/-- Body of the loop over the private methods of the class of the object in
`TclOOGetSortedMethodList`. -/
def addPrivateMethodName (st : OOState) (names : HashTable Wanted)
    (entry : String × Nat) : HashTable Wanted :=
  let m := st.methods entry.2
  if m.flags.PRIVATE_METHOD then
    match Tcl_FindHashEntry names entry.1 with
    | none =>
      names ++ [(entry.1, { IN_LIST := true, NO_IMPLEMENTATION := m.typePtr.isNone })]
    | some w =>
      if m.typePtr.isSome then
        if w.NO_IMPLEMENTATION then
          Tcl_SetHashValue names entry.1 { w with NO_IMPLEMENTATION := false }
        else names
      else names
  else names

/-- Body of the loop over the methods of a class in `AddClassMethodNames`. -/
def addClassMethodName (st : OOState) (flags : Flags) (names : HashTable Wanted)
    (entry : String × Nat) : HashTable Wanted :=
  let m := st.methods entry.2
  match Tcl_FindHashEntry names entry.1 with
  | none =>
    names ++ [(entry.1,
      { IN_LIST := !flags.PUBLIC_METHOD || m.flags.PUBLIC_METHOD
        NO_IMPLEMENTATION := false })]
  | some w =>
    if w.NO_IMPLEMENTATION && m.typePtr.isSome then
      Tcl_SetHashValue names entry.1 { w with NO_IMPLEMENTATION := false }
    else names

/-- The `while (1)` loop of `AddClassMethodNames`: the methods of the class, then
of its superclass as long as there is exactly one; it yields the class at which
the loop stops and the table. -/
def classMethodNamesLoop (st : OOState) (flags : Flags) :
    Nat → Nat → HashTable Wanted → Option (Nat × HashTable Wanted)
  | 0, _, _ => none
  | fuel + 1, clsPtr, names =>
    let names1 := (st.classes clsPtr).classMethods.foldl (addClassMethodName st flags) names
    match (st.classes clsPtr).superclasses with
    | [superPtr] => classMethodNamesLoop st flags fuel superPtr names1
    | _ => some (clsPtr, names1)

/-- Function `AddClassMethodNames`. -/
def AddClassMethodNames (st : OOState) (flags : Flags) :
    Nat → Nat → HashTable Wanted → Option (HashTable Wanted)
  | 0, _, _ => none
  | fuel + 1, clsPtr, names =>
    match (st.classes clsPtr).mixins.foldlM
        (fun acc mixinPtr => AddClassMethodNames st flags fuel mixinPtr acc) names with
    | none => none
    | some names1 =>
      match classMethodNamesLoop st flags (fuel + 1) clsPtr names1 with
      | none => none
      | some (lastPtr, names2) =>
        (st.classes lastPtr).superclasses.foldlM
          (fun acc superPtr => AddClassMethodNames st flags fuel superPtr acc) names2

/-- Modelled from the spec: the "underlying byte sequence" of a name, which the Tcl
library keeps (its sources are not part of the repository).  The bytes of one
character: UTF-8, with the NUL character as the pair C0 80, so that no byte of a
string is zero. -/
def utf8Bytes (c : Nat) : List Nat :=
  if c = 0 then [0xC0, 0x80]
  else if c < 0x80 then [c]
  else if c < 0x800 then [0xC0 + c / 64, 0x80 + c % 64]
  else if c < 0x10000 then [0xE0 + c / 4096, 0x80 + c / 64 % 64, 0x80 + c % 64]
  else [0xF0 + c / 262144, 0x80 + c / 4096 % 64, 0x80 + c / 64 % 64, 0x80 + c % 64]

/-- Modelled from the spec: the Tcl library function `TclGetString`, which is not
part of the repository.  It gives the underlying byte sequence of the string of a
value, ended by the terminator 0. -/
def TclGetString (name : String) : List Nat :=
  name.data.flatMap (fun ch => utf8Bytes ch.toNat) ++ [0]

/-- Modelled from the spec: the C library function `strlen`, the number of bytes
before the terminator (the first zero byte). -/
def strlen (s : List Nat) : Nat :=
  (s.takeWhile (fun b => b ≠ 0)).length

/-- Modelled from the spec: the Tcl library function `TclpUtfNcmp2`, which is not
part of the repository.  As the spec describes the comparator, it compares byte
sequences over a number of bytes: the first `numBytes` bytes of `cs` and `ct` are
compared in turn and the difference of the first two that differ is returned, 0
when none differs. -/
def TclpUtfNcmp2 : List Nat → List Nat → Nat → Int
  | _, _, 0 => 0
  | cs, ct, numBytes + 1 =>
    if cs.headD 0 ≠ ct.headD 0 then (cs.headD 0 : Int) - (ct.headD 0 : Int)
    else TclpUtfNcmp2 cs.tail ct.tail numBytes

/-- Function `CmpStr`, on the strings that the two array slots point to. -/
def CmpStr (str1 str2 : List Nat) : Int :=
  TclpUtfNcmp2 str1 str2 (strlen str1 + 1)

/-- Modelled from the spec: the C library function `qsort`, which sorts the array
by the comparison function: the elements come in an order in which the comparison
is never positive from an element to a later one. -/
def qsort {α : Type} (cmp : α → α → Int) (l : List α) : List α :=
  l.insertionSort (fun a b => cmp a b ≤ 0)

/-- Function `TclOOGetSortedMethodList`: the strings written to `*stringsPtr`, each
given by the method name whose bytes it points to; the count returned is the
length of the list. -/
def TclOOGetSortedMethodList (fuel : Nat) (st : OOState) (oPtr : Nat) (flags : Flags) :
    Option (List String) :=
  let o := st.objects oPtr
  let names0 : HashTable Wanted :=
    match o.methodsPtr with
    | some tbl => tbl.foldl (addObjectMethodName st flags) []
    | none => []
  let names1 : HashTable Wanted :=
    if flags.PRIVATE_METHOD then
      (st.classes o.selfCls).classMethods.foldl (addPrivateMethodName st) names0
    else names0
  match AddClassMethodNames st flags fuel o.selfCls names1 with
  | none => none
  | some names2 =>
    match o.mixins.foldlM
        (fun acc mixinPtr => AddClassMethodNames st flags fuel mixinPtr acc) names2 with
    | none => none
    | some names3 =>
      if names3.length ≠ 0 then
        let strings := (names3.filter (fun e =>
          (!flags.PUBLIC_METHOD || e.2.IN_LIST) && !e.2.NO_IMPLEMENTATION)).map
            (fun e => e.1)
        some (qsort (fun a b => CmpStr (TclGetString a) (TclGetString b)) strings)
      else some []

/-- Byte-lexicographic order on byte strings: the first differing byte decides,
and a string precedes the strings it is a prefix of. -/
def lexLE : List Nat → List Nat → Prop
  | [], _ => True
  | _ :: _, [] => False
  | x :: xs, y :: ys => x < y ∨ (x = y ∧ lexLE xs ys)

/-- The bytes of a method name, without the terminator. -/
def nameBytes (name : String) : List Nat :=
  name.data.flatMap (fun ch => utf8Bytes ch.toNat)

/-- The order in which `CmpStr` puts two method names. -/
def nameLE (a b : String) : Prop :=
  CmpStr (TclGetString a) (TclGetString b) ≤ 0

instance nameLE.decide : DecidableRel nameLE := fun a b => by
  unfold nameLE
  infer_instance

/-- The names table of `TclOOGetSortedMethodList` after the pass over the methods
of the object and the pass over the private methods of its class. -/
def initialNames (st : OOState) (oPtr : Nat) (flags : Flags) : HashTable Wanted :=
  let o := st.objects oPtr
  let names0 : HashTable Wanted :=
    match o.methodsPtr with
    | some tbl => tbl.foldl (addObjectMethodName st flags) []
    | none => []
  if flags.PRIVATE_METHOD then
    (st.classes o.selfCls).classMethods.foldl (addPrivateMethodName st) names0
  else names0

/-- The passes of `TclOOGetSortedMethodList` that fill the `names` table. -/
def methodNames (fuel : Nat) (st : OOState) (oPtr : Nat) (flags : Flags) :
    Option (HashTable Wanted) :=
  match AddClassMethodNames st flags fuel (st.objects oPtr).selfCls
      (initialNames st oPtr flags) with
  | none => none
  | some names2 =>
    (st.objects oPtr).mixins.foldlM
      (fun acc mixinPtr => AddClassMethodNames st flags fuel mixinPtr acc) names2

/-- The entries of the `names` table that `TclOOGetSortedMethodList` copies to the
array of strings. -/
def emitted (flags : Flags) (e : String × Wanted) : Bool :=
  (!flags.PUBLIC_METHOD || e.2.IN_LIST) && !e.2.NO_IMPLEMENTATION

/-- Neither superclass links nor mixin links lead back to a class: `rank` strictly
decreases along both. -/
def acyclicMixed (classes : Nat → Class) (rank : Nat → Nat) : Prop :=
  ∀ c s, s ∈ (classes c).superclasses ∨ s ∈ (classes c).mixins → rank s < rank c

/-- Scenario of the enumerator: class C = 2 (superclass the root class 0) has the
methods `aa` and `b`; class D = 3 (superclass C) has `a` and `b`; class M = 4
(superclass the root) has `a` and the unexported `c`; object 100 is an instance of
D with mixin M and the methods `z` and `a` of its own. -/
def enumState : OOState :=
  { fPtr := scenarioFoundation
    objects := fun _ =>
      { plainObject 3 [] with methodsPtr := some [("z", 69), ("a", 70)], mixins := [4] }
    classes := fun c =>
      match c with
      | 2 => plainClass [0] [("aa", 61), ("b", 62)] []
      | 3 => plainClass [2] [("a", 64), ("b", 65)] []
      | 4 => plainClass [0] [("a", 67), ("c", 68)] []
      | _ => plainClass [] [] []
    methods := fun m =>
      match m with
      | 68 => classMethod "c" 4 {}
      | _ => classMethod "x" 2 { PUBLIC_METHOD := true }
    contexts := fun _ => none }

/-- Scenario of the placeholder: class C = 2 (superclass the root class 0) has, for
the name `foo`, only the visibility-only placeholder 51, the blank record with
`PUBLIC_METHOD` that `TclOODefineExportObjCmd` installs; class E = 6 has no method.  Object 100 is an instance of C with
no method of its own; object 101 is an instance of E that holds the placeholder in
its own method table. -/
def placeholderState : OOState :=
  { fPtr := scenarioFoundation
    objects := fun o =>
      match o with
      | 101 => { plainObject 6 [] with methodsPtr := some [("foo", 51)] }
      | _ => plainObject 2 []
    classes := fun c =>
      match c with
      | 2 => plainClass [0] [("foo", 51)] []
      | 6 => plainClass [0] [] []
      | _ => plainClass [] [] []
    methods := fun _ =>
      { namePtr := "", typePtr := none, flags := { PUBLIC_METHOD := true },
        declaringClassPtr := none, declaringObjectPtr := none }
    contexts := fun _ => none }

/-! ## The definition commands of tclOODefineCmds.c -/

/-- Completion code of a command procedure. -/
inductive ReturnCode where
  | TCL_OK
  | TCL_ERROR
  deriving DecidableEq, Repr

/-- Modelled from the spec: `TclOORemoveFromInstances` of the missing `tclOO.c`,
the removal of the `instances` back-edge from class `clsPtr` to object `oPtr`. -/
def TclOORemoveFromInstances (classes : Nat → Class) (oPtr clsPtr : Nat) : Nat → Class :=
  setAt classes clsPtr
    { classes clsPtr with instances := (classes clsPtr).instances.erase oPtr }

/-- Modelled from the spec: `TclOOAddToInstances` of the missing `tclOO.c`, the
addition of the `instances` back-edge from class `clsPtr` to object `oPtr`. -/
def TclOOAddToInstances (classes : Nat → Class) (oPtr clsPtr : Nat) : Nat → Class :=
  setAt classes clsPtr
    { classes clsPtr with instances := (classes clsPtr).instances ++ [oPtr] }

/-- Modelled from the spec: `TclOORemoveFromSubclasses` of the missing `tclOO.c`,
the removal of the `subclasses` back-edge from class `superPtr` to class `subPtr`. -/
def TclOORemoveFromSubclasses (classes : Nat → Class) (subPtr superPtr : Nat) :
    Nat → Class :=
  setAt classes superPtr
    { classes superPtr with subclasses := (classes superPtr).subclasses.erase subPtr }

/-- Modelled from the spec: `TclOOAddToSubclasses` of the missing `tclOO.c`, the
addition of the `subclasses` back-edge from class `superPtr` to class `subPtr`. -/
def TclOOAddToSubclasses (classes : Nat → Class) (subPtr superPtr : Nat) : Nat → Class :=
  setAt classes superPtr
    { classes superPtr with subclasses := (classes superPtr).subclasses ++ [subPtr] }

/-- Modelled from the spec: `TclOOIsReachable(targetPtr, startPtr)` of the missing
`tclOO.c`, the transitive superclass/mixin reachability test: whether `targetPtr`
is `startPtr` or is found from a superclass or a mixin of `startPtr`.  `none` when
the fuel runs out. -/
def TclOOIsReachable (classes : Nat → Class) : Nat → Nat → Nat → Option Bool
  | 0, _, _ => none
  | fuel + 1, targetPtr, startPtr =>
    if startPtr = targetPtr then some true
    else
      ((classes startPtr).superclasses ++ (classes startPtr).mixins).foldl
        (fun found superPtr =>
          match found with
          | some false => TclOOIsReachable classes fuel targetPtr superPtr
          | r => r)
        (some false)

/-- Modelled from the spec: `Tcl_DeleteHashEntry` of the Tcl core, which takes the
entry of a key out of the table. -/
def Tcl_DeleteHashEntry {β : Type} (tbl : HashTable β) (key : String) : HashTable β :=
  tbl.filter (fun kv => kv.1 ≠ key)

/-- `TclOOObjectSetFilters`: the filter list of the object becomes the given
array (`numFilters` is its length), and the epoch of the object is bumped. -/
def TclOOObjectSetFilters (st : OOState) (oPtr : Nat) (filters : List String) : OOState :=
  let o := st.objects oPtr
  if filters.length = 0 then
    { st with objects := setAt st.objects oPtr { o with filters := [], epoch := incrInt o.epoch } }
  else
    { st with objects := setAt st.objects oPtr
                { o with filters := filters, epoch := incrInt o.epoch } }

/-- `TclOOObjectSetMixins`: the mixin list of the object becomes the given array
(`numMixins` is its length), the `instances` back-edges of the old and of the new
mixins are maintained, and the epoch of the object is bumped. -/
def TclOOObjectSetMixins (st : OOState) (oPtr : Nat) (mixins : List Nat) : OOState :=
  let o := st.objects oPtr
  if mixins.length = 0 then
    if o.mixins.length ≠ 0 then
      let classes1 := o.mixins.foldl
        (fun classes mixinPtr => TclOORemoveFromInstances classes oPtr mixinPtr) st.classes
      { st with classes := classes1
                objects := setAt st.objects oPtr { o with mixins := [], epoch := incrInt o.epoch } }
    else
      { st with objects := setAt st.objects oPtr { o with epoch := incrInt o.epoch } }
  else
    let classes1 :=
      if o.mixins.length ≠ 0 then
        o.mixins.foldl
          (fun classes mixinPtr =>
            if mixinPtr ≠ o.selfCls then TclOORemoveFromInstances classes oPtr mixinPtr
            else classes)
          st.classes
      else st.classes
    let classes2 := mixins.foldl
      (fun classes mixinPtr =>
        if mixinPtr ≠ o.selfCls then TclOOAddToInstances classes oPtr mixinPtr
        else classes)
      classes1
    { st with classes := classes2
              objects := setAt st.objects oPtr
                { o with mixins := mixins, epoch := incrInt o.epoch } }

/-- Modelled from the spec: `TclOODeleteMethod` of the missing `tclOO.c`, which
releases a method record; the record is left in the store, where no table names
it any more. -/
def TclOODeleteMethod (methods : Nat → Method) (_mPtr : Nat) : Nat → Method :=
  methods

/-- The method table that `RenameDeleteMethod` works on: the table of the object,
or with `useClass` the table of the class that the object represents.  The inner
`none` is the missing table of an object; the outer `none` is the access through
a null `classPtr`. -/
def methodTable (st : OOState) (oPtr : Nat) (useClass : Bool) :
    Option (Option (HashTable Nat)) :=
  if useClass then
    match (st.objects oPtr).classPtr with
    | none => none
    | some cls => some (some (st.classes cls).classMethods)
  else some (st.objects oPtr).methodsPtr

/-- Store of a new method table in the place `methodTable` read it from. -/
def setMethodTable (st : OOState) (oPtr : Nat) (useClass : Bool) (tbl : HashTable Nat) :
    OOState :=
  if useClass then
    match (st.objects oPtr).classPtr with
    | none => st
    | some cls =>
      { st with classes := setAt st.classes cls { st.classes cls with classMethods := tbl } }
  else
    { st with objects := setAt st.objects oPtr { st.objects oPtr with methodsPtr := some tbl } }

/-- `RenameDeleteMethod`: with `toPtr` the record bound to `fromPtr` is bound to
`toPtr` instead and its name updated; without it the record is deleted.  It is an
error when `fromPtr` has no record, when the two names are the same entry, and
when `toPtr` already has one; `none` is the access through a null `classPtr`. -/
def RenameDeleteMethod (st : OOState) (oPtr : Nat) (useClass : Bool) (fromPtr : String)
    (toPtr : Option String) : Option (ReturnCode × OOState) :=
  match methodTable st oPtr useClass with
  | none => none
  | some none => some (ReturnCode.TCL_ERROR, st)
  | some (some tbl) =>
    match Tcl_FindHashEntry tbl fromPtr with
    | none => some (ReturnCode.TCL_ERROR, st)
    | some mPtr =>
      match toPtr with
      | some newName =>
        if newName = fromPtr then some (ReturnCode.TCL_ERROR, st)
        else if (Tcl_FindHashEntry tbl newName).isSome then some (ReturnCode.TCL_ERROR, st)
        else
          let methods1 := setAt st.methods mPtr { st.methods mPtr with namePtr := newName }
          let tbl1 := Tcl_DeleteHashEntry (tbl ++ [(newName, mPtr)]) fromPtr
          some (ReturnCode.TCL_OK, setMethodTable { st with methods := methods1 } oPtr useClass tbl1)
      | none =>
        let methods1 := TclOODeleteMethod st.methods mPtr
        let tbl1 := Tcl_DeleteHashEntry tbl fromPtr
        some (ReturnCode.TCL_OK, setMethodTable { st with methods := methods1 } oPtr useClass tbl1)

/-- The loop of `TclOODefineDeleteMethodObjCmd` over the names to delete: the
first failing `RenameDeleteMethod` ends the command with `TCL_ERROR`, in the state
that the deletions before it left. -/
def deleteMethods (oPtr : Nat) (useClass : Bool) :
    OOState → List String → Option (ReturnCode × OOState)
  | st, [] => some (ReturnCode.TCL_OK, st)
  | st, name :: rest =>
    match RenameDeleteMethod st oPtr useClass name none with
    | none => none
    | some (ReturnCode.TCL_ERROR, st1) => some (ReturnCode.TCL_ERROR, st1)
    | some (ReturnCode.TCL_OK, st1) => deleteMethods oPtr useClass st1 rest

/-- `TclOODefineDeleteMethodObjCmd`: `context` is the object of the definition
context (null outside one), `objv` the words after the command name;
`isInstanceDeleteMethod` is the client data. -/
def TclOODefineDeleteMethodObjCmd (st : OOState) (isInstanceDeleteMethod : Bool)
    (context : Option Nat) (objv : List String) : Option (ReturnCode × OOState) :=
  if objv.length + 1 < 2 then some (ReturnCode.TCL_ERROR, st)
  else
    match context with
    | none => some (ReturnCode.TCL_ERROR, st)
    | some oPtr =>
      if !isInstanceDeleteMethod ∧ (st.objects oPtr).classPtr = none then
        some (ReturnCode.TCL_ERROR, st)
      else
        match deleteMethods oPtr (!isInstanceDeleteMethod) st objv with
        | none => none
        | some (ReturnCode.TCL_ERROR, st1) => some (ReturnCode.TCL_ERROR, st1)
        | some (ReturnCode.TCL_OK, st1) =>
          if isInstanceDeleteMethod then
            let o := st1.objects oPtr
            some (ReturnCode.TCL_OK,
              { st1 with objects := setAt st1.objects oPtr { o with epoch := incrInt o.epoch } })
          else
            some (ReturnCode.TCL_OK, BumpGlobalEpoch st1 (st1.objects oPtr).classPtr)

/-- `TclOODefineClassObjCmd`: `context` is the object of the definition context
(null outside one), `objv` the words after the command name, and the parameter
`Tcl_GetObjectFromObj` resolves a word to the object it names.  `none` when the
reachability test runs out of fuel. -/
def TclOODefineClassObjCmd (fuel : Nat) (st : OOState)
    (Tcl_GetObjectFromObj : String → Option Nat) (context : Option Nat)
    (objv : List String) : Option (ReturnCode × OOState) :=
  match context with
  | none => some (ReturnCode.TCL_ERROR, st)
  | some oPtr =>
    if oPtr = (st.classes st.fPtr.objectCls).thisPtr then some (ReturnCode.TCL_ERROR, st)
    else if oPtr = (st.classes st.fPtr.classCls).thisPtr then some (ReturnCode.TCL_ERROR, st)
    else
      match objv with
      | [className] =>
        match Tcl_GetObjectFromObj className with
        | none => some (ReturnCode.TCL_ERROR, st)
        | some o2Ptr =>
          match (st.objects o2Ptr).classPtr with
          | none => some (ReturnCode.TCL_ERROR, st)
          | some newCls =>
            match TclOOIsReachable st.classes fuel st.fPtr.classCls newCls with
            | none => none
            | some reachable =>
              let o := st.objects oPtr
              if (o.classPtr == none) = reachable then some (ReturnCode.TCL_ERROR, st)
              else if o.selfCls ≠ newCls then
                let classes1 := TclOORemoveFromInstances st.classes oPtr o.selfCls
                let objects1 := setAt st.objects oPtr { o with selfCls := newCls }
                let classes2 := TclOOAddToInstances classes1 oPtr newCls
                let st1 : OOState := { st with classes := classes2, objects := objects1 }
                match o.classPtr with
                | some cls => some (ReturnCode.TCL_OK, BumpGlobalEpoch st1 (some cls))
                | none =>
                  some (ReturnCode.TCL_OK,
                    { st1 with objects := setAt objects1 oPtr
                                 { o with selfCls := newCls, epoch := incrInt o.epoch } })
              else some (ReturnCode.TCL_OK, st)
      | _ => some (ReturnCode.TCL_ERROR, st)

/-- The argument loop of `TclOODefineSuperclassObjCmd`: each word must name a
class, not yet in the array of the classes parsed so far, from which the class
being modified is not reachable.  The inner `none` is the jump to
`failedAfterAlloc`, the outer `none` the reachability test out of fuel. -/
def parseSuperclasses (fuel : Nat) (st : OOState)
    (Tcl_GetObjectFromObj : String → Option Nat) (classPtr : Nat) :
    List String → List Nat → Option (Option (List Nat))
  | [], superclasses => some (some superclasses)
  | word :: rest, superclasses =>
    match Tcl_GetObjectFromObj word with
    | none => some none
    | some o2Ptr =>
      match (st.objects o2Ptr).classPtr with
      | none => some none
      | some cls =>
        if cls ∈ superclasses then some none
        else
          match TclOOIsReachable st.classes fuel classPtr cls with
          | none => none
          | some true => some none
          | some false =>
            parseSuperclasses fuel st Tcl_GetObjectFromObj classPtr rest
              (superclasses ++ [cls])

/-- `TclOODefineSuperclassObjCmd`: `context`, `objv` and `Tcl_GetObjectFromObj`
as for `TclOODefineClassObjCmd`. -/
def TclOODefineSuperclassObjCmd (fuel : Nat) (st : OOState)
    (Tcl_GetObjectFromObj : String → Option Nat) (context : Option Nat)
    (objv : List String) : Option (ReturnCode × OOState) :=
  if objv.length + 1 < 2 then some (ReturnCode.TCL_ERROR, st)
  else
    match context with
    | none => some (ReturnCode.TCL_ERROR, st)
    | some oPtr =>
      match (st.objects oPtr).classPtr with
      | none => some (ReturnCode.TCL_ERROR, st)
      | some classPtr =>
        if oPtr = (st.classes st.fPtr.objectCls).thisPtr then some (ReturnCode.TCL_ERROR, st)
        else
          match parseSuperclasses fuel st Tcl_GetObjectFromObj classPtr objv [] with
          | none => none
          | some none => some (ReturnCode.TCL_ERROR, st)
          | some (some superclasses) =>
            let classes1 :=
              if (st.classes classPtr).superclasses.length ≠ 0 then
                (st.classes classPtr).superclasses.foldl
                  (fun classes superPtr => TclOORemoveFromSubclasses classes classPtr superPtr)
                  st.classes
              else st.classes
            let classes2 := setAt classes1 classPtr
              { classes1 classPtr with superclasses := superclasses }
            let classes3 := superclasses.foldl
              (fun classes superPtr => TclOOAddToSubclasses classes classPtr superPtr)
              classes2
            some (ReturnCode.TCL_OK, BumpGlobalEpoch { st with classes := classes3 } (some classPtr))

/-- The record that `memset(mPtr, 0, sizeof(Method))` leaves: no name, no
implementation, no flags, no declarer. -/
def blankMethod : Method :=
  { namePtr := "", typePtr := none, flags := {}, declaringClassPtr := none,
    declaringObjectPtr := none }

/-- One round of the loop of `TclOODefineExportObjCmd` (`makePublic` true, the
flag is set) and of `TclOODefineUnexportObjCmd` (`makePublic` false, the flag is
cleared) for one name: the record of the name in the table of the object, or of
the class `clsPtr` when `clsPtr` is given, is created blank at the address
`ckalloc` returns when the table has none, and its `PUBLIC_METHOD` bit is
written. -/
def markMethod (ckalloc : OOState → Nat) (oPtr : Nat) (clsPtr : Option Nat)
    (makePublic : Bool) (st : OOState) (name : String) : OOState :=
  let tbl : HashTable Nat :=
    match clsPtr with
    | none => (st.objects oPtr).methodsPtr.getD []
    | some cls => (st.classes cls).classMethods
  let found := Tcl_FindHashEntry tbl name
  let mPtr := found.getD (ckalloc st)
  let tbl1 := if found.isSome then tbl else tbl ++ [(name, mPtr)]
  let record := if found.isSome then st.methods mPtr else blankMethod
  let methods1 := setAt st.methods mPtr
    { record with flags := { record.flags with PUBLIC_METHOD := makePublic } }
  match clsPtr with
  | none =>
    { st with methods := methods1
              objects := setAt st.objects oPtr
                { st.objects oPtr with methodsPtr := some tbl1 } }
  | some cls =>
    { st with methods := methods1
              classes := setAt st.classes cls { st.classes cls with classMethods := tbl1 } }

/-- `TclOODefineExportObjCmd`: `isInstanceExport` is the client data, `ckalloc`
gives the address of the next record allocated in a state. -/
def TclOODefineExportObjCmd (st : OOState) (ckalloc : OOState → Nat)
    (isInstanceExport : Bool) (context : Option Nat) (objv : List String) :
    ReturnCode × OOState :=
  if objv.length + 1 < 2 then (ReturnCode.TCL_ERROR, st)
  else
    match context with
    | none => (ReturnCode.TCL_ERROR, st)
    | some oPtr =>
      let clsPtr := (st.objects oPtr).classPtr
      if !isInstanceExport ∧ clsPtr = none then (ReturnCode.TCL_ERROR, st)
      else if isInstanceExport then
        let st1 := objv.foldl (markMethod ckalloc oPtr none true) st
        let o := st1.objects oPtr
        (ReturnCode.TCL_OK,
          { st1 with objects := setAt st1.objects oPtr { o with epoch := incrInt o.epoch } })
      else
        let st1 := objv.foldl (markMethod ckalloc oPtr clsPtr true) st
        (ReturnCode.TCL_OK, BumpGlobalEpoch st1 clsPtr)

/-- `TclOODefineUnexportObjCmd`: `isInstanceUnexport` is the client data,
`ckalloc` gives the address of the next record allocated in a state. -/
def TclOODefineUnexportObjCmd (st : OOState) (ckalloc : OOState → Nat)
    (isInstanceUnexport : Bool) (context : Option Nat) (objv : List String) :
    ReturnCode × OOState :=
  if objv.length + 1 < 2 then (ReturnCode.TCL_ERROR, st)
  else
    match context with
    | none => (ReturnCode.TCL_ERROR, st)
    | some oPtr =>
      let clsPtr := (st.objects oPtr).classPtr
      if !isInstanceUnexport ∧ clsPtr = none then (ReturnCode.TCL_ERROR, st)
      else if isInstanceUnexport then
        let st1 := objv.foldl (markMethod ckalloc oPtr none false) st
        let o := st1.objects oPtr
        (ReturnCode.TCL_OK,
          { st1 with objects := setAt st1.objects oPtr { o with epoch := incrInt o.epoch } })
      else
        let st1 := objv.foldl (markMethod ckalloc oPtr clsPtr false) st
        (ReturnCode.TCL_OK, BumpGlobalEpoch st1 clsPtr)

/-! ## Devices and scenario of the definition commands -/

/-- Class `b` is reached from class `a` along superclass and mixin links. -/
def reachable (classes : Nat → Class) (a b : Nat) : Prop :=
  Relation.ReflTransGen
    (fun x y => y ∈ (classes x).superclasses ∨ y ∈ (classes x).mixins) a b

/-- The record bound to a name in the table `RenameDeleteMethod` works on. -/
def boundTo (st : OOState) (oPtr : Nat) (useClass : Bool) (name : String) : Option Nat :=
  match methodTable st oPtr useClass with
  | some (some tbl) => Tcl_FindHashEntry tbl name
  | _ => none

/-- The classes that a list of words names, in order; `none` when a word names
no object or names an object that is not a class. -/
def namedClasses (st : OOState) (Tcl_GetObjectFromObj : String → Option Nat) :
    List String → Option (List Nat)
  | [] => some []
  | word :: rest =>
    match Tcl_GetObjectFromObj word with
    | none => none
    | some o2Ptr =>
      match (st.objects o2Ptr).classPtr with
      | none => none
      | some cls => (namedClasses st Tcl_GetObjectFromObj rest).map (fun l => cls :: l)

/-- A class of the scenario of the definition commands. -/
def definedClass (thisPtr : Nat) (supers subs instances : List Nat)
    (methods : HashTable Nat) : Class :=
  { plainClass supers methods [] with
    thisPtr := thisPtr, subclasses := subs, instances := instances }

/-- Scenario S6: the root class 0 and the class of classes 1 (a subclass of the
root), class A = 2 with method `m` (20) and subclass B = 3, the metaclass M = 4 (a
subclass of the class of classes) and the class L = 5 without subclasses and
instances; the object representing class `c` is object `10 + c` (the objects of A
and L have epoch 0), and object 100 is an instance of B with the methods `a` (30)
and `b` (31) of its own.  Every object but 100 that is no class object stands for
an unused address. -/
def defineState : OOState :=
  { fPtr := scenarioFoundation
    objects := fun o =>
      match o with
      | 10 => { plainObject 1 [] with classPtr := some 0 }
      | 11 => { plainObject 1 [] with classPtr := some 1 }
      | 12 => { plainObject 1 [] with classPtr := some 2 }
      | 13 => { plainObject 1 [] with classPtr := some 3 }
      | 14 => { plainObject 1 [] with classPtr := some 4 }
      | 15 => { plainObject 1 [] with classPtr := some 5 }
      | 100 => { plainObject 3 [] with methodsPtr := some [("a", 30), ("b", 31)] }
      | _ => plainObject 0 []
    classes := fun c =>
      match c with
      | 0 => definedClass 10 [] [1, 2, 5] [] []
      | 1 => definedClass 11 [0] [4] [10, 11, 12, 13, 14, 15] []
      | 2 => definedClass 12 [0] [3] [] [("m", 20)]
      | 3 => definedClass 13 [2] [] [100] []
      | 4 => definedClass 14 [1] [] [] []
      | 5 => definedClass 15 [0] [] [] []
      | _ => definedClass 0 [] [] [] []
    methods := fun m =>
      match m with
      | 20 => classMethod "m" 2 { PUBLIC_METHOD := true }
      | 30 => { classMethod "a" 0 { PUBLIC_METHOD := true } with
                declaringClassPtr := none, declaringObjectPtr := some 100 }
      | 31 => { classMethod "b" 0 { PUBLIC_METHOD := true } with
                declaringClassPtr := none, declaringObjectPtr := some 100 }
      | _ => blankMethod
    contexts := fun _ => none }

/-- The objects that the words of scenario S6 name. -/
def defineNames (word : String) : Option Nat :=
  if word = "oo::object" then some 10
  else if word = "oo::class" then some 11
  else if word = "A" then some 12
  else if word = "B" then some 13
  else if word = "M" then some 14
  else if word = "L" then some 15
  else if word = "obj" then some 100
  else none

/-- Rank of the classes of scenario S6: the length of the longest path to the
root. -/
def defineRank (c : Nat) : Nat :=
  match c with
  | 1 => 1
  | 2 => 1
  | 3 => 2
  | 4 => 2
  | 5 => 1
  | _ => 0

/-- Scenario S6 after `unexport m` in the definition context of object 100: the
object has a blank record for `m` (record 32) without `PUBLIC_METHOD`. -/
def hiddenState : OOState :=
  (TclOODefineUnexportObjCmd defineState (fun _ => 32) true (some 100) ["m"]).2

/-- Scenario S7: scenario S6 where class B = 3 declares the method `m` (21)
without `PUBLIC_METHOD`, above the public `m` (20) of its superclass A. -/
def exposeState : OOState :=
  { defineState with
    classes := setAt defineState.classes 3 (definedClass 13 [2] [] [100] [("m", 21)])
    methods := setAt defineState.methods 21 (classMethod "m" 3 {}) }

/-- Scenario S7 after `export m` in the definition context of object 100: the
object has a blank record for `m` (record 32) with `PUBLIC_METHOD`. -/
def exposedState : OOState :=
  (TclOODefineExportObjCmd exposeState (fun _ => 32) true (some 100) ["m"]).2

/-- The classes from which the walks of `AddSimpleChainToCallContext` start: the
mixins of the object, the mixins of its class, the mixins of the classes in the
linearization of its class, and its class. -/
def walkStarts (st : OOState) (oPtr : Nat) : List Nat :=
  (st.objects oPtr).mixins
    ++ (st.classes (st.objects oPtr).selfCls).mixins
    ++ (st.classes (st.objects oPtr).selfCls).classHierarchy.flatMap
        (fun superPtr => (st.classes superPtr).mixins)
    ++ [(st.objects oPtr).selfCls]

/-- A builder for object `oPtr` with `PRIVATE_METHOD` bit `priv` whose
`filterLength` is within the chain and, when `m` is given, whose entries from
`filterLength` on include the method `m` as a non-filter entry. -/
def carries (priv : Bool) (oPtr : Nat) (m : Option Nat) (cb : ChainBuilder) : Prop :=
  cb.filterLength ≤ cb.contextPtr.chain.length
  ∧ cb.contextPtr.flags.PRIVATE_METHOD = priv
  ∧ cb.contextPtr.oPtr = oPtr
  ∧ ∀ k, m = some k → ∃ e ∈ cb.contextPtr.chain.drop cb.filterLength, holds k false e

/-- In state `st` the table of object `oPtr` binds `name` to a record with
`PUBLIC_METHOD`: the record `name` was bound to in `st0`, if any, and otherwise a
record without implementation. -/
def recordExported (st0 st : OOState) (oPtr : Nat) (name : String) : Prop :=
  ∃ m, boundTo st oPtr false name = some m
    ∧ (st.methods m).flags.PUBLIC_METHOD = true
    ∧ (boundTo st0 oPtr false name = none → (st.methods m).typePtr = none)
    ∧ ∀ m0, boundTo st0 oPtr false name = some m0 → m = m0

/-! ## Scenarios of the walks, the caches and the back-edges -/

/-- Scenario S8: classes B = 3 with the public method `m` (13) and C = 4 with the
method `m` (14) that is not public, both with the root as superclass; D = 5 has the
superclasses B and C and no method; E = 6 has the public method `m` (16) and the
single superclass C.  Object 100 is an instance of D, object 101 an instance of
E. -/
def visibilityState : OOState :=
  { fPtr := scenarioFoundation
    objects := fun o =>
      match o with
      | 101 => plainObject 6 []
      | _ => plainObject 5 []
    classes := fun c =>
      match c with
      | 3 => plainClass [0] [("m", 13)] []
      | 4 => plainClass [0] [("m", 14)] []
      | 5 => plainClass [3, 4] [] []
      | 6 => plainClass [4] [("m", 16)] []
      | _ => plainClass [] [] []
    methods := fun m =>
      match m with
      | 14 => classMethod "m" 4 {}
      | _ => classMethod "m" (m - 10) { PUBLIC_METHOD := true }
    contexts := fun _ => none }

/-- Scenario S6 after object 100 has been given its own class B = 3 as the only
mixin: the `instances` of B still hold the object once. -/
def selfMixedState : OOState :=
  TclOOObjectSetMixins defineState 100 [3]

/-- Scenario S9: in scenario S6 the method `m` is dispatched on object 100 (which
stamps the linearization of its class B), the object is moved to class A, and the
superclass of B, now without instances, is set to L. -/
def restampedState : Option OOState :=
  match TclOOGetCallContext 3 defineState 100 ⟨"m", none⟩ { PUBLIC_METHOD := true } [] with
  | none => none
  | some r =>
    match TclOODefineClassObjCmd 3 r.st defineNames (some 100) ["A"] with
    | some (ReturnCode.TCL_OK, st2) =>
      match TclOODefineSuperclassObjCmd 3 st2 defineNames (some 13) ["L"] with
      | some (ReturnCode.TCL_OK, st3) => some st3
      | _ => none
    | _ => none

/-- Scenario S10: scenario S3, with the back-edges of its classes filled in, where
object 101 has the instance filters `f` and `g`, and its class C declares the
filter `f`. -/
def repeatedFilterState : OOState :=
  TclOOObjectSetFilters
    { filterState true with
      classes := setAt (setAt (filterState true).classes 0
          { (filterState true).classes 0 with subclasses := [2] }) 2
        { (filterState true).classes 2 with instances := [100, 101] } }
    101 ["f", "g"]

/-- Scenario S11: class C = 3 (superclass the root) has no method; class M = 4 has
no method and mixes in class N = 6, which declares the public method `x` (81);
object 100 is an instance of C with the mixin M.  The back-edges are those of
these links. -/
def nestedMixinState : OOState :=
  { fPtr := scenarioFoundation
    objects := fun _ => { plainObject 3 [] with mixins := [4] }
    classes := fun c =>
      match c with
      | 0 => { plainClass [] [] [] with subclasses := [3, 4, 6] }
      | 3 => { plainClass [0] [] [] with instances := [100] }
      | 4 => { plainClass [0] [] [] with mixins := [6], instances := [100] }
      | 6 => { plainClass [0] [("x", 81)] [] with mixinSubs := [4] }
      | _ => plainClass [] [] []
    methods := fun _ => classMethod "x" 6 { PUBLIC_METHOD := true }
    contexts := fun _ => none }

/-! ## TclOOInvokeContext -/

/-- State of the interpreter during an invocation: the stores of the object
system and, for every method record, how often it is held by `Tcl_Preserve`. -/
structure InvokeState where
  oo : OOState
  preserved : Nat → Int

/-- Modelled from the spec: `Tcl_Preserve` of the Tcl core, the scoped acquisition
of a record, as a reference count that grows by one. -/
def Tcl_Preserve (preserved : Nat → Int) (clientData : Nat) : Nat → Int :=
  setAt preserved clientData (preserved clientData + 1)

/-- Modelled from the spec: `Tcl_Release` of the Tcl core, which gives up one
acquisition of a record: the reference count drops by one. -/
def Tcl_Release (preserved : Nat → Int) (clientData : Nat) : Nat → Int :=
  setAt preserved clientData (preserved clientData - 1)

/-- Function `TclOOInvokeContext`.  The parameter `callProc` stands for the
implementations `mPtr->typePtr->callProc`: given the method, the context and the
arguments it turns a state into a result code and a state, or does not return
(`none`).  The context is read through its pointer, at entry and again after the
implementation has run; reading a context that is not allocated, an entry beyond
the chain, or the type of a method without one has no defined behaviour
(`none`). -/
def TclOOInvokeContext
    (callProc : Nat → Nat → List String → InvokeState → Option (Int × InvokeState))
    (s : InvokeState) (contextPtr : Nat) (objv : List String) :
    Option (Int × InvokeState) :=
  match s.oo.contexts contextPtr with
  | none => none
  | some c =>
    match c.chain[c.index]? with
    | none => none
    | some e =>
      let isFirst : Bool := c.index = 0
      let preserved1 :=
        if isFirst then c.chain.foldl (fun p entry => Tcl_Preserve p entry.mPtr) s.preserved
        else s.preserved
      let o := s.oo.objects c.oPtr
      let wasFilter := o.flags.FILTER_HANDLING
      let objects1 := setAt s.oo.objects c.oPtr
        { o with flags :=
            { o.flags with FILTER_HANDLING := e.isFilter || c.flags.FILTER_HANDLING } }
      match (s.oo.methods e.mPtr).typePtr with
      | none => none
      | some _ =>
        match callProc e.mPtr contextPtr objv
            ⟨{ s.oo with objects := objects1 }, preserved1⟩ with
        | none => none
        | some (result, s2) =>
          match s2.oo.contexts contextPtr with
          | none => none
          | some c2 =>
            let o2 := s2.oo.objects c2.oPtr
            let objects3 := setAt s2.oo.objects c2.oPtr
              { o2 with flags := { o2.flags with FILTER_HANDLING := wasFilter } }
            let preserved3 :=
              if isFirst then
                c2.chain.foldl (fun p entry => Tcl_Release p entry.mPtr) s2.preserved
              else s2.preserved
            some (result, ⟨{ s2.oo with objects := objects3 }, preserved3⟩)

/-- The state in which `TclOOInvokeContext` runs the implementation of entry `e`
of context `c`: the methods of the chain are preserved when the context is at its
first step, and the `FILTER_HANDLING` bit of the object says whether the entry
is a filter or the context is for filter handling. -/
def dispatchState (s : InvokeState) (c : CallContext) (e : MInvoke) : InvokeState :=
  ⟨{ s.oo with
      objects := setAt s.oo.objects c.oPtr
        { s.oo.objects c.oPtr with
          flags := { (s.oo.objects c.oPtr).flags with
            FILTER_HANDLING := e.isFilter || c.flags.FILTER_HANDLING } } },
    if c.index = 0 then c.chain.foldl (fun p entry => Tcl_Preserve p entry.mPtr) s.preserved
    else s.preserved⟩

/-- How many entries of a chain hold method `m`. -/
def holdCount (chain : List MInvoke) (m : Nat) : Nat :=
  (chain.filter (fun e => e.mPtr = m)).length

/-- Scenario S12: scenario S3 with the chain for `m` on object 100, the filter `f`
then `m`, allocated as context 7; no method is preserved. -/
def invokeState (index : Nat) : InvokeState :=
  ⟨{ filterState true with
      contexts := fun p =>
        match p with
        | 7 => some { oPtr := 100, globalEpoch := 1, localEpoch := 0,
                      flags := { PUBLIC_METHOD := true }, index := index, skip := 2,
                      chain := [⟨21, true, some 2⟩, ⟨22, false, none⟩], refCount := 1 }
        | _ => none },
    fun _ => 0⟩

/-- An implementation for scenario S12: it sets every flag of object 100 to what
the argument says, preserves nothing, and returns the code 1 (`TCL_ERROR`). -/
def failingBody (flags : Flags) (_mPtr _contextPtr : Nat) (_objv : List String)
    (s : InvokeState) : Option (Int × InvokeState) :=
  some (1, ⟨{ s.oo with
              objects := setAt s.oo.objects 100 { s.oo.objects 100 with flags := flags } },
            s.preserved⟩)

/-! ## The mixin command of tclOODefineCmds.c -/

/-- Modelled from the spec: `TclOORemoveFromMixinSubs` of the missing `tclOO.c`,
the removal of the `mixinSubs` back-edge from class `superPtr` to class `subPtr`. -/
def TclOORemoveFromMixinSubs (classes : Nat → Class) (subPtr superPtr : Nat) :
    Nat → Class :=
  setAt classes superPtr
    { classes superPtr with mixinSubs := (classes superPtr).mixinSubs.erase subPtr }

/-- Modelled from the spec: `TclOOAddToMixinSubs` of the missing `tclOO.c`, the
addition of the `mixinSubs` back-edge from class `superPtr` to class `subPtr`. -/
def TclOOAddToMixinSubs (classes : Nat → Class) (subPtr superPtr : Nat) : Nat → Class :=
  setAt classes superPtr
    { classes superPtr with mixinSubs := (classes superPtr).mixinSubs ++ [subPtr] }

/-- `TclOOClassSetMixins`: the mixin list of the class becomes the given array
(`numMixins` is its length), the `mixinSubs` back-edges of the old and of the new
mixins are maintained, and `BumpGlobalEpoch` is applied to the class. -/
def TclOOClassSetMixins (st : OOState) (classPtr : Nat) (mixins : List Nat) : OOState :=
  let cls := st.classes classPtr
  let classes3 : Nat → Class :=
    if mixins.length = 0 then
      if cls.mixins.length ≠ 0 then
        let classes1 := cls.mixins.foldl
          (fun classes mixinPtr => TclOORemoveFromMixinSubs classes classPtr mixinPtr)
          st.classes
        setAt classes1 classPtr { classes1 classPtr with mixins := [] }
      else st.classes
    else
      let classes1 :=
        if cls.mixins.length ≠ 0 then
          cls.mixins.foldl
            (fun classes mixinPtr => TclOORemoveFromMixinSubs classes classPtr mixinPtr)
            st.classes
        else st.classes
      let classes2 := setAt classes1 classPtr { classes1 classPtr with mixins := mixins }
      mixins.foldl
        (fun classes mixinPtr => TclOOAddToMixinSubs classes classPtr mixinPtr) classes2
  BumpGlobalEpoch { st with classes := classes3 } (some classPtr)

/-- The argument loop of `TclOODefineMixinObjCmd`: each word must name a class
and, in the class form, a class from which the class being modified is not
reachable; `classPtr` is `oPtr->classPtr`, read only in the class form.  The inner
`none` is the jump to `freeAndError`, the outer `none` the reachability test out
of fuel. -/
def parseMixins (fuel : Nat) (st : OOState)
    (Tcl_GetObjectFromObj : String → Option Nat) (isInstanceMixin : Bool)
    (classPtr : Option Nat) : List String → List Nat → Option (Option (List Nat))
  | [], mixins => some (some mixins)
  | word :: rest, mixins =>
    match Tcl_GetObjectFromObj word with
    | none => some none
    | some o2Ptr =>
      match (st.objects o2Ptr).classPtr with
      | none => some none
      | some cls =>
        let test : Option Bool :=
          if isInstanceMixin then some false
          else
            match classPtr with
            | none => none
            | some target => TclOOIsReachable st.classes fuel target cls
        match test with
        | none => none
        | some true => some none
        | some false =>
          parseMixins fuel st Tcl_GetObjectFromObj isInstanceMixin classPtr rest
            (mixins ++ [cls])

/-- `TclOODefineMixinObjCmd`: `isInstanceMixin` is `clientData != NULL`; `context`,
`objv` and `Tcl_GetObjectFromObj` as for `TclOODefineClassObjCmd`. -/
def TclOODefineMixinObjCmd (fuel : Nat) (st : OOState)
    (Tcl_GetObjectFromObj : String → Option Nat) (isInstanceMixin : Bool)
    (context : Option Nat) (objv : List String) : Option (ReturnCode × OOState) :=
  match context with
  | none => some (ReturnCode.TCL_ERROR, st)
  | some oPtr =>
    if !isInstanceMixin && (st.objects oPtr).classPtr.isNone then
      some (ReturnCode.TCL_ERROR, st)
    else
      match parseMixins fuel st Tcl_GetObjectFromObj isInstanceMixin
          (st.objects oPtr).classPtr objv [] with
      | none => none
      | some none => some (ReturnCode.TCL_ERROR, st)
      | some (some mixins) =>
        if isInstanceMixin then
          some (ReturnCode.TCL_OK, TclOOObjectSetMixins st oPtr mixins)
        else
          match (st.objects oPtr).classPtr with
          | none => none
          | some classPtr => some (ReturnCode.TCL_OK, TclOOClassSetMixins st classPtr mixins)

/-- No class is reached from itself along one or more superclass and mixin links. -/
def cycleFree (classes : Nat → Class) : Prop :=
  ∀ c, ¬ Relation.TransGen
    (fun x y => y ∈ (classes x).superclasses ∨ y ∈ (classes x).mixins) c c

/-! ## The candidate sequence of the core phase -/

/-- The class-then-superclasses walk as the specification words it, for one name,
as the sequence of the records met: the record that the class has for the name,
then the walks of its superclasses in declared order.  While the visibility is not
decided, a record without `PUBLIC_METHOD` met in a public dispatch ends the walk at
that class; any other record met decides the visibility for the superclasses.
`fuel` bounds the depth. -/
def classWalk (st : OOState) (name : String) (isPublic : Bool) :
    Nat → Bool → Nat → List Nat
  | 0, _, _ => []
  | fuel + 1, decided, c =>
    match Tcl_FindHashEntry (st.classes c).classMethods name with
    | none => (st.classes c).superclasses.flatMap (classWalk st name isPublic fuel decided)
    | some m =>
      if !decided && isPublic && !(st.methods m).flags.PUBLIC_METHOD then []
      else m :: (st.classes c).superclasses.flatMap (classWalk st name isPublic fuel true)

/-- The candidate methods of the core phase in the order the specification gives:
the walks of the mixins of the object, of the mixins of its class, of the mixins
of every class of the `classHierarchy` of its class in hierarchy order, then the
record of the object itself, then the walk of its class.  The visibility is
decided from the start when the flags say so or the object has a record of its
own for the name. -/
def coreCandidates (st : OOState) (fuel oPtr : Nat) (name : String) (flags : Flags) :
    List Nat :=
  let o := st.objects oPtr
  let own := o.methodsPtr.bind (fun tbl => Tcl_FindHashEntry tbl name)
  let walk := classWalk st name flags.PUBLIC_METHOD fuel (flags.KNOWN_STATE || own.isSome)
  o.mixins.flatMap walk
    ++ (st.classes o.selfCls).mixins.flatMap walk
    ++ (st.classes o.selfCls).classHierarchy.flatMap
        (fun superPtr => (st.classes superPtr).mixins.flatMap walk)
    ++ own.toList
    ++ walk o.selfCls

/-- Scenario S13: class A = 2 (superclass the root) has the mixin M = 4 and class
B = 3 has the superclass A; `m` is method 12 of A, 13 of B, 14 of M and 19 of
object 100, an instance of B. -/
def ancestorMixinState : OOState :=
  { fPtr := scenarioFoundation
    objects := fun _ => { plainObject 3 [] with methodsPtr := some [("m", 19)] }
    classes := fun c =>
      match c with
      | 2 => { plainClass [0] [("m", 12)] [] with mixins := [4] }
      | 3 => plainClass [2] [("m", 13)] []
      | 4 => plainClass [0] [("m", 14)] []
      | _ => plainClass [] [] []
    methods := fun m =>
      match m with
      | 19 => { classMethod "m" 0 { PUBLIC_METHOD := true } with
                declaringClassPtr := none, declaringObjectPtr := some 100 }
      | _ => classMethod "m" (m - 10) { PUBLIC_METHOD := true }
    contexts := fun _ => none }

/-! ## Devices for the isolation of an unused class -/

/-- Two class records differ at most in the back-edges `subclasses`, `mixinSubs`
and `instances`, which no lookup reads. -/
def sameRead (a b : Class) : Prop :=
  b = { a with subclasses := b.subclasses, mixinSubs := b.mixinSubs,
               instances := b.instances }

/-- The class store `C` seen from another state: class `L` and the back-edges of
every class are those of the store `B`. -/
def withBackEdges (B C : Nat → Class) (L : Nat) (x : Nat) : Class :=
  if x = L then B x
  else { C x with subclasses := (B x).subclasses, mixinSubs := (B x).mixinSubs,
                  instances := (B x).instances }

/-- Method `m` is bound in the record of a class: by a name of its method table or
as its constructor or destructor. -/
def boundIn (cls : Class) (m : Nat) : Prop :=
  (∃ name, Tcl_FindHashEntry cls.classMethods name = some m)
    ∨ cls.constructorPtr = some m ∨ cls.destructorPtr = some m

/-- Scenario S6 after `superclass A` in the definition context of the unused class
L = 5. -/
def reparentedState : Option OOState :=
  (TclOODefineSuperclassObjCmd 3 defineState defineNames (some 15) ["A"]).map (fun r => r.2)

/-- Scenario S14: scenario S6 where the class M = 4 declares the public method `m`
(24). -/
def mixinMethodState : OOState :=
  { defineState with
    classes := setAt defineState.classes 4 (definedClass 14 [1] [] [] [("m", 24)])
    methods := setAt defineState.methods 24 (classMethod "m" 4 { PUBLIC_METHOD := true }) }

/-- Scenario S14 after the public dispatch of `m` on object 100, an instance of
B = 3, and `class A` on the object: the hierarchies `[2, 0]` of B and `[0]` of A = 2
are stamped with the current epoch, as the dispatch left them, and B has lost its
only instance to A. -/
def stampedState : OOState :=
  { mixinMethodState with
    objects := setAt mixinMethodState.objects 100
      { plainObject 2 [] with methodsPtr := some [("a", 30), ("b", 31)], epoch := 1 }
    classes := setAt (setAt mixinMethodState.classes 2
        { definedClass 12 [0] [3] [100] [("m", 20)] with
          classHierarchy := [0], classHierarchyEpoch := 1 }) 3
      { definedClass 13 [2] [] [] [] with
        classHierarchy := [2, 0], classHierarchyEpoch := 1 } }

/-- Scenario S14 after, in addition, `superclass L` on the unused class B and
`class B` on the object: class A is left without subclasses, instances and users
as a mixin. -/
def staleHierarchyState : Option OOState :=
  match TclOODefineSuperclassObjCmd 3 stampedState defineNames (some 13) ["L"] with
  | some (ReturnCode.TCL_OK, st3) =>
    match TclOODefineClassObjCmd 3 st3 defineNames (some 100) ["B"] with
    | some (ReturnCode.TCL_OK, st4) => some st4
    | _ => none
  | _ => none

/-- Scenario S14 after, in addition, `mixin M` in the definition context of the
unused class A. -/
def mixedLeafState : Option OOState :=
  match staleHierarchyState with
  | none => none
  | some st =>
    match TclOODefineMixinObjCmd 3 st defineNames false (some 12) ["M"] with
    | some (ReturnCode.TCL_OK, st1) => some st1
    | _ => none

/-- Scenario S15: scenario S6 at the last epoch of a C `int`: the foundation and
object 100 have the epoch `INT_MAX` = 2147483647. -/
def saturatedState : OOState :=
  { defineState with
    fPtr := { scenarioFoundation with epoch := 2147483647 }
    objects := setAt defineState.objects 100
      { defineState.objects 100 with epoch := 2147483647 } }

/-- Scenario S16: the root class 0 and the class of classes 1, the classes P = 2
(with the public method `m`, 20) and Q = 3 under the root, X = 4 with the
superclasses P, Q, S = 5 with the superclass X, and T = 6 and Y = 7 under the
root; the object representing class `c` is object `10 + c`, and object 100 is the
only instance of S.  No linearization is built yet. -/
def regraftState : OOState :=
  { fPtr := scenarioFoundation
    objects := fun o =>
      match o with
      | 10 => { plainObject 1 [] with classPtr := some 0 }
      | 11 => { plainObject 1 [] with classPtr := some 1 }
      | 12 => { plainObject 1 [] with classPtr := some 2 }
      | 13 => { plainObject 1 [] with classPtr := some 3 }
      | 14 => { plainObject 1 [] with classPtr := some 4 }
      | 15 => { plainObject 1 [] with classPtr := some 5 }
      | 16 => { plainObject 1 [] with classPtr := some 6 }
      | 17 => { plainObject 1 [] with classPtr := some 7 }
      | 100 => plainObject 5 []
      | _ => plainObject 0 []
    classes := fun c =>
      match c with
      | 0 => definedClass 10 [] [1, 2, 3, 6, 7] [] []
      | 1 => definedClass 11 [0] [] [10, 11, 12, 13, 14, 15, 16, 17] []
      | 2 => definedClass 12 [0] [4] [] [("m", 20)]
      | 3 => definedClass 13 [0] [4] [] []
      | 4 => definedClass 14 [2, 3] [5] [] []
      | 5 => definedClass 15 [4] [] [100] []
      | 6 => definedClass 16 [0] [] [] []
      | 7 => definedClass 17 [0] [] [] []
      | _ => definedClass 0 [] [] [] []
    methods := fun m =>
      match m with
      | 20 => classMethod "m" 2 { PUBLIC_METHOD := true }
      | _ => blankMethod
    contexts := fun _ => none }

/-- The objects that the words of scenario S16 name. -/
def regraftNames (word : String) : Option Nat :=
  if word = "oo::object" then some 10
  else if word = "oo::class" then some 11
  else if word = "P" then some 12
  else if word = "Q" then some 13
  else if word = "X" then some 14
  else if word = "S" then some 15
  else if word = "T" then some 16
  else if word = "Y" then some 17
  else if word = "obj" then some 100
  else none

/-- Scenario S16 after the public dispatch of `m` on object 100 and `class T` on the
object: the dispatch has stamped the lists `[0]` of P and Q and `[4, 2, 3, 0]` of S
with the current epoch and has left the list `[2, 3, 0]` in X without a stamp; S
has lost its only instance to T. -/
def regraftStamped : OOState :=
  { regraftState with
    objects := setAt regraftState.objects 100 { plainObject 6 [] with epoch := 1 }
    classes := fun c =>
      match c with
      | 2 => { definedClass 12 [0] [4] [] [("m", 20)] with
                classHierarchy := [0], classHierarchyEpoch := 1 }
      | 3 => { definedClass 13 [0] [4] [] [] with
                classHierarchy := [0], classHierarchyEpoch := 1 }
      | 4 => { definedClass 14 [2, 3] [5] [] [] with classHierarchy := [2, 3, 0] }
      | 5 => { definedClass 15 [4] [] [] [] with
                classHierarchy := [4, 2, 3, 0], classHierarchyEpoch := 1 }
      | 6 => definedClass 16 [0] [] [100] []
      | c => regraftState.classes c }

/-- Scenario S16 after, in addition, `superclass T` on the unused class S,
`superclass S` on the class X, unused by then, and `superclass X` on the unused
class Y.  -/
def regraftedState : Option OOState :=
  match TclOODefineSuperclassObjCmd 4 regraftStamped regraftNames (some 15) ["T"] with
  | some (ReturnCode.TCL_OK, st1) =>
    match TclOODefineSuperclassObjCmd 4 st1 regraftNames (some 14) ["S"] with
    | some (ReturnCode.TCL_OK, st2) =>
      match TclOODefineSuperclassObjCmd 4 st2 regraftNames (some 17) ["X"] with
      | some (ReturnCode.TCL_OK, st3) => some st3
      | _ => none
    | _ => none
  | _ => none

/-- The superclass lists of the classes of scenario S16 after the three
`superclass` commands. -/
def regraftSupers (c : Nat) : List Nat :=
  match c with
  | 1 => [0]
  | 2 => [0]
  | 3 => [0]
  | 4 => [5]
  | 5 => [6]
  | 6 => [0]
  | 7 => [4]
  | _ => []

/-- Rank of the classes of scenario S16 after the three `superclass` commands: the
length of the path to the root. -/
def regraftRank (c : Nat) : Nat :=
  match c with
  | 1 => 1
  | 2 => 1
  | 3 => 1
  | 4 => 3
  | 5 => 2
  | 6 => 1
  | 7 => 4
  | _ => 0

/-! # Theorems -/

/-! ## The scan of AddMethodToCallChain -/

theorem moveToEnd_none_iff (m : Nat) (b : Bool) (l : List MInvoke) :
    moveToEnd m b l = none ↔ ∀ e ∈ l, ¬ holds m b e := by
  induction l with
  | nil => simp [moveToEnd]
  | cons e es ih =>
    by_cases h : e.mPtr = m ∧ e.isFilter = b
    · simp [moveToEnd, h, holds]
    · simp only [moveToEnd, h, if_false, Option.map_eq_none', ih, List.mem_cons,
        forall_eq_or_imp, holds, not_false_eq_true, true_and]

theorem moveToEnd_first (m : Nat) (b : Bool) (l : List MInvoke) (i : Nat) (e : MInvoke)
    (hi : l[i]? = some e) (hm : holds m b e)
    (hfirst : ∀ j x, j < i → l[j]? = some x → ¬ holds m b x) :
    moveToEnd m b l = some (l.eraseIdx i ++ [⟨m, b, e.filterDeclarer⟩]) := by
  induction l generalizing i with
  | nil => simp at hi
  | cons a es ih =>
    cases i with
    | zero =>
      simp only [List.getElem?_cons_zero, Option.some.injEq] at hi
      subst hi
      have : a.mPtr = m ∧ a.isFilter = b := hm
      simp [moveToEnd, this]
    | succ k =>
      have h0 : ¬ (a.mPtr = m ∧ a.isFilter = b) := hfirst 0 a (by omega) (by simp)
      have := ih k (by simpa using hi)
        (fun j x hj hx => hfirst (j+1) x (by omega) (by simpa using hx))
      simp [moveToEnd, h0, this]

theorem AddMethodToCallChain_pass (st : OOState) (m : Nat) (cb : ChainBuilder) (df : Bool)
    (fd : Option Nat) (himpl : (st.methods m).typePtr ≠ none) (hgate : passesGate st cb m) :
    AddMethodToCallChain st (some m) cb df fd =
      { cb with contextPtr :=
          { cb.contextPtr with
            chain := cb.contextPtr.chain.take cb.filterLength
              ++ insertLate m df fd (cb.contextPtr.chain.drop cb.filterLength) } } := by
  unfold AddMethodToCallChain
  simp only [himpl, if_false]
  have : (!cb.contextPtr.flags.PRIVATE_METHOD
        && (st.methods m).flags.PRIVATE_METHOD
        && (st.methods m).declaringClassPtr != none
        && (st.methods m).declaringClassPtr
            != some (st.objects cb.contextPtr.oPtr).selfCls) = false := by
    rcases hgate with h | h | h | h <;> simp [h]
  simp only [this, Bool.false_eq_true, if_false, insertLate]
  cases moveToEnd m df (cb.contextPtr.chain.drop cb.filterLength) with
  | some moved => rfl
  | none =>
    simp only
    rw [← List.append_assoc, List.take_append_drop]

theorem AddMethodToCallChain_skip (st : OOState) (m : Nat) (cb : ChainBuilder) (df : Bool)
    (fd : Option Nat) (h : (st.methods m).typePtr = none ∨ ¬ passesGate st cb m) :
    AddMethodToCallChain st (some m) cb df fd = cb := by
  unfold AddMethodToCallChain
  rcases h with h | h
  · simp [h]
  · simp only [passesGate, not_or] at h
    obtain ⟨h1, h2, h3, h4⟩ := h
    simp only [Bool.not_eq_true, Bool.not_eq_false] at h1 h2
    by_cases ht : (st.methods m).typePtr = none
    · simp [ht]
    · simp [ht, h1, h2, h3, h4]

/-! ## C5 -/

/-- C5.  Late re-ordering in `AddMethodToCallChain`.  For an implemented method
`m` that passes the private-method gate, on a builder whose `filterLength` does
not exceed the chain length: if `i` is the first position at or after
`filterLength` whose entry holds `m` with the same `isFilter` value, the chain
afterwards is the old chain with entry `i` removed and `m` appended as last entry
(so the other entries keep their order), it has the same length, and the moved
entry carries the `filterDeclarer` of the old entry, not the `filterDecl` passed;
if no position at or after `filterLength` holds `m` with that `isFilter` value,
the chain afterwards is the old chain followed by a new entry with the passed
`filterDecl`. -/
theorem C5_late_reordering (st : OOState) (m : Nat) (cb : ChainBuilder)
    (isFilter : Bool) (filterDecl : Option Nat)
    (himpl : (st.methods m).typePtr ≠ none) (hgate : passesGate st cb m)
    (hlen : cb.filterLength ≤ cb.contextPtr.chain.length) :
    (∀ i e, cb.filterLength ≤ i → cb.contextPtr.chain[i]? = some e →
        e.mPtr = m → e.isFilter = isFilter →
        (∀ j x, cb.filterLength ≤ j → j < i → cb.contextPtr.chain[j]? = some x →
          ¬ (x.mPtr = m ∧ x.isFilter = isFilter)) →
        (AddMethodToCallChain st (some m) cb isFilter filterDecl).contextPtr.chain
          = cb.contextPtr.chain.eraseIdx i ++ [⟨m, isFilter, e.filterDeclarer⟩]
        ∧ (AddMethodToCallChain st (some m) cb isFilter filterDecl).contextPtr.chain.length
          = cb.contextPtr.chain.length)
    ∧ ((∀ i x, cb.filterLength ≤ i → cb.contextPtr.chain[i]? = some x →
          ¬ (x.mPtr = m ∧ x.isFilter = isFilter)) →
        (AddMethodToCallChain st (some m) cb isFilter filterDecl).contextPtr.chain
          = cb.contextPtr.chain ++ [⟨m, isFilter, filterDecl⟩]) := by
  rw [AddMethodToCallChain_pass st m cb isFilter filterDecl himpl hgate]
  constructor
  · intro i e hfl hi hm hf hfirst
    have hlt : i < cb.contextPtr.chain.length := by
      rcases List.getElem?_eq_some_iff.mp hi with ⟨h, _⟩; exact h
    have h1 := moveToEnd_first m isFilter (cb.contextPtr.chain.drop cb.filterLength)
      (i - cb.filterLength) e
      (by rw [List.getElem?_drop]; rw [← hi]; congr 1; omega) ⟨hm, hf⟩
      (fun j x hj hx => by
        rw [List.getElem?_drop] at hx
        exact hfirst (cb.filterLength + j) x (by omega) (by omega) hx)
    simp only [insertLate, h1]
    have h2 : cb.contextPtr.chain.take cb.filterLength ++
        ((cb.contextPtr.chain.drop cb.filterLength).eraseIdx (i - cb.filterLength) ++
          [⟨m, isFilter, e.filterDeclarer⟩])
        = cb.contextPtr.chain.eraseIdx i ++ [⟨m, isFilter, e.filterDeclarer⟩] := by
      rw [← List.append_assoc]
      congr 1
      have hlen1 : (cb.contextPtr.chain.take cb.filterLength).length = cb.filterLength := by
        rw [List.length_take]; omega
      have := List.eraseIdx_append_of_length_le
        (l := cb.contextPtr.chain.take cb.filterLength) (k := i) (by omega)
        (cb.contextPtr.chain.drop cb.filterLength)
      rw [List.take_append_drop, hlen1] at this
      exact this.symm
    simp only [h2, true_and]
    rw [List.length_append, List.length_eraseIdx]
    simp only [hlt, if_true, List.length_singleton]
    omega
  · intro hnone
    have : moveToEnd m isFilter (cb.contextPtr.chain.drop cb.filterLength) = none := by
      rw [moveToEnd_none_iff]
      intro e he
      rcases List.getElem?_of_mem he with ⟨j, hj⟩
      rw [List.getElem?_drop] at hj
      exact hnone (cb.filterLength + j) e (by omega) hj
    simp only [insertLate, this]
    rw [← List.append_assoc, List.take_append_drop]

/-! ## Walks as sequences of AddMethodToCallChain calls -/

theorem addAll_append (st : OOState) (df : Bool) (l1 l2 : List (Option Nat × Option Nat))
    (cb : ChainBuilder) : addAll st df (l1 ++ l2) cb = addAll st df l2 (addAll st df l1 cb) := by
  induction l1 generalizing cb with
  | nil => rfl
  | cons c rest ih => simp [addAll, ih]

theorem Rep_pure (st : OOState) (df : Bool) : Rep st df (fun cb => some cb) :=
  ⟨some [], fun _ => rfl⟩

theorem Rep_none (st : OOState) (df : Bool) : Rep st df (fun _ => none) :=
  ⟨none, fun _ => rfl⟩

theorem Rep_add (st : OOState) (df : Bool) (m fd : Option Nat) :
    Rep st df (fun cb => some (AddMethodToCallChain st m cb df fd)) :=
  ⟨some [(m, fd)], fun _ => rfl⟩

theorem Rep_bind (st : OOState) (df : Bool) (w1 w2 : ChainBuilder → Option ChainBuilder)
    (h1 : Rep st df w1) (h2 : Rep st df w2) : Rep st df (fun cb => (w1 cb).bind w2) := by
  obtain ⟨L1, h1⟩ := h1
  obtain ⟨L2, h2⟩ := h2
  cases L1 with
  | none => exact ⟨none, fun cb => by simp [h1]⟩
  | some l1 =>
    cases L2 with
    | none => exact ⟨none, fun cb => by simp [h1, h2]⟩
    | some l2 => exact ⟨some (l1 ++ l2), fun cb => by simp [h1, h2, addAll_append]⟩

theorem Rep_foldlM {α : Type} (st : OOState) (df : Bool)
    (w : ChainBuilder → α → Option ChainBuilder) (l : List α)
    (hw : ∀ x ∈ l, Rep st df (fun cb => w cb x)) :
    Rep st df (fun cb => l.foldlM w cb) := by
  induction l with
  | nil => exact Rep_pure st df
  | cons x rest ih =>
    have h1 := hw x (List.mem_cons_self _ _)
    have h2 := ih (fun y hy => hw y (List.mem_cons_of_mem _ hy))
    have := Rep_bind st df _ _ h1 h2
    simpa [List.foldlM_cons] using this

theorem Rep_congr (st : OOState) (df : Bool) (w1 w2 : ChainBuilder → Option ChainBuilder)
    (h : ∀ cb, w1 cb = w2 cb) (h1 : Rep st df w1) : Rep st df w2 := by
  have : w1 = w2 := funext h
  exact this ▸ h1

theorem AddSimpleClassChainToCallContext_rep (st : OOState) (name : String) (df : Bool)
    (fd : Option Nat) (fuel : Nat) : ∀ (classPtr : Nat) (flags : Flags),
    Rep st df (fun cb => AddSimpleClassChainToCallContext st name df fd fuel classPtr cb flags) := by
  induction fuel with
  | zero => intro _ _; exact Rep_none st df
  | succ n ih =>
    intro classPtr flags
    have tail : ∀ flags1, Rep st df (fun cb1 =>
        match (st.classes classPtr).superclasses with
        | [] => some cb1
        | [superPtr] => AddSimpleClassChainToCallContext st name df fd n superPtr cb1 flags1
        | supers => supers.foldlM (fun acc superPtr =>
            AddSimpleClassChainToCallContext st name df fd n superPtr acc flags1) cb1) := by
      intro flags1
      split
      · exact Rep_pure st df
      · exact ih _ _
      · exact Rep_foldlM st df _ _ (fun x _ => ih x flags1)
    have addThen : ∀ m flags1, Rep st df (fun cb =>
        match (st.classes classPtr).superclasses with
        | [] => some (AddMethodToCallChain st m cb df fd)
        | [superPtr] => AddSimpleClassChainToCallContext st name df fd n superPtr
            (AddMethodToCallChain st m cb df fd) flags1
        | supers => supers.foldlM (fun acc superPtr =>
            AddSimpleClassChainToCallContext st name df fd n superPtr acc flags1)
            (AddMethodToCallChain st m cb df fd)) := by
      intro m flags1
      have := Rep_bind st df _ _ (Rep_add st df m fd) (tail flags1)
      refine Rep_congr st df _ _ (fun cb => ?_) this
      simp only [Option.some_bind]
    unfold AddSimpleClassChainToCallContext
    simp only
    by_cases hc : flags.CONSTRUCTOR = true
    · simp only [hc, if_true]
      exact addThen _ _
    · by_cases hd : flags.DESTRUCTOR = true
      · simp only [hc, hd, if_true, if_false]
        exact addThen _ _
      · simp only [hc, hd, if_false]
        cases hl : Tcl_FindHashEntry (st.classes classPtr).classMethods name with
        | none => simp only; exact tail _
        | some mPtr =>
          simp only
          by_cases hk : flags.KNOWN_STATE = true
          · simp only [hk, Bool.not_true, Bool.false_eq_true, if_false]
            exact addThen _ _
          · simp only [hk, Bool.not_eq_true] at *
            simp only [hk, Bool.not_false, if_true]
            by_cases hp : flags.PUBLIC_METHOD = true
            · simp only [hp, if_true]
              by_cases hm : (st.methods mPtr).flags.PUBLIC_METHOD = true
              · simp only [hm, if_true]; exact addThen _ _
              · simp only [hm, if_false]; exact Rep_pure st df
            · simp only [hp, if_false]
              exact addThen _ _

theorem AddSimpleChainToCallContext_rep (st : OOState) (fuel : Nat) (oPtr : Nat)
    (name : String) (df : Bool) (flags : Flags) (fd : Option Nat) :
    Rep st df (fun cb => AddSimpleChainToCallContext st fuel oPtr name cb df flags fd) := by
  unfold AddSimpleChainToCallContext
  simp only
  split
  · exact Rep_pure st df
  · rename_i flags1 _
    refine Rep_bind st df _ _ ?_ (AddSimpleClassChainToCallContext_rep st name df fd fuel _ _)
    split
    · have hw := fun (x : Nat) => AddSimpleClassChainToCallContext_rep st name df fd fuel x flags1
      have r1 := Rep_foldlM st df (fun acc mixinPtr =>
        AddSimpleClassChainToCallContext st name df fd fuel mixinPtr acc flags1)
        (st.objects oPtr).mixins (fun x _ => hw x)
      have r2 := Rep_foldlM st df (fun acc mixinPtr =>
        AddSimpleClassChainToCallContext st name df fd fuel mixinPtr acc flags1)
        (st.classes (st.objects oPtr).selfCls).mixins (fun x _ => hw x)
      have r3 := Rep_foldlM st df (fun acc superPtr => (st.classes superPtr).mixins.foldlM
        (fun acc mixinPtr =>
          AddSimpleClassChainToCallContext st name df fd fuel mixinPtr acc flags1) acc)
        (st.classes (st.objects oPtr).selfCls).classHierarchy
        (fun s _ => Rep_foldlM st df _ _ (fun x _ => hw x))
      have r4 : Rep st df (fun cb3 =>
          match (st.objects oPtr).methodsPtr.bind (fun tbl => Tcl_FindHashEntry tbl name) with
          | some mPtr => some (AddMethodToCallChain st (some mPtr) cb3 df fd)
          | none => some cb3) := by
        split
        · exact Rep_add st df _ _
        · exact Rep_pure st df
      have := Rep_bind st df _ _ r1 (Rep_bind st df _ _ r2 (Rep_bind st df _ _ r3 r4))
      refine Rep_congr st df _ _ (fun cb => ?_) this
      simp only [bind, Option.bind]
    · exact Rep_pure st df

theorem Rep2_pure (st : OOState) : Rep2 st (fun cb done => some (cb, done)) :=
  fun done => ⟨some ([], done), fun _ => rfl⟩

theorem Rep2_bind (st : OOState)
    (w1 w2 : ChainBuilder → List String → Option (ChainBuilder × List String))
    (h1 : Rep2 st w1) (h2 : Rep2 st w2) :
    Rep2 st (fun cb done => (w1 cb done).bind (fun r => w2 r.1 r.2)) := by
  intro done
  obtain ⟨L1, h1⟩ := h1 done
  cases L1 with
  | none => exact ⟨none, fun cb => by simp [h1]⟩
  | some l1 =>
    obtain ⟨L2, h2⟩ := h2 l1.2
    cases L2 with
    | none => exact ⟨none, fun cb => by simp [h1, h2]⟩
    | some l2 =>
      exact ⟨some (l1.1 ++ l2.1, l2.2), fun cb => by simp [h1, h2, addAll_append]⟩

theorem Rep2_foldlM {α : Type} (st : OOState)
    (w : ChainBuilder × List String → α → Option (ChainBuilder × List String)) (l : List α)
    (hw : ∀ x ∈ l, Rep2 st (fun cb done => w (cb, done) x)) :
    Rep2 st (fun cb done => l.foldlM w (cb, done)) := by
  induction l with
  | nil => exact Rep2_pure st
  | cons x rest ih =>
    have h1 := hw x (List.mem_cons_self _ _)
    have h2 := ih (fun y hy => hw y (List.mem_cons_of_mem _ hy))
    have := Rep2_bind st _ _ h1 h2
    simpa [List.foldlM_cons] using this

theorem AddClassFiltersToCallContext_rep (st : OOState) (oPtr : Nat) (fuel : Nat) :
    ∀ (clsPtr : Option Nat),
    Rep2 st (fun cb done => AddClassFiltersToCallContext st oPtr fuel clsPtr cb done) := by
  induction fuel with
  | zero => intro _ done; exact ⟨none, fun _ => by simp [AddClassFiltersToCallContext]⟩
  | succ n ih =>
    intro clsPtr
    cases clsPtr with
    | none => intro done; exact ⟨some ([], done), fun _ => by simp [AddClassFiltersToCallContext, addAll]⟩
    | some c =>
      have r1 := Rep2_foldlM st (fun acc mixinPtr =>
        AddClassFiltersToCallContext st oPtr n (some mixinPtr) acc.1 acc.2)
        (st.classes c).mixins (fun x _ => ih (some x))
      have r2 := Rep2_foldlM st (fun acc filterObj =>
        if filterObj ∈ acc.2 then some acc
        else
          (AddSimpleChainToCallContext st n oPtr filterObj acc.1 true {} (some c)).map
            (fun cb1 => (cb1, filterObj :: acc.2)))
        (st.classes c).filters (fun x _ => by
          intro done
          by_cases hx : x ∈ done
          · exact ⟨some ([], done), fun cb => by simp [hx, addAll]⟩
          · obtain ⟨L, hL⟩ := AddSimpleChainToCallContext_rep st n oPtr x true {} (some c)
            cases L with
            | none => exact ⟨none, fun cb => by simp [hx, hL]⟩
            | some l => exact ⟨some (l, x :: done), fun cb => by simp [hx, hL]⟩)
      have r3 : Rep2 st (fun cb done =>
          match (st.classes c).superclasses with
          | [] => some (cb, done)
          | [superPtr] => AddClassFiltersToCallContext st oPtr n (some superPtr) cb done
          | supers => supers.foldlM (fun acc superPtr =>
              AddClassFiltersToCallContext st oPtr n (some superPtr) acc.1 acc.2) (cb, done)) := by
        split
        · exact Rep2_pure st
        · exact ih _
        · exact Rep2_foldlM st _ _ (fun x _ => ih (some x))
      have := Rep2_bind st _ _ r1 (Rep2_bind st _ _ r2 r3)
      intro done
      obtain ⟨L, hL⟩ := this done
      refine ⟨L, fun cb => ?_⟩
      rw [← hL cb]
      simp only [AddClassFiltersToCallContext, bind, Option.bind]

/-! ## The region from filterLength on -/

theorem moveToEnd_some (m : Nat) (b : Bool) (l r : List MInvoke)
    (h : moveToEnd m b l = some r) :
    ∃ l1 e l2, l = l1 ++ e :: l2 ∧ holds m b e ∧ (∀ x ∈ l1, ¬ holds m b x)
      ∧ r = l1 ++ l2 ++ [⟨m, b, e.filterDeclarer⟩] := by
  induction l generalizing r with
  | nil => simp [moveToEnd] at h
  | cons a es ih =>
    by_cases ha : a.mPtr = m ∧ a.isFilter = b
    · simp only [moveToEnd, ha, and_self, if_true, Option.some.injEq] at h
      exact ⟨[], a, es, rfl, ha, by simp, by simp [← h]⟩
    · simp only [moveToEnd, ha, if_false, Option.map_eq_some'] at h
      obtain ⟨r1, hr1, rfl⟩ := h
      obtain ⟨l1, e, l2, rfl, he, hl1, rfl⟩ := ih r1 hr1
      refine ⟨a :: l1, e, l2, rfl, he, ?_, by simp⟩
      intro x hx
      rcases List.mem_cons.mp hx with rfl | hx
      · exact ha
      · exact hl1 x hx

theorem insertLate_mem (m : Nat) (b : Bool) (fd : Option Nat) (r : List MInvoke)
    (e : MInvoke) (he : e ∈ insertLate m b fd r) : e ∈ r ∨ holds m b e := by
  unfold insertLate at he
  cases h : moveToEnd m b r with
  | none =>
    simp only [h, List.mem_append, List.mem_singleton] at he
    rcases he with he | rfl
    · exact Or.inl he
    · exact Or.inr ⟨rfl, rfl⟩
  | some moved =>
    simp only [h] at he
    obtain ⟨l1, x, l2, rfl, _, _, rfl⟩ := moveToEnd_some m b r moved h
    simp only [List.mem_append, List.mem_singleton, List.mem_cons] at he ⊢
    rcases he with (he | he) | he
    · exact Or.inl (Or.inl he)
    · exact Or.inl (Or.inr (Or.inr he))
    · rcases he with rfl | he
      · exact Or.inr ⟨rfl, rfl⟩
      · simp at he

theorem insertLate_nodup (m : Nat) (b : Bool) (fd : Option Nat) (r : List MInvoke)
    (hr : (r.map pairOf).Nodup) : ((insertLate m b fd r).map pairOf).Nodup := by
  unfold insertLate
  cases h : moveToEnd m b r with
  | none =>
    simp only
    rw [List.map_append, List.map_singleton]
    have hn := (moveToEnd_none_iff m b r).mp h
    refine List.Nodup.append hr (List.nodup_singleton _) ?_
    intro p hp hp2
    simp only [List.mem_singleton] at hp2
    subst hp2
    obtain ⟨e, he, hpe⟩ := List.mem_map.mp hp
    have : e.mPtr = m ∧ e.isFilter = b := by
      simp only [pairOf, Prod.mk.injEq] at hpe; exact hpe
    exact hn e he this
  | some moved =>
    simp only
    obtain ⟨l1, x, l2, rfl, hx, _, rfl⟩ := moveToEnd_some m b r moved h
    have hp : pairOf x = (m, b) := by
      simp only [pairOf, Prod.mk.injEq]; exact hx
    have e1 : (l1 ++ l2 ++ [(⟨m, b, x.filterDeclarer⟩ : MInvoke)]).map pairOf
        = (l1.map pairOf ++ l2.map pairOf) ++ [(m, b)] := by
      simp [pairOf]
    have e2 : (l1 ++ x :: l2).map pairOf = l1.map pairOf ++ (m, b) :: l2.map pairOf := by
      simp [hp]
    rw [e1]
    rw [e2] at hr
    have hperm : List.Perm (l1.map pairOf ++ (m, b) :: l2.map pairOf)
        ((l1.map pairOf ++ l2.map pairOf) ++ [(m, b)]) :=
      (List.perm_middle).trans (List.perm_append_singleton _ _).symm
    exact hperm.nodup_iff.mp hr

theorem insertLate_length (m : Nat) (b : Bool) (fd : Option Nat) (r : List MInvoke) :
    r.length ≤ (insertLate m b fd r).length ∧ 0 < (insertLate m b fd r).length := by
  unfold insertLate
  cases h : moveToEnd m b r with
  | none => simp
  | some moved =>
    obtain ⟨l1, x, l2, rfl, _, _, rfl⟩ := moveToEnd_some m b r moved h
    simp only [List.length_append, List.length_cons, List.length_singleton]
    omega

theorem AddMethodToCallChain_region (st : OOState) (m : Option Nat) (cb : ChainBuilder)
    (df : Bool) (fd : Option Nat) :
    AddMethodToCallChain st m cb df fd = withChain cb
      (cb.contextPtr.chain.take cb.filterLength ++
        regionAdd st cb.contextPtr.flags.PRIVATE_METHOD
          (st.objects cb.contextPtr.oPtr).selfCls df
          (cb.contextPtr.chain.drop cb.filterLength) (m, fd)) := by
  cases m with
  | none => simp [AddMethodToCallChain, regionAdd, withChain]
  | some k =>
    by_cases ha : admitted st cb.contextPtr.flags.PRIVATE_METHOD
        (st.objects cb.contextPtr.oPtr).selfCls k = true
    · have h1 : (st.methods k).typePtr ≠ none := by
        intro h; simp [admitted, h] at ha
      have h2 : passesGate st cb k := by
        unfold passesGate
        simp only [admitted, Bool.and_eq_true, Bool.not_eq_true', Bool.and_eq_false_imp,
          bne_iff_ne, ne_eq, Bool.not_eq_true, bne_eq_false_iff_eq] at ha
        by_cases p1 : cb.contextPtr.flags.PRIVATE_METHOD = true
        · exact Or.inl p1
        · by_cases p2 : (st.methods k).flags.PRIVATE_METHOD = false
          · exact Or.inr (Or.inl p2)
          · by_cases p3 : (st.methods k).declaringClassPtr = none
            · exact Or.inr (Or.inr (Or.inl p3))
            · exact Or.inr (Or.inr (Or.inr
                (ha.2 ⟨⟨by simpa using p1, by simpa using p2⟩, p3⟩)))
      rw [AddMethodToCallChain_pass st k cb df fd h1 h2]
      simp [regionAdd, ha, withChain]
    · have : (st.methods k).typePtr = none ∨ ¬ passesGate st cb k := by
        by_cases h1 : (st.methods k).typePtr = none
        · exact Or.inl h1
        · right
          intro hg
          apply ha
          have hs : (st.methods k).typePtr.isSome = true := by
            cases h : (st.methods k).typePtr with
            | none => exact absurd h h1
            | some _ => rfl
          unfold passesGate at hg
          simp only [admitted, hs, Bool.true_and]
          rcases hg with h | h | h | h <;> simp [h]
      rw [AddMethodToCallChain_skip st k cb df fd this]
      simp [regionAdd, ha, withChain]

theorem addAll_region (st : OOState) (df : Bool) (l : List (Option Nat × Option Nat))
    (cb : ChainBuilder) (hlen : cb.filterLength ≤ cb.contextPtr.chain.length) :
    addAll st df l cb = withChain cb
      (cb.contextPtr.chain.take cb.filterLength ++
        regionAll st cb.contextPtr.flags.PRIVATE_METHOD
          (st.objects cb.contextPtr.oPtr).selfCls df l
          (cb.contextPtr.chain.drop cb.filterLength)) := by
  induction l generalizing cb with
  | nil => simp [addAll, regionAll, withChain]
  | cons c rest ih =>
    have htake : (cb.contextPtr.chain.take cb.filterLength).length = cb.filterLength := by
      rw [List.length_take]; omega
    simp only [addAll]
    rw [AddMethodToCallChain_region]
    rw [ih]
    · simp only [withChain, regionAll, List.foldl_cons]
      rw [List.take_left' htake, List.drop_left' htake]
    · simp only [withChain, List.length_append, htake]
      omega

theorem addAllFilters_rep (st : OOState) (fuel : Nat) (oPtr : Nat) :
    Rep st true (fun cb => addAllFilters st fuel oPtr cb) := by
  have r1 := Rep2_foldlM st (fun acc mixinPtr =>
    AddClassFiltersToCallContext st oPtr fuel (some mixinPtr) acc.1 acc.2)
    (st.objects oPtr).mixins (fun x _ => AddClassFiltersToCallContext_rep st oPtr fuel (some x))
  obtain ⟨L1, h1⟩ := r1 []
  cases L1 with
  | none => exact ⟨none, fun cb => by simp [addAllFilters, h1]⟩
  | some l1 =>
    obtain ⟨L2, h2⟩ := Rep_foldlM st true (fun acc filterObj =>
      AddSimpleChainToCallContext st fuel oPtr filterObj acc true {} none)
      (st.objects oPtr).filters
      (fun x _ => AddSimpleChainToCallContext_rep st fuel oPtr x true {} none)
    cases L2 with
    | none => exact ⟨none, fun cb => by simp [addAllFilters, h1, h2]⟩
    | some l2 =>
      obtain ⟨L3, h3⟩ := AddClassFiltersToCallContext_rep st oPtr fuel
        (some (st.objects oPtr).selfCls) l1.2
      cases L3 with
      | none => exact ⟨none, fun cb => by simp [addAllFilters, h1, h2, h3]⟩
      | some l3 =>
        exact ⟨some (l1.1 ++ l2 ++ l3.1), fun cb => by
          simp [addAllFilters, h1, h2, h3, addAll_append]⟩

theorem regionAll_append (st : OOState) (priv : Bool) (sc : Nat) (df : Bool)
    (l1 l2 : List (Option Nat × Option Nat)) (r : List MInvoke) :
    regionAll st priv sc df (l1 ++ l2) r
      = regionAll st priv sc df l2 (regionAll st priv sc df l1 r) := by
  simp [regionAll, List.foldl_append]

theorem regionAdd_length (st : OOState) (priv : Bool) (sc : Nat) (df : Bool)
    (c : Option Nat × Option Nat) (r : List MInvoke) :
    r.length ≤ (regionAdd st priv sc df r c).length := by
  unfold regionAdd
  split
  · exact le_refl _
  · split
    · exact (insertLate_length _ _ _ _).1
    · exact le_refl _

theorem regionAll_length (st : OOState) (priv : Bool) (sc : Nat) (df : Bool)
    (l : List (Option Nat × Option Nat)) (r : List MInvoke) :
    r.length ≤ (regionAll st priv sc df l r).length := by
  induction l generalizing r with
  | nil => exact le_refl _
  | cons c rest ih =>
    simp only [regionAll, List.foldl_cons]
    exact le_trans (regionAdd_length st priv sc df c r) (ih _)

/-- Invariant step: a property of entries that holds in the region and for every
admitted candidate holds after the calls. -/
theorem regionAll_forall (st : OOState) (priv : Bool) (sc : Nat) (df : Bool)
    (P : MInvoke → Prop) (l : List (Option Nat × Option Nat)) (r : List MInvoke)
    (hnew : ∀ m fd, admitted st priv sc m = true → P ⟨m, df, fd⟩)
    (hr : ∀ e ∈ r, P e) : ∀ e ∈ regionAll st priv sc df l r, P e := by
  induction l generalizing r with
  | nil => exact hr
  | cons c rest ih =>
    simp only [regionAll, List.foldl_cons]
    apply ih
    intro e he
    unfold regionAdd at he
    split at he
    · exact hr e he
    · rename_i m hm
      split at he
      · rename_i ha
        rcases insertLate_mem m df c.2 r e he with h | h
        · exact hr e h
        · obtain ⟨h1, h2⟩ := h
          have : e = ⟨m, df, e.filterDeclarer⟩ := by
            cases e; simp only [MInvoke.mk.injEq] at *; exact ⟨h1, h2, trivial⟩
          rw [this]
          exact hnew m _ ha
      · exact hr e he

theorem regionAll_nodup (st : OOState) (priv : Bool) (sc : Nat) (df : Bool)
    (l : List (Option Nat × Option Nat)) (r : List MInvoke)
    (hr : (r.map pairOf).Nodup) : ((regionAll st priv sc df l r).map pairOf).Nodup := by
  induction l generalizing r with
  | nil => exact hr
  | cons c rest ih =>
    simp only [regionAll, List.foldl_cons]
    apply ih
    unfold regionAdd
    split
    · exact hr
    · split
      · exact insertLate_nodup _ _ _ _ hr
      · exact hr

/-! ## The construction of a new chain -/

theorem addAll_newContext (st : OOState) (df : Bool) (l : List (Option Nat × Option Nat))
    (cb : ChainBuilder) (F : List MInvoke) (hF : cb.contextPtr.chain = F)
    (hlen : cb.filterLength = F.length) :
    addAll st df l cb = withChain cb
      (F ++ regionAll st cb.contextPtr.flags.PRIVATE_METHOD
        (st.objects cb.contextPtr.oPtr).selfCls df l []) := by
  rw [addAll_region st df l cb (by rw [hF, hlen])]
  rw [hF, hlen]
  simp

theorem addAll_fresh (st1 st : OOState) (oPtr : Nat) (flags : Flags) (F : List MInvoke)
    (l : List (Option Nat × Option Nat)) :
    addAll st1 false l ⟨{ newContext st oPtr flags with chain := F }, F.length⟩
      = ⟨{ newContext st oPtr flags with
            chain := F ++ regionAll st1 flags.PRIVATE_METHOD (st1.objects oPtr).selfCls
              false l [] }, F.length⟩ := by
  rw [addAll_newContext st1 false l _ F rfl rfl]
  rfl

/-- What `buildCallContext` returns, in terms of the entries that the filter
phase (`F`), the walk for the requested name (`Rn`) and the walk for `unknown`
(`Ru`) produce from an empty region. -/
theorem buildCallContext_spec (fuel : Nat) (st : OOState) (oPtr : Nat) (name : String)
    (flags : Flags) (doFilters : Bool) (cache : HashTable (Option Nat))
    (res : CallResult × (Nat → Class) × HashTable (Option Nat))
    (h : buildCallContext fuel st oPtr name flags doFilters cache = some res) :
    InitClassHierarchy st.fPtr fuel st.classes (st.objects oPtr).selfCls = some res.2.1 ∧
    ∃ Lf Lc : List (Option Nat × Option Nat),
      (doFilters = false → Lf = []) ∧
      (∀ cb, AddSimpleChainToCallContext { st with classes := res.2.1 } fuel oPtr name cb
          false flags none = some (addAll { st with classes := res.2.1 } false Lc cb)) ∧
      (regionAll { st with classes := res.2.1 } flags.PRIVATE_METHOD
          (st.objects oPtr).selfCls false Lc [] ≠ [] →
        res.1 = CallResult.built
          { newContext st oPtr flags with
            chain := regionAll { st with classes := res.2.1 } flags.PRIVATE_METHOD
                (st.objects oPtr).selfCls true Lf []
              ++ regionAll { st with classes := res.2.1 } flags.PRIVATE_METHOD
                (st.objects oPtr).selfCls false Lc [] } ∧
        res.2.2 = (if doFilters then Tcl_SetHashValue cache name none else cache)) ∧
      (regionAll { st with classes := res.2.1 } flags.PRIVATE_METHOD
          (st.objects oPtr).selfCls false Lc [] = [] →
        res.2.2 = cache ∧
        (flags.SPECIAL = true → res.1 = CallResult.null) ∧
        (flags.SPECIAL = false → ∃ Lu : List (Option Nat × Option Nat),
          (∀ cb, AddSimpleChainToCallContext { st with classes := res.2.1 } fuel oPtr
              st.fPtr.unknownMethodNameObj cb false {} none
            = some (addAll { st with classes := res.2.1 } false Lu cb)) ∧
          (regionAll { st with classes := res.2.1 } flags.PRIVATE_METHOD
              (st.objects oPtr).selfCls false Lu [] = [] → res.1 = CallResult.null) ∧
          (regionAll { st with classes := res.2.1 } flags.PRIVATE_METHOD
              (st.objects oPtr).selfCls false Lu [] ≠ [] →
            res.1 = CallResult.built
              { newContext st oPtr flags with
                chain := regionAll { st with classes := res.2.1 } flags.PRIVATE_METHOD
                    (st.objects oPtr).selfCls true Lf []
                  ++ regionAll { st with classes := res.2.1 } flags.PRIVATE_METHOD
                    (st.objects oPtr).selfCls false Lu []
                flags := { contextFlags flags with OO_UNKNOWN_METHOD := true }
                globalEpoch := -1 }))) := by
  unfold buildCallContext at h
  cases hinit : InitClassHierarchy st.fPtr fuel st.classes (st.objects oPtr).selfCls with
  | none => simp [hinit] at h
  | some classes1 =>
    simp only [hinit] at h
    -- the filter phase
    have hfil : ∃ Lf : List (Option Nat × Option Nat), (doFilters = false → Lf = []) ∧
        (if doFilters = true then
          addAllFilters { st with classes := classes1 } fuel oPtr ⟨newContext st oPtr flags, 0⟩
         else some ⟨newContext st oPtr flags, 0⟩)
        = some (withChain ⟨newContext st oPtr flags, 0⟩
            (regionAll { st with classes := classes1 } flags.PRIVATE_METHOD
              (st.objects oPtr).selfCls true Lf [])) := by
      cases doFilters with
      | false => exact ⟨[], fun _ => rfl, by simp [regionAll, withChain, newContext]⟩
      | true =>
        obtain ⟨L, hL⟩ := addAllFilters_rep { st with classes := classes1 } fuel oPtr
        cases L with
        | none => simp [hL] at h
        | some l =>
          refine ⟨l, by simp, ?_⟩
          simp only [if_true, hL, Option.map_some']
          rw [addAll_newContext _ true l _ [] rfl rfl]
          simp [newContext, contextFlags]
    obtain ⟨Lf, hLf0, hLf⟩ := hfil
    rw [hLf] at h
    simp only at h
    obtain ⟨Lc, hLc⟩ := AddSimpleChainToCallContext_rep { st with classes := classes1 } fuel
      oPtr name false flags none
    cases Lc with
    | none => simp [hLc] at h
    | some lc =>
      simp only [Option.map_some'] at hLc
      rw [hLc] at h
      simp only [withChain] at h
      rw [addAll_fresh] at h
      simp only at h
      by_cases hR : regionAll { st with classes := classes1 } flags.PRIVATE_METHOD
          (st.objects oPtr).selfCls false lc [] = []
      · simp only [hR, List.append_nil, if_true] at h
        by_cases hs : flags.SPECIAL = true
        · simp only [hs, if_true, Option.some.injEq] at h
          subst h
          exact ⟨rfl, Lf, lc, hLf0, hLc, fun hne => absurd hR hne,
            fun _ => ⟨rfl, fun _ => rfl, fun hc => by simp [hs] at hc⟩⟩
        · simp only [hs, Bool.false_eq_true, if_false] at h
          obtain ⟨Lu, hLu⟩ := AddSimpleChainToCallContext_rep { st with classes := classes1 }
            fuel oPtr st.fPtr.unknownMethodNameObj false {} none
          cases Lu with
          | none => simp [hLu] at h
          | some lu =>
            simp only [Option.map_some'] at hLu
            rw [hLu, addAll_fresh] at h
            simp only at h
            by_cases hU : regionAll { st with classes := classes1 } flags.PRIVATE_METHOD
                (st.objects oPtr).selfCls false lu [] = []
            · simp only [hU, List.append_nil, if_true, Option.some.injEq] at h
              subst h
              exact ⟨rfl, Lf, lc, hLf0, hLc, fun hne => absurd hR hne,
                fun _ => ⟨rfl, fun hc => absurd hc hs,
                  fun _ => ⟨lu, hLu, fun _ => rfl, fun hne => absurd hU hne⟩⟩⟩
            · have hlen : ¬ ((regionAll { st with classes := classes1 } flags.PRIVATE_METHOD
                  (st.objects oPtr).selfCls true Lf []).length
                  = (regionAll { st with classes := classes1 } flags.PRIVATE_METHOD
                      (st.objects oPtr).selfCls true Lf []
                    ++ regionAll { st with classes := classes1 } flags.PRIVATE_METHOD
                      (st.objects oPtr).selfCls false lu []).length) := by
                rw [List.length_append]
                have := List.length_pos.mpr hU
                omega
              simp only [hlen, if_false, Option.some.injEq] at h
              subst h
              exact ⟨rfl, Lf, lc, hLf0, hLc, fun hne => absurd hR hne,
                fun _ => ⟨rfl, fun hc => absurd hc hs,
                  fun _ => ⟨lu, hLu, fun hc => absurd hc hU, fun _ => rfl⟩⟩⟩
      · have hlen : ¬ ((regionAll { st with classes := classes1 } flags.PRIVATE_METHOD
            (st.objects oPtr).selfCls true Lf []).length
            = (regionAll { st with classes := classes1 } flags.PRIVATE_METHOD
                (st.objects oPtr).selfCls true Lf []
              ++ regionAll { st with classes := classes1 } flags.PRIVATE_METHOD
                (st.objects oPtr).selfCls false lc []).length) := by
          rw [List.length_append]
          have := List.length_pos.mpr hR
          omega
        simp only [hlen, if_false] at h
        cases doFilters with
        | true =>
          simp only [if_true, Option.some.injEq] at h
          subst h
          exact ⟨rfl, Lf, lc, hLf0, hLc, fun _ => ⟨rfl, rfl⟩, fun hc => absurd hc hR⟩
        | false =>
          simp only [Bool.false_eq_true, if_false, Option.some.injEq] at h
          subst h
          exact ⟨rfl, Lf, lc, hLf0, hLc, fun _ => ⟨rfl, rfl⟩, fun hc => absurd hc hR⟩

/-- Every return of `TclOOGetCallContext` is a stashed context, a cached context,
or the result of the construction of a new chain on the same stores. -/
theorem TclOOGetCallContext_cases (fuel : Nat) (st : OOState) (oPtr : Nat)
    (nameObj : MethodNameObj) (flags : Flags) (cache : HashTable (Option Nat))
    (r : GetResult) (h : TclOOGetCallContext fuel st oPtr nameObj flags cache = some r) :
    (∃ p, r.ret = CallResult.stashed p ∨ r.ret = CallResult.cached p) ∨
    (∃ doFilters cache0,
      buildCallContext fuel st oPtr nameObj.bytes flags doFilters cache0
        = some (r.ret, r.st.classes, r.cache) ∧
      doFilters = !(flags.SPECIAL || flags.FILTER_HANDLING
        || (st.objects oPtr).flags.FILTER_HANDLING) ∧
      r.st.objects = st.objects ∧ r.st.methods = st.methods ∧ r.st.fPtr = st.fPtr) := by
  have fin : ∀ (contexts : Nat → Option CallContext) (n : MethodNameObj)
      (c0 : HashTable (Option Nat)) (d : Bool),
      d = !(flags.SPECIAL || flags.FILTER_HANDLING
        || (st.objects oPtr).flags.FILTER_HANDLING) →
      (buildCallContext fuel st oPtr nameObj.bytes flags d c0).map
        (fun x => (⟨x.1, { st with classes := x.2.1, contexts := contexts }, n,
          x.2.2⟩ : GetResult)) = some r →
      ∃ doFilters cache0,
        buildCallContext fuel st oPtr nameObj.bytes flags doFilters cache0
          = some (r.ret, r.st.classes, r.cache) ∧
        doFilters = !(flags.SPECIAL || flags.FILTER_HANDLING
          || (st.objects oPtr).flags.FILTER_HANDLING) ∧
        r.st.objects = st.objects ∧ r.st.methods = st.methods ∧ r.st.fPtr = st.fPtr := by
    intro contexts n c0 d hd hb
    simp only [Option.map_eq_some'] at hb
    obtain ⟨x, hx, rfl⟩ := hb
    exact ⟨d, c0, hx, hd, rfl, rfl, rfl⟩
  unfold TclOOGetCallContext at h
  simp only at h
  by_cases hm : (flags.SPECIAL || flags.FILTER_HANDLING
      || (st.objects oPtr).flags.FILTER_HANDLING) = true
  · simp only [hm, if_true] at h
    exact Or.inr (fin _ _ _ _ (by simp [hm]) h)
  · simp only [hm, Bool.false_eq_true, if_false] at h
    have hd : true = !(flags.SPECIAL || flags.FILTER_HANDLING
        || (st.objects oPtr).flags.FILTER_HANDLING) := by
      simp only [Bool.not_eq_true] at hm; simp [hm]
    have lookup : ∀ (contexts : Nat → Option CallContext) (n : MethodNameObj),
        (match Tcl_FindHashEntry cache nameObj.bytes with
        | some (some p) =>
          match contexts p with
          | none => none
          | some c =>
            if c.globalEpoch = st.fPtr.epoch ∧ c.localEpoch = (st.objects oPtr).epoch then
              some (⟨CallResult.cached p, { st with contexts := contexts }, n,
                Tcl_SetHashValue cache nameObj.bytes none⟩ : GetResult)
            else
              (TclOODeleteContext contexts p).bind
                (fun contexts1 =>
                  (buildCallContext fuel st oPtr nameObj.bytes flags true
                    (Tcl_SetHashValue cache nameObj.bytes none)).map
                  (fun x => (⟨x.1, { st with classes := x.2.1, contexts := contexts1 }, n,
                    x.2.2⟩ : GetResult)))
        | _ =>
          (buildCallContext fuel st oPtr nameObj.bytes flags true cache).map
            (fun x => (⟨x.1, { st with classes := x.2.1, contexts := contexts }, n,
              x.2.2⟩ : GetResult))) = some r →
        (∃ p, r.ret = CallResult.stashed p ∨ r.ret = CallResult.cached p) ∨
        (∃ doFilters cache0,
          buildCallContext fuel st oPtr nameObj.bytes flags doFilters cache0
            = some (r.ret, r.st.classes, r.cache) ∧
          doFilters = !(flags.SPECIAL || flags.FILTER_HANDLING
            || (st.objects oPtr).flags.FILTER_HANDLING) ∧
          r.st.objects = st.objects ∧ r.st.methods = st.methods ∧ r.st.fPtr = st.fPtr) := by
      intro contexts n hl
      cases hf : Tcl_FindHashEntry cache nameObj.bytes with
      | none =>
        simp only [hf] at hl
        exact Or.inr (fin _ _ _ _ hd hl)
      | some v =>
        cases v with
        | none =>
          simp only [hf] at hl
          exact Or.inr (fin _ _ _ _ hd hl)
        | some p =>
          simp only [hf] at hl
          cases hc : contexts p with
          | none => simp [hc] at hl
          | some c =>
            simp only [hc] at hl
            by_cases ht : c.globalEpoch = st.fPtr.epoch ∧ c.localEpoch = (st.objects oPtr).epoch
            · rw [if_pos ht] at hl
              simp only [Option.some.injEq] at hl
              subst hl
              exact Or.inl ⟨p, Or.inr rfl⟩
            · rw [if_neg ht] at hl
              cases hdel : TclOODeleteContext contexts p with
              | none => simp [hdel] at hl
              | some contexts1 =>
                simp only [hdel, Option.some_bind] at hl
                exact Or.inr (fin _ _ _ _ hd hl)
    cases hs : nameObj.stash with
    | none =>
      simp only [hs] at h
      exact lookup _ _ h
    | some p =>
      simp only [hs] at h
      cases hc : st.contexts p with
      | none => simp [hc] at h
      | some c =>
        simp only [hc] at h
        by_cases ht : (st.objects c.oPtr).creationEpoch = (st.objects oPtr).creationEpoch
            ∧ c.globalEpoch = st.fPtr.epoch
            ∧ c.localEpoch = (st.objects oPtr).epoch
            ∧ c.flags = flags
        · rw [if_pos ht] at h
          simp only [Option.some.injEq] at h
          subst h
          exact Or.inl ⟨p, Or.inl rfl⟩
        · rw [if_neg ht] at h
          cases hdel : TclOODeleteContext st.contexts p with
          | none => simp [hdel] at h
          | some contexts1 =>
            simp only [hdel, Option.some_bind] at h
            exact lookup _ _ h

theorem regionAll_methods (st1 st2 : OOState) (hm : st1.methods = st2.methods) (priv : Bool)
    (sc : Nat) (df : Bool) (l : List (Option Nat × Option Nat)) (r : List MInvoke) :
    regionAll st1 priv sc df l r = regionAll st2 priv sc df l r := by
  have : regionAdd st1 priv sc df = regionAdd st2 priv sc df := by
    funext r c
    simp [regionAdd, admitted, hm]
  simp [regionAll, this]

/-- The chain of a newly built context: the entries of the filter phase followed
by the non-empty list of entries of one walk with `doneFilters` null, both grown
from an empty region by `AddMethodToCallChain` calls. -/
theorem built_shape (fuel : Nat) (st : OOState) (oPtr : Nat) (nameObj : MethodNameObj)
    (flags : Flags) (cache : HashTable (Option Nat)) (c : CallContext)
    (h : (TclOOGetCallContext fuel st oPtr nameObj flags cache).map GetResult.ret
      = some (CallResult.built c)) :
    ∃ Lf L : List (Option Nat × Option Nat),
      c.chain = regionAll st flags.PRIVATE_METHOD (st.objects oPtr).selfCls true Lf []
        ++ regionAll st flags.PRIVATE_METHOD (st.objects oPtr).selfCls false L [] ∧
      regionAll st flags.PRIVATE_METHOD (st.objects oPtr).selfCls false L [] ≠ [] := by
  simp only [Option.map_eq_some'] at h
  obtain ⟨r, hr, hret⟩ := h
  rcases TclOOGetCallContext_cases fuel st oPtr nameObj flags cache r hr with
    ⟨p, hp | hp⟩ | ⟨d, c0, hb, _, _, _, _⟩
  · rw [hp] at hret; cases hret
  · rw [hp] at hret; cases hret
  · obtain ⟨_, Lf, Lc, _, _, h1, h2⟩ := buildCallContext_spec fuel st oPtr nameObj.bytes flags
      d c0 _ hb
    simp only at h1 h2
    have e : ∀ df l, regionAll { st with classes := r.st.classes } flags.PRIVATE_METHOD
        (st.objects oPtr).selfCls df l []
        = regionAll st flags.PRIVATE_METHOD (st.objects oPtr).selfCls df l [] :=
      fun df l => regionAll_methods _ _ rfl _ _ _ _ _
    simp only [e] at h1 h2
    by_cases hR : regionAll st flags.PRIVATE_METHOD (st.objects oPtr).selfCls false Lc [] = []
    · obtain ⟨_, hs1, hs2⟩ := h2 hR
      by_cases hs : flags.SPECIAL = true
      · rw [hs1 hs] at hret; cases hret
      · simp only [Bool.not_eq_true] at hs
        obtain ⟨Lu, _, hu1, hu2⟩ := hs2 hs
        by_cases hU : regionAll st flags.PRIVATE_METHOD (st.objects oPtr).selfCls false Lu [] = []
        · rw [hu1 hU] at hret; cases hret
        · rw [hu2 hU] at hret
          simp only [CallResult.built.injEq] at hret
          subst hret
          exact ⟨Lf, Lu, rfl, hU⟩
    · rw [(h1 hR).1] at hret
      simp only [CallResult.built.injEq] at hret
      subst hret
      exact ⟨Lf, Lc, rfl, hR⟩

/-! ## C4 -/

/-- C4.  Whenever `TclOOGetCallContext` builds a chain, no `(method, isFilter)`
pair occurs at two positions of the chain. -/
theorem C4_no_pair_twice (fuel : Nat) (st : OOState) (oPtr : Nat)
    (nameObj : MethodNameObj) (flags : Flags) (cache : HashTable (Option Nat))
    (c : CallContext)
    (h : (TclOOGetCallContext fuel st oPtr nameObj flags cache).map GetResult.ret
      = some (CallResult.built c)) :
    (c.chain.map (fun e => (e.mPtr, e.isFilter))).Nodup := by
  obtain ⟨Lf, L, hc, _⟩ := built_shape fuel st oPtr nameObj flags cache c h
  have hF := regionAll_nodup st flags.PRIVATE_METHOD (st.objects oPtr).selfCls true Lf []
    (by simp)
  have hR := regionAll_nodup st flags.PRIVATE_METHOD (st.objects oPtr).selfCls false L []
    (by simp)
  have fF := regionAll_forall st flags.PRIVATE_METHOD (st.objects oPtr).selfCls true
    (fun e => e.isFilter = true) Lf [] (fun _ _ _ => rfl) (by simp)
  have fR := regionAll_forall st flags.PRIVATE_METHOD (st.objects oPtr).selfCls false
    (fun e => e.isFilter = false) L [] (fun _ _ _ => rfl) (by simp)
  show (c.chain.map pairOf).Nodup
  rw [hc, List.map_append]
  refine List.Nodup.append hF hR ?_
  intro p hp1 hp2
  obtain ⟨e1, he1, rfl⟩ := List.mem_map.mp hp1
  obtain ⟨e2, he2, he⟩ := List.mem_map.mp hp2
  have h1 := fF e1 he1
  have h2 := fR e2 he2
  simp only [pairOf, Prod.mk.injEq] at he
  simp only at h1 h2
  rw [← he.2, h2] at h1
  exact absurd h1 (by simp)

/-! ## C6 -/

/-- C6.  Every entry of a chain built by `TclOOGetCallContext` refers to a method
whose `typePtr` is not null. -/
theorem C6_entries_implemented (fuel : Nat) (st : OOState) (oPtr : Nat)
    (nameObj : MethodNameObj) (flags : Flags) (cache : HashTable (Option Nat))
    (c : CallContext)
    (h : (TclOOGetCallContext fuel st oPtr nameObj flags cache).map GetResult.ret
      = some (CallResult.built c)) :
    ∀ e ∈ c.chain, (st.methods e.mPtr).typePtr ≠ none := by
  obtain ⟨Lf, L, hc, _⟩ := built_shape fuel st oPtr nameObj flags cache c h
  have hnew : ∀ (df : Bool) (m : Nat) (fd : Option Nat),
      admitted st flags.PRIVATE_METHOD (st.objects oPtr).selfCls m = true →
      (st.methods (MInvoke.mk m df fd).mPtr).typePtr ≠ none := by
    intro df m fd ha hn
    simp only at hn
    simp [admitted, hn] at ha
  intro e he
  rw [hc, List.mem_append] at he
  rcases he with he | he
  · exact regionAll_forall st _ _ true (fun e => (st.methods e.mPtr).typePtr ≠ none) Lf []
      (hnew true) (by simp) e he
  · exact regionAll_forall st _ _ false (fun e => (st.methods e.mPtr).typePtr ≠ none) L []
      (hnew false) (by simp) e he

/-! ## C8 -/

/-- C8.  In every chain that `TclOOGetCallContext` builds there is an index
`filterLength` such that all entries before it have `isFilter` set, all entries
from it on have `isFilter` clear, and at least one entry lies at or after it. -/
theorem C8_filters_first (fuel : Nat) (st : OOState) (oPtr : Nat)
    (nameObj : MethodNameObj) (flags : Flags) (cache : HashTable (Option Nat))
    (c : CallContext)
    (h : (TclOOGetCallContext fuel st oPtr nameObj flags cache).map GetResult.ret
      = some (CallResult.built c)) :
    ∃ filterLength, filterLength < c.chain.length
      ∧ (∀ e ∈ c.chain.take filterLength, e.isFilter = true)
      ∧ (∀ e ∈ c.chain.drop filterLength, e.isFilter = false) := by
  obtain ⟨Lf, L, hc, hne⟩ := built_shape fuel st oPtr nameObj flags cache c h
  have fF := regionAll_forall st flags.PRIVATE_METHOD (st.objects oPtr).selfCls true
    (fun e => e.isFilter = true) Lf [] (fun _ _ _ => rfl) (by simp)
  have fR := regionAll_forall st flags.PRIVATE_METHOD (st.objects oPtr).selfCls false
    (fun e => e.isFilter = false) L [] (fun _ _ _ => rfl) (by simp)
  refine ⟨(regionAll st flags.PRIVATE_METHOD (st.objects oPtr).selfCls true Lf []).length,
    ?_, ?_, ?_⟩
  · rw [hc, List.length_append]
    have := List.length_pos.mpr hne
    omega
  · rw [hc, List.take_left]
    exact fF
  · rw [hc, List.drop_left]
    exact fR

/-- The construction of scenario S3 that the witnesses below use. -/
theorem filterContext_built :
    (TclOOGetCallContext 4 (filterState true) 101 ⟨"m", none⟩ { PUBLIC_METHOD := true } []).map
      GetResult.ret = some (CallResult.built filterContext) := by
  rfl

/-- Witness of C4 on scenario S3. -/
theorem C4_no_pair_twice_witness :
    (filterContext.chain.map (fun e => (e.mPtr, e.isFilter))).Nodup :=
  C4_no_pair_twice 4 (filterState true) 101 ⟨"m", none⟩ { PUBLIC_METHOD := true } []
    filterContext filterContext_built

/-- Witness of C6 on scenario S3. -/
theorem C6_entries_implemented_witness :
    ((filterState true).methods 23).typePtr ≠ none :=
  C6_entries_implemented 4 (filterState true) 101 ⟨"m", none⟩ { PUBLIC_METHOD := true } []
    filterContext filterContext_built ⟨23, true, none⟩ (by decide)

/-- Witness of C8 on scenario S3. -/
theorem C8_filters_first_witness :
    ∃ filterLength, filterLength < filterContext.chain.length
      ∧ (∀ e ∈ filterContext.chain.take filterLength, e.isFilter = true)
      ∧ (∀ e ∈ filterContext.chain.drop filterLength, e.isFilter = false) :=
  C8_filters_first 4 (filterState true) 101 ⟨"m", none⟩ { PUBLIC_METHOD := true } []
    filterContext filterContext_built

/-- Witness of C5: in scenario S2, adding `A.m` (method 12) to the chain
`[D.m, B.m, A.m, C.m]` moves the entry at position 2 to the end. -/
theorem C5_late_reordering_witness :
    (AddMethodToCallChain (diamondState []) (some 12)
      ⟨{ filterContext with
          chain := [⟨15, false, none⟩, ⟨13, false, none⟩, ⟨12, false, some 7⟩,
            ⟨14, false, none⟩] }, 0⟩ false none).contextPtr.chain
      = [⟨15, false, none⟩, ⟨13, false, none⟩, ⟨14, false, none⟩, ⟨12, false, some 7⟩] :=
  ((C5_late_reordering (diamondState []) 12
      ⟨{ filterContext with
          chain := [⟨15, false, none⟩, ⟨13, false, none⟩, ⟨12, false, some 7⟩,
            ⟨14, false, none⟩] }, 0⟩ false none (by decide) (by decide) (by decide)).1
    2 ⟨12, false, some 7⟩ (by decide) rfl rfl rfl
    (fun j x _ hj hx => by
      have hj2 : j = 0 ∨ j = 1 := by omega
      rcases hj2 with rfl | rfl
      · simp only [List.getElem?_cons_zero, Option.some.injEq] at hx
        subst hx
        decide
      · simp only [List.getElem?_cons_succ, List.getElem?_cons_zero, Option.some.injEq] at hx
        subst hx
        decide)).1

/-! ## C7 -/

/-- C7.  Private-method gating.  In every chain built with flags that lack
`PRIVATE_METHOD`, every entry whose method is marked `PRIVATE_METHOD` and has a
non-null declaring class has the class of the target object as declaring class.
In scenario S4 (class D with superclass C, C declaring the private method `p`) a
public dispatch of `p` on a direct instance of D returns no chain, hence no entry
for `C.p`, for every fuel of at least 3. -/
theorem C7_private_gating :
    (∀ (fuel : Nat) (st : OOState) (oPtr : Nat) (nameObj : MethodNameObj) (flags : Flags)
      (cache : HashTable (Option Nat)) (c : CallContext),
      (TclOOGetCallContext fuel st oPtr nameObj flags cache).map GetResult.ret
        = some (CallResult.built c) →
      flags.PRIVATE_METHOD = false →
      ∀ e ∈ c.chain, (st.methods e.mPtr).flags.PRIVATE_METHOD = true →
        ∀ d, (st.methods e.mPtr).declaringClassPtr = some d →
          d = (st.objects oPtr).selfCls)
    ∧ (∀ k, (TclOOGetCallContext (k + 3) privateState 100 ⟨"p", none⟩
        { PUBLIC_METHOD := true } []).map GetResult.ret = some CallResult.null) := by
  refine ⟨?_, fun k => rfl⟩
  intro fuel st oPtr nameObj flags cache c h hp
  obtain ⟨Lf, L, hc, _⟩ := built_shape fuel st oPtr nameObj flags cache c h
  have hnew : ∀ (df : Bool) (m : Nat) (fd : Option Nat),
      admitted st flags.PRIVATE_METHOD (st.objects oPtr).selfCls m = true →
      (st.methods (MInvoke.mk m df fd).mPtr).flags.PRIVATE_METHOD = true →
        ∀ d, (st.methods (MInvoke.mk m df fd).mPtr).declaringClassPtr = some d →
          d = (st.objects oPtr).selfCls := by
    intro df m fd ha hpriv d hd
    simp only at hpriv hd
    simp only [admitted, hp, hpriv, hd, Bool.not_false, Bool.true_and, Bool.and_eq_true,
      Bool.not_eq_true', Bool.and_eq_false_imp, bne_iff_ne, ne_eq, reduceCtorEq,
      not_false_eq_true, bne_eq_false_iff_eq, Option.some.injEq, true_implies] at ha
    exact ha.2
  intro e he
  rw [hc, List.mem_append] at he
  rcases he with he | he
  · exact regionAll_forall st _ _ true (fun e =>
      (st.methods e.mPtr).flags.PRIVATE_METHOD = true →
        ∀ d, (st.methods e.mPtr).declaringClassPtr = some d → d = (st.objects oPtr).selfCls)
      Lf [] (hnew true) (by simp) e he
  · exact regionAll_forall st _ _ false (fun e =>
      (st.methods e.mPtr).flags.PRIVATE_METHOD = true →
        ∀ d, (st.methods e.mPtr).declaringClassPtr = some d → d = (st.objects oPtr).selfCls)
      L [] (hnew false) (by simp) e he

/-- Witness of C7: in scenario S4 a non-public dispatch of `p` on a direct instance
of C builds the chain `[C.p]`, whose private entry is declared by the class of the
object. -/
theorem C7_private_gating_witness :
    (privateState.methods 31).flags.PRIVATE_METHOD = true
      ∧ (privateState.methods 31).declaringClassPtr = some 2
      ∧ 2 = (privateState.objects 101).selfCls :=
  ⟨rfl, rfl, C7_private_gating.1 3 privateState 101 ⟨"p", none⟩ {} []
    { oPtr := 101, globalEpoch := 1, localEpoch := 0, flags := {}, index := 0, skip := 2,
      chain := [⟨31, false, none⟩], refCount := 1 } rfl rfl ⟨31, false, none⟩ (by decide)
    rfl 2 rfl⟩

/-! ## InitClassHierarchy changes only the linearization cache -/

theorem onlyHierarchyChanged_refl (a : Nat → Class) : onlyHierarchyChanged a a :=
  fun _ => rfl

theorem onlyHierarchyChanged_trans (a b c : Nat → Class) (h1 : onlyHierarchyChanged a b)
    (h2 : onlyHierarchyChanged b c) : onlyHierarchyChanged a c := by
  intro x
  have e1 := h1 x
  have e2 := h2 x
  rw [e2]
  conv_lhs => rw [e1]

theorem onlyHierarchyChanged_setAt (a : Nat → Class) (p : Nat) (l : List Nat) (e : Int) :
    onlyHierarchyChanged a
      (setAt a p { a p with classHierarchy := l, classHierarchyEpoch := e }) := by
  intro x
  unfold setAt
  by_cases hx : x = p
  · subst hx; simp
  · simp [hx]

theorem foldlM_rel {α β : Type} (R : β → β → Prop) (hrefl : ∀ a, R a a)
    (htrans : ∀ a b c, R a b → R b c → R a c) (f : β → α → Option β) (l : List α)
    (hf : ∀ acc x r, x ∈ l → f acc x = some r → R acc r) :
    ∀ a r, l.foldlM f a = some r → R a r := by
  induction l with
  | nil =>
    intro a r h
    simp only [List.foldlM_nil, pure, Option.some.injEq] at h
    subst h
    exact hrefl a
  | cons x rest ih =>
    intro a r h
    simp only [List.foldlM_cons, bind, Option.bind] at h
    cases hx : f a x with
    | none => simp [hx] at h
    | some b =>
      simp only [hx] at h
      exact htrans a b r (hf a x b (List.mem_cons_self _ _) hx)
        (ih (fun acc y r hy => hf acc y r (List.mem_cons_of_mem _ hy)) b r h)

theorem InitClassHierarchy_fields (fPtr : Foundation) (fuel : Nat) :
    ∀ (classes : Nat → Class) (c : Nat) (classes1 : Nat → Class),
      InitClassHierarchy fPtr fuel classes c = some classes1 →
      onlyHierarchyChanged classes classes1 := by
  induction fuel with
  | zero => intro classes c classes1 h; simp [InitClassHierarchy] at h
  | succ n ih =>
    intro classes c classes1 h
    unfold InitClassHierarchy at h
    by_cases hroot : c = fPtr.objectCls
    · simp only [hroot, if_true, Option.some.injEq] at h
      subst h
      exact onlyHierarchyChanged_refl _
    · simp only [hroot, if_false] at h
      by_cases he : (classes c).classHierarchyEpoch = fPtr.epoch
      · simp only [he, ne_eq, not_true_eq_false, if_false, Option.some.injEq] at h
        subst h
        exact onlyHierarchyChanged_refl _
      · simp only [ne_eq, he, not_false_eq_true, if_true] at h
        cases hf : (classes c).superclasses.foldlM
            (fun acc superPtr => InitClassHierarchy fPtr n acc superPtr) classes with
        | none => simp [hf] at h
        | some classes2 =>
          simp only [hf] at h
          have h2 : onlyHierarchyChanged classes classes2 :=
            foldlM_rel onlyHierarchyChanged onlyHierarchyChanged_refl
              onlyHierarchyChanged_trans _ _ (fun acc x r _ hx => ih acc x r hx) _ _ hf
          split at h
          · simp only [Option.some.injEq] at h
            subst h
            exact onlyHierarchyChanged_trans _ _ _ h2 (onlyHierarchyChanged_setAt _ _ _ _)
          · simp only [Option.some.injEq] at h
            subst h
            exact onlyHierarchyChanged_trans _ _ _ h2 (onlyHierarchyChanged_setAt _ _ _ _)

theorem onlyHierarchyChanged_data (a b : Nat → Class) (h : onlyHierarchyChanged a b)
    (x : Nat) :
    (b x).superclasses = (a x).superclasses ∧ (b x).mixins = (a x).mixins
      ∧ (b x).filters = (a x).filters ∧ (b x).classMethods = (a x).classMethods
      ∧ (b x).constructorPtr = (a x).constructorPtr
      ∧ (b x).destructorPtr = (a x).destructorPtr := by
  have := h x
  rw [this]
  exact ⟨rfl, rfl, rfl, rfl, rfl, rfl⟩

theorem isChain_congr (a b : Nat → Class)
    (h : ∀ x, (b x).superclasses = (a x).superclasses) :
    ∀ cs, isChain a cs → isChain b cs := by
  intro cs
  induction cs with
  | nil => exact id
  | cons c rest ih =>
    cases rest with
    | nil => intro hc; simp only [isChain] at hc ⊢; rw [h, hc]
    | cons d rest2 =>
      intro hc
      simp only [isChain] at hc ⊢
      exact ⟨by rw [h, hc.1], ih hc.2⟩

/-! ## Single-inheritance chains -/

theorem InitClassHierarchy_chain (fPtr : Foundation) :
    ∀ (cs : List Nat) (c : Nat) (rest : List Nat) (classes : Nat → Class) (fuel : Nat),
      cs = c :: rest → isChain classes cs → cs.length ≤ fuel →
      ∃ classes1, InitClassHierarchy fPtr fuel classes c = some classes1 := by
  intro cs
  induction cs with
  | nil => intro c rest classes fuel h; cases h
  | cons c0 rest0 ih =>
    intro c rest classes fuel h hc hfuel
    simp only [List.cons.injEq] at h
    obtain ⟨rfl, rfl⟩ := h
    cases fuel with
    | zero => simp at hfuel
    | succ n =>
      unfold InitClassHierarchy
      by_cases hroot : c0 = fPtr.objectCls
      · exact ⟨classes, by simp [hroot]⟩
      · by_cases he : (classes c0).classHierarchyEpoch = fPtr.epoch
        · exact ⟨classes, by simp [hroot, he]⟩
        · simp only [hroot, if_false, ne_eq, he, not_false_eq_true, if_true]
          cases rest0 with
          | nil =>
            simp only [isChain] at hc
            simp [hc]
          | cons d rest2 =>
            simp only [isChain] at hc
            obtain ⟨classes2, h2⟩ := ih d rest2 classes n rfl hc.2
              (by simp only [List.length_cons] at hfuel ⊢; omega)
            have hf := InitClassHierarchy_fields fPtr n classes d classes2 h2
            have hs : (classes2 c0).superclasses = [d] := by
              rw [(onlyHierarchyChanged_data _ _ hf c0).1, hc.1]
            simp [hc.1, h2, hs]

theorem AddClassFiltersToCallContext_chain (st : OOState) (oPtr : Nat) :
    ∀ (cs : List Nat) (c : Nat) (rest : List Nat) (fuel : Nat) (cb : ChainBuilder)
      (done : List String),
      cs = c :: rest → isChain st.classes cs →
      (∀ x ∈ cs, (st.classes x).mixins = [] ∧ (st.classes x).filters = []) →
      cs.length ≤ fuel →
      AddClassFiltersToCallContext st oPtr fuel (some c) cb done = some (cb, done) := by
  intro cs
  induction cs with
  | nil => intro c rest fuel cb done h; cases h
  | cons c0 rest0 ih =>
    intro c rest fuel cb done h hc hno hfuel
    simp only [List.cons.injEq] at h
    obtain ⟨rfl, rfl⟩ := h
    cases fuel with
    | zero => simp at hfuel
    | succ n =>
      have h0 := hno c0 (List.mem_cons_self _ _)
      cases rest0 with
      | nil =>
        simp only [isChain] at hc
        simp [AddClassFiltersToCallContext, h0.1, h0.2, hc]
      | cons d rest2 =>
        simp only [isChain] at hc
        have := ih d rest2 n cb done rfl hc.2
          (fun x hx => hno x (List.mem_cons_of_mem _ hx))
          (by simp only [List.length_cons] at hfuel ⊢; omega)
        simp [AddClassFiltersToCallContext, h0.1, h0.2, hc.1, this]

theorem AddSimpleClassChainToCallContext_chain (st : OOState) (name : String) (df : Bool)
    (fd : Option Nat) :
    ∀ (cs : List Nat) (c : Nat) (rest : List Nat) (fuel : Nat) (cb : ChainBuilder)
      (flags : Flags),
      cs = c :: rest → isChain st.classes cs → cs.length ≤ fuel →
      flags.CONSTRUCTOR = false → flags.DESTRUCTOR = false →
      (flags.KNOWN_STATE = true ∨ flags.PUBLIC_METHOD = false
        ∨ ∀ m0, (records st name cs).head? = some m0 →
            (st.methods m0).flags.PUBLIC_METHOD = true) →
      AddSimpleClassChainToCallContext st name df fd fuel c cb flags
        = some (addAll st df ((records st name cs).map (fun m => (some m, fd))) cb) := by
  intro cs
  induction cs with
  | nil => intro c rest fuel cb flags h; cases h
  | cons c0 rest0 ih =>
    intro c rest fuel cb flags h hc hfuel hC hD hvis
    simp only [List.cons.injEq] at h
    obtain ⟨rfl, rfl⟩ := h
    cases fuel with
    | zero => simp at hfuel
    | succ n =>
      -- the rest of the walk, for any builder and flags that keep the conditions
      have tail : ∀ (cb1 : ChainBuilder) (flags1 : Flags),
          flags1.CONSTRUCTOR = false → flags1.DESTRUCTOR = false →
          (flags1.KNOWN_STATE = true ∨ flags1.PUBLIC_METHOD = false
            ∨ ∀ m0, (records st name rest0).head? = some m0 →
                (st.methods m0).flags.PUBLIC_METHOD = true) →
          (match (st.classes c0).superclasses with
            | [] => some cb1
            | [superPtr] =>
              AddSimpleClassChainToCallContext st name df fd n superPtr cb1 flags1
            | supers => supers.foldlM (fun acc superPtr =>
                AddSimpleClassChainToCallContext st name df fd n superPtr acc flags1) cb1)
          = some (addAll st df ((records st name rest0).map (fun m => (some m, fd))) cb1) := by
        intro cb1 flags1 hC1 hD1 hv1
        cases rest0 with
        | nil =>
          simp only [isChain] at hc
          simp [hc, records, addAll]
        | cons d rest2 =>
          simp only [isChain] at hc
          simp only [hc.1]
          exact ih d rest2 n cb1 flags1 rfl hc.2
            (by simp only [List.length_cons] at hfuel ⊢; omega) hC1 hD1 hv1
      unfold AddSimpleClassChainToCallContext
      simp only [hC, hD, Bool.false_eq_true, if_false]
      cases hl : Tcl_FindHashEntry (st.classes c0).classMethods name with
      | none =>
        have hr : records st name (c0 :: rest0) = records st name rest0 := by
          simp [records, hl]
        rw [hr] at hvis ⊢
        simp only
        exact tail cb flags hC hD hvis
      | some mPtr =>
        have hr : records st name (c0 :: rest0) = mPtr :: records st name rest0 := by
          simp [records, hl]
        rw [hr] at hvis ⊢
        simp only [List.map_cons, addAll]
        by_cases hk : flags.KNOWN_STATE = true
        · simp only [hk, Bool.not_true, Bool.false_eq_true, if_false]
          exact tail _ flags hC hD (Or.inl hk)
        · simp only [Bool.not_eq_true] at hk
          simp only [hk, Bool.not_false, if_true]
          by_cases hp : flags.PUBLIC_METHOD = true
          · have hpub : (st.methods mPtr).flags.PUBLIC_METHOD = true := by
              rcases hvis with h1 | h1 | h1
              · rw [hk] at h1; cases h1
              · rw [hp] at h1; cases h1
              · exact h1 mPtr rfl
            simp only [hp, hpub, if_true]
            exact tail _ _ rfl rfl (Or.inl (by simp [Flags.KNOWN_STATE]))
          · simp only [hp, Bool.false_eq_true, if_false]
            exact tail _ _ rfl rfl (Or.inl (by simp [Flags.KNOWN_STATE]))

theorem foldlM_const {α β : Type} (f : β → α → Option β) (l : List α)
    (hf : ∀ acc x, x ∈ l → f acc x = some acc) (a : β) : l.foldlM f a = some a := by
  induction l with
  | nil => rfl
  | cons x rest ih =>
    simp only [List.foldlM_cons, bind, Option.bind, hf a x (List.mem_cons_self _ _)]
    exact ih (fun acc y hy => hf acc y (List.mem_cons_of_mem _ hy))

theorem AddSimpleChainToCallContext_chain (st : OOState) (oPtr : Nat) (name : String)
    (df : Bool) (fd : Option Nat) (cs : List Nat) (c0 : Nat) (rest : List Nat) (fuel : Nat)
    (cb : ChainBuilder) (flags : Flags)
    (hcs : cs = c0 :: rest) (hself : (st.objects oPtr).selfCls = c0)
    (hchain : isChain st.classes cs) (hfuel : cs.length ≤ fuel)
    (hobjm : (st.objects oPtr).methodsPtr.bind (fun tbl => Tcl_FindHashEntry tbl name) = none)
    (hobjmix : (st.objects oPtr).mixins = [])
    (hmix : ∀ c, (st.classes c).mixins = [])
    (hC : flags.CONSTRUCTOR = false) (hD : flags.DESTRUCTOR = false)
    (hvis : flags.KNOWN_STATE = true ∨ flags.PUBLIC_METHOD = false
      ∨ ∀ m0, (records st name cs).head? = some m0 →
          (st.methods m0).flags.PUBLIC_METHOD = true) :
    AddSimpleChainToCallContext st fuel oPtr name cb df flags fd
      = some (addAll st df ((records st name cs).map (fun m => (some m, fd))) cb) := by
  unfold AddSimpleChainToCallContext
  have hsp : flags.SPECIAL = false := by simp [Flags.SPECIAL, hC, hD]
  have hchecked : (if (!(flags.KNOWN_STATE || flags.SPECIAL)
        && (st.objects oPtr).methodsPtr.isSome) = true then
      match (st.objects oPtr).methodsPtr.bind (fun tbl => Tcl_FindHashEntry tbl name) with
      | some mPtr =>
        if flags.PUBLIC_METHOD = true then
          if (!(st.methods mPtr).flags.PUBLIC_METHOD) = true then none
          else some { flags with DEFINITE_PUBLIC := true }
        else some { flags with DEFINITE_PROTECTED := true }
      | none => some flags
    else some flags) = some flags := by
    rw [hobjm]
    simp
  simp only [hchecked, hsp, Bool.not_false, if_true, hobjmix, hmix, hobjm, hself]
  have h3 : (st.classes c0).classHierarchy.foldlM
      (fun (acc : ChainBuilder) (superPtr : Nat) => (some acc : Option ChainBuilder)) cb
      = some cb := foldlM_const _ _ (fun _ _ _ => rfl) cb
  simp only [List.foldlM_nil, pure, bind, Option.bind, h3, ite_self, hsp, Bool.not_false]
  exact AddSimpleClassChainToCallContext_chain st name df fd cs c0 rest fuel cb flags hcs
    hchain hfuel hC hD hvis

theorem addAllFilters_chain (st : OOState) (oPtr : Nat) (cs : List Nat) (c0 : Nat)
    (rest : List Nat) (fuel : Nat) (cb : ChainBuilder)
    (hcs : cs = c0 :: rest) (hself : (st.objects oPtr).selfCls = c0)
    (hchain : isChain st.classes cs) (hfuel : cs.length ≤ fuel)
    (hobjmix : (st.objects oPtr).mixins = []) (hobjfil : (st.objects oPtr).filters = [])
    (hno : ∀ x ∈ cs, (st.classes x).mixins = [] ∧ (st.classes x).filters = []) :
    addAllFilters st fuel oPtr cb = some cb := by
  unfold addAllFilters
  simp only [hobjmix, hobjfil, List.foldlM_nil, pure, bind, Option.bind, hself]
  rw [AddClassFiltersToCallContext_chain st oPtr cs c0 rest fuel cb [] hcs hchain hno hfuel]

theorem regionAll_records (st : OOState) (priv : Bool) (sc : Nat) (df : Bool)
    (fd : Option Nat) :
    ∀ (recs : List Nat) (R : List MInvoke),
      (∀ m ∈ recs, (st.methods m).flags.PRIVATE_METHOD = false) →
      (recs.filter (fun m => (st.methods m).typePtr.isSome)).Nodup →
      (∀ m ∈ recs, ∀ e ∈ R, e.mPtr ≠ m) →
      regionAll st priv sc df (recs.map (fun m => (some m, fd))) R
        = R ++ (recs.filter (fun m => (st.methods m).typePtr.isSome)).map
            (fun m => (⟨m, df, fd⟩ : MInvoke)) := by
  intro recs
  induction recs with
  | nil => intro R _ _ _; simp [regionAll]
  | cons m rest ih =>
    intro R hnp hnd hR
    have hm := hnp m (List.mem_cons_self _ _)
    simp only [List.map_cons, regionAll, List.foldl_cons]
    have hadm : admitted st priv sc m = (st.methods m).typePtr.isSome := by
      simp [admitted, hm]
    by_cases hi : (st.methods m).typePtr.isSome = true
    · have hnone : moveToEnd m df R = none := by
        rw [moveToEnd_none_iff]
        intro e he hh
        exact hR m (List.mem_cons_self _ _) e he hh.1
      simp only [List.filter_cons, hi, if_true, List.nodup_cons, List.mem_filter] at hnd
      have hrest := ih (R ++ [⟨m, df, fd⟩])
        (fun x hx => hnp x (List.mem_cons_of_mem _ hx)) hnd.2
        (fun x hx e he => by
          rcases List.mem_append.mp he with he | he
          · exact hR x (List.mem_cons_of_mem _ hx) e he
          · simp only [List.mem_singleton] at he
            subst he
            simp only
            intro hmx
            subst hmx
            exact hnd.1 ⟨hx, trivial⟩)
      simp only [regionAll] at hrest
      simp only [regionAdd, hadm, hi, if_true, insertLate, hnone, List.filter_cons,
        List.map_cons]
      rw [hrest]
      simp
    · simp only [List.filter_cons, hi, if_false] at hnd
      have hrest := ih R (fun x hx => hnp x (List.mem_cons_of_mem _ hx)) hnd
        (fun x hx => hR x (List.mem_cons_of_mem _ hx))
      simp only [regionAll] at hrest
      simp only [regionAdd, hadm, hi, if_false, List.filter_cons, Bool.false_eq_true]
      rw [hrest]

theorem records_congr (st1 st2 : OOState) (name : String)
    (h : ∀ x, (st1.classes x).classMethods = (st2.classes x).classMethods) (cs : List Nat) :
    records st1 name cs = records st2 name cs := by
  simp [records, h]

theorem buildCallContext_chain (st : OOState) (oPtr : Nat) (name : String) (flags : Flags)
    (doFilters : Bool) (cache : HashTable (Option Nat))
    (cs : List Nat) (c0 : Nat) (rest : List Nat) (fuel : Nat)
    (hcs : cs = c0 :: rest) (hself : (st.objects oPtr).selfCls = c0)
    (hchain : isChain st.classes cs) (hfuel : cs.length ≤ fuel)
    (hobjm : (st.objects oPtr).methodsPtr.bind (fun tbl => Tcl_FindHashEntry tbl name) = none)
    (hobjmix : (st.objects oPtr).mixins = []) (hobjfil : (st.objects oPtr).filters = [])
    (hmix : ∀ c, (st.classes c).mixins = [])
    (hfil : ∀ c ∈ cs, (st.classes c).filters = [])
    (hC : flags.CONSTRUCTOR = false) (hD : flags.DESTRUCTOR = false)
    (hvis : flags.PUBLIC_METHOD = false
      ∨ ∀ m0, (records st name cs).head? = some m0 →
          (st.methods m0).flags.PUBLIC_METHOD = true)
    (hnp : ∀ m ∈ records st name cs, (st.methods m).flags.PRIVATE_METHOD = false)
    (hnd : ((records st name cs).filter (fun m => (st.methods m).typePtr.isSome)).Nodup)
    (hne : (records st name cs).filter (fun m => (st.methods m).typePtr.isSome) ≠ []) :
    ∃ classes1 cache1,
      buildCallContext fuel st oPtr name flags doFilters cache
        = some (CallResult.built
            { newContext st oPtr flags with
              chain := ((records st name cs).filter
                (fun m => (st.methods m).typePtr.isSome)).map
                  (fun m => (⟨m, false, none⟩ : MInvoke)) }, classes1, cache1) := by
  obtain ⟨classes1, hinit⟩ := InitClassHierarchy_chain st.fPtr cs c0 rest st.classes fuel hcs
    hchain hfuel
  have hf := InitClassHierarchy_fields st.fPtr fuel st.classes c0 classes1 hinit
  have hdata := onlyHierarchyChanged_data _ _ hf
  have hchain1 : isChain classes1 cs := isChain_congr _ _ (fun x => (hdata x).1) cs hchain
  have hmix1 : ∀ c, (classes1 c).mixins = [] := fun c => by rw [(hdata c).2.1, hmix]
  have hfil1 : ∀ c ∈ cs, (classes1 c).mixins = [] ∧ (classes1 c).filters = [] :=
    fun c hc => ⟨hmix1 c, by rw [(hdata c).2.2.1, hfil c hc]⟩
  have hrec : records { st with classes := classes1 } name cs = records st name cs :=
    records_congr _ _ name (fun x => (hdata x).2.2.2.1) cs
  have hfilt : (if doFilters = true then
        addAllFilters { st with classes := classes1 } fuel oPtr ⟨newContext st oPtr flags, 0⟩
      else some ⟨newContext st oPtr flags, 0⟩) = some ⟨newContext st oPtr flags, 0⟩ := by
    cases doFilters with
    | false => rfl
    | true =>
      simp only [if_true]
      exact addAllFilters_chain { st with classes := classes1 } oPtr cs c0 rest fuel _ hcs
        hself hchain1 hfuel hobjmix hobjfil hfil1
  have hcore := AddSimpleChainToCallContext_chain { st with classes := classes1 } oPtr name
    false none cs c0 rest fuel
    ⟨{ newContext st oPtr flags with chain := [] }, ([] : List MInvoke).length⟩ flags hcs hself
    hchain1 hfuel hobjm hobjmix hmix1 hC hD
    (Or.inr (by rw [hrec]; exact hvis))
  rw [hrec, addAll_fresh] at hcore
  have hreg := regionAll_records { st with classes := classes1 } flags.PRIVATE_METHOD
    (st.objects oPtr).selfCls false none (records st name cs) [] hnp hnd (by simp)
  rw [hreg] at hcore
  simp only [List.nil_append] at hcore
  have hlen : ¬ (0 = (((records st name cs).filter
      (fun m => (st.methods m).typePtr.isSome)).map
        (fun m => (⟨m, false, none⟩ : MInvoke))).length) := by
    rw [List.length_map]
    have := List.length_pos.mpr hne
    omega
  refine ⟨classes1, if doFilters then Tcl_SetHashValue cache name none else cache, ?_⟩
  unfold buildCallContext
  rw [hself, hinit]
  simp only [hfilt]
  have e0 : (newContext st oPtr flags).chain.length = 0 := rfl
  have e1 : (⟨newContext st oPtr flags, (newContext st oPtr flags).chain.length⟩ : ChainBuilder)
      = ⟨{ newContext st oPtr flags with chain := [] }, ([] : List MInvoke).length⟩ := rfl
  rw [e1, hcore]
  simp only [e0, hlen, if_false]
  cases doFilters <;> rfl

/-! ## C2 -/

/-- C2.  Linear inheritance order (scenario S1).  Take an object without a
per-instance record for the name, without mixins and filters, whose class
ancestry is the single-inheritance chain `cs` (its class first), in a state where
no class has mixins and the classes of the chain declare no filters.  For a
dispatch that is not for a constructor or destructor, that is not public-only or
whose first class record for the name is public, with no record for the name
marked private, the records being distinct and at least one of them implemented,
and with nothing stashed or cached for the name: for every fuel of at least the
length of the chain, `TclOOGetCallContext` builds the chain of the implemented
records `Ci.m` in the order of the classes, most-derived class first, as
non-filter entries.  For B extending A, both defining `m`, the chain built on
an instance of B is `[B.m, A.m]`, for every fuel of at least 3. -/
theorem C2_linear_inheritance :
    (∀ (st : OOState) (oPtr : Nat) (nameObj : MethodNameObj) (flags : Flags)
      (cache : HashTable (Option Nat)) (cs : List Nat) (c0 : Nat) (rest : List Nat)
      (fuel : Nat),
      cs = c0 :: rest → (st.objects oPtr).selfCls = c0 → isChain st.classes cs →
      cs.length ≤ fuel →
      (st.objects oPtr).methodsPtr.bind (fun tbl => Tcl_FindHashEntry tbl nameObj.bytes)
        = none →
      (st.objects oPtr).mixins = [] → (st.objects oPtr).filters = [] →
      (∀ c, (st.classes c).mixins = []) →
      (∀ c ∈ cs, (st.classes c).filters = []) →
      flags.CONSTRUCTOR = false → flags.DESTRUCTOR = false →
      (flags.PUBLIC_METHOD = false
        ∨ ∀ m0, (records st nameObj.bytes cs).head? = some m0 →
            (st.methods m0).flags.PUBLIC_METHOD = true) →
      (∀ m ∈ records st nameObj.bytes cs, (st.methods m).flags.PRIVATE_METHOD = false) →
      ((records st nameObj.bytes cs).filter
        (fun m => (st.methods m).typePtr.isSome)).Nodup →
      (records st nameObj.bytes cs).filter (fun m => (st.methods m).typePtr.isSome) ≠ [] →
      nameObj.stash = none →
      (∀ p, Tcl_FindHashEntry cache nameObj.bytes ≠ some (some p)) →
      (TclOOGetCallContext fuel st oPtr nameObj flags cache).bind builtChain
        = some (((records st nameObj.bytes cs).filter
            (fun m => (st.methods m).typePtr.isSome)).map
              (fun m => (⟨m, false, none⟩ : MInvoke))))
    ∧ (∀ k, (TclOOGetCallContext (k + 3) linearState 100 ⟨"m", none⟩
          { PUBLIC_METHOD := true } []).bind builtChain
        = some [⟨13, false, none⟩, ⟨12, false, none⟩]) := by
  refine ⟨?_, fun k => rfl⟩
  intro st oPtr nameObj flags cache cs c0 rest fuel hcs hself hchain hfuel hobjm hobjmix
    hobjfil hmix hfil hC hD hvis hnp hnd hne hstash hcache
  have fin : ∀ (contexts : Nat → Option CallContext) (n : MethodNameObj)
      (c : HashTable (Option Nat)) (d : Bool),
      ((buildCallContext fuel st oPtr nameObj.bytes flags d c).map
        (fun x => (⟨x.1, { st with classes := x.2.1, contexts := contexts }, n,
          x.2.2⟩ : GetResult))).bind builtChain
      = some (((records st nameObj.bytes cs).filter
            (fun m => (st.methods m).typePtr.isSome)).map
              (fun m => (⟨m, false, none⟩ : MInvoke))) := by
    intro contexts n c d
    obtain ⟨classes1, cache1, hb⟩ := buildCallContext_chain st oPtr nameObj.bytes flags d c
      cs c0 rest fuel hcs hself hchain hfuel hobjm hobjmix hobjfil hmix hfil hC hD hvis hnp
      hnd hne
    rw [hb]
    rfl
  unfold TclOOGetCallContext
  simp only [hstash]
  by_cases hm : (flags.SPECIAL || flags.FILTER_HANDLING
      || (st.objects oPtr).flags.FILTER_HANDLING) = true
  · simp only [hm, if_true]
    exact fin _ _ _ _
  · simp only [hm, Bool.false_eq_true, if_false]
    cases hl : Tcl_FindHashEntry cache nameObj.bytes with
    | none => exact fin _ _ _ _
    | some v =>
      cases v with
      | none => exact fin _ _ _ _
      | some p => exact absurd hl (hcache p)

/-- Witness of C2 on scenario S1, with the chain of classes B, A and the root. -/
theorem C2_linear_inheritance_witness :
    (TclOOGetCallContext 3 linearState 100 ⟨"m", none⟩ { PUBLIC_METHOD := true } []).bind
      builtChain = some [⟨13, false, none⟩, ⟨12, false, none⟩] :=
  C2_linear_inheritance.1 linearState 100 ⟨"m", none⟩ { PUBLIC_METHOD := true } []
    [3, 2, 0] 3 [2, 0] 3 rfl rfl (by decide) (by decide) rfl rfl rfl
    (fun c => by
      unfold linearState
      simp only
      split <;> rfl)
    (by decide) rfl rfl (Or.inr (by decide)) (by decide) (by decide) (by decide) rfl
    (fun p h => by cases h)

/-! ## Walks for constructors and destructors -/

theorem AddSimpleClassChainToCallContext_special (st : OOState) (name : String) (df : Bool)
    (fd : Option Nat) (flags : Flags) (hs : flags.SPECIAL = true) (fuel : Nat) :
    ∀ (c : Nat) (cb r : ChainBuilder),
      (flags.CONSTRUCTOR = true →
        ∀ x, reaches st.classes c x → (st.classes x).constructorPtr = none) →
      (flags.CONSTRUCTOR = false →
        ∀ x, reaches st.classes c x → (st.classes x).destructorPtr = none) →
      AddSimpleClassChainToCallContext st name df fd fuel c cb flags = some r → r = cb := by
  induction fuel with
  | zero => intro c cb r _ _ h; simp [AddSimpleClassChainToCallContext] at h
  | succ n ih =>
    intro c cb r h1 h2 h
    have hsub : ∀ s ∈ (st.classes c).superclasses, ∀ x, reaches st.classes s x →
        reaches st.classes c x :=
      fun s hs x hx => Relation.ReflTransGen.head hs hx
    have hrec : ∀ s ∈ (st.classes c).superclasses, ∀ (acc r1 : ChainBuilder),
        AddSimpleClassChainToCallContext st name df fd n s acc flags = some r1 → r1 = acc :=
      fun s hs acc r1 hr => ih s acc r1 (fun hc x hx => h1 hc x (hsub s hs x hx))
        (fun hc x hx => h2 hc x (hsub s hs x hx)) hr
    have tail : (match (st.classes c).superclasses with
        | [] => some cb
        | [superPtr] => AddSimpleClassChainToCallContext st name df fd n superPtr cb flags
        | supers => supers.foldlM (fun acc superPtr =>
            AddSimpleClassChainToCallContext st name df fd n superPtr acc flags) cb)
        = some r → r = cb := by
      intro ht
      split at ht
      · simp only [Option.some.injEq] at ht; exact ht.symm
      · rename_i s hsup
        exact hrec s (by rw [hsup]; simp) cb r ht
      · exact (foldlM_rel (fun a b => b = a) (fun _ => rfl)
          (fun a b c hab hbc => by rw [hbc, hab]) _ _
          (fun acc x r1 hx hr => hrec x hx acc r1 hr) cb r ht)
    unfold AddSimpleClassChainToCallContext at h
    by_cases hc : flags.CONSTRUCTOR = true
    · have : (st.classes c).constructorPtr = none := h1 hc c Relation.ReflTransGen.refl
      simp only [hc, if_true, this, AddMethodToCallChain] at h
      exact tail h
    · simp only [Bool.not_eq_true] at hc
      have hd : flags.DESTRUCTOR = true := by
        simp only [Flags.SPECIAL, hc, Bool.false_or] at hs; exact hs
      have : (st.classes c).destructorPtr = none := h2 hc c Relation.ReflTransGen.refl
      simp only [hc, hd, Bool.false_eq_true, if_false, if_true, this,
        AddMethodToCallChain] at h
      exact tail h

theorem AddSimpleChainToCallContext_special (st : OOState) (fuel : Nat) (oPtr : Nat)
    (name : String) (df : Bool) (fd : Option Nat) (flags : Flags)
    (hs : flags.SPECIAL = true) (cb r : ChainBuilder)
    (h1 : flags.CONSTRUCTOR = true →
      ∀ x, reaches st.classes (st.objects oPtr).selfCls x →
        (st.classes x).constructorPtr = none)
    (h2 : flags.CONSTRUCTOR = false →
      ∀ x, reaches st.classes (st.objects oPtr).selfCls x →
        (st.classes x).destructorPtr = none)
    (h : AddSimpleChainToCallContext st fuel oPtr name cb df flags fd = some r) : r = cb := by
  unfold AddSimpleChainToCallContext at h
  simp only [hs, Bool.or_true, Bool.not_true, Bool.false_and, Bool.false_eq_true, if_false,
    Option.some_bind] at h
  exact AddSimpleClassChainToCallContext_special st name df fd flags hs fuel _ cb r h1 h2 h

theorem reaches_congr (a b : Nat → Class)
    (h : ∀ x, (b x).superclasses = (a x).superclasses) (x y : Nat)
    (hr : reaches b x y) : reaches a x y := by
  unfold reaches at hr ⊢
  exact Relation.ReflTransGen.mono (fun u v huv => by rw [← h u]; exact huv) hr

theorem filter_nonfilter (F R : List MInvoke) (hF : ∀ e ∈ F, e.isFilter = true)
    (hR : ∀ e ∈ R, e.isFilter = false) :
    (F ++ R).filter (fun e => !e.isFilter) = R := by
  rw [List.filter_append]
  have h1 : F.filter (fun e => !e.isFilter) = [] := by
    rw [List.filter_eq_nil_iff]
    intro e he
    simp [hF e he]
  have h2 : R.filter (fun e => !e.isFilter) = R := by
    rw [List.filter_eq_self]
    intro e he
    simp [hR e he]
  rw [h1, h2, List.nil_append]

/-! ## C9 -/

/-- C9.  Unknown fallback.  Let `TclOOGetCallContext` return `v` without taking a
stashed or cached context, and let `req` be what the core walk for the requested
name contributes (run on an empty chain, after `InitClassHierarchy`).  If `req` is
not empty, `v` is a context without `OO_UNKNOWN_METHOD`, stamped with the
foundation epoch, whose non-filter part is `req`.  If `req` is empty and the flags
have neither `CONSTRUCTOR` nor `DESTRUCTOR`, the walk for the interned `unknown`
name is made with flags 0: when it contributes entries, `v` is a context with
`OO_UNKNOWN_METHOD` set, `globalEpoch = -1` and these entries as non-filter part;
`v` is `NULL` exactly when neither walk contributes an entry, whatever the filter
phase produced.  With `CONSTRUCTOR` or `DESTRUCTOR`, `v` is `NULL` exactly when
`req` is empty (`unknown` is not tried), in particular when no class reached from
the class of the object along superclass links has the constructor (destructor).
In scenario S5 (no method `x` anywhere, the class defines `unknown`) the dispatch
of `x` returns, for every fuel of at least 3, the context made of the `unknown`
method with `OO_UNKNOWN_METHOD` set and `globalEpoch = -1`. -/
theorem C9_unknown_fallback :
    (∀ (fuel : Nat) (st : OOState) (oPtr : Nat) (nameObj : MethodNameObj) (flags : Flags)
      (cache : HashTable (Option Nat)) (v : CallResult),
      (TclOOGetCallContext fuel st oPtr nameObj flags cache).map GetResult.ret = some v →
      (∀ p, v ≠ CallResult.stashed p ∧ v ≠ CallResult.cached p) →
      ∃ classes1 req,
        InitClassHierarchy st.fPtr fuel st.classes (st.objects oPtr).selfCls = some classes1
        ∧ coreWalk st classes1 fuel oPtr nameObj.bytes flags flags = some req
        ∧ (req.contextPtr.chain ≠ [] →
            ∃ c, v = CallResult.built c ∧ c.flags.OO_UNKNOWN_METHOD = false
              ∧ c.globalEpoch = st.fPtr.epoch ∧ nonFilterPart c = req.contextPtr.chain)
        ∧ (flags.SPECIAL = false → req.contextPtr.chain = [] →
            ∃ unk, coreWalk st classes1 fuel oPtr st.fPtr.unknownMethodNameObj flags {}
                = some unk
              ∧ (unk.contextPtr.chain ≠ [] →
                  ∃ c, v = CallResult.built c ∧ c.flags.OO_UNKNOWN_METHOD = true
                    ∧ c.globalEpoch = -1 ∧ nonFilterPart c = unk.contextPtr.chain)
              ∧ (v = CallResult.null ↔ unk.contextPtr.chain = []))
        ∧ (flags.SPECIAL = false →
            (v = CallResult.null ↔
              req.contextPtr.chain = []
                ∧ ∀ unk, coreWalk st classes1 fuel oPtr st.fPtr.unknownMethodNameObj flags {}
                    = some unk → unk.contextPtr.chain = []))
        ∧ (flags.SPECIAL = true → (v = CallResult.null ↔ req.contextPtr.chain = []))
        ∧ (flags.SPECIAL = true →
            (flags.CONSTRUCTOR = true →
              ∀ x, reaches st.classes (st.objects oPtr).selfCls x →
                (st.classes x).constructorPtr = none) →
            (flags.CONSTRUCTOR = false →
              ∀ x, reaches st.classes (st.objects oPtr).selfCls x →
                (st.classes x).destructorPtr = none) →
            v = CallResult.null))
    ∧ (∀ k, (TclOOGetCallContext (k + 3) unknownState 100 ⟨"x", none⟩
        { PUBLIC_METHOD := true } []).map GetResult.ret
        = some (CallResult.built unknownContext)) := by
  refine ⟨?_, fun k => rfl⟩
  intro fuel st oPtr nameObj flags cache v h hfresh
  simp only [Option.map_eq_some'] at h
  obtain ⟨r, hr, hret⟩ := h
  rcases TclOOGetCallContext_cases fuel st oPtr nameObj flags cache r hr with
    ⟨p, hp | hp⟩ | ⟨d, c0, hb, _, _, _, _⟩
  · rw [hp] at hret; exact absurd hret.symm (hfresh p).1
  · rw [hp] at hret; exact absurd hret.symm (hfresh p).2
  · obtain ⟨hinit, Lf, Lc, _, hLc, h1, h2⟩ := buildCallContext_spec fuel st oPtr
      nameObj.bytes flags d c0 _ hb
    simp only at hinit hLc h1 h2
    rw [hret] at h1 h2
    -- the two regions
    have fF := regionAll_forall { st with classes := r.st.classes } flags.PRIVATE_METHOD
      (st.objects oPtr).selfCls true (fun e => e.isFilter = true) Lf []
      (fun _ _ _ => rfl) (by simp)
    have fR : ∀ l, ∀ e ∈ regionAll { st with classes := r.st.classes } flags.PRIVATE_METHOD
        (st.objects oPtr).selfCls false l [], e.isFilter = false :=
      fun l => regionAll_forall { st with classes := r.st.classes } flags.PRIVATE_METHOD
        (st.objects oPtr).selfCls false (fun e => e.isFilter = false) l []
        (fun _ _ _ => rfl) (by simp)
    have hchain : ∀ l, (addAll { st with classes := r.st.classes } false l
        ⟨newContext st oPtr flags, 0⟩).contextPtr.chain
        = regionAll { st with classes := r.st.classes } flags.PRIVATE_METHOD
            (st.objects oPtr).selfCls false l [] := by
      intro l
      have e := addAll_fresh { st with classes := r.st.classes } st oPtr flags [] l
      have e2 : (⟨{ newContext st oPtr flags with chain := [] },
          ([] : List MInvoke).length⟩ : ChainBuilder) = ⟨newContext st oPtr flags, 0⟩ := rfl
      rw [e2] at e
      rw [e]
      simp
    have hnull : flags.SPECIAL = true → regionAll { st with classes := r.st.classes }
        flags.PRIVATE_METHOD (st.objects oPtr).selfCls false Lc [] = [] →
        v = CallResult.null := fun hs hR => (h2 hR).2.1 hs
    refine ⟨r.st.classes, addAll { st with classes := r.st.classes } false Lc
      ⟨newContext st oPtr flags, 0⟩, hinit, hLc _, ?_, ?_, ?_, ?_, ?_⟩
    · intro hne
      rw [hchain] at hne ⊢
      refine ⟨_, (h1 hne).1, rfl, rfl, ?_⟩
      exact filter_nonfilter _ _ fF (fR Lc)
    · intro hs hR
      rw [hchain] at hR
      obtain ⟨Lu, hLu, hu1, hu2⟩ := (h2 hR).2.2 hs
      refine ⟨addAll { st with classes := r.st.classes } false Lu
        ⟨newContext st oPtr flags, 0⟩, hLu _, ?_, ?_⟩
      · intro hne
        rw [hchain] at hne ⊢
        refine ⟨_, hu2 hne, rfl, rfl, ?_⟩
        exact filter_nonfilter _ _ fF (fR Lu)
      · rw [hchain]
        constructor
        · intro hv
          by_contra hne
          rw [hu2 hne] at hv
          cases hv
        · exact hu1
    · intro hs
      constructor
      · intro hv
        have hR : regionAll { st with classes := r.st.classes } flags.PRIVATE_METHOD
            (st.objects oPtr).selfCls false Lc [] = [] := by
          by_contra hne
          rw [(h1 hne).1] at hv
          cases hv
        refine ⟨by rw [hchain]; exact hR, ?_⟩
        intro unk hunk
        obtain ⟨Lu, hLu, hu1, hu2⟩ := (h2 hR).2.2 hs
        simp only [coreWalk] at hunk
        rw [hLu] at hunk
        simp only [Option.some.injEq] at hunk
        subst hunk
        rw [hchain]
        by_contra hne
        rw [hu2 hne] at hv
        cases hv
      · intro ⟨hR, hall⟩
        rw [hchain] at hR
        obtain ⟨Lu, hLu, hu1, hu2⟩ := (h2 hR).2.2 hs
        have := hall _ (hLu _)
        rw [hchain] at this
        exact hu1 this
    · intro hs
      rw [hchain]
      constructor
      · intro hv
        by_contra hne
        rw [(h1 hne).1] at hv
        cases hv
      · exact hnull hs
    · intro hs hc hd
      apply hnull hs
      rw [← hchain]
      have hdata := onlyHierarchyChanged_data _ _
        (InitClassHierarchy_fields st.fPtr fuel st.classes _ _ hinit)
      have hsp := AddSimpleChainToCallContext_special { st with classes := r.st.classes }
        fuel oPtr nameObj.bytes false none flags hs ⟨newContext st oPtr flags, 0⟩ _
        (fun hcc x hx => by
          have := hc hcc x (reaches_congr _ _ (fun y => (hdata y).1) _ _ hx)
          show (r.st.classes x).constructorPtr = none
          rw [(hdata x).2.2.2.2.1, this])
        (fun hcc x hx => by
          have := hd hcc x (reaches_congr _ _ (fun y => (hdata y).1) _ _ hx)
          show (r.st.classes x).destructorPtr = none
          rw [(hdata x).2.2.2.2.2, this])
        (hLc _)
      rw [hsp]
      rfl

/-! ## The stash and the per-object cache -/

theorem lookup_map_set {β : Type} (k : String) (v : β) :
    ∀ (t : HashTable β), (List.lookup k t).isSome = true →
      List.lookup k (t.map (fun kv => if kv.1 = k then (kv.1, v) else kv)) = some v := by
  intro t
  induction t with
  | nil => intro h; simp at h
  | cons a rest ih =>
    intro h
    obtain ⟨a1, a2⟩ := a
    by_cases hk : a1 = k
    · subst hk
      have e : (if (a1, a2).1 = a1 then ((a1, a2).1, v) else (a1, a2)) = (a1, v) := by simp
      rw [List.map_cons, e, List.lookup_cons]
      simp
    · have hk2 : (k == a1) = false := by
        simp only [beq_eq_false_iff_ne, ne_eq]
        exact fun h2 => hk h2.symm
      have e : (if (a1, a2).1 = k then ((a1, a2).1, v) else (a1, a2)) = (a1, a2) := by
        simp [hk]
      rw [List.lookup_cons, hk2] at h
      rw [List.map_cons, e, List.lookup_cons, hk2]
      exact ih h

theorem lookup_append_new {β : Type} (k : String) (v : β) :
    ∀ (t : HashTable β), List.lookup k t = none →
      List.lookup k (t ++ [(k, v)]) = some v := by
  intro t
  induction t with
  | nil => intro _; rw [List.nil_append, List.lookup_cons]; simp
  | cons a rest ih =>
    intro h
    obtain ⟨a1, a2⟩ := a
    by_cases hk2 : (k == a1) = true
    · rw [List.lookup_cons, hk2] at h
      cases h
    · simp only [Bool.not_eq_true] at hk2
      rw [List.lookup_cons, hk2] at h
      rw [List.cons_append, List.lookup_cons, hk2]
      exact ih h

theorem Tcl_FindHashEntry_set {β : Type} (t : HashTable β) (k : String) (v : β) :
    Tcl_FindHashEntry (Tcl_SetHashValue t k v) k = some v := by
  unfold Tcl_SetHashValue Tcl_FindHashEntry
  by_cases h : (List.lookup k t).isSome = true
  · simp only [h, if_true]
    exact lookup_map_set k v t h
  · simp only [h, Bool.false_eq_true, if_false]
    apply lookup_append_new
    cases hl : List.lookup k t with
    | none => rfl
    | some x => simp [hl] at h

theorem buildCallContext_ret (fuel : Nat) (st : OOState) (oPtr : Nat) (name : String)
    (flags : Flags) (doFilters : Bool) (cache : HashTable (Option Nat))
    (res : CallResult × (Nat → Class) × HashTable (Option Nat))
    (h : buildCallContext fuel st oPtr name flags doFilters cache = some res) :
    (∀ p, res.1 ≠ CallResult.stashed p ∧ res.1 ≠ CallResult.cached p)
    ∧ (res.2.2 = cache ∨ res.2.2 = Tcl_SetHashValue cache name none) := by
  obtain ⟨_, Lf, Lc, _, _, h1, h2⟩ := buildCallContext_spec fuel st oPtr name flags
    doFilters cache res h
  by_cases hR : regionAll { st with classes := res.2.1 } flags.PRIVATE_METHOD
      (st.objects oPtr).selfCls false Lc [] = []
  · obtain ⟨hc, hs1, hs2⟩ := h2 hR
    refine ⟨fun p => ?_, Or.inl hc⟩
    by_cases hs : flags.SPECIAL = true
    · rw [hs1 hs]; exact ⟨by simp, by simp⟩
    · simp only [Bool.not_eq_true] at hs
      obtain ⟨Lu, _, hu1, hu2⟩ := hs2 hs
      by_cases hU : regionAll { st with classes := res.2.1 } flags.PRIVATE_METHOD
          (st.objects oPtr).selfCls false Lu [] = []
      · rw [hu1 hU]; exact ⟨by simp, by simp⟩
      · rw [hu2 hU]; exact ⟨by simp, by simp⟩
  · obtain ⟨hb, hc⟩ := h1 hR
    refine ⟨fun p => by rw [hb]; exact ⟨by simp, by simp⟩, ?_⟩
    cases doFilters with
    | true => exact Or.inr (by simpa using hc)
    | false => exact Or.inl (by simpa using hc)

theorem TclOODeleteContext_spec (K K1 : Nat → Option CallContext) (p : Nat)
    (h : TclOODeleteContext K p = some K1) :
    ∃ c, K p = some c
      ∧ (K1 p = none ∨ K1 p = some { c with refCount := c.refCount - 1 })
      ∧ ∀ q, q ≠ p → K1 q = K q := by
  unfold TclOODeleteContext at h
  cases hc : K p with
  | none => simp [hc] at h
  | some c =>
    simp only [hc] at h
    refine ⟨c, rfl, ?_⟩
    by_cases hr : c.refCount - 1 ≥ 1
    · rw [if_pos hr] at h
      simp only [Option.some.injEq] at h
      subst h
      exact ⟨Or.inr (by simp [setAt]), fun q hq => by simp [setAt, hq]⟩
    · rw [if_neg hr] at h
      simp only [Option.some.injEq] at h
      subst h
      exact ⟨Or.inl (by simp [setAt]), fun q hq => by simp [setAt, hq]⟩

theorem released_of_none (before after : Nat → Option CallContext) (p : Nat)
    (c : CallContext) (hb : before p = some c) (ha : after p = none) :
    released before after p := by
  unfold released
  rw [hb, ha]
  trivial

theorem released_of_some (before after : Nat → Option CallContext) (p : Nat)
    (c c1 : CallContext) (hb : before p = some c) (ha : after p = some c1)
    (hlt : c1.refCount < c.refCount) (he : c1 = { c with refCount := c1.refCount }) :
    released before after p := by
  unfold released
  rw [hb, ha]
  exact ⟨hlt, he⟩

/-- One release of the context at `p`. -/
theorem released_delete (K K1 : Nat → Option CallContext) (p : Nat) (c : CallContext)
    (hK : K p = some c) (h : TclOODeleteContext K p = some K1) : released K K1 p := by
  obtain ⟨c0, hc0, h1, _⟩ := TclOODeleteContext_spec K K1 p h
  rw [hK] at hc0
  cases hc0
  rcases h1 with h1 | h1
  · exact released_of_none K K1 p c hK h1
  · exact released_of_some K K1 p c _ hK h1 (by simp) rfl

/-- A release of the context at `p` followed by a release of any context. -/
theorem released_delete_delete (K K1 K2 : Nat → Option CallContext) (p q : Nat)
    (c : CallContext) (hK : K p = some c) (h1 : TclOODeleteContext K p = some K1)
    (h2 : TclOODeleteContext K1 q = some K2) : released K K2 p := by
  obtain ⟨c0, hc0, e1, _⟩ := TclOODeleteContext_spec K K1 p h1
  rw [hK] at hc0
  cases hc0
  obtain ⟨c1, hc1, e2, hother⟩ := TclOODeleteContext_spec K1 K2 q h2
  by_cases hq : p = q
  · subst hq
    rcases e2 with e2 | e2
    · exact released_of_none K K2 p c hK e2
    · rcases e1 with e1 | e1
      · rw [e1] at hc1; cases hc1
      · rw [e1] at hc1
        cases hc1
        exact released_of_some K K2 p c _ hK e2 (by simp; omega) rfl
  · rw [← hother p hq] at e1
    rcases e1 with e1 | e1
    · exact released_of_none K K2 p c hK e1
    · exact released_of_some K K2 p c _ hK e1 (by simp) rfl

theorem released_before (K K0 K2 : Nat → Option CallContext) (p : Nat)
    (he : K0 p = K p) (h : released K K2 p) : released K0 K2 p := by
  unfold released at h ⊢
  rw [he]
  exact h

/-! ## C10 -/

/-- C10.  Stale contexts are never returned.  When `TclOOGetCallContext` returns
the context stashed in the method name, or the context found in the per-object
cache, that context has `globalEpoch` equal to the foundation epoch and
`localEpoch` equal to the epoch of the object (a cached context returned is also
detached from its slot).  When caching is in use, a stashed context failing this
test leaves the method name without stash and is released; and when the lookup
goes on to the cache, a cached context failing the test leaves the slot holding
`NULL` and is released. -/
theorem C10_no_stale_context (fuel : Nat) (st : OOState) (oPtr : Nat)
    (nameObj : MethodNameObj) (flags : Flags) (cache : HashTable (Option Nat))
    (r : GetResult) (h : TclOOGetCallContext fuel st oPtr nameObj flags cache = some r) :
    (∀ p, r.ret = CallResult.stashed p →
        nameObj.stash = some p ∧
        ∃ c, st.contexts p = some c ∧ c.globalEpoch = st.fPtr.epoch
          ∧ c.localEpoch = (st.objects oPtr).epoch
          ∧ r.st.contexts p = some { c with refCount := c.refCount + 1 })
    ∧ (∀ p, r.ret = CallResult.cached p →
        Tcl_FindHashEntry cache nameObj.bytes = some (some p)
        ∧ Tcl_FindHashEntry r.cache nameObj.bytes = some none
        ∧ ∃ c, r.st.contexts p = some c ∧ c.globalEpoch = st.fPtr.epoch
          ∧ c.localEpoch = (st.objects oPtr).epoch)
    ∧ (∀ p c, (flags.SPECIAL || flags.FILTER_HANDLING
          || (st.objects oPtr).flags.FILTER_HANDLING) = false →
        nameObj.stash = some p → st.contexts p = some c →
        (c.globalEpoch ≠ st.fPtr.epoch ∨ c.localEpoch ≠ (st.objects oPtr).epoch) →
        r.methodNameObj.stash = none ∧ released st.contexts r.st.contexts p)
    ∧ (∀ p c, (flags.SPECIAL || flags.FILTER_HANDLING
          || (st.objects oPtr).flags.FILTER_HANDLING) = false →
        (∀ q, r.ret ≠ CallResult.stashed q) →
        Tcl_FindHashEntry cache nameObj.bytes = some (some p) → st.contexts p = some c →
        (c.globalEpoch ≠ st.fPtr.epoch ∨ c.localEpoch ≠ (st.objects oPtr).epoch) →
        Tcl_FindHashEntry r.cache nameObj.bytes = some none
          ∧ released st.contexts r.st.contexts p) := by
  have fin : ∀ (K : Nat → Option CallContext) (n : MethodNameObj)
      (c0 : HashTable (Option Nat)) (d : Bool),
      (buildCallContext fuel st oPtr nameObj.bytes flags d c0).map
        (fun x => (⟨x.1, { st with classes := x.2.1, contexts := K }, n,
          x.2.2⟩ : GetResult)) = some r →
      r.st.contexts = K ∧ r.methodNameObj = n
        ∧ (∀ p, r.ret ≠ CallResult.stashed p ∧ r.ret ≠ CallResult.cached p)
        ∧ (r.cache = c0 ∨ r.cache = Tcl_SetHashValue c0 nameObj.bytes none) := by
    intro K n c0 d hb
    simp only [Option.map_eq_some'] at hb
    obtain ⟨x, hx, rfl⟩ := hb
    obtain ⟨h1, h2⟩ := buildCallContext_ret fuel st oPtr nameObj.bytes flags d c0 x hx
    exact ⟨rfl, rfl, h1, h2⟩
  have lookup : ∀ (K : Nat → Option CallContext) (n : MethodNameObj),
      (match Tcl_FindHashEntry cache nameObj.bytes with
      | some (some p) =>
        match K p with
        | none => none
        | some c =>
          if c.globalEpoch = st.fPtr.epoch ∧ c.localEpoch = (st.objects oPtr).epoch then
            some (⟨CallResult.cached p, { st with contexts := K }, n,
              Tcl_SetHashValue cache nameObj.bytes none⟩ : GetResult)
          else
            (TclOODeleteContext K p).bind
              (fun contexts1 =>
                (buildCallContext fuel st oPtr nameObj.bytes flags true
                  (Tcl_SetHashValue cache nameObj.bytes none)).map
                (fun x => (⟨x.1, { st with classes := x.2.1, contexts := contexts1 }, n,
                  x.2.2⟩ : GetResult)))
      | _ =>
        (buildCallContext fuel st oPtr nameObj.bytes flags true cache).map
          (fun x => (⟨x.1, { st with classes := x.2.1, contexts := K }, n,
            x.2.2⟩ : GetResult))) = some r →
      r.methodNameObj = n ∧ (∀ q, r.ret ≠ CallResult.stashed q)
      ∧ (r.st.contexts = K ∨ ∃ q, TclOODeleteContext K q = some r.st.contexts)
      ∧ (∀ p, r.ret = CallResult.cached p →
          Tcl_FindHashEntry cache nameObj.bytes = some (some p)
          ∧ Tcl_FindHashEntry r.cache nameObj.bytes = some none
          ∧ ∃ c, r.st.contexts p = some c ∧ c.globalEpoch = st.fPtr.epoch
            ∧ c.localEpoch = (st.objects oPtr).epoch)
      ∧ (∀ p c, Tcl_FindHashEntry cache nameObj.bytes = some (some p) → K p = some c →
          (c.globalEpoch ≠ st.fPtr.epoch ∨ c.localEpoch ≠ (st.objects oPtr).epoch) →
          Tcl_FindHashEntry r.cache nameObj.bytes = some none
            ∧ TclOODeleteContext K p = some r.st.contexts) := by
    intro K n hl
    have nofind : (∀ p, Tcl_FindHashEntry cache nameObj.bytes ≠ some (some p)) →
        (buildCallContext fuel st oPtr nameObj.bytes flags true cache).map
          (fun x => (⟨x.1, { st with classes := x.2.1, contexts := K }, n,
            x.2.2⟩ : GetResult)) = some r →
        r.methodNameObj = n ∧ (∀ q, r.ret ≠ CallResult.stashed q)
        ∧ (r.st.contexts = K ∨ ∃ q, TclOODeleteContext K q = some r.st.contexts)
        ∧ (∀ p, r.ret = CallResult.cached p →
            Tcl_FindHashEntry cache nameObj.bytes = some (some p)
            ∧ Tcl_FindHashEntry r.cache nameObj.bytes = some none
            ∧ ∃ c, r.st.contexts p = some c ∧ c.globalEpoch = st.fPtr.epoch
              ∧ c.localEpoch = (st.objects oPtr).epoch)
        ∧ (∀ p c, Tcl_FindHashEntry cache nameObj.bytes = some (some p) → K p = some c →
            (c.globalEpoch ≠ st.fPtr.epoch ∨ c.localEpoch ≠ (st.objects oPtr).epoch) →
            Tcl_FindHashEntry r.cache nameObj.bytes = some none
              ∧ TclOODeleteContext K p = some r.st.contexts) := by
      intro hno hb
      obtain ⟨f1, f2, f3, _⟩ := fin _ _ _ _ hb
      exact ⟨f2, fun q => (f3 q).1, Or.inl f1, fun p hp => absurd hp (f3 p).2,
        fun p c hf => absurd hf (hno p)⟩
    obtain ⟨v, hf⟩ : ∃ v, Tcl_FindHashEntry cache nameObj.bytes = v := ⟨_, rfl⟩
    rcases v with _ | _ | p
    · simp only [hf] at hl
      exact nofind (fun p hp => by rw [hf] at hp; cases hp) hl
    · simp only [hf] at hl
      exact nofind (fun p hp => by rw [hf] at hp; cases hp) hl
    · simp only [hf] at hl
      cases hc : K p with
      | none => simp [hc] at hl
      | some c =>
        simp only [hc] at hl
        by_cases ht : c.globalEpoch = st.fPtr.epoch ∧ c.localEpoch = (st.objects oPtr).epoch
        · rw [if_pos ht] at hl
          simp only [Option.some.injEq] at hl
          subst hl
          refine ⟨rfl, fun q => by simp, Or.inl rfl, ?_, ?_⟩
          · intro p1 hp1
            simp only [CallResult.cached.injEq] at hp1
            subst hp1
            exact ⟨hf, Tcl_FindHashEntry_set _ _ _, c, hc, ht.1, ht.2⟩
          · intro p1 c1 hp1 hc1 hstale
            rw [hf] at hp1
            simp only [Option.some.injEq] at hp1
            subst hp1
            rw [hc] at hc1
            cases hc1
            rcases hstale with hs | hs
            · exact absurd ht.1 hs
            · exact absurd ht.2 hs
        · rw [if_neg ht] at hl
          cases hdel : TclOODeleteContext K p with
          | none => simp [hdel] at hl
          | some K1 =>
            simp only [hdel, Option.some_bind] at hl
            obtain ⟨f1, f2, f3, f4⟩ := fin _ _ _ _ hl
            refine ⟨f2, fun q => (f3 q).1, Or.inr ⟨p, by rw [f1]; exact hdel⟩,
              fun p1 hp1 => absurd hp1 (f3 p1).2, ?_⟩
            intro p1 c1 hp1 _ _
            rw [hf] at hp1
            simp only [Option.some.injEq] at hp1
            subst hp1
            refine ⟨?_, by rw [f1]; exact hdel⟩
            rcases f4 with f4 | f4
            · rw [f4]; exact Tcl_FindHashEntry_set _ _ _
            · rw [f4]; exact Tcl_FindHashEntry_set _ _ _
  unfold TclOOGetCallContext at h
  simp only at h
  by_cases hm : (flags.SPECIAL || flags.FILTER_HANDLING
      || (st.objects oPtr).flags.FILTER_HANDLING) = true
  · simp only [hm, if_true] at h
    obtain ⟨_, _, f3, _⟩ := fin _ _ _ _ h
    refine ⟨fun p hp => absurd hp (f3 p).1, fun p hp => absurd hp (f3 p).2, ?_, ?_⟩
    · intro p c hmode
      rw [hm] at hmode
      cases hmode
    · intro p c hmode
      rw [hm] at hmode
      cases hmode
  · simp only [hm, Bool.false_eq_true, if_false] at h
    cases hs : nameObj.stash with
    | none =>
      simp only [hs] at h
      obtain ⟨l1, l2, l3, l4, l5⟩ := lookup _ _ h
      refine ⟨fun p hp => absurd hp (l2 p), l4, fun p c _ hp => (by cases hp), ?_⟩
      intro p c _ _ hfind hc hstale
      obtain ⟨g1, g2⟩ := l5 p c hfind hc hstale
      exact ⟨g1, released_delete _ _ p c hc g2⟩
    | some q =>
      simp only [hs] at h
      cases hc : st.contexts q with
      | none => simp [hc] at h
      | some cq =>
        simp only [hc] at h
        by_cases ht : (st.objects cq.oPtr).creationEpoch = (st.objects oPtr).creationEpoch
            ∧ cq.globalEpoch = st.fPtr.epoch
            ∧ cq.localEpoch = (st.objects oPtr).epoch
            ∧ cq.flags = flags
        · rw [if_pos ht] at h
          simp only [Option.some.injEq] at h
          subst h
          refine ⟨?_, fun p hp => by simp at hp, ?_, ?_⟩
          · intro p hp
            simp only [CallResult.stashed.injEq] at hp
            subst hp
            exact ⟨rfl, cq, hc, ht.2.1, ht.2.2.1, by simp [setAt]⟩
          · intro p c _ hp hcp hstale
            simp only [Option.some.injEq] at hp
            subst hp
            rw [hc] at hcp
            cases hcp
            rcases hstale with hst | hst
            · exact absurd ht.2.1 hst
            · exact absurd ht.2.2.1 hst
          · intro p c _ hns
            exact absurd rfl (hns q)
        · rw [if_neg ht] at h
          cases hdel : TclOODeleteContext st.contexts q with
          | none => simp [hdel] at h
          | some K1 =>
            simp only [hdel, Option.some_bind] at h
            obtain ⟨l1, l2, l3, l4, l5⟩ := lookup _ _ h
            refine ⟨fun p hp => absurd hp (l2 p), l4, ?_, ?_⟩
            · intro p c _ hp hcp _
              simp only [Option.some.injEq] at hp
              subst hp
              refine ⟨by rw [l1], ?_⟩
              rcases l3 with l3 | ⟨q2, l3⟩
              · rw [l3]; exact released_delete _ _ q c hcp hdel
              · exact released_delete_delete _ _ _ q q2 c hcp hdel l3
            · intro p c _ _ hfind hcp hstale
              obtain ⟨cq0, hcq0, e1, eother⟩ := TclOODeleteContext_spec _ _ q hdel
              rw [hc] at hcq0
              cases hcq0
              by_cases hpq : p = q
              · subst hpq
                rw [hc] at hcp
                cases hcp
                rcases e1 with e1 | e1
                · exfalso
                  simp only [hfind, e1] at h
                  cases h
                · obtain ⟨g1, g2⟩ := l5 p _ hfind e1 hstale
                  exact ⟨g1, released_delete_delete _ _ _ p p cq hc hdel g2⟩
              · have hK1 : K1 p = some c := by rw [eother p hpq, hcp]
                obtain ⟨g1, g2⟩ := l5 p c hfind hK1 hstale
                exact ⟨g1, released_before K1 st.contexts _ p (by rw [hK1, hcp])
                  (released_delete _ _ p c hK1 g2)⟩

/-- Witness of C9 on scenario S5: the name `x` contributes nothing, `unknown`
does. -/
theorem C9_unknown_fallback_witness :
    ∃ classes1 req,
      InitClassHierarchy unknownState.fPtr 3 unknownState.classes
          (unknownState.objects 100).selfCls = some classes1
      ∧ coreWalk unknownState classes1 3 100 "x" { PUBLIC_METHOD := true }
          { PUBLIC_METHOD := true } = some req
      ∧ (req.contextPtr.chain ≠ [] →
          ∃ c, CallResult.built unknownContext = CallResult.built c
            ∧ c.flags.OO_UNKNOWN_METHOD = false
            ∧ c.globalEpoch = unknownState.fPtr.epoch
            ∧ nonFilterPart c = req.contextPtr.chain)
      ∧ (({ PUBLIC_METHOD := true } : Flags).SPECIAL = false → req.contextPtr.chain = [] →
          ∃ unk, coreWalk unknownState classes1 3 100 unknownState.fPtr.unknownMethodNameObj
              { PUBLIC_METHOD := true } {} = some unk
            ∧ (unk.contextPtr.chain ≠ [] →
                ∃ c, CallResult.built unknownContext = CallResult.built c
                  ∧ c.flags.OO_UNKNOWN_METHOD = true
                  ∧ c.globalEpoch = -1 ∧ nonFilterPart c = unk.contextPtr.chain)
            ∧ (CallResult.built unknownContext = CallResult.null
                ↔ unk.contextPtr.chain = []))
      ∧ (({ PUBLIC_METHOD := true } : Flags).SPECIAL = false →
          (CallResult.built unknownContext = CallResult.null ↔
            req.contextPtr.chain = []
              ∧ ∀ unk, coreWalk unknownState classes1 3 100
                  unknownState.fPtr.unknownMethodNameObj { PUBLIC_METHOD := true } {}
                  = some unk → unk.contextPtr.chain = []))
      ∧ (({ PUBLIC_METHOD := true } : Flags).SPECIAL = true →
          (CallResult.built unknownContext = CallResult.null ↔ req.contextPtr.chain = []))
      ∧ (({ PUBLIC_METHOD := true } : Flags).SPECIAL = true →
          (({ PUBLIC_METHOD := true } : Flags).CONSTRUCTOR = true →
            ∀ x, reaches unknownState.classes (unknownState.objects 100).selfCls x →
              (unknownState.classes x).constructorPtr = none) →
          (({ PUBLIC_METHOD := true } : Flags).CONSTRUCTOR = false →
            ∀ x, reaches unknownState.classes (unknownState.objects 100).selfCls x →
              (unknownState.classes x).destructorPtr = none) →
          CallResult.built unknownContext = CallResult.null) :=
  C9_unknown_fallback.1 3 unknownState 100 ⟨"x", none⟩ { PUBLIC_METHOD := true } []
    (CallResult.built unknownContext) rfl (fun p => ⟨by simp, by simp⟩)

/-- The lookup of the stale-context scenario returns. -/
theorem staleLookup_isSome : staleLookup.isSome = true := rfl

/-- Witness of C10: the stale stashed context 7 is dropped from the method name
and released, and the cached context 8, which is current, is returned. -/
theorem C10_no_stale_context_witness :
    ∃ r, staleLookup = some r
      ∧ r.ret = CallResult.cached 8
      ∧ (r.methodNameObj.stash = none ∧ released staleState.contexts r.st.contexts 7)
      ∧ (Tcl_FindHashEntry [("m", some 8)] "m" = some (some 8)
        ∧ Tcl_FindHashEntry r.cache "m" = some none
        ∧ ∃ c, r.st.contexts 8 = some c ∧ c.globalEpoch = staleState.fPtr.epoch
          ∧ c.localEpoch = (staleState.objects 100).epoch) :=
  ⟨Option.get staleLookup staleLookup_isSome, (Option.some_get staleLookup_isSome).symm, rfl,
    (C10_no_stale_context 3 staleState 100 ⟨"m", some 7⟩ { PUBLIC_METHOD := true }
      [("m", some 8)] (Option.get staleLookup staleLookup_isSome) (Option.some_get staleLookup_isSome).symm).2.2.1 7
      { oPtr := 100, globalEpoch := 0, localEpoch := 0, flags := { PUBLIC_METHOD := true },
        index := 0, skip := 2, chain := [⟨12, false, none⟩], refCount := 2 }
      rfl rfl rfl (Or.inl (by decide)),
    (C10_no_stale_context 3 staleState 100 ⟨"m", some 7⟩ { PUBLIC_METHOD := true }
      [("m", some 8)] (Option.get staleLookup staleLookup_isSome) (Option.some_get staleLookup_isSome).symm).2.1 8 rfl⟩

/-! ## Where a returned context comes from -/

/-- Without filters the construction hands the per-object cache back as it got
it, and what it returns does not depend on that cache. -/
theorem buildCallContext_nocache (fuel : Nat) (st : OOState) (oPtr : Nat) (name : String)
    (flags : Flags) (c : HashTable (Option Nat)) :
    buildCallContext fuel st oPtr name flags false c
      = (buildCallContext fuel st oPtr name flags false []).map
          (fun x => (x.1, x.2.1, c)) := by
  unfold buildCallContext
  cases InitClassHierarchy st.fPtr fuel st.classes (st.objects oPtr).selfCls with
  | none => rfl
  | some classes1 =>
    simp only [Bool.false_eq_true, if_false]
    cases AddSimpleChainToCallContext { st with classes := classes1 } fuel oPtr name
        ⟨newContext st oPtr flags, (newContext st oPtr flags).chain.length⟩ false flags
        none with
    | none => rfl
    | some cb3 =>
      simp only
      split
      · split
        · rfl
        · cases AddSimpleChainToCallContext { st with classes := classes1 } fuel oPtr
              st.fPtr.unknownMethodNameObj cb3 false {} none with
          | none => rfl
          | some cb4 =>
            simp only
            split <;> rfl
      · rfl

theorem AddMethodToCallChain_store (st : OOState) (K : Nat → Option CallContext)
    (mPtr : Option Nat) (cb : ChainBuilder) (d : Bool) (fd : Option Nat) :
    AddMethodToCallChain { st with contexts := K } mPtr cb d fd
      = AddMethodToCallChain st mPtr cb d fd := rfl

theorem AddSimpleClassChainToCallContext_store (st : OOState) (K : Nat → Option CallContext)
    (name : String) (d : Bool) (fd : Option Nat) :
    ∀ (fuel classPtr : Nat) (cb : ChainBuilder) (flags : Flags),
      AddSimpleClassChainToCallContext { st with contexts := K } name d fd fuel classPtr cb
          flags
        = AddSimpleClassChainToCallContext st name d fd fuel classPtr cb flags := by
  intro fuel
  induction fuel with
  | zero => intro classPtr cb flags; rfl
  | succ n ih =>
    intro classPtr cb flags
    simp only [AddSimpleClassChainToCallContext, ih, AddMethodToCallChain_store]

theorem AddSimpleChainToCallContext_store (st : OOState) (K : Nat → Option CallContext)
    (fuel oPtr : Nat) (name : String) (cb : ChainBuilder) (d : Bool) (flags : Flags)
    (fd : Option Nat) :
    AddSimpleChainToCallContext { st with contexts := K } fuel oPtr name cb d flags fd
      = AddSimpleChainToCallContext st fuel oPtr name cb d flags fd := by
  simp only [AddSimpleChainToCallContext, AddSimpleClassChainToCallContext_store,
    AddMethodToCallChain_store]

/-- Without filters the construction returns the same value and class store
whatever the context store and the per-object cache hold. -/
theorem buildCallContext_store (fuel : Nat) (st : OOState) (K : Nat → Option CallContext)
    (oPtr : Nat) (name : String) (flags : Flags) (c c2 : HashTable (Option Nat)) :
    (buildCallContext fuel { st with contexts := K } oPtr name flags false c2).map
        (fun x => (x.1, x.2.1))
      = (buildCallContext fuel st oPtr name flags false c).map (fun x => (x.1, x.2.1)) := by
  rw [buildCallContext_nocache fuel st oPtr name flags c,
    buildCallContext_nocache fuel _ oPtr name flags c2]
  simp only [Option.map_map]
  have e : buildCallContext fuel { st with contexts := K } oPtr name flags false []
      = buildCallContext fuel st oPtr name flags false [] := by
    unfold buildCallContext
    simp only [Bool.false_eq_true, if_false]
    cases InitClassHierarchy st.fPtr fuel st.classes (st.objects oPtr).selfCls with
    | none => rfl
    | some classes1 =>
      simp only
      have e1 := fun n cb fl => AddSimpleChainToCallContext_store { st with classes := classes1 }
        K fuel oPtr n cb false fl none
      simp only at e1
      simp only [e1]
      rfl
  rw [e]
  rfl

/-! ## InitClassHierarchy: one rebuild, termination, invariants -/

theorem dropEarlierDuplicates_eq_dedup (l : List Nat) :
    dropEarlierDuplicates l = l.dedup := by
  induction l with
  | nil => rfl
  | cons x xs ih =>
    unfold dropEarlierDuplicates
    by_cases hx : x ∈ xs
    · rw [if_pos hx, List.dedup_cons_of_mem hx, ih]
    · rw [if_neg hx, List.dedup_cons_of_not_mem hx, ih]

/-- One rebuild: the recursion into the superclasses, then the new list and
stamp. -/
theorem InitClassHierarchy_step (fPtr : Foundation) (n : Nat) (classes : Nat → Class)
    (c : Nat) (hroot : c ≠ fPtr.objectCls)
    (hstale : (classes c).classHierarchyEpoch ≠ fPtr.epoch) :
    InitClassHierarchy fPtr (n + 1) classes c
      = ((classes c).superclasses.foldlM
          (fun acc superPtr => InitClassHierarchy fPtr n acc superPtr) classes).map
          (fun classes1 => setAt classes1 c
            { classes1 c with classHierarchy := rebuilt fPtr classes1 c
                              classHierarchyEpoch := restamped fPtr classes1 c }) := by
  rw [InitClassHierarchy]
  simp only [hroot, if_false, ne_eq, hstale, not_false_eq_true, if_true]
  cases (classes c).superclasses.foldlM
      (fun acc superPtr => InitClassHierarchy fPtr n acc superPtr) classes with
  | none => rfl
  | some classes1 =>
    simp only [Option.map_some', rebuilt, restamped]
    split <;> rfl

theorem InitClassHierarchy_root (fPtr : Foundation) (n : Nat) (classes : Nat → Class) :
    InitClassHierarchy fPtr (n + 1) classes fPtr.objectCls = some classes := by
  rw [InitClassHierarchy]
  simp

theorem InitClassHierarchy_current (fPtr : Foundation) (n : Nat) (classes : Nat → Class)
    (c : Nat) (h : (classes c).classHierarchyEpoch = fPtr.epoch) :
    InitClassHierarchy fPtr (n + 1) classes c = some classes := by
  rw [InitClassHierarchy]
  simp [h]

theorem acyclic_congr (a b : Nat → Class) (rank : Nat → Nat)
    (h : onlyHierarchyChanged a b) (ha : acyclic a rank) : acyclic b rank := by
  intro c s hs
  rw [(onlyHierarchyChanged_data a b h c).1] at hs
  exact ha c s hs

/-- Over an acyclic superclass graph `InitClassHierarchy` returns as soon as the
fuel exceeds the rank of the class. -/
theorem InitClassHierarchy_terminates (fPtr : Foundation) (rank : Nat → Nat) :
    ∀ (fuel : Nat) (classes : Nat → Class) (c : Nat), acyclic classes rank →
      rank c < fuel → ∃ classes1, InitClassHierarchy fPtr fuel classes c = some classes1 := by
  intro fuel
  induction fuel with
  | zero => intro classes c _ h; omega
  | succ n ih =>
    intro classes c hac hr
    by_cases hroot : c = fPtr.objectCls
    · subst hroot
      exact ⟨classes, InitClassHierarchy_root fPtr n classes⟩
    · by_cases he : (classes c).classHierarchyEpoch = fPtr.epoch
      · exact ⟨classes, InitClassHierarchy_current fPtr n classes c he⟩
      · rw [InitClassHierarchy_step fPtr n classes c hroot he]
        have key : ∀ (l : List Nat) (acc : Nat → Class), acyclic acc rank →
            (∀ s ∈ l, rank s < n) →
            ∃ r, l.foldlM (fun acc superPtr => InitClassHierarchy fPtr n acc superPtr) acc
              = some r := by
          intro l
          induction l with
          | nil => intro acc _ _; exact ⟨acc, rfl⟩
          | cons s rest ihl =>
            intro acc hacc hl
            obtain ⟨r1, hr1⟩ := ih acc s hacc (hl s (List.mem_cons_self _ _))
            simp only [List.foldlM_cons, hr1, bind, Option.bind]
            exact ihl r1 (acyclic_congr _ _ rank (InitClassHierarchy_fields fPtr n acc s r1 hr1)
              hacc) (fun s2 h2 => hl s2 (List.mem_cons_of_mem _ h2))
        obtain ⟨r, hr2⟩ := key (classes c).superclasses classes hac
          (fun s hs => by have := hac c s hs; omega)
        rw [hr2]
        exact ⟨_, rfl⟩

theorem setAt_same {β : Type} (f : Nat → β) (p : Nat) (v : β) : setAt f p v p = v := by
  simp [setAt]

theorem setAt_other {β : Type} (f : Nat → β) (p : Nat) (v : β) (x : Nat) (h : x ≠ p) :
    setAt f p v x = f x := by
  simp [setAt, h]

/-- Invariant scheme for `InitClassHierarchy`.  Let `Q` be a property of a class
and a list that every rebuild establishes from the lists of the superclasses
(`hQ`).  If the list of every class stamped with the current epoch satisfies `Q`,
this is still so after the call, lists satisfying `Q` keep doing so, and the list
of the class of the call satisfies `Q`. -/
theorem InitClassHierarchy_settled (fPtr : Foundation) (sup : Nat → List Nat)
    (Q : Nat → List Nat → Prop)
    (hQ : ∀ (cl : Nat → Class) (c : Nat), (∀ x, (cl x).superclasses = sup x) →
      (cl fPtr.objectCls).classHierarchy = [] → c ≠ fPtr.objectCls →
      (∀ s ∈ sup c, s ≠ fPtr.objectCls → Q s (cl s).classHierarchy) →
      Q c (rebuilt fPtr cl c)) :
    ∀ (fuel : Nat) (classes : Nat → Class) (c : Nat) (classes1 : Nat → Class),
      (∀ x, (classes x).superclasses = sup x) → settled fPtr Q classes →
      InitClassHierarchy fPtr fuel classes c = some classes1 →
      settled fPtr Q classes1
      ∧ (∀ x, Q x (classes x).classHierarchy → Q x (classes1 x).classHierarchy)
      ∧ (c ≠ fPtr.objectCls → Q c (classes1 c).classHierarchy) := by
  intro fuel
  induction fuel with
  | zero => intro classes c classes1 _ _ h; simp [InitClassHierarchy] at h
  | succ n ih =>
    intro classes c classes1 hsup hset h
    by_cases hroot : c = fPtr.objectCls
    · subst hroot
      rw [InitClassHierarchy_root] at h
      cases h
      exact ⟨hset, fun _ hx => hx, fun hne => absurd rfl hne⟩
    · by_cases he : (classes c).classHierarchyEpoch = fPtr.epoch
      · rw [InitClassHierarchy_current fPtr n classes c he] at h
        cases h
        exact ⟨hset, fun _ hx => hx, fun hne => hset.2 c hne he⟩
      · rw [InitClassHierarchy_step fPtr n classes c hroot he, Option.map_eq_some'] at h
        obtain ⟨cl, hfold, rfl⟩ := h
        have key : ∀ (l : List Nat) (acc r : Nat → Class),
            (∀ x, (acc x).superclasses = sup x) → settled fPtr Q acc →
            l.foldlM (fun acc superPtr => InitClassHierarchy fPtr n acc superPtr) acc
              = some r →
            (∀ x, (r x).superclasses = sup x) ∧ settled fPtr Q r
            ∧ (∀ x, Q x (acc x).classHierarchy → Q x (r x).classHierarchy)
            ∧ (∀ s ∈ l, s ≠ fPtr.objectCls → Q s (r s).classHierarchy) := by
          intro l
          induction l with
          | nil =>
            intro acc r hs hst hf
            simp only [List.foldlM_nil, pure, Option.some.injEq] at hf
            subst hf
            exact ⟨hs, hst, fun _ hx => hx, fun s hs2 => by cases hs2⟩
          | cons s rest ihl =>
            intro acc r hs hst hf
            simp only [List.foldlM_cons, bind, Option.bind] at hf
            cases hi : InitClassHierarchy fPtr n acc s with
            | none => simp [hi] at hf
            | some b =>
              simp only [hi] at hf
              obtain ⟨b1, b2, b3⟩ := ih acc s b hs hst hi
              have hsb : ∀ x, (b x).superclasses = sup x := fun x => by
                rw [(onlyHierarchyChanged_data _ _
                  (InitClassHierarchy_fields fPtr n acc s b hi) x).1, hs x]
              obtain ⟨r1, r2, r3, r4⟩ := ihl b r hsb b1 hf
              refine ⟨r1, r2, fun x hx => r3 x (b2 x hx), ?_⟩
              intro s2 hs2 hne
              rcases List.mem_cons.1 hs2 with e | e
              · subst e
                exact r3 s2 (b3 hne)
              · exact r4 s2 e hne
        obtain ⟨k1, k2, k3, k4⟩ := key _ classes cl hsup hset hfold
        have hc : Q c (rebuilt fPtr cl c) := hQ cl c k1 k2.1 hroot
          (fun s hs hne => k4 s (by rw [hsup c]; exact hs) hne)
        refine ⟨⟨?_, ?_⟩, ?_, ?_⟩
        · rw [setAt_other _ _ _ _ (Ne.symm hroot)]
          exact k2.1
        · intro x hx hst
          by_cases hxc : x = c
          · subst hxc
            rw [setAt_same]
            exact hc
          · rw [setAt_other _ _ _ _ hxc] at hst ⊢
            exact k2.2 x hx hst
        · intro x hx
          by_cases hxc : x = c
          · subst hxc
            rw [setAt_same]
            exact hc
          · rw [setAt_other _ _ _ _ hxc]
            exact k3 x hx
        · intro _
          rw [setAt_same]
          exact hc

theorem rebuilt_congr (fPtr : Foundation) (a b : Nat → Class) (c : Nat)
    (h1 : (b c).superclasses = (a c).superclasses)
    (h2 : ∀ s ∈ (a c).superclasses, (b s).classHierarchy = (a s).classHierarchy) :
    rebuilt fPtr b c = rebuilt fPtr a c := by
  unfold rebuilt
  rw [h1]
  split
  · rename_i s hs
    rw [h2 s (by rw [hs]; exact List.mem_singleton.2 rfl)]
  · congr 1
    apply List.flatMap_congr
    intro s hs
    rw [h2 s hs]

theorem restamped_congr (fPtr : Foundation) (a b : Nat → Class) (c : Nat)
    (h1 : (b c).superclasses = (a c).superclasses)
    (h2 : (b c).classHierarchyEpoch = (a c).classHierarchyEpoch) :
    restamped fPtr b c = restamped fPtr a c := by
  unfold restamped
  rw [h1, h2]

/-- After a rebuild of a class that is not its own superclass, the list and the
stamp of the class are `rebuilt` and `restamped` of the store returned. -/
theorem InitClassHierarchy_rebuilds (fPtr : Foundation) (fuel : Nat) (classes : Nat → Class)
    (c : Nat) (classes2 : Nat → Class) (hroot : c ≠ fPtr.objectCls)
    (hstale : (classes c).classHierarchyEpoch ≠ fPtr.epoch)
    (hself : c ∉ (classes c).superclasses)
    (h : InitClassHierarchy fPtr fuel classes c = some classes2) :
    (classes2 c).classHierarchy = rebuilt fPtr classes2 c := by
  cases fuel with
  | zero => simp [InitClassHierarchy] at h
  | succ n =>
    have hsup := fun x => (onlyHierarchyChanged_data _ _
      (InitClassHierarchy_fields fPtr _ classes c classes2 h) x).1
    rw [InitClassHierarchy_step fPtr n classes c hroot hstale, Option.map_eq_some'] at h
    obtain ⟨cl, hfold, rfl⟩ := h
    rw [setAt_same]
    simp only
    symm
    apply rebuilt_congr
    · rw [setAt_same]
    · intro s hs
      have hne : s ≠ c := by
        intro e
        subst e
        have e2 := hsup s
        rw [setAt_same] at e2
        simp only at e2
        rw [e2] at hs
        exact hself hs
      rw [setAt_other _ _ _ _ hne]

/-- What a rebuild stores has no repetition and only members that rank below
the class, when this holds of the lists of the superclasses. -/
theorem rebuilt_wellRanked (fPtr : Foundation) (rank : Nat → Nat) (sup : Nat → List Nat)
    (hac : ∀ c s, s ∈ sup c → rank s < rank c) (cl : Nat → Class) (c : Nat)
    (hs : ∀ x, (cl x).superclasses = sup x)
    (hr : (cl fPtr.objectCls).classHierarchy = []) (_hc : c ≠ fPtr.objectCls)
    (hq : ∀ s ∈ sup c, s ≠ fPtr.objectCls → wellRanked rank s (cl s).classHierarchy) :
    wellRanked rank c (rebuilt fPtr cl c) := by
  unfold rebuilt
  split
  · rename_i s hsc
    have hmem : s ∈ sup c := by rw [← hs c, hsc]; exact List.mem_singleton.2 rfl
    have hlt := hac c s hmem
    by_cases hroot : s = fPtr.objectCls
    · rw [hroot, hr]
      refine ⟨List.nodup_singleton _, ?_⟩
      intro y hy
      rw [List.mem_singleton.1 hy, ← hroot]
      exact hlt
    · obtain ⟨q1, q2⟩ := hq s hmem hroot
      refine ⟨List.nodup_cons.2 ⟨fun hin => lt_irrefl _ (q2 s hin), q1⟩, ?_⟩
      intro y hy
      rcases List.mem_cons.1 hy with e | e
      · rw [e]; exact hlt
      · exact lt_trans (q2 y e) hlt
  · rw [dropEarlierDuplicates_eq_dedup]
    refine ⟨List.nodup_dedup _, ?_⟩
    intro y hy
    rw [List.mem_dedup, List.mem_flatMap] at hy
    obtain ⟨s, hs1, hs2⟩ := hy
    have hmem : s ∈ sup c := by rw [← hs c]; exact hs1
    have hlt := hac c s hmem
    rcases List.mem_cons.1 hs2 with e | e
    · rw [e]; exact hlt
    · by_cases hroot : s = fPtr.objectCls
      · simp [hroot] at e
      · rw [if_neg hroot] at e
        exact lt_trans ((hq s hmem hroot).2 y e) hlt

/-- Over an acyclic graph, in a store whose stamped lists are well ranked, a call
of `InitClassHierarchy` with enough fuel returns, keeps the store so, and leaves
the class of the call with a well ranked list. -/
theorem InitClassHierarchy_wellRanked (fPtr : Foundation) (rank : Nat → Nat) (fuel : Nat)
    (classes : Nat → Class) (c : Nat) (hac : acyclic classes rank)
    (hset : settled fPtr (wellRanked rank) classes) (hfuel : rank c < fuel) :
    ∃ classes1, InitClassHierarchy fPtr fuel classes c = some classes1
      ∧ settled fPtr (wellRanked rank) classes1
      ∧ (c ≠ fPtr.objectCls → wellRanked rank c (classes1 c).classHierarchy) := by
  obtain ⟨classes1, h⟩ := InitClassHierarchy_terminates fPtr rank fuel classes c hac hfuel
  obtain ⟨h1, _, h3⟩ := InitClassHierarchy_settled fPtr (fun x => (classes x).superclasses)
    (wellRanked rank) (rebuilt_wellRanked fPtr rank _ hac) fuel classes c classes1
    (fun _ => rfl) hset h
  exact ⟨classes1, h, h1, h3⟩

/-! ## The scenario stores are acyclic and unstamped -/

theorem settled_of_unstamped (fPtr : Foundation) (Q : Nat → List Nat → Prop)
    (classes : Nat → Class) (h0 : (classes fPtr.objectCls).classHierarchy = [])
    (h : ∀ x, (classes x).classHierarchyEpoch ≠ fPtr.epoch) : settled fPtr Q classes :=
  ⟨h0, fun x _ hx => absurd hx (h x)⟩

theorem diamondState_acyclic : acyclic (diamondState [0]).classes id := by
  intro c s h
  simp only [diamondState] at h
  split at h <;> simp [plainClass] at h <;> simp only [id] <;> omega

theorem diamondState_unstamped (x : Nat) :
    ((diamondState [0]).classes x).classHierarchyEpoch ≠ scenarioFoundation.epoch := by
  simp only [diamondState]
  split <;> decide

theorem linearState_acyclic : acyclic linearState.classes id := by
  intro c s h
  simp only [linearState] at h
  split at h <;> simp [plainClass] at h <;> simp only [id] <;> omega

theorem linearState_unstamped (x : Nat) :
    (linearState.classes x).classHierarchyEpoch ≠ scenarioFoundation.epoch := by
  simp only [linearState]
  split <;> decide

/-! ## The list left by a rebuild in a store of well ranked lists -/

/-- Last occurrences are kept.  Over an acyclic superclass graph
(`rank` decreases along superclass links), in a store where the root class has no
cached list and the classes already stamped with the current epoch have lists
without repetition whose members rank below them, a call of `InitClassHierarchy`
with fuel above the rank of a non-root class `c` whose stamp is not current
returns, and the `classHierarchy` it leaves in `c` is the concatenation, over the
superclasses of `c` in declared order, of the superclass followed by its own
`classHierarchy`, from which every element occurring again later is removed
(`List.dedup` keeps the last occurrence of each element).  In the diamond of
scenario S2 with A under the root, B and C get `[A, root]` and D gets
`[B, C, A, root]` out of `[B, A, root, C, A, root]`, for every fuel of at least
4. -/
theorem InitClassHierarchy_last_occurrence :
    (∀ (fPtr : Foundation) (rank : Nat → Nat) (fuel : Nat) (classes : Nat → Class)
      (c : Nat),
      acyclic classes rank → settled fPtr (wellRanked rank) classes →
      c ≠ fPtr.objectCls → (classes c).classHierarchyEpoch ≠ fPtr.epoch →
      rank c < fuel →
      ∃ classes1, InitClassHierarchy fPtr fuel classes c = some classes1
        ∧ (classes1 c).classHierarchy
          = ((classes c).superclasses.flatMap
              (fun s => s :: (classes1 s).classHierarchy)).dedup)
    ∧ (∀ k, (InitClassHierarchy scenarioFoundation (k + 4) (diamondState [0]).classes 5).map
          (fun cl => ((cl 3).classHierarchy, (cl 4).classHierarchy, (cl 5).classHierarchy))
        = some ([2, 0], [2, 0], [3, 4, 2, 0])) := by
  refine ⟨?_, fun k => rfl⟩
  intro fPtr rank fuel classes c hac hset hroot hstale hfuel
  obtain ⟨classes1, h, hs1, hw⟩ :=
    InitClassHierarchy_wellRanked fPtr rank fuel classes c hac hset hfuel
  refine ⟨classes1, h, ?_⟩
  have hsup := (onlyHierarchyChanged_data _ _
    (InitClassHierarchy_fields fPtr _ classes c classes1 h) c).1
  have hself : c ∉ (classes c).superclasses := fun hin => lt_irrefl _ (hac c c hin)
  have hreb := InitClassHierarchy_rebuilds fPtr fuel classes c classes1 hroot hstale hself h
  have hnd := (hw hroot).1
  rw [hreb] at hnd ⊢
  unfold rebuilt at hnd ⊢
  rw [hsup] at hnd ⊢
  split at hnd
  · rename_i s hs
    simp only [hs, List.flatMap_cons, List.flatMap_nil, List.append_nil]
    exact (List.dedup_eq_self.2 hnd).symm
  · rw [dropEarlierDuplicates_eq_dedup]
    congr 1
    apply List.flatMap_congr
    intro s _
    by_cases hr : s = fPtr.objectCls
    · rw [if_pos hr, hr, hs1.1]
    · rw [if_neg hr]

/-- Each class at most once.  Over an acyclic superclass graph, in a store
where the root class has no cached list and the classes already stamped with the
current epoch have lists without repetition whose members rank below them, a call
of `InitClassHierarchy` with fuel above the rank of a class `c` returns and leaves
in `c` a `classHierarchy` without repetition.  This covers the general path and
the fast path: when `c` is not the root, has exactly one superclass `s` and is
rebuilt, its list is `s` followed by the list of `s`, with no pass over it, and
has no repetition all the same. -/
theorem InitClassHierarchy_nodup (fPtr : Foundation) (rank : Nat → Nat) (fuel : Nat)
    (classes : Nat → Class) (c : Nat) (hac : acyclic classes rank)
    (hset : settled fPtr (wellRanked rank) classes) (hfuel : rank c < fuel) :
    ∃ classes1, InitClassHierarchy fPtr fuel classes c = some classes1
      ∧ (classes1 c).classHierarchy.Nodup
      ∧ (∀ s, c ≠ fPtr.objectCls → (classes c).superclasses = [s] →
          (classes c).classHierarchyEpoch ≠ fPtr.epoch →
          (classes1 c).classHierarchy = s :: (classes1 s).classHierarchy
          ∧ (s :: (classes1 s).classHierarchy).Nodup) := by
  obtain ⟨classes1, h, hs1, hw⟩ :=
    InitClassHierarchy_wellRanked fPtr rank fuel classes c hac hset hfuel
  refine ⟨classes1, h, ?_, ?_⟩
  · by_cases hroot : c = fPtr.objectCls
    · rw [hroot, hs1.1]
      exact List.nodup_nil
    · exact (hw hroot).1
  · intro s hroot hs hstale
    have hsup := (onlyHierarchyChanged_data _ _
      (InitClassHierarchy_fields fPtr _ classes c classes1 h) c).1
    have hself : c ∉ (classes c).superclasses := fun hin => lt_irrefl _ (hac c c hin)
    have hreb := InitClassHierarchy_rebuilds fPtr fuel classes c classes1 hroot hstale hself h
    have hnd := (hw hroot).1
    rw [hreb] at hnd ⊢
    unfold rebuilt at hnd ⊢
    rw [hsup, hs] at hnd ⊢
    exact ⟨rfl, hnd⟩

/-! ## The depth-first walk of the superclasses -/

theorem ancestors_rank (classes : Nat → Class) (rank : Nat → Nat)
    (hac : acyclic classes rank) :
    ∀ (fuel c y : Nat), y ∈ ancestors classes fuel c → rank y < rank c := by
  intro fuel
  induction fuel with
  | zero => intro c y h; simp [ancestors] at h
  | succ n ih =>
    intro c y h
    rw [ancestors, List.mem_flatMap] at h
    obtain ⟨s, hs, hy⟩ := h
    rcases List.mem_cons.1 hy with e | e
    · rw [e]; exact hac c s hs
    · exact lt_trans (ih s y e) (hac c s hs)

theorem ancestors_stable (classes : Nat → Class) (rank : Nat → Nat)
    (hac : acyclic classes rank) :
    ∀ (n m c : Nat), rank c ≤ n → rank c ≤ m →
      ancestors classes n c = ancestors classes m c := by
  intro n
  induction n with
  | zero =>
    intro m c h _
    have hnil : (classes c).superclasses = [] := by
      cases hs : (classes c).superclasses with
      | nil => rfl
      | cons s rest =>
        have := hac c s (by rw [hs]; exact List.mem_cons_self _ _)
        omega
    cases m with
    | zero => rfl
    | succ m => simp [ancestors, hnil]
  | succ n ih =>
    intro m c h1 h2
    cases m with
    | zero =>
      have hnil : (classes c).superclasses = [] := by
        cases hs : (classes c).superclasses with
        | nil => rfl
        | cons s rest =>
          have := hac c s (by rw [hs]; exact List.mem_cons_self _ _)
          omega
      simp [ancestors, hnil]
    | succ m =>
      rw [ancestors, ancestors]
      apply List.flatMap_congr
      intro s hs
      have := hac c s hs
      rw [ih m s (by omega) (by omega)]

theorem ancestors_eq (classes : Nat → Class) (rank : Nat → Nat)
    (hac : acyclic classes rank) (c : Nat) :
    ancestors classes (rank c) c
      = (classes c).superclasses.flatMap
          (fun s => s :: ancestors classes (rank s) s) := by
  rw [ancestors_stable classes rank hac (rank c) (rank c + 1) c (le_refl _) (by omega),
    ancestors]
  apply List.flatMap_congr
  intro s hs
  have := hac c s hs
  rw [ancestors_stable classes rank hac (rank c) (rank s) s (by omega) (le_refl _)]

theorem ancestors_leaf (classes : Nat → Class) (fuel c : Nat)
    (h : (classes c).superclasses = []) : ancestors classes fuel c = [] := by
  cases fuel with
  | zero => rfl
  | succ n => simp [ancestors, h]

/-! ## Removing earlier duplicates of a list built from lists already cleaned -/

theorem dedup_append_dedup (l m : List Nat) : (l ++ m.dedup).dedup = (l ++ m).dedup := by
  induction l with
  | nil => simp [List.dedup_idem]
  | cons x l ih =>
    by_cases hx : x ∈ l ++ m
    · have hx2 : x ∈ l ++ m.dedup := by
        rcases List.mem_append.1 hx with h | h
        · exact List.mem_append_left _ h
        · exact List.mem_append_right _ (List.mem_dedup.2 h)
      rw [List.cons_append, List.cons_append, List.dedup_cons_of_mem hx,
        List.dedup_cons_of_mem hx2, ih]
    · have hx2 : x ∉ l ++ m.dedup := by
        intro h
        rcases List.mem_append.1 h with h | h
        · exact hx (List.mem_append_left _ h)
        · exact hx (List.mem_append_right _ (List.mem_dedup.1 h))
      rw [List.cons_append, List.cons_append, List.dedup_cons_of_not_mem hx,
        List.dedup_cons_of_not_mem hx2, ih]

theorem dedup_dedup_append (l m : List Nat) : (l.dedup ++ m).dedup = (l ++ m).dedup := by
  induction l with
  | nil => rfl
  | cons x l ih =>
    by_cases hx : x ∈ l
    · rw [List.dedup_cons_of_mem hx, ih, List.cons_append,
        List.dedup_cons_of_mem (List.mem_append_left _ hx)]
    · rw [List.dedup_cons_of_not_mem hx, List.cons_append, List.cons_append]
      by_cases hm : x ∈ m
      · rw [List.dedup_cons_of_mem (List.mem_append_right _ hm),
          List.dedup_cons_of_mem (List.mem_append_right _ hm), ih]
      · have h1 : x ∉ l.dedup ++ m := by
          intro h
          rcases List.mem_append.1 h with h | h
          · exact hx (List.mem_dedup.1 h)
          · exact hm h
        have h2 : x ∉ l ++ m := by
          intro h
          rcases List.mem_append.1 h with h | h
          · exact hx h
          · exact hm h
        rw [List.dedup_cons_of_not_mem h1, List.dedup_cons_of_not_mem h2, ih]

theorem dedup_flatMap_dedup (l : List Nat) (f g : Nat → List Nat)
    (h : ∀ s ∈ l, f s = (g s).dedup) :
    (l.flatMap (fun s => s :: f s)).dedup = (l.flatMap (fun s => s :: g s)).dedup := by
  induction l with
  | nil => rfl
  | cons s rest ih =>
    have ih2 := ih (fun s2 h2 => h s2 (List.mem_cons_of_mem _ h2))
    simp only [List.flatMap_cons]
    rw [← dedup_append_dedup (s :: f s), ih2, dedup_append_dedup,
      h s (List.mem_cons_self _ _)]
    rw [List.cons_append, List.cons_append]
    by_cases hs : s ∈ g s ++ rest.flatMap (fun s => s :: g s)
    · have hs2 : s ∈ (g s).dedup ++ rest.flatMap (fun s => s :: g s) := by
        rcases List.mem_append.1 hs with h3 | h3
        · exact List.mem_append_left _ (List.mem_dedup.2 h3)
        · exact List.mem_append_right _ h3
      rw [List.dedup_cons_of_mem hs, List.dedup_cons_of_mem hs2, dedup_dedup_append]
    · have hs2 : s ∉ (g s).dedup ++ rest.flatMap (fun s => s :: g s) := by
        intro h3
        rcases List.mem_append.1 h3 with h3 | h3
        · exact hs (List.mem_append_left _ (List.mem_dedup.1 h3))
        · exact hs (List.mem_append_right _ h3)
      rw [List.dedup_cons_of_not_mem hs, List.dedup_cons_of_not_mem hs2, dedup_dedup_append]

/-- What a rebuild stores is the walk of the superclasses with the last
occurrences kept, when this holds of the lists of the superclasses. -/
theorem rebuilt_coherent (fPtr : Foundation) (classes : Nat → Class) (rank : Nat → Nat)
    (hac : acyclic classes rank) (h0 : (classes fPtr.objectCls).superclasses = [])
    (cl : Nat → Class) (c : Nat)
    (hs : ∀ x, (cl x).superclasses = (classes x).superclasses)
    (hr : (cl fPtr.objectCls).classHierarchy = []) (_hc : c ≠ fPtr.objectCls)
    (hq : ∀ s ∈ (classes c).superclasses, s ≠ fPtr.objectCls →
      coherent classes rank s (cl s).classHierarchy) :
    coherent classes rank c (rebuilt fPtr cl c) := by
  have hall : ∀ s ∈ (classes c).superclasses,
      (if s = fPtr.objectCls then [] else (cl s).classHierarchy)
        = (ancestors classes (rank s) s).dedup := by
    intro s hmem
    by_cases hroot : s = fPtr.objectCls
    · rw [if_pos hroot, hroot, ancestors_leaf classes _ _ h0]
      rfl
    · rw [if_neg hroot]
      exact hq s hmem hroot
  unfold coherent rebuilt
  rw [ancestors_eq classes rank hac c, hs c]
  split
  · rename_i s hsc
    have hmem : s ∈ (classes c).superclasses := by rw [hsc]; exact List.mem_singleton.2 rfl
    have hH : (cl s).classHierarchy = (ancestors classes (rank s) s).dedup := by
      have := hall s hmem
      by_cases hroot : s = fPtr.objectCls
      · rw [hroot, hr, ancestors_leaf classes _ _ h0]
        rfl
      · rw [if_neg hroot] at this
        exact this
    have hnot : s ∉ ancestors classes (rank s) s := fun hin =>
      lt_irrefl _ (ancestors_rank classes rank hac _ s s hin)
    rw [hsc]
    simp only [List.flatMap_cons, List.flatMap_nil, List.append_nil]
    rw [List.dedup_cons_of_not_mem hnot, hH]
  · rw [dropEarlierDuplicates_eq_dedup]
    exact dedup_flatMap_dedup _ _ _ hall

/-- Over an acyclic graph whose root has no superclass, in a store whose stamped
lists are coherent, a call of `InitClassHierarchy` with enough fuel returns, keeps
the store so, and leaves the class of the call with a coherent list. -/
theorem InitClassHierarchy_coherent (fPtr : Foundation) (rank : Nat → Nat) (fuel : Nat)
    (classes : Nat → Class) (c : Nat) (hac : acyclic classes rank)
    (h0 : (classes fPtr.objectCls).superclasses = [])
    (hset : settled fPtr (coherent classes rank) classes) (hfuel : rank c < fuel) :
    ∃ classes1, InitClassHierarchy fPtr fuel classes c = some classes1
      ∧ settled fPtr (coherent classes rank) classes1
      ∧ (c ≠ fPtr.objectCls → coherent classes rank c (classes1 c).classHierarchy) := by
  obtain ⟨classes1, h⟩ := InitClassHierarchy_terminates fPtr rank fuel classes c hac hfuel
  obtain ⟨h1, _, h3⟩ := InitClassHierarchy_settled fPtr (fun x => (classes x).superclasses)
    (coherent classes rank) (rebuilt_coherent fPtr classes rank hac h0) fuel classes c classes1
    (fun _ => rfl) hset h
  exact ⟨classes1, h, h1, h3⟩

/-! ## C15 -/

/-- C15 as stated fails on the diamond of scenario S2 (A under the root).  The
depth-first walk of the superclasses of D lists `[B, A, root, C, A, root]`; its
first-occurrence order is `[B, A, root, C]`, while `InitClassHierarchy` leaves
`[B, C, A, root]` in D. -/
theorem C15_first_occurrence_counterexample :
    (InitClassHierarchy scenarioFoundation 4 (diamondState [0]).classes 5).map
        (fun cl => (cl 5).classHierarchy) = some [3, 4, 2, 0]
    ∧ ancestors (diamondState [0]).classes 4 5 = [3, 2, 0, 4, 2, 0]
    ∧ keepFirstOccurrence (ancestors (diamondState [0]).classes 4 5) = [3, 2, 0, 4]
    ∧ ([3, 4, 2, 0] : List Nat) ≠ [3, 2, 0, 4] :=
  ⟨rfl, rfl, rfl, by decide⟩

/-- C15, amended.  The linearization is the last-occurrence order of the
depth-first walk.  Over an acyclic superclass graph whose root class has no
superclass, in a store where the root has no cached list and every class already
stamped with the current epoch holds the walk of its present superclasses with
the last occurrences kept, a call of `InitClassHierarchy` with fuel above the rank
of a non-root class `c` returns and leaves in `c` the depth-first, declared-order
listing of the ancestors of `c` (each superclass before its own ancestors) in
which each ancestor is kept at its last occurrence.  The condition on the stamped
classes holds in particular when no class is stamped with the current epoch, as
after an advance of the epoch of the foundation.  For D of the diamond the list
is `[B, C, A, root]`, for every fuel of at least 4. -/
theorem C15_last_occurrence_of_walk :
    (∀ (fPtr : Foundation) (rank : Nat → Nat) (fuel : Nat) (classes : Nat → Class)
      (c : Nat),
      acyclic classes rank → (classes fPtr.objectCls).superclasses = [] →
      settled fPtr (coherent classes rank) classes →
      c ≠ fPtr.objectCls → rank c < fuel →
      ∃ classes1, InitClassHierarchy fPtr fuel classes c = some classes1
        ∧ (classes1 c).classHierarchy = (ancestors classes (rank c) c).dedup)
    ∧ (∀ (fPtr : Foundation) (rank : Nat → Nat) (fuel : Nat) (classes : Nat → Class)
        (c : Nat),
        acyclic classes rank → (classes fPtr.objectCls).superclasses = [] →
        (classes fPtr.objectCls).classHierarchy = [] →
        (∀ x, (classes x).classHierarchyEpoch ≠ fPtr.epoch) →
        c ≠ fPtr.objectCls → rank c < fuel →
        ∃ classes1, InitClassHierarchy fPtr fuel classes c = some classes1
          ∧ (classes1 c).classHierarchy = (ancestors classes (rank c) c).dedup)
    ∧ (∀ k, (InitClassHierarchy scenarioFoundation (k + 4) (diamondState [0]).classes 5).map
          (fun cl => (cl 5).classHierarchy) = some [3, 4, 2, 0]
        ∧ (ancestors (diamondState [0]).classes (k + 4) 5).dedup = [3, 4, 2, 0]) := by
  have main : ∀ (fPtr : Foundation) (rank : Nat → Nat) (fuel : Nat) (classes : Nat → Class)
      (c : Nat),
      acyclic classes rank → (classes fPtr.objectCls).superclasses = [] →
      settled fPtr (coherent classes rank) classes →
      c ≠ fPtr.objectCls → rank c < fuel →
      ∃ classes1, InitClassHierarchy fPtr fuel classes c = some classes1
        ∧ (classes1 c).classHierarchy = (ancestors classes (rank c) c).dedup := by
    intro fPtr rank fuel classes c hac h0 hset hroot hfuel
    obtain ⟨classes1, h, _, hw⟩ :=
      InitClassHierarchy_coherent fPtr rank fuel classes c hac h0 hset hfuel
    exact ⟨classes1, h, hw hroot⟩
  refine ⟨main, ?_, fun k => ⟨rfl, ?_⟩⟩
  · intro fPtr rank fuel classes c hac h0 hnil hun hroot hfuel
    exact main fPtr rank fuel classes c hac h0 (settled_of_unstamped _ _ _ hnil hun)
      hroot hfuel
  · have e : ancestors (diamondState [0]).classes (k + 4) 5 = [3, 2, 0, 4, 2, 0] := rfl
    rw [e]
    decide

/-- Witness of C15: class D of the diamond of scenario S2, ranked by class number,
fuel 6. -/
theorem C15_last_occurrence_of_walk_witness :
    ∃ classes1, InitClassHierarchy scenarioFoundation 6 (diamondState [0]).classes 5
        = some classes1
      ∧ (classes1 5).classHierarchy
        = (ancestors (diamondState [0]).classes (id 5) 5).dedup :=
  C15_last_occurrence_of_walk.1 scenarioFoundation id 6 (diamondState [0]).classes 5
    diamondState_acyclic rfl
    (settled_of_unstamped _ _ _ rfl diamondState_unstamped)
    (by decide) (by decide)

/-! ## C16 -/

/-- C16 as stated fails in scenario S1.  Class A = 2 is not the root and has the
root class 0 as its superclass; `InitClassHierarchy` leaves in A the list
`[root]`, which contains the root object class. -/
theorem C16_root_excluded_counterexample :
    (InitClassHierarchy scenarioFoundation 2 linearState.classes 2).map
        (fun cl => (cl 2).classHierarchy) = some [0]
    ∧ scenarioFoundation.objectCls = 0
    ∧ (2 : Nat) ≠ scenarioFoundation.objectCls
    ∧ scenarioFoundation.objectCls ∈ ([0] : List Nat) :=
  ⟨rfl, rfl, by decide, by decide⟩

/-! ## C17 -/

/-- A call of `InitClassHierarchy` leaves alone every class ranking above the class
of the call. -/
theorem InitClassHierarchy_untouched (fPtr : Foundation) (rank : Nat → Nat) :
    ∀ (fuel : Nat) (classes : Nat → Class) (c : Nat) (classes1 : Nat → Class),
      acyclic classes rank → InitClassHierarchy fPtr fuel classes c = some classes1 →
      ∀ x, rank c < rank x → classes1 x = classes x := by
  intro fuel
  induction fuel with
  | zero => intro classes c classes1 _ h; simp [InitClassHierarchy] at h
  | succ n ih =>
    intro classes c classes1 hac h x hx
    by_cases hroot : c = fPtr.objectCls
    · subst hroot
      rw [InitClassHierarchy_root] at h
      cases h
      rfl
    · by_cases he : (classes c).classHierarchyEpoch = fPtr.epoch
      · rw [InitClassHierarchy_current fPtr n classes c he] at h
        cases h
        rfl
      · rw [InitClassHierarchy_step fPtr n classes c hroot he, Option.map_eq_some'] at h
        obtain ⟨cl, hfold, rfl⟩ := h
        have key : ∀ (l : List Nat) (acc r : Nat → Class), acyclic acc rank →
            (∀ s ∈ l, rank s < rank x) →
            l.foldlM (fun acc superPtr => InitClassHierarchy fPtr n acc superPtr) acc
              = some r → r x = acc x := by
          intro l
          induction l with
          | nil =>
            intro acc r _ _ hf
            simp only [List.foldlM_nil, pure, Option.some.injEq] at hf
            rw [hf]
          | cons s rest ihl =>
            intro acc r hacc hl hf
            simp only [List.foldlM_cons, bind, Option.bind] at hf
            cases hi : InitClassHierarchy fPtr n acc s with
            | none => simp [hi] at hf
            | some b =>
              simp only [hi] at hf
              rw [ihl b r (acyclic_congr _ _ rank (InitClassHierarchy_fields fPtr n acc s b hi)
                hacc) (fun s2 h2 => hl s2 (List.mem_cons_of_mem _ h2)) hf]
              exact ih acc s b hacc hi x (hl s (List.mem_cons_self _ _))
        rw [setAt_other _ _ _ _ (by intro e; rw [e] at hx; exact lt_irrefl _ hx)]
        exact key _ classes cl hac (fun s hs => lt_trans (hac c s hs) hx) hfold

/-- The stamp of a class after a rebuild: the current epoch when the class has
exactly one superclass, the stamp it had otherwise. -/
theorem InitClassHierarchy_stamp (fPtr : Foundation) (rank : Nat → Nat) (fuel : Nat)
    (classes : Nat → Class) (c : Nat) (classes1 : Nat → Class)
    (hac : acyclic classes rank) (hroot : c ≠ fPtr.objectCls)
    (hstale : (classes c).classHierarchyEpoch ≠ fPtr.epoch)
    (h : InitClassHierarchy fPtr fuel classes c = some classes1) :
    (classes1 c).classHierarchyEpoch = restamped fPtr classes c := by
  cases fuel with
  | zero => simp [InitClassHierarchy] at h
  | succ n =>
    rw [InitClassHierarchy_step fPtr n classes c hroot hstale, Option.map_eq_some'] at h
    obtain ⟨cl, hfold, rfl⟩ := h
    rw [setAt_same]
    simp only
    have key : ∀ (l : List Nat) (acc r : Nat → Class), acyclic acc rank →
        (∀ s ∈ l, rank s < rank c) →
        l.foldlM (fun acc superPtr => InitClassHierarchy fPtr n acc superPtr) acc
          = some r → r c = acc c := by
      intro l
      induction l with
      | nil =>
        intro acc r _ _ hf
        simp only [List.foldlM_nil, pure, Option.some.injEq] at hf
        rw [hf]
      | cons s rest ihl =>
        intro acc r hacc hl hf
        simp only [List.foldlM_cons, bind, Option.bind] at hf
        cases hi : InitClassHierarchy fPtr n acc s with
        | none => simp [hi] at hf
        | some b =>
          simp only [hi] at hf
          rw [ihl b r (acyclic_congr _ _ rank (InitClassHierarchy_fields fPtr n acc s b hi)
            hacc) (fun s2 h2 => hl s2 (List.mem_cons_of_mem _ h2)) hf]
          exact InitClassHierarchy_untouched fPtr rank n acc s b hacc hi c
            (hl s (List.mem_cons_self _ _))
    have e := key _ classes cl hac (fun s hs => hac c s hs) hfold
    unfold restamped
    rw [e]

/-- C17 fails in the general path.  Over an acyclic superclass graph, when
`InitClassHierarchy` rebuilds a non-root class whose number of superclasses is not
one (none, or several), the class keeps the stamp it had, which differs from the
current epoch of the foundation: only the single-superclass path assigns
`classHierarchyEpoch`, and a class with exactly one superclass does hold the
current epoch after the call.  In the diamond of scenario S2 at foundation epoch
1, after the call on D the fast-path class B is stamped 1 while D, rebuilt to
`[B, C, A, root]`, is still stamped 0, so the next call rebuilds D again. -/
theorem C17_general_path_not_stamped :
    (∀ (fPtr : Foundation) (rank : Nat → Nat) (fuel : Nat) (classes : Nat → Class)
      (c : Nat) (classes1 : Nat → Class),
      acyclic classes rank → c ≠ fPtr.objectCls →
      (classes c).classHierarchyEpoch ≠ fPtr.epoch →
      (classes c).superclasses.length ≠ 1 →
      InitClassHierarchy fPtr fuel classes c = some classes1 →
      (classes1 c).classHierarchyEpoch = (classes c).classHierarchyEpoch
      ∧ (classes1 c).classHierarchyEpoch ≠ fPtr.epoch)
    ∧ (∀ (fPtr : Foundation) (rank : Nat → Nat) (fuel : Nat) (classes : Nat → Class)
        (c : Nat) (classes1 : Nat → Class),
        acyclic classes rank → c ≠ fPtr.objectCls →
        (classes c).superclasses.length = 1 →
        InitClassHierarchy fPtr fuel classes c = some classes1 →
        (classes1 c).classHierarchyEpoch = fPtr.epoch)
    ∧ (∀ k, (InitClassHierarchy scenarioFoundation (k + 4) (diamondState [0]).classes 5).map
          (fun cl => ((cl 3).classHierarchyEpoch, (cl 5).classHierarchyEpoch,
            (cl 5).classHierarchy))
        = some (1, 0, [3, 4, 2, 0])) := by
  refine ⟨?_, ?_, fun k => rfl⟩
  · intro fPtr rank fuel classes c classes1 hac hroot hstale hlen h
    have e := InitClassHierarchy_stamp fPtr rank fuel classes c classes1 hac hroot hstale h
    have e2 : restamped fPtr classes c = (classes c).classHierarchyEpoch := by
      unfold restamped
      split
      · rename_i s hs
        rw [hs] at hlen
        exact absurd rfl hlen
      · rfl
    rw [e, e2]
    exact ⟨rfl, hstale⟩
  · intro fPtr rank fuel classes c classes1 hac hroot hlen h
    by_cases hstale : (classes c).classHierarchyEpoch = fPtr.epoch
    · cases fuel with
      | zero => simp [InitClassHierarchy] at h
      | succ n =>
        rw [InitClassHierarchy_current fPtr n classes c hstale] at h
        cases h
        exact hstale
    · rw [InitClassHierarchy_stamp fPtr rank fuel classes c classes1 hac hroot hstale h]
      unfold restamped
      split
      · rfl
      · rename_i hne
        cases hs : (classes c).superclasses with
        | nil => rw [hs] at hlen; cases hlen
        | cons s rest =>
          cases rest with
          | nil => exact absurd hs (hne s)
          | cons s2 rest2 => rw [hs] at hlen; simp at hlen

/-- Witness of C17: class D of the diamond of scenario S2 (two superclasses),
ranked by class number, fuel 6: the stamp 0 survives the rebuild at epoch 1. -/
theorem C17_general_path_not_stamped_witness :
    ∃ classes1, InitClassHierarchy scenarioFoundation 6 (diamondState [0]).classes 5
        = some classes1
      ∧ (classes1 5).classHierarchyEpoch = ((diamondState [0]).classes 5).classHierarchyEpoch
      ∧ (classes1 5).classHierarchyEpoch ≠ scenarioFoundation.epoch :=
  match InitClassHierarchy_terminates scenarioFoundation id 6 (diamondState [0]).classes 5
    diamondState_acyclic (by decide) with
  | ⟨cl, h⟩ =>
    ⟨cl, h, C17_general_path_not_stamped.1 scenarioFoundation id 6
      (diamondState [0]).classes 5 cl diamondState_acyclic (by decide) (by decide)
      (by decide) h⟩


/-! ## The comparator of the method-name enumerator -/

theorem utf8Bytes_ne_zero (c : Nat) : 0 ∉ utf8Bytes c := by
  unfold utf8Bytes
  split
  · simp
  · split
    · simp; omega
    · split
      · simp; omega
      · split
        · simp; omega
        · simp; omega

theorem nameBytes_ne_zero (name : String) : 0 ∉ nameBytes name := by
  unfold nameBytes
  intro h
  rw [List.mem_flatMap] at h
  obtain ⟨ch, _, h2⟩ := h
  exact utf8Bytes_ne_zero _ h2

theorem TclGetString_eq (name : String) : TclGetString name = nameBytes name ++ [0] := rfl

theorem strlen_terminated (u r : List Nat) (h : 0 ∉ u) : strlen (u ++ 0 :: r) = u.length := by
  unfold strlen
  induction u with
  | nil => simp
  | cons x xs ih =>
    have hx : x ≠ 0 := fun e => h (by rw [e]; exact List.mem_cons_self _ _)
    have hxs : 0 ∉ xs := fun e => h (List.mem_cons_of_mem _ e)
    simp only [List.cons_append, List.takeWhile_cons, ne_eq, hx, not_false_eq_true,
      decide_True, if_true, List.length_cons, ih hxs]

theorem lexLE_refl : ∀ (l : List Nat), lexLE l l
  | [] => trivial
  | _ :: xs => Or.inr ⟨rfl, lexLE_refl xs⟩

theorem lexLE_total : ∀ (a b : List Nat), lexLE a b ∨ lexLE b a
  | [], _ => Or.inl trivial
  | _ :: _, [] => Or.inr trivial
  | x :: xs, y :: ys => by
    rcases Nat.lt_trichotomy x y with h | h | h
    · exact Or.inl (Or.inl h)
    · rcases lexLE_total xs ys with h2 | h2
      · exact Or.inl (Or.inr ⟨h, h2⟩)
      · exact Or.inr (Or.inr ⟨h.symm, h2⟩)
    · exact Or.inr (Or.inl h)

theorem lexLE_trans : ∀ (a b c : List Nat), lexLE a b → lexLE b c → lexLE a c
  | [], _, _, _, _ => trivial
  | _ :: _, [], _, h, _ => h.elim
  | _ :: _, _ :: _, [], _, h => h.elim
  | x :: xs, y :: ys, z :: zs, h1, h2 => by
    rcases h1 with h1 | ⟨e1, h1⟩
    · rcases h2 with h2 | ⟨e2, _⟩
      · exact Or.inl (lt_trans h1 h2)
      · exact Or.inl (e2 ▸ h1)
    · rcases h2 with h2 | ⟨e2, h2⟩
      · exact Or.inl (e1 ▸ h2)
      · exact Or.inr ⟨e1.trans e2, lexLE_trans xs ys zs h1 h2⟩

theorem lexLE_antisymm : ∀ (a b : List Nat), lexLE a b → lexLE b a → a = b
  | [], [], _, _ => rfl
  | [], _ :: _, _, h => h.elim
  | _ :: _, [], h, _ => h.elim
  | x :: xs, y :: ys, h1, h2 => by
    rcases h1 with h1 | ⟨e1, h1⟩
    · rcases h2 with h2 | ⟨e2, _⟩
      · omega
      · omega
    · rcases h2 with h2 | ⟨_, h2⟩
      · omega
      · rw [e1, lexLE_antisymm xs ys h1 h2]

/-- On terminated strings without inner zero byte, `TclpUtfNcmp2` over the length
of the first string plus one is not positive exactly when the first string
precedes the second in byte-lexicographic order, terminators included. -/
theorem TclpUtfNcmp2_le_iff : ∀ (u v : List Nat), 0 ∉ u → 0 ∉ v →
    (TclpUtfNcmp2 (u ++ [0]) (v ++ [0]) (u.length + 1) ≤ 0
      ↔ lexLE (u ++ [0]) (v ++ [0]))
  | [], [], _, _ => by
    simp [TclpUtfNcmp2, lexLE]
  | [], y :: ys, _, hv => by
    have hy : y ≠ 0 := fun e => hv (by rw [e]; exact List.mem_cons_self _ _)
    have hy2 : ¬ (0 = y) := fun e => hy e.symm
    simp only [List.nil_append, List.length_nil, Nat.zero_add, TclpUtfNcmp2, List.headD_cons,
      List.cons_append, ne_eq, hy2, not_false_eq_true, if_true, lexLE]
    constructor
    · intro _
      exact Or.inl (Nat.pos_of_ne_zero hy)
    · intro _
      simp
  | x :: xs, [], hu, _ => by
    have hx : x ≠ 0 := fun e => hu (by rw [e]; exact List.mem_cons_self _ _)
    simp only [List.cons_append, List.length_cons, TclpUtfNcmp2, List.headD_cons,
      List.nil_append, ne_eq, hx, not_false_eq_true, if_true, lexLE]
    constructor
    · intro h
      have : (0 : Int) < x := by exact_mod_cast Nat.pos_of_ne_zero hx
      simp at h
      omega
    · intro h
      rcases h with h | ⟨_, h⟩
      · omega
      · cases xs with
        | nil => exact False.elim h
        | cons _ _ => exact False.elim h
  | x :: xs, y :: ys, hu, hv => by
    have hxs : 0 ∉ xs := fun e => hu (List.mem_cons_of_mem _ e)
    have hys : 0 ∉ ys := fun e => hv (List.mem_cons_of_mem _ e)
    have ih := TclpUtfNcmp2_le_iff xs ys hxs hys
    simp only [List.cons_append, List.length_cons, TclpUtfNcmp2, List.headD_cons,
      List.tail_cons, lexLE]
    by_cases hxy : x = y
    · subst hxy
      simp only [ne_eq, not_true_eq_false, if_false, lt_irrefl, true_and, false_or]
      exact ih
    · simp only [ne_eq, hxy, not_false_eq_true, if_true, false_and, or_false]
      constructor
      · intro h
        omega
      · intro h
        omega

theorem nameLE_iff (a b : String) :
    nameLE a b ↔ lexLE (TclGetString a) (TclGetString b) := by
  unfold nameLE CmpStr
  rw [TclGetString_eq, TclGetString_eq,
    show nameBytes a ++ [0] = nameBytes a ++ 0 :: [] from rfl,
    strlen_terminated _ _ (nameBytes_ne_zero a)]
  exact TclpUtfNcmp2_le_iff _ _ (nameBytes_ne_zero a) (nameBytes_ne_zero b)

instance nameLE_isTotal : IsTotal String nameLE :=
  ⟨fun a b => by
    rw [nameLE_iff, nameLE_iff]
    exact lexLE_total _ _⟩

instance nameLE_isTrans : IsTrans String nameLE :=
  ⟨fun a b c h1 h2 => by
    rw [nameLE_iff] at h1 h2 ⊢
    exact lexLE_trans _ _ _ h1 h2⟩

/-- A name precedes every name it is a prefix of. -/
theorem lexLE_prefix (a b : String) : lexLE (TclGetString a) (TclGetString (a ++ b)) := by
  have e : nameBytes (a ++ b) = nameBytes a ++ nameBytes b := by
    unfold nameBytes
    rw [String.data_append, List.flatMap_append]
  rw [TclGetString_eq, TclGetString_eq, e]
  have hb := nameBytes_ne_zero b
  generalize nameBytes a = u
  generalize nameBytes b = v at hb
  induction u with
  | nil =>
    cases v with
    | nil => exact lexLE_refl _
    | cons y ys =>
      have hy : y ≠ 0 := fun e => hb (by rw [e]; exact List.mem_cons_self _ _)
      exact Or.inl (Nat.pos_of_ne_zero hy)
  | cons x xs ih => exact Or.inr ⟨rfl, ih⟩

/-! ## The names table of the method-name enumerator -/

theorem TclOOGetSortedMethodList_eq (fuel : Nat) (st : OOState) (oPtr : Nat)
    (flags : Flags) :
    TclOOGetSortedMethodList fuel st oPtr flags
      = (methodNames fuel st oPtr flags).map (fun names =>
          qsort (fun a b => CmpStr (TclGetString a) (TclGetString b))
            ((names.filter (emitted flags)).map (fun e => e.1))) := by
  unfold TclOOGetSortedMethodList methodNames
  have e : initialNames st oPtr flags
      = (if flags.PRIVATE_METHOD then
          (st.classes (st.objects oPtr).selfCls).classMethods.foldl (addPrivateMethodName st)
            (match (st.objects oPtr).methodsPtr with
              | some tbl => tbl.foldl (addObjectMethodName st flags) []
              | none => [])
        else (match (st.objects oPtr).methodsPtr with
              | some tbl => tbl.foldl (addObjectMethodName st flags) []
              | none => [])) := rfl
  simp only [← e]
  cases AddClassMethodNames st flags fuel (st.objects oPtr).selfCls
      (initialNames st oPtr flags) with
  | none => rfl
  | some names2 =>
    simp only
    cases (st.objects oPtr).mixins.foldlM
        (fun acc mixinPtr => AddClassMethodNames st flags fuel mixinPtr acc) names2 with
    | none => rfl
    | some names3 =>
      simp only [Option.map_some']
      cases names3 with
      | nil => rfl
      | cons e rest =>
        simp only [List.length_cons, ne_eq, Nat.add_one_ne_zero, not_false_eq_true, if_true]
        rfl

/-- A name is returned exactly when its entry of the names table is one of those
copied to the array of strings. -/
theorem TclOOGetSortedMethodList_mem (fuel : Nat) (st : OOState) (oPtr : Nat)
    (flags : Flags) (l : List String)
    (h : TclOOGetSortedMethodList fuel st oPtr flags = some l) :
    ∃ names, methodNames fuel st oPtr flags = some names
      ∧ l.Perm ((names.filter (emitted flags)).map (fun e => e.1))
      ∧ List.Sorted nameLE l
      ∧ ∀ n, n ∈ l ↔ ∃ w, (n, w) ∈ names ∧ emitted flags (n, w) = true := by
  rw [TclOOGetSortedMethodList_eq, Option.map_eq_some'] at h
  obtain ⟨names, hn, rfl⟩ := h
  refine ⟨names, hn, List.perm_insertionSort _ _, List.sorted_insertionSort nameLE _, ?_⟩
  intro n
  unfold qsort
  rw [(List.perm_insertionSort _ _).mem_iff, List.mem_map]
  constructor
  · rintro ⟨e, he, rfl⟩
    rw [List.mem_filter] at he
    exact ⟨e.2, he.1, he.2⟩
  · rintro ⟨w, hw, he⟩
    exact ⟨(n, w), List.mem_filter.2 ⟨hw, he⟩, rfl⟩

theorem foldl_inv {α β : Type} (P : β → Prop) (f : β → α → β) (l : List α)
    (h : ∀ acc x, x ∈ l → P acc → P (f acc x)) : ∀ a, P a → P (l.foldl f a) := by
  induction l with
  | nil => intro a ha; exact ha
  | cons x rest ih =>
    intro a ha
    exact ih (fun acc y hy => h acc y (List.mem_cons_of_mem _ hy)) _
      (h a x (List.mem_cons_self _ _) ha)

theorem foldlM_inv {α β : Type} (P : β → Prop) (f : β → α → Option β) (l : List α)
    (h : ∀ acc x r, x ∈ l → P acc → f acc x = some r → P r) :
    ∀ a r, P a → l.foldlM f a = some r → P r := by
  induction l with
  | nil =>
    intro a r ha hf
    simp only [List.foldlM_nil, pure, Option.some.injEq] at hf
    rw [← hf]; exact ha
  | cons x rest ih =>
    intro a r ha hf
    simp only [List.foldlM_cons, bind, Option.bind] at hf
    cases hx : f a x with
    | none => simp [hx] at hf
    | some b =>
      simp only [hx] at hf
      exact ih (fun acc y r hy => h acc y r (List.mem_cons_of_mem _ hy)) b r
        (h a x b (List.mem_cons_self _ _) ha hx) hf

/-- Invariant scheme for the `while` loop of `AddClassMethodNames`. -/
theorem classMethodNamesLoop_inv (st : OOState) (flags : Flags) (P : HashTable Wanted → Prop)
    (hP : ∀ names c entry, entry ∈ (st.classes c).classMethods → P names →
      P (addClassMethodName st flags names entry)) :
    ∀ (fuel c : Nat) (names : HashTable Wanted) (r : Nat × HashTable Wanted),
      P names → classMethodNamesLoop st flags fuel c names = some r → P r.2 := by
  intro fuel
  induction fuel with
  | zero => intro c names r _ h; simp [classMethodNamesLoop] at h
  | succ n ih =>
    intro c names r hp h
    rw [classMethodNamesLoop] at h
    have h1 : P ((st.classes c).classMethods.foldl (addClassMethodName st flags) names) :=
      foldl_inv P _ _ (fun acc x hx ha => hP acc c x hx ha) names hp
    split at h
    · exact ih _ _ r h1 h
    · simp only [Option.some.injEq] at h
      rw [← h]
      exact h1

/-- Invariant scheme for `AddClassMethodNames`: a property of the names table kept
by every visit of a class method is kept by the call. -/
theorem AddClassMethodNames_inv (st : OOState) (flags : Flags) (P : HashTable Wanted → Prop)
    (hP : ∀ names c entry, entry ∈ (st.classes c).classMethods → P names →
      P (addClassMethodName st flags names entry)) :
    ∀ (fuel c : Nat) (names r : HashTable Wanted),
      P names → AddClassMethodNames st flags fuel c names = some r → P r := by
  intro fuel
  induction fuel with
  | zero => intro c names r _ h; simp [AddClassMethodNames] at h
  | succ n ih =>
    intro c names r hp h
    rw [AddClassMethodNames] at h
    cases hm : (st.classes c).mixins.foldlM
        (fun acc mixinPtr => AddClassMethodNames st flags n mixinPtr acc) names with
    | none => simp [hm] at h
    | some names1 =>
      simp only [hm] at h
      have p1 : P names1 := foldlM_inv P _ _ (fun acc x r _ ha hr => ih x acc r ha hr)
        names names1 hp hm
      cases hl : classMethodNamesLoop st flags (n + 1) c names1 with
      | none => simp [hl] at h
      | some res =>
        obtain ⟨lastPtr, names2⟩ := res
        simp only [hl] at h
        have p2 : P names2 := classMethodNamesLoop_inv st flags P hP _ _ _ _ p1 hl
        exact foldlM_inv P _ _ (fun acc x r _ ha hr => ih x acc r ha hr) names2 r p2 h

/-- Invariant scheme for the passes of `TclOOGetSortedMethodList`. -/
theorem methodNames_inv (st : OOState) (oPtr : Nat) (flags : Flags)
    (P : HashTable Wanted → Prop) (h0 : P [])
    (hO : ∀ names tbl entry, (st.objects oPtr).methodsPtr = some tbl → entry ∈ tbl →
      P names → P (addObjectMethodName st flags names entry))
    (hV : ∀ names entry, flags.PRIVATE_METHOD = true →
      entry ∈ (st.classes (st.objects oPtr).selfCls).classMethods →
      P names → P (addPrivateMethodName st names entry))
    (hP : ∀ names c entry, entry ∈ (st.classes c).classMethods → P names →
      P (addClassMethodName st flags names entry))
    (fuel : Nat) (names : HashTable Wanted)
    (h : methodNames fuel st oPtr flags = some names) : P names := by
  unfold methodNames at h
  have p1 : P (initialNames st oPtr flags) := by
    unfold initialNames
    simp only
    have p0 : P (match (st.objects oPtr).methodsPtr with
        | some tbl => tbl.foldl (addObjectMethodName st flags) []
        | none => []) := by
      cases hm : (st.objects oPtr).methodsPtr with
      | none => exact h0
      | some tbl => exact foldl_inv P _ _ (fun acc x hx ha => hO acc tbl x hm hx ha) [] h0
    by_cases hf : flags.PRIVATE_METHOD = true
    · rw [if_pos hf]
      exact foldl_inv P _ _ (fun acc x hx ha => hV acc x hf hx ha) _ p0
    · rw [if_neg hf]
      exact p0
  cases ha : AddClassMethodNames st flags fuel (st.objects oPtr).selfCls
      (initialNames st oPtr flags) with
  | none => simp [ha] at h
  | some names2 =>
    simp only [ha] at h
    have p2 : P names2 := AddClassMethodNames_inv st flags P hP _ _ _ _ p1 ha
    exact foldlM_inv P _ _
      (fun acc x r _ hacc hr => AddClassMethodNames_inv st flags P hP _ _ _ _ hacc hr)
      names2 names p2 h

/-! ## Keys of the names table, termination of the enumerator -/

theorem Tcl_FindHashEntry_none_keys {β : Type} (t : HashTable β) (k : String)
    (h : Tcl_FindHashEntry t k = none) : k ∉ t.map Prod.fst := by
  unfold Tcl_FindHashEntry at h
  rw [List.lookup_eq_none_iff] at h
  intro hin
  rw [List.mem_map] at hin
  obtain ⟨p, hp, rfl⟩ := hin
  have := h p hp
  simp at this

theorem Tcl_SetHashValue_keys {β : Type} (t : HashTable β) (k : String) (v w : β)
    (h : Tcl_FindHashEntry t k = some w) :
    (Tcl_SetHashValue t k v).map Prod.fst = t.map Prod.fst := by
  unfold Tcl_SetHashValue
  rw [h]
  simp only [Option.isSome_some, if_true, List.map_map]
  apply List.map_congr_left
  intro a _
  simp only [Function.comp]
  split <;> rfl

theorem keys_append_nodup {β : Type} (t : HashTable β) (k : String) (v : β)
    (h : Tcl_FindHashEntry t k = none) (hn : (t.map Prod.fst).Nodup) :
    ((t ++ [(k, v)]).map Prod.fst).Nodup := by
  rw [List.map_append, List.map_singleton]
  refine List.Nodup.append hn (List.nodup_singleton _) ?_
  intro x hx hx2
  rw [List.mem_singleton] at hx2
  subst hx2
  exact Tcl_FindHashEntry_none_keys t _ h hx

theorem addObjectMethodName_keys (st : OOState) (flags : Flags) (names : HashTable Wanted)
    (entry : String × Nat) (hn : (names.map Prod.fst).Nodup) :
    ((addObjectMethodName st flags names entry).map Prod.fst).Nodup := by
  unfold addObjectMethodName
  simp only
  split
  · exact hn
  · split
    · rename_i hl
      exact keys_append_nodup _ _ _ hl hn
    · exact hn

theorem addPrivateMethodName_keys (st : OOState) (names : HashTable Wanted)
    (entry : String × Nat) (hn : (names.map Prod.fst).Nodup) :
    ((addPrivateMethodName st names entry).map Prod.fst).Nodup := by
  unfold addPrivateMethodName
  simp only
  split
  · split
    · rename_i hl
      exact keys_append_nodup _ _ _ hl hn
    · rename_i w hl
      split
      · split
        · rw [Tcl_SetHashValue_keys _ _ _ w hl]
          exact hn
        · exact hn
      · exact hn
  · exact hn

theorem addClassMethodName_keys (st : OOState) (flags : Flags) (names : HashTable Wanted)
    (entry : String × Nat) (hn : (names.map Prod.fst).Nodup) :
    ((addClassMethodName st flags names entry).map Prod.fst).Nodup := by
  unfold addClassMethodName
  simp only
  split
  · rename_i hl
    exact keys_append_nodup _ _ _ hl hn
  · rename_i w hl
    split
    · rw [Tcl_SetHashValue_keys _ _ _ w hl]
      exact hn
    · exact hn

/-- No name is the key of two entries of the names table. -/
theorem methodNames_keys (fuel : Nat) (st : OOState) (oPtr : Nat) (flags : Flags)
    (names : HashTable Wanted) (h : methodNames fuel st oPtr flags = some names) :
    (names.map Prod.fst).Nodup :=
  methodNames_inv st oPtr flags (fun t => (t.map Prod.fst).Nodup) List.nodup_nil
    (fun names _ entry _ _ hn => addObjectMethodName_keys st flags names entry hn)
    (fun names entry _ _ hn => addPrivateMethodName_keys st names entry hn)
    (fun names _ entry _ hn => addClassMethodName_keys st flags names entry hn)
    fuel names h

theorem foldlM_terminates {α β : Type} (f : β → α → Option β) (l : List α)
    (h : ∀ acc x, x ∈ l → ∃ r, f acc x = some r) : ∀ a, ∃ r, l.foldlM f a = some r := by
  induction l with
  | nil => intro a; exact ⟨a, rfl⟩
  | cons x rest ih =>
    intro a
    obtain ⟨b, hb⟩ := h a x (List.mem_cons_self _ _)
    simp only [List.foldlM_cons, hb, bind, Option.bind]
    exact ih (fun acc y hy => h acc y (List.mem_cons_of_mem _ hy)) b

theorem classMethodNamesLoop_terminates (st : OOState) (flags : Flags) (rank : Nat → Nat)
    (hac : acyclicMixed st.classes rank) :
    ∀ (fuel c : Nat) (names : HashTable Wanted), rank c < fuel →
      ∃ r, classMethodNamesLoop st flags fuel c names = some r ∧ rank r.1 ≤ rank c := by
  intro fuel
  induction fuel with
  | zero => intro c names h; omega
  | succ n ih =>
    intro c names h
    rw [classMethodNamesLoop]
    split
    · rename_i s hs
      have hlt := hac c s (Or.inl (by rw [hs]; exact List.mem_singleton.2 rfl))
      obtain ⟨r, hr, hle⟩ := ih s
        ((st.classes c).classMethods.foldl (addClassMethodName st flags) names) (by omega)
      exact ⟨r, hr, by omega⟩
    · exact ⟨_, rfl, le_refl _⟩

/-- Over a graph without cycle of superclass and mixin links, `AddClassMethodNames`
returns as soon as the fuel exceeds the rank of the class. -/
theorem AddClassMethodNames_terminates (st : OOState) (flags : Flags) (rank : Nat → Nat)
    (hac : acyclicMixed st.classes rank) :
    ∀ (fuel c : Nat) (names : HashTable Wanted), rank c < fuel →
      ∃ r, AddClassMethodNames st flags fuel c names = some r := by
  intro fuel
  induction fuel with
  | zero => intro c names h; omega
  | succ n ih =>
    intro c names h
    rw [AddClassMethodNames]
    obtain ⟨names1, h1⟩ := foldlM_terminates
      (fun acc mixinPtr => AddClassMethodNames st flags n mixinPtr acc) (st.classes c).mixins
      (fun acc x hx => ih x acc (by have := hac c x (Or.inr hx); omega)) names
    rw [h1]
    obtain ⟨r, hr, hle⟩ := classMethodNamesLoop_terminates st flags rank hac (n + 1) c names1 h
    obtain ⟨lastPtr, names2⟩ := r
    simp only [hr]
    exact foldlM_terminates _ _
      (fun acc x hx => ih x acc (by have := hac lastPtr x (Or.inl hx); simp only at hle; omega))
      names2

theorem methodNames_terminates (st : OOState) (rank : Nat → Nat)
    (hac : acyclicMixed st.classes rank) (fuel oPtr : Nat) (flags : Flags)
    (h1 : rank (st.objects oPtr).selfCls < fuel)
    (h2 : ∀ m ∈ (st.objects oPtr).mixins, rank m < fuel) :
    ∃ names, methodNames fuel st oPtr flags = some names := by
  unfold methodNames
  obtain ⟨names2, e2⟩ := AddClassMethodNames_terminates st flags rank hac fuel
    (st.objects oPtr).selfCls (initialNames st oPtr flags) h1
  rw [e2]
  exact foldlM_terminates _ _
    (fun acc x hx => AddClassMethodNames_terminates st flags rank hac fuel x acc (h2 x hx))
    names2

/-! ## C18 -/

/-- C18.  Sorted and without duplicates.  Whatever the object and the flags, a list
returned by `TclOOGetSortedMethodList` is sorted in non-decreasing
byte-lexicographic order of the strings `TclGetString` gives, terminators
included, and no name occurs in it twice.  The function returns whenever superclass
and mixin links form no cycle and the fuel exceeds the rank of the class and of the
mixins of the object.  In this order a name precedes every name it is a prefix of:
`a` comes before `aa` and not the other way round.  In the scenario of the
enumerator, where `a` is a method of the object, of its class and of its mixin and
`b` a method of the class and of its superclass, the public names are
`a aa b z`, for every fuel of at least 3. -/
theorem C18_sorted_no_duplicates :
    (∀ (fuel : Nat) (st : OOState) (oPtr : Nat) (flags : Flags) (l : List String),
      TclOOGetSortedMethodList fuel st oPtr flags = some l →
      List.Sorted (fun a b => lexLE (TclGetString a) (TclGetString b)) l ∧ l.Nodup)
    ∧ (∀ (rank : Nat → Nat) (fuel : Nat) (st : OOState) (oPtr : Nat) (flags : Flags),
        acyclicMixed st.classes rank → rank (st.objects oPtr).selfCls < fuel →
        (∀ m ∈ (st.objects oPtr).mixins, rank m < fuel) →
        ∃ l, TclOOGetSortedMethodList fuel st oPtr flags = some l)
    ∧ (∀ a b : String, lexLE (TclGetString a) (TclGetString (a ++ b)))
    ∧ (lexLE (TclGetString "a") (TclGetString "aa")
        ∧ ¬ lexLE (TclGetString "aa") (TclGetString "a"))
    ∧ (∀ k, TclOOGetSortedMethodList (k + 3) enumState 100 { PUBLIC_METHOD := true }
        = some ["a", "aa", "b", "z"]) := by
  refine ⟨?_, ?_, lexLE_prefix, ⟨(nameLE_iff _ _).1 (by decide),
    fun h => absurd ((nameLE_iff _ _).2 h) (by decide)⟩, fun k => rfl⟩
  · intro fuel st oPtr flags l h
    obtain ⟨names, hn, hperm, hsorted, _⟩ := TclOOGetSortedMethodList_mem fuel st oPtr flags l h
    refine ⟨List.Pairwise.imp (fun hab => (nameLE_iff _ _).1 hab) hsorted, ?_⟩
    rw [hperm.nodup_iff]
    have hk := methodNames_keys fuel st oPtr flags names hn
    exact (hk.sublist (List.Sublist.map _ (List.filter_sublist _)))
  · intro rank fuel st oPtr flags hac h1 h2
    obtain ⟨names, hn⟩ := methodNames_terminates st rank hac fuel oPtr flags h1 h2
    rw [TclOOGetSortedMethodList_eq, hn]
    exact ⟨_, rfl⟩

/-- Witness of C18 on the scenario of the enumerator with the public names. -/
theorem C18_sorted_no_duplicates_witness :
    List.Sorted (fun a b => lexLE (TclGetString a) (TclGetString b)) ["a", "aa", "b", "z"]
    ∧ (["a", "aa", "b", "z"] : List String).Nodup :=
  C18_sorted_no_duplicates.1 3 enumState 100 { PUBLIC_METHOD := true }
    ["a", "aa", "b", "z"] rfl

/-! ## C19 -/

/-- C19 fails for a placeholder held by a class.  When `AddClassMethodNames` meets
a name for the first time it enters it without `NO_IMPLEMENTATION`, also when the
record is a visibility-only placeholder (`typePtr` null), whereas the loop over
the methods of the object enters a placeholder with `NO_IMPLEMENTATION`.  In the
scenario of the placeholder no record at all has an implementation; the public
names of object 100, whose class holds the placeholder `foo`, are returned as
`foo`, for every fuel of at least 2, while for object 101, which holds the same
placeholder in its own table, nothing is returned. -/
theorem C19_class_placeholder_listed :
    (∀ (st : OOState) (flags : Flags) (names : HashTable Wanted) (entry : String × Nat),
      Tcl_FindHashEntry names entry.1 = none →
      (st.methods entry.2).typePtr = none →
      Tcl_FindHashEntry (addClassMethodName st flags names entry) entry.1
        = some { IN_LIST := !flags.PUBLIC_METHOD || (st.methods entry.2).flags.PUBLIC_METHOD
                 NO_IMPLEMENTATION := false })
    ∧ (∀ (st : OOState) (flags : Flags) (names : HashTable Wanted) (entry : String × Nat),
        Tcl_FindHashEntry names entry.1 = none →
        (st.methods entry.2).typePtr = none →
        (st.methods entry.2).flags.PRIVATE_METHOD = false →
        Tcl_FindHashEntry (addObjectMethodName st flags names entry) entry.1
          = some { IN_LIST := !flags.PUBLIC_METHOD
                     || (st.methods entry.2).flags.PUBLIC_METHOD
                   NO_IMPLEMENTATION := true })
    ∧ (∀ m, (placeholderState.methods m).typePtr = none)
    ∧ (∀ k, TclOOGetSortedMethodList (k + 2) placeholderState 100 { PUBLIC_METHOD := true }
        = some ["foo"])
    ∧ (∀ k, TclOOGetSortedMethodList (k + 2) placeholderState 101 { PUBLIC_METHOD := true }
        = some []) := by
  refine ⟨?_, ?_, fun _ => rfl, fun _ => rfl, fun _ => rfl⟩
  · intro st flags names entry hl _
    unfold addClassMethodName
    simp only [hl]
    exact lookup_append_new _ _ _ hl
  · intro st flags names entry hl ht hp
    unfold addObjectMethodName
    simp only [hl, hp, Bool.false_and, Bool.false_eq_true, if_false, ht, Option.isNone_none]
    exact lookup_append_new _ _ _ hl

/-- Witness of C19: the placeholder 51 of the scenario, met by `AddClassMethodNames`
with an empty names table under the public flag, is entered as wanted and
implemented. -/
theorem C19_class_placeholder_listed_witness :
    Tcl_FindHashEntry
        (addClassMethodName placeholderState { PUBLIC_METHOD := true } [] ("foo", 51)) "foo"
      = some { IN_LIST := true, NO_IMPLEMENTATION := false } :=
  C19_class_placeholder_listed.1 placeholderState { PUBLIC_METHOD := true } [] ("foo", 51)
    rfl rfl

/-! ## Entries of the names table for one name -/

theorem lookup_mem {β : Type} (k : String) (v : β) :
    ∀ (t : HashTable β), List.lookup k t = some v → (k, v) ∈ t := by
  intro t
  induction t with
  | nil => intro h; simp at h
  | cons a rest ih =>
    intro h
    obtain ⟨a1, a2⟩ := a
    rw [List.lookup_cons] at h
    by_cases hk : (k == a1) = true
    · rw [hk] at h
      simp only [Option.some.injEq] at h
      have e : k = a1 := by simpa using hk
      rw [e, h]
      exact List.mem_cons_self _ _
    · simp only [Bool.not_eq_true] at hk
      rw [hk] at h
      exact List.mem_cons_of_mem _ (ih h)

theorem mem_Tcl_SetHashValue {β : Type} (t : HashTable β) (k : String) (v w : β)
    (h : Tcl_FindHashEntry t k = some w) (x : String × β)
    (hx : x ∈ Tcl_SetHashValue t k v) : (x ∈ t ∧ x.1 ≠ k) ∨ x = (k, v) := by
  unfold Tcl_SetHashValue at hx
  rw [h] at hx
  simp only [Option.isSome_some, if_true, List.mem_map] at hx
  obtain ⟨y, hy, rfl⟩ := hx
  by_cases hk : y.1 = k
  · rw [if_pos hk, hk]
    exact Or.inr rfl
  · rw [if_neg hk]
    exact Or.inl ⟨hy, hk⟩

theorem Tcl_SetHashValue_mem {β : Type} (t : HashTable β) (k : String) (v w : β)
    (h : Tcl_FindHashEntry t k = some w) (x : String × β) (hx : x ∈ t) :
    (x.1 ≠ k ∧ x ∈ Tcl_SetHashValue t k v) ∨ (x.1 = k ∧ (k, v) ∈ Tcl_SetHashValue t k v) := by
  unfold Tcl_SetHashValue
  rw [h]
  simp only [Option.isSome_some, if_true, List.mem_map]
  by_cases hk : x.1 = k
  · exact Or.inr ⟨hk, x, hx, by rw [if_pos hk, hk]⟩
  · exact Or.inl ⟨hk, x, hx, by rw [if_neg hk]⟩

/-- A name all of whose records are unexported is never entered with `IN_LIST`
when only the public names are asked for. -/
theorem methodNames_unlisted (fuel : Nat) (st : OOState) (oPtr : Nat) (flags : Flags)
    (n : String) (hpub : flags.PUBLIC_METHOD = true) (hpriv : flags.PRIVATE_METHOD = false)
    (hobj : ∀ tbl e, (st.objects oPtr).methodsPtr = some tbl → e ∈ tbl → e.1 = n →
      (st.methods e.2).flags.PRIVATE_METHOD = true
        ∨ (st.methods e.2).flags.PUBLIC_METHOD = false)
    (hcls : ∀ c e, e ∈ (st.classes c).classMethods → e.1 = n →
      (st.methods e.2).flags.PUBLIC_METHOD = false)
    (names : HashTable Wanted) (h : methodNames fuel st oPtr flags = some names) :
    ∀ w, (n, w) ∈ names → w.IN_LIST = false := by
  refine methodNames_inv st oPtr flags (fun t => ∀ w, (n, w) ∈ t → w.IN_LIST = false)
    (fun w hw => by cases hw) ?_ ?_ ?_ fuel names h
  · intro names tbl entry htbl hentry hP w hw
    unfold addObjectMethodName at hw
    simp only [hpriv, Bool.not_false, Bool.and_true, hpub, Bool.false_or] at hw
    by_cases hp : (st.methods entry.2).flags.PRIVATE_METHOD = true
    · rw [if_pos hp] at hw
      exact hP w hw
    · rw [if_neg hp] at hw
      cases hl : Tcl_FindHashEntry names entry.1 with
      | none =>
        simp only [hl, List.mem_append, List.mem_singleton, Prod.mk.injEq] at hw
        rcases hw with hw | ⟨e1, e2⟩
        · exact hP w hw
        · rcases hobj tbl entry htbl hentry e1.symm with h1 | h1
          · exact absurd h1 hp
          · rw [e2]
            exact h1
      | some w0 =>
        simp only [hl] at hw
        exact hP w hw
  · intro names entry hf
    rw [hpriv] at hf
    cases hf
  · intro names c entry hentry hP w hw
    unfold addClassMethodName at hw
    simp only [hpub, Bool.not_true, Bool.false_or] at hw
    cases hl : Tcl_FindHashEntry names entry.1 with
    | none =>
      simp only [hl, List.mem_append, List.mem_singleton, Prod.mk.injEq] at hw
      rcases hw with hw | ⟨e1, e2⟩
      · exact hP w hw
      · rw [e2]
        exact hcls c entry hentry e1.symm
    | some w0 =>
      simp only [hl] at hw
      split at hw
      · rcases mem_Tcl_SetHashValue names entry.1 _ w0 hl _ hw with ⟨h1, _⟩ | h1
        · exact hP w h1
        · simp only [Prod.mk.injEq] at h1
          rw [h1.2]
          have := hP w0 (by rw [h1.1]; exact lookup_mem _ _ _ hl)
          exact this
      · exact hP w hw

theorem addClassMethodName_keeps (st : OOState) (flags : Flags) (n : String)
    (names : HashTable Wanted) (entry : String × Nat)
    (hq : ∃ w, (n, w) ∈ names ∧ w.NO_IMPLEMENTATION = false) :
    ∃ w, (n, w) ∈ addClassMethodName st flags names entry ∧ w.NO_IMPLEMENTATION = false := by
  obtain ⟨w, hw, hn⟩ := hq
  unfold addClassMethodName
  simp only
  cases hl : Tcl_FindHashEntry names entry.1 with
  | none => exact ⟨w, List.mem_append_left _ hw, hn⟩
  | some w0 =>
    simp only
    split
    · rcases Tcl_SetHashValue_mem names entry.1 { w0 with NO_IMPLEMENTATION := false } w0 hl
          (n, w) hw with ⟨_, h1⟩ | ⟨e, h1⟩
      · exact ⟨w, h1, hn⟩
      · refine ⟨{ w0 with NO_IMPLEMENTATION := false }, ?_, rfl⟩
        rw [show n = entry.1 from e]
        exact h1
    · exact ⟨w, hw, hn⟩

theorem addClassMethodName_clears (st : OOState) (flags : Flags) (n : String) (mPtr : Nat)
    (names : HashTable Wanted) (himp : (st.methods mPtr).typePtr.isSome = true) :
    ∃ w, (n, w) ∈ addClassMethodName st flags names (n, mPtr)
      ∧ w.NO_IMPLEMENTATION = false := by
  unfold addClassMethodName
  simp only [himp, Bool.and_true]
  cases hl : Tcl_FindHashEntry names n with
  | none =>
    exact ⟨{ IN_LIST := !flags.PUBLIC_METHOD || (st.methods mPtr).flags.PUBLIC_METHOD
             NO_IMPLEMENTATION := false },
      List.mem_append_right _ (List.mem_singleton.2 rfl), rfl⟩
  | some w0 =>
    simp only
    by_cases hw0 : w0.NO_IMPLEMENTATION = true
    · rw [if_pos hw0]
      refine ⟨{ w0 with NO_IMPLEMENTATION := false }, ?_, rfl⟩
      exact lookup_mem _ _ _ (Tcl_FindHashEntry_set names n _)
    · rw [if_neg hw0]
      exact ⟨w0, lookup_mem _ _ _ hl, by simpa using hw0⟩

theorem foldl_establish {α β : Type} (P : β → Prop) (f : β → α → β) (l : List α) (x : α)
    (hx : x ∈ l) (h1 : ∀ acc, P (f acc x)) (h2 : ∀ acc y, P acc → P (f acc y)) :
    ∀ a, P (l.foldl f a) := by
  induction l with
  | nil => cases hx
  | cons y rest ih =>
    intro a
    rw [List.foldl_cons]
    rcases List.mem_cons.1 hx with e | e
    · subst e
      exact foldl_inv P f rest (fun acc z _ hacc => h2 acc z hacc) _ (h1 a)
    · exact ih e _

/-- After `AddClassMethodNames` on a class, the name of every implemented method of
that class has an entry without `NO_IMPLEMENTATION`. -/
theorem AddClassMethodNames_visits (st : OOState) (flags : Flags) (n : String) (mPtr : Nat)
    (fuel c : Nat) (names r : HashTable Wanted)
    (hmem : (n, mPtr) ∈ (st.classes c).classMethods)
    (himp : (st.methods mPtr).typePtr.isSome = true)
    (h : AddClassMethodNames st flags fuel c names = some r) :
    ∃ w, (n, w) ∈ r ∧ w.NO_IMPLEMENTATION = false := by
  have keep := fun (t : HashTable Wanted) (c : Nat) (e : String × Nat)
      (_ : e ∈ (st.classes c).classMethods)
      (hq : ∃ w, (n, w) ∈ t ∧ w.NO_IMPLEMENTATION = false) =>
    addClassMethodName_keeps st flags n t e hq
  cases fuel with
  | zero => simp [AddClassMethodNames] at h
  | succ k =>
    rw [AddClassMethodNames] at h
    cases hm : (st.classes c).mixins.foldlM
        (fun acc mixinPtr => AddClassMethodNames st flags k mixinPtr acc) names with
    | none => simp [hm] at h
    | some names1 =>
      simp only [hm] at h
      cases hl : classMethodNamesLoop st flags (k + 1) c names1 with
      | none => simp [hl] at h
      | some res =>
        obtain ⟨lastPtr, names2⟩ := res
        simp only [hl] at h
        have q2 : ∃ w, (n, w) ∈ names2 ∧ w.NO_IMPLEMENTATION = false := by
          rw [classMethodNamesLoop] at hl
          have q1 : ∃ w, (n, w) ∈ (st.classes c).classMethods.foldl
              (addClassMethodName st flags) names1 ∧ w.NO_IMPLEMENTATION = false :=
            foldl_establish _ _ _ (n, mPtr) hmem
              (fun acc => addClassMethodName_clears st flags n mPtr acc himp)
              (fun acc y hq => addClassMethodName_keeps st flags n acc y hq) names1
          split at hl
          · exact classMethodNamesLoop_inv st flags _ keep _ _ _ _ q1 hl
          · simp only [Option.some.injEq, Prod.mk.injEq] at hl
            rw [← hl.2]
            exact q1
        exact foldlM_inv _ _ _
          (fun acc x r _ hacc hr => AddClassMethodNames_inv st flags _ keep _ _ _ _ hacc hr)
          names2 r q2 h

/-- When the flags do not ask for the public names only, the name of every
implemented method of the class of the object is returned. -/
theorem TclOOGetSortedMethodList_all (fuel : Nat) (st : OOState) (oPtr : Nat)
    (flags : Flags) (l : List String) (n : String) (mPtr : Nat)
    (hpub : flags.PUBLIC_METHOD = false)
    (hmem : (n, mPtr) ∈ (st.classes (st.objects oPtr).selfCls).classMethods)
    (himp : (st.methods mPtr).typePtr.isSome = true)
    (h : TclOOGetSortedMethodList fuel st oPtr flags = some l) : n ∈ l := by
  obtain ⟨names, hn, _, _, hiff⟩ := TclOOGetSortedMethodList_mem fuel st oPtr flags l h
  rw [hiff]
  have keep := fun (t : HashTable Wanted) (c : Nat) (e : String × Nat)
      (_ : e ∈ (st.classes c).classMethods)
      (hq : ∃ w, (n, w) ∈ t ∧ w.NO_IMPLEMENTATION = false) =>
    addClassMethodName_keeps st flags n t e hq
  unfold methodNames at hn
  cases ha : AddClassMethodNames st flags fuel (st.objects oPtr).selfCls
      (initialNames st oPtr flags) with
  | none => simp [ha] at hn
  | some names2 =>
    simp only [ha] at hn
    have q2 := AddClassMethodNames_visits st flags n mPtr fuel _ _ names2 hmem himp ha
    obtain ⟨w, hw, hno⟩ := foldlM_inv _ _ _
      (fun acc x r _ hacc hr => AddClassMethodNames_inv st flags _ keep _ _ _ _ hacc hr)
      names2 names q2 hn
    exact ⟨w, hw, by simp [emitted, hpub, hno]⟩

/-! ## C20 -/

/-- C20 as stated fails when the flags ask neither for the public nor for
the private names.  In scenario S4 the only record of the name `p` is the private
method 31 of class C, the class of object 101, which has no method and no mixin
of its own; with flags 0, which lack `PRIVATE_METHOD`, the list returned for object
101 is `p`. -/
theorem C20_private_listed_counterexample :
    TclOOGetSortedMethodList 2 privateState 101 {} = some ["p"]
    ∧ ({} : Flags).PRIVATE_METHOD = false
    ∧ (privateState.objects 101).selfCls = 2
    ∧ (privateState.objects 101).methodsPtr = none
    ∧ (privateState.objects 101).mixins = []
    ∧ (privateState.classes 2).classMethods = [("p", 31)]
    ∧ (privateState.classes 2).superclasses = [0]
    ∧ (privateState.classes 0).classMethods = []
    ∧ (privateState.methods 31).flags.PRIVATE_METHOD = true :=
  ⟨rfl, rfl, rfl, rfl, rfl, rfl, rfl, rfl, rfl⟩

/-- C20, amended.  It is the `PUBLIC_METHOD` flag that withholds a private method
of the class of the object.  When the flags include `PUBLIC_METHOD` and lack
`PRIVATE_METHOD`, a name all of whose records in the graph are unexported (on the
object: private or unexported) is not returned by `TclOOGetSortedMethodList`; this
covers a method of `selfCls` marked `PRIVATE_METHOD` and not `PUBLIC_METHOD` whose
name has no other record.  When the flags lack `PUBLIC_METHOD`, the name of every
implemented method of `selfCls`, private or not, is returned, whether the
flags include `PRIVATE_METHOD` or not.  The function returns whenever superclass and
mixin links form no cycle and the fuel exceeds the rank of the class and of the
mixins of the object.  In scenario S4, for object 101 and every fuel of
at least 2, the private method `p` of its class is withheld under `PUBLIC_METHOD`
alone and returned under no flag, under `PRIVATE_METHOD`, and under both flags. -/
theorem C20_private_withheld_from_public :
    (∀ (fuel : Nat) (st : OOState) (oPtr : Nat) (flags : Flags) (l : List String)
      (n : String),
      flags.PUBLIC_METHOD = true → flags.PRIVATE_METHOD = false →
      (∀ tbl e, (st.objects oPtr).methodsPtr = some tbl → e ∈ tbl → e.1 = n →
        (st.methods e.2).flags.PRIVATE_METHOD = true
          ∨ (st.methods e.2).flags.PUBLIC_METHOD = false) →
      (∀ c e, e ∈ (st.classes c).classMethods → e.1 = n →
        (st.methods e.2).flags.PUBLIC_METHOD = false) →
      TclOOGetSortedMethodList fuel st oPtr flags = some l → n ∉ l)
    ∧ (∀ (fuel : Nat) (st : OOState) (oPtr : Nat) (flags : Flags) (l : List String)
        (n : String) (mPtr : Nat),
        flags.PUBLIC_METHOD = false →
        (n, mPtr) ∈ (st.classes (st.objects oPtr).selfCls).classMethods →
        (st.methods mPtr).typePtr.isSome = true →
        TclOOGetSortedMethodList fuel st oPtr flags = some l → n ∈ l)
    ∧ (∀ (rank : Nat → Nat) (fuel : Nat) (st : OOState) (oPtr : Nat) (flags : Flags),
        acyclicMixed st.classes rank → rank (st.objects oPtr).selfCls < fuel →
        (∀ m ∈ (st.objects oPtr).mixins, rank m < fuel) →
        ∃ l, TclOOGetSortedMethodList fuel st oPtr flags = some l)
    ∧ (∀ k,
        TclOOGetSortedMethodList (k + 2) privateState 101 { PUBLIC_METHOD := true } = some []
        ∧ TclOOGetSortedMethodList (k + 2) privateState 101 {} = some ["p"]
        ∧ TclOOGetSortedMethodList (k + 2) privateState 101 { PRIVATE_METHOD := true }
          = some ["p"]
        ∧ TclOOGetSortedMethodList (k + 2) privateState 101
            { PUBLIC_METHOD := true, PRIVATE_METHOD := true } = some ["p"]) := by
  refine ⟨?_, ?_, ?_, fun k => ⟨rfl, rfl, rfl, rfl⟩⟩
  rotate_left 2
  · intro rank fuel st oPtr flags hac h1 h2
    obtain ⟨names, hn⟩ := methodNames_terminates st rank hac fuel oPtr flags h1 h2
    rw [TclOOGetSortedMethodList_eq, hn]
    exact ⟨_, rfl⟩
  · intro fuel st oPtr flags l n hpub hpriv hobj hcls h hin
    obtain ⟨names, hn, _, _, hiff⟩ := TclOOGetSortedMethodList_mem fuel st oPtr flags l h
    obtain ⟨w, hw, he⟩ := (hiff n).1 hin
    have := methodNames_unlisted fuel st oPtr flags n hpub hpriv hobj hcls names hn w hw
    simp [emitted, hpub, this] at he
  · intro fuel st oPtr flags l n mPtr hpub hmem himp h
    exact TclOOGetSortedMethodList_all fuel st oPtr flags l n mPtr hpub hmem himp h

/-- All the records of the name `p` in scenario S4 are unexported. -/
theorem privateState_unexported (c : Nat) (e : String × Nat)
    (he : e ∈ (privateState.classes c).classMethods) (hn : e.1 = "p") :
    (privateState.methods e.2).flags.PUBLIC_METHOD = false := by
  simp only [privateState] at he
  split at he
  · simp only [plainClass, List.mem_singleton] at he
    subst he
    rfl
  · simp only [plainClass, List.mem_singleton] at he
    subst he
    simp at hn
  · simp [plainClass] at he

/-- Witness of C20 on scenario S4: the public names of object 101 do not include
the private method `p` of its class, the names under no flag do. -/
theorem C20_private_withheld_from_public_witness :
    "p" ∉ ([] : List String) ∧ "p" ∈ (["p"] : List String) :=
  ⟨C20_private_withheld_from_public.1 2 privateState 101 { PUBLIC_METHOD := true } [] "p"
      rfl rfl (fun _ _ h => by cases h) privateState_unexported rfl,
    C20_private_withheld_from_public.2.1 2 privateState 101 {} ["p"] "p" 31
      rfl (List.mem_singleton.2 rfl) rfl rfl⟩

/-! ## Termination of the chain construction -/

theorem acyclic_of_mixed (classes : Nat → Class) (rank : Nat → Nat)
    (h : acyclicMixed classes rank) : acyclic classes rank :=
  fun c s hs => h c s (Or.inl hs)

theorem acyclicMixed_congr (a b : Nat → Class) (rank : Nat → Nat)
    (h : onlyHierarchyChanged a b) (ha : acyclicMixed a rank) : acyclicMixed b rank := by
  intro c s hs
  rw [(onlyHierarchyChanged_data a b h c).1, (onlyHierarchyChanged_data a b h c).2.1] at hs
  exact ha c s hs

/-- Over an acyclic superclass graph `AddSimpleClassChainToCallContext` returns as
soon as the fuel exceeds the rank of the class. -/
theorem AddSimpleClassChainToCallContext_terminates (st : OOState) (rank : Nat → Nat)
    (hac : acyclic st.classes rank) (name : String) (df : Bool) (fd : Option Nat) :
    ∀ (fuel c : Nat) (cb : ChainBuilder) (flags : Flags), rank c < fuel →
      ∃ r, AddSimpleClassChainToCallContext st name df fd fuel c cb flags = some r := by
  intro fuel
  induction fuel with
  | zero => intro c cb flags h; omega
  | succ n ih =>
    intro c cb flags h
    rw [AddSimpleClassChainToCallContext]
    split
    · exact ⟨cb, rfl⟩
    · split
      · exact ⟨_, rfl⟩
      · rename_i s hs
        have := hac c s (by rw [hs]; exact List.mem_singleton.2 rfl)
        exact ih s _ _ (by omega)
      · exact foldlM_terminates _ _
          (fun acc x hx => ih x acc _ (by have := hac c x hx; omega)) _

/-- `AddSimpleChainToCallContext` returns when the fuel exceeds the rank of the class
of the object and of the mixins of the object, the cached list of the class
holding only classes that rank below it. -/
theorem AddSimpleChainToCallContext_terminates (st : OOState) (rank : Nat → Nat)
    (hac : acyclicMixed st.classes rank) (fuel oPtr : Nat) (name : String)
    (cb : ChainBuilder) (df : Bool) (flags : Flags) (fd : Option Nat)
    (h1 : rank (st.objects oPtr).selfCls < fuel)
    (h2 : ∀ m ∈ (st.objects oPtr).mixins, rank m < fuel)
    (h3 : ∀ y ∈ (st.classes (st.objects oPtr).selfCls).classHierarchy,
      rank y < rank (st.objects oPtr).selfCls) :
    ∃ r, AddSimpleChainToCallContext st fuel oPtr name cb df flags fd = some r := by
  have hsc := AddSimpleClassChainToCallContext_terminates st rank (acyclic_of_mixed _ _ hac)
    name df fd fuel
  unfold AddSimpleChainToCallContext
  simp only
  split
  · exact ⟨cb, rfl⟩
  · rename_i flags1 _
    have walk : ∀ (l : List Nat), (∀ m ∈ l, rank m < fuel) → ∀ a, ∃ r,
        l.foldlM (fun acc mixinPtr =>
          AddSimpleClassChainToCallContext st name df fd fuel mixinPtr acc flags1) a
          = some r :=
      fun l hl => foldlM_terminates _ l (fun acc x hx => hsc x acc flags1 (hl x hx))
    split
    · obtain ⟨cb1, e1⟩ := walk (st.objects oPtr).mixins h2 cb
      obtain ⟨cb2, e2⟩ := walk (st.classes (st.objects oPtr).selfCls).mixins
        (fun m hm => lt_trans (hac _ m (Or.inr hm)) h1) cb1
      obtain ⟨cb3, e3⟩ := foldlM_terminates
        (fun acc superPtr => (st.classes superPtr).mixins.foldlM
          (fun acc mixinPtr =>
            AddSimpleClassChainToCallContext st name df fd fuel mixinPtr acc flags1) acc)
        (st.classes (st.objects oPtr).selfCls).classHierarchy
        (fun acc y hy => walk (st.classes y).mixins
          (fun m hm => lt_trans (hac y m (Or.inr hm)) (lt_trans (h3 y hy) h1)) acc) cb2
      simp only [bind, e1, e2, e3, Option.some_bind]
      cases (st.objects oPtr).methodsPtr.bind (fun tbl => Tcl_FindHashEntry tbl name) with
      | none => exact hsc _ _ _ h1
      | some mPtr => exact hsc _ _ _ h1
    · simp only [Option.some_bind]
      exact hsc _ _ _ h1

/-- `AddClassFiltersToCallContext` returns when the fuel exceeds the rank of the class
by more than a bound `B` from which on the walks for the filter names
return. -/
theorem AddClassFiltersToCallContext_terminates (st : OOState) (rank : Nat → Nat)
    (hac : acyclicMixed st.classes rank) (oPtr B : Nat)
    (hasc : ∀ f, B ≤ f → ∀ name cb fd, ∃ r,
      AddSimpleChainToCallContext st f oPtr name cb true {} fd = some r) :
    ∀ (fuel c : Nat) (cb : ChainBuilder) (done : List String), rank c + B < fuel →
      ∃ r, AddClassFiltersToCallContext st oPtr fuel (some c) cb done = some r := by
  intro fuel
  induction fuel with
  | zero => intro c cb done h; omega
  | succ n ih =>
    intro c cb done h
    rw [AddClassFiltersToCallContext]
    obtain ⟨r1, e1⟩ := foldlM_terminates
      (fun (acc : ChainBuilder × List String) mixinPtr =>
        AddClassFiltersToCallContext st oPtr n (some mixinPtr) acc.1 acc.2)
      (st.classes c).mixins
      (fun acc x hx => ih x acc.1 acc.2 (by have := hac c x (Or.inr hx); omega)) (cb, done)
    obtain ⟨r2, e2⟩ := foldlM_terminates
      (fun (acc : ChainBuilder × List String) filterObj =>
        if filterObj ∈ acc.2 then some acc
        else
          (AddSimpleChainToCallContext st n oPtr filterObj acc.1 true {} (some c)).map
            (fun cb1 => (cb1, filterObj :: acc.2)))
      (st.classes c).filters
      (fun acc x _ => by
        by_cases hx : x ∈ acc.2
        · exact ⟨acc, by simp only [hx, if_true]⟩
        · obtain ⟨r, hr⟩ := hasc n (by omega) x acc.1 (some c)
          exact ⟨(r, x :: acc.2), by simp only [hx, if_false, hr, Option.map_some']⟩) r1
    simp only [bind, e1, e2, Option.some_bind]
    split
    · exact ⟨_, rfl⟩
    · rename_i s hs
      have := hac c s (Or.inl (by rw [hs]; exact List.mem_singleton.2 rfl))
      exact ih s _ _ (by omega)
    · exact foldlM_terminates _ _
        (fun acc x hx => ih x acc.1 acc.2 (by have := hac c x (Or.inl hx); omega)) _

/-- The filter phase returns when the fuel exceeds twice a bound `R` on the rank
of the class of the object and of its mixins. -/
theorem addAllFilters_terminates (st : OOState) (rank : Nat → Nat)
    (hac : acyclicMixed st.classes rank) (fuel oPtr R : Nat) (cb : ChainBuilder)
    (h1 : rank (st.objects oPtr).selfCls ≤ R)
    (h2 : ∀ m ∈ (st.objects oPtr).mixins, rank m ≤ R)
    (h3 : ∀ y ∈ (st.classes (st.objects oPtr).selfCls).classHierarchy,
      rank y < rank (st.objects oPtr).selfCls)
    (hfuel : 2 * R + 1 < fuel) :
    ∃ r, addAllFilters st fuel oPtr cb = some r := by
  have hasc : ∀ f, R + 1 ≤ f → ∀ name cb fd, ∃ r,
      AddSimpleChainToCallContext st f oPtr name cb true {} fd = some r :=
    fun f hf name cb fd => AddSimpleChainToCallContext_terminates st rank hac f oPtr name cb
      true {} fd (by omega) (fun m hm => by have := h2 m hm; omega) h3
  have hacf := AddClassFiltersToCallContext_terminates st rank hac oPtr (R + 1) hasc fuel
  unfold addAllFilters
  obtain ⟨r1, e1⟩ := foldlM_terminates
    (fun (acc : ChainBuilder × List String) mixinPtr =>
      AddClassFiltersToCallContext st oPtr fuel (some mixinPtr) acc.1 acc.2)
    (st.objects oPtr).mixins
    (fun acc x hx => hacf x acc.1 acc.2 (by have := h2 x hx; omega)) (cb, [])
  obtain ⟨cb2, e2⟩ := foldlM_terminates
    (fun acc filterObj => AddSimpleChainToCallContext st fuel oPtr filterObj acc true {} none)
    (st.objects oPtr).filters
    (fun acc x _ => hasc fuel (by omega) x acc none) r1.1
  obtain ⟨r3, e3⟩ := hacf (st.objects oPtr).selfCls cb2 r1.2 (by omega)
  simp only [bind, e1, e2, e3, Option.some_bind, pure]
  exact ⟨_, rfl⟩

/-- The construction of a chain returns over a graph without cycle of superclass
and mixin links, in a store whose stamped lists are well ranked, when the fuel
exceeds twice a bound `R` on the rank of the class of the object and of its
mixins. -/
theorem buildCallContext_terminates (st : OOState) (rank : Nat → Nat)
    (hac : acyclicMixed st.classes rank)
    (hset : settled st.fPtr (wellRanked rank) st.classes) (fuel oPtr R : Nat)
    (name : String) (flags : Flags) (d : Bool) (cache : HashTable (Option Nat))
    (h1 : rank (st.objects oPtr).selfCls ≤ R)
    (h2 : ∀ m ∈ (st.objects oPtr).mixins, rank m ≤ R)
    (hfuel : 2 * R + 1 < fuel) :
    ∃ r, buildCallContext fuel st oPtr name flags d cache = some r := by
  obtain ⟨classes1, hinit, hs1, hw⟩ := InitClassHierarchy_wellRanked st.fPtr rank fuel
    st.classes (st.objects oPtr).selfCls (acyclic_of_mixed _ _ hac) hset (by omega)
  have hac1 : acyclicMixed classes1 rank :=
    acyclicMixed_congr _ _ rank (InitClassHierarchy_fields _ _ _ _ _ hinit) hac
  have h3 : ∀ y ∈ (classes1 (st.objects oPtr).selfCls).classHierarchy,
      rank y < rank (st.objects oPtr).selfCls := by
    by_cases hroot : (st.objects oPtr).selfCls = st.fPtr.objectCls
    · rw [hroot, hs1.1]
      intro y hy
      cases hy
    · exact (hw hroot).2
  have hasc := fun name cb fl =>
    AddSimpleChainToCallContext_terminates { st with classes := classes1 } rank hac1 fuel oPtr
      name cb false fl none (by simp only; omega)
      (fun m hm => by have := h2 m hm; omega) h3
  unfold buildCallContext
  simp only [hinit]
  have hf : ∃ cb1, (if d = true then
      addAllFilters { st with classes := classes1 } fuel oPtr ⟨newContext st oPtr flags, 0⟩
      else some ⟨newContext st oPtr flags, 0⟩) = some cb1 := by
    by_cases hd : d = true
    · rw [if_pos hd]
      exact addAllFilters_terminates { st with classes := classes1 } rank hac1 fuel oPtr R _
        h1 h2 h3 hfuel
    · rw [if_neg hd]
      exact ⟨_, rfl⟩
  obtain ⟨cb1, e1⟩ := hf
  simp only [e1]
  obtain ⟨cb3, e3⟩ := hasc name
    { cb1 with filterLength := cb1.contextPtr.chain.length } flags
  simp only [e3]
  split
  · split
    · exact ⟨_, rfl⟩
    · obtain ⟨cb4, e4⟩ := hasc st.fPtr.unknownMethodNameObj cb3 {}
      simp only [e4]
      split <;> exact ⟨_, rfl⟩
  · split <;> exact ⟨_, rfl⟩

/-- `TclOOGetCallContext` returns under the conditions of `buildCallContext`, when
the context stashed in the method name and the context cached for it, if any, are
allocated and a context held in both places is counted twice. -/
theorem TclOOGetCallContext_terminates (st : OOState) (rank : Nat → Nat)
    (hac : acyclicMixed st.classes rank)
    (hset : settled st.fPtr (wellRanked rank) st.classes) (fuel oPtr R : Nat)
    (nameObj : MethodNameObj) (flags : Flags) (cache : HashTable (Option Nat))
    (h1 : rank (st.objects oPtr).selfCls ≤ R)
    (h2 : ∀ m ∈ (st.objects oPtr).mixins, rank m ≤ R)
    (hfuel : 2 * R + 1 < fuel)
    (hstash : ∀ p, nameObj.stash = some p → ∃ c, st.contexts p = some c
      ∧ (Tcl_FindHashEntry cache nameObj.bytes = some (some p) → 2 ≤ c.refCount))
    (hcache : ∀ q, Tcl_FindHashEntry cache nameObj.bytes = some (some q) →
      ∃ c, st.contexts q = some c) :
    ∃ r, TclOOGetCallContext fuel st oPtr nameObj flags cache = some r := by
  have fin : ∀ (K : Nat → Option CallContext) (n : MethodNameObj)
      (c0 : HashTable (Option Nat)) (d : Bool), ∃ r,
      (buildCallContext fuel st oPtr nameObj.bytes flags d c0).map
        (fun x => (⟨x.1, { st with classes := x.2.1, contexts := K }, n,
          x.2.2⟩ : GetResult)) = some r := by
    intro K n c0 d
    obtain ⟨x, hx⟩ := buildCallContext_terminates st rank hac hset fuel oPtr R nameObj.bytes
      flags d c0 h1 h2 hfuel
    exact ⟨_, by rw [hx]; rfl⟩
  have lookup : ∀ (K : Nat → Option CallContext) (n : MethodNameObj),
      (∀ q, Tcl_FindHashEntry cache nameObj.bytes = some (some q) → ∃ c, K q = some c) →
      ∃ r, (match Tcl_FindHashEntry cache nameObj.bytes with
      | some (some p) =>
        match K p with
        | none => none
        | some c =>
          if c.globalEpoch = st.fPtr.epoch ∧ c.localEpoch = (st.objects oPtr).epoch then
            some (⟨CallResult.cached p, { st with contexts := K }, n,
              Tcl_SetHashValue cache nameObj.bytes none⟩ : GetResult)
          else
            (TclOODeleteContext K p).bind
              (fun contexts1 =>
                (buildCallContext fuel st oPtr nameObj.bytes flags true
                  (Tcl_SetHashValue cache nameObj.bytes none)).map
                (fun x => (⟨x.1, { st with classes := x.2.1, contexts := contexts1 }, n,
                  x.2.2⟩ : GetResult)))
      | _ =>
        (buildCallContext fuel st oPtr nameObj.bytes flags true cache).map
          (fun x => (⟨x.1, { st with classes := x.2.1, contexts := K }, n,
            x.2.2⟩ : GetResult))) = some r := by
    intro K n hK
    obtain ⟨v, hf⟩ : ∃ v, Tcl_FindHashEntry cache nameObj.bytes = v := ⟨_, rfl⟩
    rcases v with _ | _ | q
    · simp only [hf]
      exact fin _ _ _ _
    · simp only [hf]
      exact fin _ _ _ _
    · obtain ⟨c, hc⟩ := hK q hf
      simp only [hf, hc]
      by_cases ht : c.globalEpoch = st.fPtr.epoch ∧ c.localEpoch = (st.objects oPtr).epoch
      · rw [if_pos ht]
        exact ⟨_, rfl⟩
      · rw [if_neg ht]
        have hdel : ∃ K1, TclOODeleteContext K q = some K1 := by
          unfold TclOODeleteContext
          rw [hc]
          simp only
          split <;> exact ⟨_, rfl⟩
        obtain ⟨K1, hK1⟩ := hdel
        simp only [hK1, Option.some_bind]
        exact fin _ _ _ _
  unfold TclOOGetCallContext
  simp only
  by_cases hm : (flags.SPECIAL || flags.FILTER_HANDLING
      || (st.objects oPtr).flags.FILTER_HANDLING) = true
  · simp only [hm, if_true]
    exact fin _ _ _ _
  · simp only [hm, Bool.false_eq_true, if_false]
    cases hs : nameObj.stash with
    | none =>
      simp only
      exact lookup _ _ hcache
    | some p =>
      obtain ⟨c, hc, hcnt⟩ := hstash p hs
      simp only [hc]
      by_cases ht : (st.objects c.oPtr).creationEpoch = (st.objects oPtr).creationEpoch
          ∧ c.globalEpoch = st.fPtr.epoch
          ∧ c.localEpoch = (st.objects oPtr).epoch
          ∧ c.flags = flags
      · rw [if_pos ht]
        exact ⟨_, rfl⟩
      · rw [if_neg ht]
        by_cases hrc : c.refCount - 1 ≥ 1
        · have hdel : TclOODeleteContext st.contexts p
              = some (setAt st.contexts p (some { c with refCount := c.refCount - 1 })) := by
            unfold TclOODeleteContext
            rw [hc]
            simp only [hrc, if_true]
          simp only [hdel, Option.some_bind]
          apply lookup
          intro q hq
          by_cases hqp : q = p
          · rw [hqp, setAt_same]
            exact ⟨_, rfl⟩
          · rw [setAt_other _ _ _ _ hqp]
            exact hcache q hq
        · have hdel : TclOODeleteContext st.contexts p = some (setAt st.contexts p none) := by
            unfold TclOODeleteContext
            rw [hc]
            simp only [hrc, if_false]
          simp only [hdel, Option.some_bind]
          apply lookup
          intro q hq
          by_cases hqp : q = p
          · rw [hqp] at hq
            have := hcnt hq
            omega
          · rw [setAt_other _ _ _ _ hqp]
            exact hcache q hq

/-! ## C11 -/

/-- C12.  No filters while filtering.  When the flags include `CONSTRUCTOR`,
`DESTRUCTOR` or `FILTER_HANDLING`, or the `FILTER_HANDLING` flag of the target
object is set, `TclOOGetCallContext` returns neither the stashed nor a cached
context; a chain it returns has no entry with `isFilter` set, whatever filters the
object, its mixins and its classes declare; the method name keeps its stash, the
per-object cache and the context store are left as they were; and the value
returned is the same for every stash, every cache and every context store, so
none of them is read.  The call returns, whatever the name and the cache hold,
when superclass and mixin links form no cycle, the lists of the classes stamped
with the current epoch are well ranked and the fuel exceeds twice a bound on the
rank of the class and of the mixins of the object.  In scenario S3 (class filter `f`, instance filter `g`) the
dispatch of `m` on object 101 with `FILTER_HANDLING` returns, for every fuel of at
least 3, the chain made of `m` alone. -/
theorem C12_no_filters_while_filtering :
    (∀ (fuel : Nat) (st : OOState) (oPtr : Nat) (nameObj : MethodNameObj) (flags : Flags)
      (cache : HashTable (Option Nat)) (r : GetResult),
      (flags.CONSTRUCTOR = true ∨ flags.DESTRUCTOR = true ∨ flags.FILTER_HANDLING = true
        ∨ (st.objects oPtr).flags.FILTER_HANDLING = true) →
      TclOOGetCallContext fuel st oPtr nameObj flags cache = some r →
      (∀ p, r.ret ≠ CallResult.stashed p ∧ r.ret ≠ CallResult.cached p)
      ∧ (∀ c, r.ret = CallResult.built c → ∀ e ∈ c.chain, e.isFilter = false)
      ∧ r.methodNameObj = nameObj ∧ r.cache = cache ∧ r.st.contexts = st.contexts
      ∧ ∀ (K : Nat → Option CallContext) (stash2 : Option Nat)
          (cache2 : HashTable (Option Nat)),
          (TclOOGetCallContext fuel { st with contexts := K } oPtr ⟨nameObj.bytes, stash2⟩
            flags cache2).map GetResult.ret = some r.ret)
    ∧ (∀ (rank : Nat → Nat) (R fuel : Nat) (st : OOState) (oPtr : Nat)
        (nameObj : MethodNameObj) (flags : Flags) (cache : HashTable (Option Nat)),
        (flags.CONSTRUCTOR = true ∨ flags.DESTRUCTOR = true ∨ flags.FILTER_HANDLING = true
          ∨ (st.objects oPtr).flags.FILTER_HANDLING = true) →
        acyclicMixed st.classes rank → settled st.fPtr (wellRanked rank) st.classes →
        rank (st.objects oPtr).selfCls ≤ R →
        (∀ m ∈ (st.objects oPtr).mixins, rank m ≤ R) →
        2 * R + 1 < fuel →
        ∃ r, TclOOGetCallContext fuel st oPtr nameObj flags cache = some r)
    ∧ (∀ k, (TclOOGetCallContext (k + 3) (filterState true) 101 ⟨"m", some 8⟩
          { PUBLIC_METHOD := true, FILTER_HANDLING := true } [("m", some 7)]).map
          GetResult.ret
        = some (CallResult.built filteringContext)) := by
  have part : ∀ (fuel : Nat) (st : OOState) (oPtr : Nat) (nameObj : MethodNameObj)
      (flags : Flags) (cache : HashTable (Option Nat)) (r : GetResult),
      (flags.CONSTRUCTOR = true ∨ flags.DESTRUCTOR = true ∨ flags.FILTER_HANDLING = true
        ∨ (st.objects oPtr).flags.FILTER_HANDLING = true) →
      TclOOGetCallContext fuel st oPtr nameObj flags cache = some r →
      (∀ p, r.ret ≠ CallResult.stashed p ∧ r.ret ≠ CallResult.cached p)
      ∧ (∀ c, r.ret = CallResult.built c → ∀ e ∈ c.chain, e.isFilter = false)
      ∧ r.methodNameObj = nameObj ∧ r.cache = cache ∧ r.st.contexts = st.contexts
      ∧ ∀ (K : Nat → Option CallContext) (stash2 : Option Nat)
          (cache2 : HashTable (Option Nat)),
          (TclOOGetCallContext fuel { st with contexts := K } oPtr ⟨nameObj.bytes, stash2⟩
            flags cache2).map GetResult.ret = some r.ret := ?_
  · refine ⟨part, ?_, fun k => rfl⟩
    intro rank R fuel st oPtr nameObj flags cache hmode hac hset h1 h2 hfuel
    obtain ⟨r0, hr0⟩ := TclOOGetCallContext_terminates st rank hac hset fuel oPtr R
      ⟨nameObj.bytes, none⟩ flags [] h1 h2 hfuel (fun _ h => by cases h)
      (fun _ h => by cases h)
    have e := (part fuel st oPtr ⟨nameObj.bytes, none⟩ flags [] r0 hmode hr0).2.2.2.2.2
      st.contexts nameObj.stash cache
    cases hx : TclOOGetCallContext fuel st oPtr nameObj flags cache with
    | none =>
      have e2 : TclOOGetCallContext fuel { st with contexts := st.contexts } oPtr
          ⟨nameObj.bytes, nameObj.stash⟩ flags cache = none := hx
      rw [e2] at e
      cases e
    | some r => exact ⟨r, rfl⟩
  intro fuel st oPtr nameObj flags cache r hmode h
  have hm : (flags.SPECIAL || flags.FILTER_HANDLING
      || (st.objects oPtr).flags.FILTER_HANDLING) = true := by
    simp only [Flags.SPECIAL, Bool.or_eq_true]
    tauto
  have unf : ∀ (st2 : OOState) (n : MethodNameObj) (c2 : HashTable (Option Nat)),
      (st2.objects oPtr).flags.FILTER_HANDLING = (st.objects oPtr).flags.FILTER_HANDLING →
      TclOOGetCallContext fuel st2 oPtr n flags c2
        = (buildCallContext fuel st2 oPtr n.bytes flags false c2).map
            (fun x => (⟨x.1, { st2 with classes := x.2.1, contexts := st2.contexts }, n,
              x.2.2⟩ : GetResult)) := by
    intro st2 n c2 e
    unfold TclOOGetCallContext
    simp only [e, hm, if_true]
  have h0 := h
  rw [unf st nameObj cache rfl, buildCallContext_nocache] at h0
  simp only [Option.map_map, Option.map_eq_some'] at h0
  obtain ⟨x, hx, rfl⟩ := h0
  refine ⟨?_, ?_, rfl, rfl, rfl, ?_⟩
  · intro p
    have := (buildCallContext_ret fuel st oPtr nameObj.bytes flags false [] x hx).1 p
    exact this
  · intro c hc
    obtain ⟨_, Lf, Lc, hLf, _, h1, h2⟩ := buildCallContext_spec fuel st oPtr nameObj.bytes
      flags false [] _ hx
    have hnil : Lf = [] := hLf rfl
    subst hnil
    simp only [Function.comp] at hc h1 h2
    by_cases hR : regionAll { st with classes := x.2.1 } flags.PRIVATE_METHOD
        (st.objects oPtr).selfCls false Lc [] = []
    · obtain ⟨_, hs1, hs2⟩ := h2 hR
      by_cases hs : flags.SPECIAL = true
      · rw [hs1 hs] at hc; cases hc
      · simp only [Bool.not_eq_true] at hs
        obtain ⟨Lu, _, hu1, hu2⟩ := hs2 hs
        by_cases hU : regionAll { st with classes := x.2.1 } flags.PRIVATE_METHOD
            (st.objects oPtr).selfCls false Lu [] = []
        · rw [hu1 hU] at hc; cases hc
        · rw [hu2 hU] at hc
          simp only [CallResult.built.injEq] at hc
          subst hc
          intro e he
          simp only [withChain, List.nil_append, regionAll, List.map_nil] at he
          exact regionAll_forall _ _ _ _ (fun e => e.isFilter = false) _ _ (fun _ _ _ => rfl)
            (fun _ h => by cases h) e he
    · rw [(h1 hR).1] at hc
      simp only [CallResult.built.injEq] at hc
      subst hc
      intro e he
      simp only [withChain, List.nil_append, regionAll, List.map_nil] at he
      exact regionAll_forall _ _ _ _ (fun e => e.isFilter = false) _ _ (fun _ _ _ => rfl)
            (fun _ h => by cases h) e he
  · intro K stash2 cache2
    rw [unf { st with contexts := K } ⟨nameObj.bytes, stash2⟩ cache2 rfl]
    have e := buildCallContext_store fuel st K oPtr nameObj.bytes flags [] cache2
    rw [hx, Option.map_some', Option.map_eq_some'] at e
    obtain ⟨y, hy, hyx⟩ := e
    simp only [Prod.mk.injEq] at hyx
    simp only [Option.map_map, Option.map_eq_some']
    exact ⟨y, hy, hyx.1⟩

/-- The lookup made while a filter is being resolved returns. -/
theorem filteringLookup_isSome : filteringLookup.isSome = true := rfl

/-- Witness of C12 on scenario S3 with `FILTER_HANDLING`: the stash 8 and the
cached 7 are not even allocated, the lookup returns all the same, leaves name and
cache alone, and returns the same context from another store, stash and cache. -/
theorem C12_no_filters_while_filtering_witness :
    ∃ r, filteringLookup = some r
      ∧ (r.ret ≠ CallResult.stashed 8 ∧ r.ret ≠ CallResult.cached 8)
      ∧ (⟨22, false, none⟩ : MInvoke).isFilter = false
      ∧ r.methodNameObj = ⟨"m", some 8⟩ ∧ r.cache = [("m", some 7)]
      ∧ r.st.contexts = (filterState true).contexts
      ∧ (TclOOGetCallContext 3 { filterState true with contexts := staleState.contexts } 101
            ⟨"m", none⟩ { PUBLIC_METHOD := true, FILTER_HANDLING := true } []).map
            GetResult.ret = some r.ret :=
  ⟨Option.get filteringLookup filteringLookup_isSome,
    (Option.some_get filteringLookup_isSome).symm,
    (C12_no_filters_while_filtering.1 3 (filterState true) 101 ⟨"m", some 8⟩
      { PUBLIC_METHOD := true, FILTER_HANDLING := true } [("m", some 7)]
      (Option.get filteringLookup filteringLookup_isSome) (Or.inr (Or.inr (Or.inl rfl)))
      (Option.some_get filteringLookup_isSome).symm).1 8,
    (C12_no_filters_while_filtering.1 3 (filterState true) 101 ⟨"m", some 8⟩
      { PUBLIC_METHOD := true, FILTER_HANDLING := true } [("m", some 7)]
      (Option.get filteringLookup filteringLookup_isSome) (Or.inr (Or.inr (Or.inl rfl)))
      (Option.some_get filteringLookup_isSome).symm).2.1 filteringContext rfl
      ⟨22, false, none⟩ (List.mem_singleton.2 rfl),
    (C12_no_filters_while_filtering.1 3 (filterState true) 101 ⟨"m", some 8⟩
      { PUBLIC_METHOD := true, FILTER_HANDLING := true } [("m", some 7)]
      (Option.get filteringLookup filteringLookup_isSome) (Or.inr (Or.inr (Or.inl rfl)))
      (Option.some_get filteringLookup_isSome).symm).2.2.1,
    (C12_no_filters_while_filtering.1 3 (filterState true) 101 ⟨"m", some 8⟩
      { PUBLIC_METHOD := true, FILTER_HANDLING := true } [("m", some 7)]
      (Option.get filteringLookup filteringLookup_isSome) (Or.inr (Or.inr (Or.inl rfl)))
      (Option.some_get filteringLookup_isSome).symm).2.2.2.1,
    (C12_no_filters_while_filtering.1 3 (filterState true) 101 ⟨"m", some 8⟩
      { PUBLIC_METHOD := true, FILTER_HANDLING := true } [("m", some 7)]
      (Option.get filteringLookup filteringLookup_isSome) (Or.inr (Or.inr (Or.inl rfl)))
      (Option.some_get filteringLookup_isSome).symm).2.2.2.2.1,
    (C12_no_filters_while_filtering.1 3 (filterState true) 101 ⟨"m", some 8⟩
      { PUBLIC_METHOD := true, FILTER_HANDLING := true } [("m", some 7)]
      (Option.get filteringLookup filteringLookup_isSome) (Or.inr (Or.inr (Or.inl rfl)))
      (Option.some_get filteringLookup_isSome).symm).2.2.2.2.2 staleState.contexts none []⟩

/-! ## The increment of an epoch -/

/-- Below `INT_MAX` the increment of a C `int` is one more. -/
theorem incrInt_below (e : Int) (h1 : -2147483648 ≤ e) (h2 : e < 2147483647) :
    incrInt e = e + 1 := by
  unfold incrInt
  omega

/-- At `INT_MAX` the increment wraps around to `INT_MIN`. -/
theorem incrInt_max : incrInt 2147483647 = -2147483648 := by
  decide

/-- An incremented epoch is never the epoch it was. -/
theorem incrInt_ne (e : Int) : incrInt e ≠ e := by
  unfold incrInt
  omega

/-! ## C21 -/

/-- Counterexample to C21 as stated, in scenario S15: at the foundation epoch
`INT_MAX` = 2147483647 the bump reported with no class, and the bump for class
A = 2, which has a subclass, leave the foundation epoch -2147483648, which is not
the former epoch plus one. -/
theorem C21_wrap_counterexample :
    saturatedState.fPtr.epoch = 2147483647
    ∧ (saturatedState.classes 2).subclasses = [3]
    ∧ (BumpGlobalEpoch saturatedState none).fPtr.epoch = -2147483648
    ∧ (BumpGlobalEpoch saturatedState (some 2)).fPtr.epoch = -2147483648
    ∧ (BumpGlobalEpoch saturatedState none).fPtr.epoch ≠ saturatedState.fPtr.epoch + 1
    ∧ (BumpGlobalEpoch saturatedState (some 2)).fPtr.epoch
        ≠ saturatedState.fPtr.epoch + 1 :=
  ⟨rfl, rfl, rfl, rfl, by decide, by decide⟩

/-- C21, amended.  The class-mutation epoch rule, the epochs being C `int`s
incremented by `++` (`incrInt`: one more below `INT_MAX` = 2147483647, and
`INT_MIN` = -2147483648 from `INT_MAX`, never the value it was).  For a class
without subclasses, instances and mixinSubs, `BumpGlobalEpoch` leaves the
foundation as it was; when the object representing the class has at least one
mixin, the epoch of that object is incremented once and nothing else changes in
it or in any other object; when it has no mixin, no object changes at all.  For
any other class, and for the null class, the epoch of the foundation is
incremented once, the rest of the foundation stays, and no object changes.  In
both cases the classes, the method records and the call contexts are left as they
were. -/
theorem C21_class_mutation_epoch_rule (st : OOState) (classPtr : Option Nat) :
    (∀ cls, classPtr = some cls →
      (st.classes cls).subclasses = [] → (st.classes cls).instances = [] →
      (st.classes cls).mixinSubs = [] →
      (BumpGlobalEpoch st classPtr).fPtr = st.fPtr
      ∧ ((st.objects (st.classes cls).thisPtr).mixins ≠ [] →
          (BumpGlobalEpoch st classPtr).objects (st.classes cls).thisPtr
            = { st.objects (st.classes cls).thisPtr with
                epoch := incrInt (st.objects (st.classes cls).thisPtr).epoch }
          ∧ ∀ o, o ≠ (st.classes cls).thisPtr →
              (BumpGlobalEpoch st classPtr).objects o = st.objects o)
      ∧ ((st.objects (st.classes cls).thisPtr).mixins = [] →
          (BumpGlobalEpoch st classPtr).objects = st.objects))
    ∧ ((classPtr = none ∨ ∃ cls, classPtr = some cls ∧
          ((st.classes cls).subclasses ≠ [] ∨ (st.classes cls).instances ≠ []
            ∨ (st.classes cls).mixinSubs ≠ [])) →
      (BumpGlobalEpoch st classPtr).fPtr = { st.fPtr with epoch := incrInt st.fPtr.epoch }
      ∧ (BumpGlobalEpoch st classPtr).objects = st.objects)
    ∧ (BumpGlobalEpoch st classPtr).classes = st.classes
    ∧ (BumpGlobalEpoch st classPtr).methods = st.methods
    ∧ (BumpGlobalEpoch st classPtr).contexts = st.contexts
    ∧ (∀ e : Int, -2147483648 ≤ e → e < 2147483647 → incrInt e = e + 1)
    ∧ incrInt 2147483647 = -2147483648
    ∧ (∀ e : Int, incrInt e ≠ e) := by
  refine ⟨?_, ?_, ?_, ?_, ?_, incrInt_below, incrInt_max, incrInt_ne⟩
  · intro cls hc h1 h2 h3
    subst hc
    have hleaf : (st.classes cls).subclasses.length = 0 ∧ (st.classes cls).instances.length = 0
        ∧ (st.classes cls).mixinSubs.length = 0 := by simp [h1, h2, h3]
    refine ⟨?_, ?_, ?_⟩
    · simp only [BumpGlobalEpoch, hleaf, and_self, if_true]
      split <;> rfl
    · intro hm
      have hpos : (st.objects (st.classes cls).thisPtr).mixins.length > 0 :=
        List.length_pos.mpr hm
      simp only [BumpGlobalEpoch, hleaf, and_self, if_true, hpos]
      exact ⟨setAt_same _ _ _, fun o ho => setAt_other _ _ _ _ ho⟩
    · intro hm
      simp only [BumpGlobalEpoch, hleaf, and_self, if_true, hm, List.length_nil,
        gt_iff_lt, lt_self_iff_false, if_false]
  · intro h
    rcases h with h | ⟨cls, hc, h⟩
    · subst h
      exact ⟨rfl, rfl⟩
    · subst hc
      have hn : ¬ ((st.classes cls).subclasses.length = 0
          ∧ (st.classes cls).instances.length = 0
          ∧ (st.classes cls).mixinSubs.length = 0) := by
        simp only [List.length_eq_zero]
        tauto
      simp only [BumpGlobalEpoch, hn, if_false, and_self]
  all_goals
    unfold BumpGlobalEpoch
    split
    · split
      · split <;> rfl
      · rfl
    · rfl

/-- Witness of C21 on scenario S6: class L = 5 is unused and its object 15 has no
mixin, so nothing changes; class A = 2 has a subclass, so the foundation epoch
goes from 1 to 2. -/
theorem C21_class_mutation_epoch_rule_witness :
    ((BumpGlobalEpoch defineState (some 5)).fPtr = defineState.fPtr
      ∧ (BumpGlobalEpoch defineState (some 5)).objects = defineState.objects)
    ∧ (BumpGlobalEpoch defineState (some 2)).fPtr.epoch = 2 :=
  ⟨⟨((C21_class_mutation_epoch_rule defineState (some 5)).1 5 rfl rfl rfl rfl).1,
    ((C21_class_mutation_epoch_rule defineState (some 5)).1 5 rfl rfl rfl rfl).2.2 rfl⟩,
   congrArg Foundation.epoch
    ((C21_class_mutation_epoch_rule defineState (some 2)).2.1
      (Or.inr ⟨2, rfl, Or.inl (by decide)⟩)).1⟩

/-! ## C22 -/

/-- Updates of the `instances` back-edges change no other field of a class. -/
theorem instances_only (classes0 : Nat → Class) (oPtr selfCls : Nat) (guarded add : Bool)
    (l : List Nat) (classes : Nat → Class)
    (h : ∀ c, { classes c with instances := (classes0 c).instances } = classes0 c) :
    ∀ c, { (l.foldl (fun acc mixinPtr =>
        if guarded = true ∧ mixinPtr = selfCls then acc
        else if add = true then TclOOAddToInstances acc oPtr mixinPtr
        else TclOORemoveFromInstances acc oPtr mixinPtr) classes) c with
      instances := (classes0 c).instances } = classes0 c := by
  apply foldl_inv (fun acc : Nat → Class =>
    ∀ c, { acc c with instances := (classes0 c).instances } = classes0 c)
  · intro acc x _ hacc c
    split
    · exact hacc c
    · split
      · unfold TclOOAddToInstances setAt
        split
        · next e => subst e; exact hacc c
        · exact hacc c
      · unfold TclOORemoveFromInstances setAt
        split
        · next e => subst e; exact hacc c
        · exact hacc c
  · exact h

/-- Counterexample to C22 as stated, in scenario S15: object 100 has the epoch
`INT_MAX` = 2147483647, and after either setter its epoch is -2147483648, which
is not the former epoch plus one. -/
theorem C22_wrap_counterexample :
    (saturatedState.objects 100).epoch = 2147483647
    ∧ ((TclOOObjectSetFilters saturatedState 100 ["f"]).objects 100).epoch = -2147483648
    ∧ ((TclOOObjectSetMixins saturatedState 100 [5]).objects 100).epoch = -2147483648
    ∧ ((TclOOObjectSetFilters saturatedState 100 ["f"]).objects 100).epoch
        ≠ (saturatedState.objects 100).epoch + 1
    ∧ ((TclOOObjectSetMixins saturatedState 100 [5]).objects 100).epoch
        ≠ (saturatedState.objects 100).epoch + 1 :=
  ⟨rfl, rfl, rfl, by decide, by decide⟩

/-- C22, amended.  The object setters, the epoch being a C `int` incremented by
`++` (`incrInt`: one more below `INT_MAX` = 2147483647, and `INT_MIN` =
-2147483648 from `INT_MAX`, never the value it was).  `TclOOObjectSetFilters`
leaves the object with exactly the given filter names, in order (none when the
array is empty), and with its epoch incremented once; `TclOOObjectSetMixins` does
the same for the mixin classes.  In both cases every other field of the object
(its methods, its class, the other list, its creation epoch and flags), every
other object, the foundation with its epoch, the method records and the call
contexts are left as they were.  The filter setter leaves the classes untouched;
the mixin setter changes nothing in a class but its `instances` back-edges. -/
theorem C22_object_setters (st : OOState) (oPtr : Nat) :
    (∀ filters : List String,
      (TclOOObjectSetFilters st oPtr filters).objects oPtr
        = { st.objects oPtr with filters := filters, epoch := incrInt (st.objects oPtr).epoch }
      ∧ (∀ o, o ≠ oPtr → (TclOOObjectSetFilters st oPtr filters).objects o = st.objects o)
      ∧ (TclOOObjectSetFilters st oPtr filters).fPtr = st.fPtr
      ∧ (TclOOObjectSetFilters st oPtr filters).classes = st.classes
      ∧ (TclOOObjectSetFilters st oPtr filters).methods = st.methods
      ∧ (TclOOObjectSetFilters st oPtr filters).contexts = st.contexts)
    ∧ (∀ mixins : List Nat,
      (TclOOObjectSetMixins st oPtr mixins).objects oPtr
        = { st.objects oPtr with mixins := mixins, epoch := incrInt (st.objects oPtr).epoch }
      ∧ (∀ o, o ≠ oPtr → (TclOOObjectSetMixins st oPtr mixins).objects o = st.objects o)
      ∧ (TclOOObjectSetMixins st oPtr mixins).fPtr = st.fPtr
      ∧ (∀ c, { (TclOOObjectSetMixins st oPtr mixins).classes c with
                instances := (st.classes c).instances } = st.classes c)
      ∧ (TclOOObjectSetMixins st oPtr mixins).methods = st.methods
      ∧ (TclOOObjectSetMixins st oPtr mixins).contexts = st.contexts)
    ∧ (∀ e : Int, -2147483648 ≤ e → e < 2147483647 → incrInt e = e + 1)
    ∧ incrInt 2147483647 = -2147483648
    ∧ (∀ e : Int, incrInt e ≠ e) := by
  refine ⟨?_, ?_, incrInt_below, incrInt_max, incrInt_ne⟩
  · intro filters
    have key : TclOOObjectSetFilters st oPtr filters
        = { st with
            objects := setAt st.objects oPtr
              { st.objects oPtr with
                filters := filters, epoch := incrInt (st.objects oPtr).epoch } } := by
      unfold TclOOObjectSetFilters
      by_cases h : filters.length = 0
      · have e : filters = [] := List.length_eq_zero.1 h
        subst e
        rfl
      · simp only [if_neg h]
    rw [key]
    exact ⟨setAt_same _ _ _, fun o ho => setAt_other _ _ _ _ ho, rfl, rfl, rfl, rfl⟩
  · intro mixins
    have key : ∃ classes1 : Nat → Class,
        (∀ c, { classes1 c with instances := (st.classes c).instances } = st.classes c)
        ∧ TclOOObjectSetMixins st oPtr mixins
          = { st with
              classes := classes1
              objects := setAt st.objects oPtr
                { st.objects oPtr with
                  mixins := mixins, epoch := incrInt (st.objects oPtr).epoch } } := by
      unfold TclOOObjectSetMixins
      by_cases h : mixins.length = 0
      · have e : mixins = [] := List.length_eq_zero.1 h
        subst e
        by_cases h0 : (st.objects oPtr).mixins.length ≠ 0
        · simp only [List.length_nil, if_true, if_pos h0]
          refine ⟨_, ?_, rfl⟩
          have := instances_only st.classes oPtr (st.objects oPtr).selfCls false false
            (st.objects oPtr).mixins st.classes (fun _ => rfl)
          simpa using this
        · have e0 : (st.objects oPtr).mixins = [] := List.length_eq_zero.1 (not_not.1 h0)
          simp only [List.length_nil, if_true, if_neg h0]
          refine ⟨st.classes, fun _ => rfl, ?_⟩
          rw [← e0]
      · simp only [if_neg h]
        refine ⟨_, ?_, rfl⟩
        have h1 : ∀ c, { (if (st.objects oPtr).mixins.length ≠ 0 then
              (st.objects oPtr).mixins.foldl
                (fun classes mixinPtr =>
                  if mixinPtr ≠ (st.objects oPtr).selfCls then
                    TclOORemoveFromInstances classes oPtr mixinPtr
                  else classes)
                st.classes
            else st.classes) c with instances := (st.classes c).instances }
            = st.classes c := by
          split
          · have := instances_only st.classes oPtr (st.objects oPtr).selfCls true false
              (st.objects oPtr).mixins st.classes (fun _ => rfl)
            simpa [ite_not] using this
          · exact fun _ => rfl
        have := instances_only st.classes oPtr (st.objects oPtr).selfCls true true
          mixins _ h1
        simpa [ite_not] using this
    obtain ⟨classes1, hc, e⟩ := key
    rw [e]
    exact ⟨setAt_same _ _ _, fun o ho => setAt_other _ _ _ _ ho, rfl, hc, rfl, rfl⟩

/-- Witness of C22 on scenario S6: object 100 gets the filters `f`, `g` and then
the mixin L = 5; its epoch goes from 0 to 1 each time and object 12 keeps its
record. -/
theorem C22_object_setters_witness :
    ((TclOOObjectSetFilters defineState 100 ["f", "g"]).objects 100).filters = ["f", "g"]
    ∧ (TclOOObjectSetFilters defineState 100 ["f", "g"]).objects 12 = defineState.objects 12
    ∧ (TclOOObjectSetMixins defineState 100 [5]).objects 12 = defineState.objects 12 :=
  ⟨congrArg Object.filters ((C22_object_setters defineState 100).1 ["f", "g"]).1,
    ((C22_object_setters defineState 100).1 ["f", "g"]).2.1 12 (by decide),
    ((C22_object_setters defineState 100).2.1 [5]).2.1 12 (by decide)⟩

/-! ## Lookups in a method table after a deletion or an addition -/

theorem Tcl_FindHashEntry_delete {β : Type} (key k : String) :
    ∀ t : HashTable β, Tcl_FindHashEntry (Tcl_DeleteHashEntry t key) k
      = if k = key then none else Tcl_FindHashEntry t k := by
  intro t
  unfold Tcl_FindHashEntry Tcl_DeleteHashEntry
  induction t with
  | nil => simp
  | cons a rest ih =>
    obtain ⟨a1, a2⟩ := a
    by_cases ha : a1 = key
    · subst ha
      rw [List.filter_cons_of_neg (by simp), ih]
      by_cases hk : k = a1
      · simp [hk]
      · have : (k == a1) = false := by simpa using hk
        simp only [if_neg hk, List.lookup_cons, this]
    · rw [List.filter_cons_of_pos (by simpa using ha), List.lookup_cons, List.lookup_cons, ih]
      by_cases hk : k = a1
      · subst hk
        simp [ha]
      · have : (k == a1) = false := by simpa using hk
        rw [this]

theorem Tcl_FindHashEntry_append {β : Type} (k : String) (u : HashTable β) :
    ∀ t : HashTable β, Tcl_FindHashEntry (t ++ u) k
      = match Tcl_FindHashEntry t k with
        | some v => some v
        | none => Tcl_FindHashEntry u k := by
  intro t
  unfold Tcl_FindHashEntry
  induction t with
  | nil => simp
  | cons a rest ih =>
    obtain ⟨a1, a2⟩ := a
    rw [List.cons_append, List.lookup_cons, List.lookup_cons]
    cases hk : (k == a1) with
    | true => rfl
    | false => exact ih

theorem boundTo_setMethodTable (st : OOState) (oPtr : Nat) (useClass : Bool)
    (tbl : HashTable Nat) (name : String)
    (hcls : useClass = true → (st.objects oPtr).classPtr ≠ none) :
    boundTo (setMethodTable st oPtr useClass tbl) oPtr useClass name
      = Tcl_FindHashEntry tbl name := by
  cases useClass with
  | false =>
    simp only [boundTo, methodTable, setMethodTable, Bool.false_eq_true, if_false, setAt_same]
  | true =>
    cases hc : (st.objects oPtr).classPtr with
    | none => exact absurd hc (hcls rfl)
    | some cls =>
      simp only [boundTo, methodTable, setMethodTable, if_true, hc, setAt_same]

/-! ## C28 -/

/-- C28.  Errors and atomicity of `RenameDeleteMethod`.  On the table of an
object, or on the table of the class that the object represents, the function
returns; it returns `TCL_ERROR` exactly when the source name has no record (also
when the object has no table), or the target name given for a rename is the
source name, or the target name already has a record; and then the whole state,
so the table with its keys and the record bound to each key, is as before.
Otherwise it returns `TCL_OK` and the source name has no record afterwards, every
name other than source and target is bound as before, and after a rename the
target name is bound to the record the source name was bound to, which differs
from what it was in its `namePtr` only (same flags, same implementation), every
other record being untouched. -/
theorem C28_rename_delete (st : OOState) (oPtr : Nat) (useClass : Bool)
    (fromPtr : String) (toPtr : Option String)
    (hcls : useClass = true → (st.objects oPtr).classPtr ≠ none) :
    ∃ code st1, RenameDeleteMethod st oPtr useClass fromPtr toPtr = some (code, st1)
      ∧ (code = ReturnCode.TCL_ERROR ↔
          boundTo st oPtr useClass fromPtr = none ∨ toPtr = some fromPtr
            ∨ ∃ newName, toPtr = some newName
                ∧ (boundTo st oPtr useClass newName).isSome = true)
      ∧ (code = ReturnCode.TCL_ERROR → st1 = st)
      ∧ (code = ReturnCode.TCL_OK →
          boundTo st1 oPtr useClass fromPtr = none
          ∧ (∀ name, name ≠ fromPtr → toPtr ≠ some name →
              boundTo st1 oPtr useClass name = boundTo st oPtr useClass name)
          ∧ (∀ newName, toPtr = some newName →
              ∃ mPtr, boundTo st oPtr useClass fromPtr = some mPtr
                ∧ boundTo st1 oPtr useClass newName = some mPtr
                ∧ st1.methods mPtr = { st.methods mPtr with namePtr := newName }
                ∧ ∀ m, m ≠ mPtr → st1.methods m = st.methods m)) := by
  have hne : ReturnCode.TCL_OK ≠ ReturnCode.TCL_ERROR := by decide
  have hne2 : ReturnCode.TCL_ERROR ≠ ReturnCode.TCL_OK := by decide
  have hbs : ∀ (ms : Nat → Method) (tbl1 : HashTable Nat) (name : String),
      boundTo (setMethodTable { st with methods := ms } oPtr useClass tbl1) oPtr useClass name
        = Tcl_FindHashEntry tbl1 name :=
    fun ms tbl1 name =>
      boundTo_setMethodTable { st with methods := ms } oPtr useClass tbl1 name hcls
  cases ht : methodTable st oPtr useClass with
  | none =>
    exfalso
    unfold methodTable at ht
    cases useClass with
    | false => simp at ht
    | true =>
      cases hc : (st.objects oPtr).classPtr with
      | none => exact hcls rfl hc
      | some cls => simp [hc] at ht
  | some tblOpt =>
    cases tblOpt with
    | none =>
      refine ⟨ReturnCode.TCL_ERROR, st, ?_, ?_, fun _ => rfl, fun h => absurd h hne2⟩
      · simp only [RenameDeleteMethod, ht]
      · simp only [boundTo, ht, true_or]
    | some tbl =>
      have hb : ∀ name, boundTo st oPtr useClass name = Tcl_FindHashEntry tbl name := by
        intro name
        simp only [boundTo, ht]
      cases hf : Tcl_FindHashEntry tbl fromPtr with
      | none =>
        refine ⟨ReturnCode.TCL_ERROR, st, ?_, ?_, fun _ => rfl, fun h => absurd h hne2⟩
        · simp only [RenameDeleteMethod, ht, hf]
        · simp only [hb, hf, true_or]
      | some mPtr =>
        cases toPtr with
        | none =>
          refine ⟨ReturnCode.TCL_OK,
            setMethodTable { st with methods := TclOODeleteMethod st.methods mPtr } oPtr useClass
              (Tcl_DeleteHashEntry tbl fromPtr),
            ?_, ?_, fun h => absurd h hne, fun _ => ⟨?_, ?_, ?_⟩⟩
          · simp only [RenameDeleteMethod, ht, hf]
          · simp only [hb, hf]
            simp
          · rw [hbs, Tcl_FindHashEntry_delete]
            simp
          · intro name hn _
            rw [hbs, Tcl_FindHashEntry_delete, if_neg hn, hb]
          · intro newName h
            cases h
        | some newName =>
          by_cases hself : newName = fromPtr
          · refine ⟨ReturnCode.TCL_ERROR, st, ?_, ?_, fun _ => rfl, fun h => absurd h hne2⟩
            · simp only [RenameDeleteMethod, ht, hf, hself, if_true]
            · simp only [hself, true_or, or_true]
          · cases hto : Tcl_FindHashEntry tbl newName with
            | some other =>
              refine ⟨ReturnCode.TCL_ERROR, st, ?_, ?_, fun _ => rfl,
                fun h => absurd h hne2⟩
              · simp only [RenameDeleteMethod, ht, hf, hself, if_false, hto, Option.isSome_some,
                  if_true]
              · have : ∃ n, some newName = some n ∧ (boundTo st oPtr useClass n).isSome = true :=
                  ⟨newName, rfl, by rw [hb, hto]; rfl⟩
                simp only [this, or_true]
            | none =>
              refine ⟨ReturnCode.TCL_OK,
                setMethodTable
                  { st with methods := setAt st.methods mPtr
                              { st.methods mPtr with namePtr := newName } }
                  oPtr useClass (Tcl_DeleteHashEntry (tbl ++ [(newName, mPtr)]) fromPtr),
                ?_, ?_, fun h => absurd h hne, fun _ => ⟨?_, ?_, ?_⟩⟩
              · simp only [RenameDeleteMethod, ht, hf, hself, if_false, hto, Option.isSome_none,
                  Bool.false_eq_true]
              · constructor
                · intro h; exact absurd h hne
                · rintro (h | h | ⟨n, h1, h2⟩)
                  · rw [hb, hf] at h; cases h
                  · simp only [Option.some.injEq] at h; exact absurd h hself
                  · simp only [Option.some.injEq] at h1
                    subst h1
                    rw [hb, hto] at h2
                    cases h2
              · rw [hbs, Tcl_FindHashEntry_delete]
                simp
              · intro name hn hn2
                have hn3 : name ≠ newName := fun e => hn2 (by rw [e])
                rw [hbs, Tcl_FindHashEntry_delete, if_neg hn,
                  Tcl_FindHashEntry_append, hb]
                cases hl : Tcl_FindHashEntry tbl name with
                | some v => rfl
                | none =>
                  show Tcl_FindHashEntry [(newName, mPtr)] name = none
                  have hbeq : (name == newName) = false := by simpa using hn3
                  simp [Tcl_FindHashEntry, List.lookup, hbeq]
              · intro n h
                simp only [Option.some.injEq] at h
                subst h
                refine ⟨mPtr, by rw [hb, hf], ?_, ?_, ?_⟩
                · rw [hbs, Tcl_FindHashEntry_delete,
                    if_neg hself, Tcl_FindHashEntry_append, hto]
                  show Tcl_FindHashEntry [(newName, mPtr)] newName = some mPtr
                  simp [Tcl_FindHashEntry, List.lookup]
                · cases useClass with
                  | false => exact setAt_same _ _ _
                  | true =>
                    cases hc : (st.objects oPtr).classPtr with
                    | none => exact absurd hc (hcls rfl)
                    | some cls =>
                      simp only [setMethodTable, if_true, hc]
                      exact setAt_same _ _ _
                · intro m hm
                  cases useClass with
                  | false => exact setAt_other _ _ _ _ hm
                  | true =>
                    cases hc : (st.objects oPtr).classPtr with
                    | none => exact absurd hc (hcls rfl)
                    | some cls =>
                      simp only [setMethodTable, if_true, hc]
                      exact setAt_other _ _ _ _ hm

/-- Witness of C28 on scenario S6: on object 100, which has the methods `a` and
`b`, the rename of `a` to `c` is made and the rename of `a` to `b` is refused. -/
theorem C28_rename_delete_witness :
    (∃ code st1, RenameDeleteMethod defineState 100 false "a" (some "c") = some (code, st1)
      ∧ (code = ReturnCode.TCL_OK → boundTo st1 100 false "a" = none))
    ∧ (∃ code st1, RenameDeleteMethod defineState 100 false "a" (some "b") = some (code, st1)
      ∧ (code = ReturnCode.TCL_ERROR → st1 = defineState)) :=
  ⟨match C28_rename_delete defineState 100 false "a" (some "c") (fun h => by cases h) with
    | ⟨code, st1, h, _, _, h3⟩ => ⟨code, st1, h, fun e => (h3 e).1⟩,
   match C28_rename_delete defineState 100 false "a" (some "b") (fun h => by cases h) with
    | ⟨code, st1, h, _, h2, _⟩ => ⟨code, st1, h, h2⟩⟩

/-! ## C24 -/

/-- C24.  A removal that is not followed by an epoch bump.  In scenario S6 the
command `deletemethod a c` on object 100, which has the method `a` and no method
`c`, removes `a` from the method table of the object and returns `TCL_ERROR` at
`c` with the epoch of the object (and of the foundation) as before: the `return`
inside the loop leaves the function before the bump.  In the class form,
`deletemethod m c` on class A (which has a subclass) removes `m` and returns
`TCL_ERROR` with the foundation epoch as before.  When every name exists
(`deletemethod a b`) the command returns `TCL_OK` and the epoch of the object has
grown by one. -/
theorem C24_removal_without_bump :
    (∃ st1, TclOODefineDeleteMethodObjCmd defineState true (some 100) ["a", "c"]
        = some (ReturnCode.TCL_ERROR, st1)
      ∧ boundTo defineState 100 false "a" = some 30
      ∧ boundTo st1 100 false "a" = none
      ∧ (st1.objects 100).epoch = (defineState.objects 100).epoch
      ∧ st1.fPtr.epoch = defineState.fPtr.epoch)
    ∧ (∃ st1, TclOODefineDeleteMethodObjCmd defineState false (some 12) ["m", "c"]
        = some (ReturnCode.TCL_ERROR, st1)
      ∧ boundTo defineState 12 true "m" = some 20
      ∧ boundTo st1 12 true "m" = none
      ∧ (st1.classes 2).subclasses = [3]
      ∧ st1.fPtr.epoch = defineState.fPtr.epoch
      ∧ (st1.objects 12).epoch = (defineState.objects 12).epoch)
    ∧ (∃ st1, TclOODefineDeleteMethodObjCmd defineState true (some 100) ["a", "b"]
        = some (ReturnCode.TCL_OK, st1)
      ∧ boundTo st1 100 false "a" = none
      ∧ (st1.objects 100).epoch = (defineState.objects 100).epoch + 1) :=
  ⟨⟨_, rfl, rfl, rfl, rfl, rfl⟩, ⟨_, rfl, rfl, rfl, rfl, rfl, rfl⟩, ⟨_, rfl, rfl, rfl⟩⟩

/-! ## The reachability test -/

/-- The loop of `TclOOIsReachable` over classes on each of which the test
returns: it returns, with the disjunction of what is found so far and the tests. -/
theorem TclOOIsReachable_loop (classes : Nat → Class) (fuel targetPtr : Nat)
    (P : Nat → Prop) :
    ∀ (l : List Nat) (found : Bool),
      (∀ s ∈ l, ∃ b, TclOOIsReachable classes fuel targetPtr s = some b ∧ (b = true ↔ P s)) →
      ∃ b, l.foldl
          (fun found superPtr =>
            match found with
            | some false => TclOOIsReachable classes fuel targetPtr superPtr
            | r => r)
          (some found) = some b
        ∧ (b = true ↔ found = true ∨ ∃ s ∈ l, P s) := by
  intro l
  induction l with
  | nil =>
    intro found _
    exact ⟨found, rfl, by simp⟩
  | cons x rest ih =>
    intro found h
    have hrest : ∀ s ∈ rest, ∃ b, TclOOIsReachable classes fuel targetPtr s = some b
        ∧ (b = true ↔ P s) := fun s hs => h s (List.mem_cons_of_mem _ hs)
    rw [List.foldl_cons]
    cases found with
    | true =>
      obtain ⟨b, hb, hiff⟩ := ih true hrest
      exact ⟨b, hb, by simp [hiff]⟩
    | false =>
      obtain ⟨bx, hx, hxiff⟩ := h x (List.mem_cons_self _ _)
      obtain ⟨b, hb, hiff⟩ := ih bx hrest
      refine ⟨b, ?_, ?_⟩
      · simp only [hx]
        exact hb
      · rw [hiff, hxiff]
        simp

/-- Over superclass and mixin links without a cycle, `TclOOIsReachable` returns
when the fuel exceeds the rank of the start class, and what it returns is whether
the target is reached from the start along such links. -/
theorem TclOOIsReachable_spec (classes : Nat → Class) (rank : Nat → Nat)
    (hac : acyclicMixed classes rank) (targetPtr : Nat) :
    ∀ (fuel startPtr : Nat), rank startPtr < fuel →
      ∃ b, TclOOIsReachable classes fuel targetPtr startPtr = some b
        ∧ (b = true ↔ reachable classes startPtr targetPtr) := by
  intro fuel
  induction fuel with
  | zero => intro s h; omega
  | succ n ih =>
    intro s hs
    unfold TclOOIsReachable
    by_cases he : s = targetPtr
    · subst he
      exact ⟨true, by simp, by simp [reachable, Relation.ReflTransGen.refl]⟩
    · simp only [he, if_false]
      obtain ⟨b, hb, hiff⟩ := TclOOIsReachable_loop classes n targetPtr
        (fun x => reachable classes x targetPtr)
        ((classes s).superclasses ++ (classes s).mixins) false
        (fun x hx => ih x (by
          have := hac s x (List.mem_append.1 hx)
          omega))
      refine ⟨b, hb, ?_⟩
      rw [hiff]
      simp only [Bool.false_eq_true, false_or, List.mem_append]
      constructor
      · rintro ⟨x, hx, hr⟩
        exact Relation.ReflTransGen.head hx hr
      · intro hr
        rcases Relation.ReflTransGen.cases_head hr with e | ⟨x, hx, hr2⟩
        · exact absurd e he
        · exact ⟨x, hx, hr2⟩

/-- The superclass and mixin links of scenario S6 decrease its rank. -/
theorem defineState_acyclicMixed : acyclicMixed defineState.classes defineRank := by
  intro c s h
  match c, h with
  | 0, h => simp [defineState, definedClass, plainClass] at h
  | 1, h =>
    simp [defineState, definedClass, plainClass] at h
    subst h; decide
  | 2, h =>
    simp [defineState, definedClass, plainClass] at h
    subst h; decide
  | 3, h =>
    simp [defineState, definedClass, plainClass] at h
    subst h; decide
  | 4, h =>
    simp [defineState, definedClass, plainClass] at h
    subst h; decide
  | 5, h =>
    simp [defineState, definedClass, plainClass] at h
    subst h; decide
  | n + 6, h => simp [defineState, definedClass, plainClass] at h

theorem defineRank_lt (c : Nat) : defineRank c < 3 := by
  unfold defineRank
  split <;> omega

/-- `BumpGlobalEpoch` writes nothing but epochs into an object. -/
theorem BumpGlobalEpoch_object (st : OOState) (classPtr : Option Nat) (o : Nat) :
    { (BumpGlobalEpoch st classPtr).objects o with epoch := (st.objects o).epoch }
      = st.objects o := by
  unfold BumpGlobalEpoch
  split
  · split
    · split
      · show { setAt st.objects _ _ o with epoch := (st.objects o).epoch } = st.objects o
        unfold setAt
        split
        · next e => subst e; rfl
        · rfl
      · rfl
    · rfl
  · rfl

/-! ## C27 -/

theorem BumpGlobalEpoch_selfCls (st : OOState) (classPtr : Option Nat) (o : Nat) :
    ((BumpGlobalEpoch st classPtr).objects o).selfCls = (st.objects o).selfCls := by
  have h := congrArg Object.selfCls (BumpGlobalEpoch_object st classPtr o)
  exact h

/-- C27.  The rejections of a change of class.  In a definition context for
object `oPtr`, over superclass and mixin links without a cycle and with fuel above
every rank, `TclOODefineClassObjCmd` with one word returns.  It returns
`TCL_ERROR` exactly when the object represents the root class, or represents the
class of classes, or the word names no class (no object, or an object that is not
a class), or exactly one of the two holds: the object is itself a class; the
class of classes is reached from the new class.  On `TCL_ERROR` the whole state
(every `selfCls`, every `instances` back-edge, every epoch) is as before.
Otherwise it returns `TCL_OK` and `selfCls` of the object is the new class. -/
theorem C27_class_change_rejections (fuel : Nat) (st : OOState) (rank : Nat → Nat)
    (Tcl_GetObjectFromObj : String → Option Nat) (oPtr : Nat) (className : String)
    (hac : acyclicMixed st.classes rank) (hfuel : ∀ c, rank c < fuel) :
    ∃ code st1,
      TclOODefineClassObjCmd fuel st Tcl_GetObjectFromObj (some oPtr) [className]
        = some (code, st1)
      ∧ (code = ReturnCode.TCL_ERROR ↔
          oPtr = (st.classes st.fPtr.objectCls).thisPtr
          ∨ oPtr = (st.classes st.fPtr.classCls).thisPtr
          ∨ (∀ o2Ptr, Tcl_GetObjectFromObj className = some o2Ptr →
              (st.objects o2Ptr).classPtr = none)
          ∨ ∃ o2Ptr newCls, Tcl_GetObjectFromObj className = some o2Ptr
              ∧ (st.objects o2Ptr).classPtr = some newCls
              ∧ (((st.objects oPtr).classPtr ≠ none
                    ∧ ¬ reachable st.classes newCls st.fPtr.classCls)
                ∨ ((st.objects oPtr).classPtr = none
                    ∧ reachable st.classes newCls st.fPtr.classCls)))
      ∧ (code = ReturnCode.TCL_ERROR → st1 = st)
      ∧ (code = ReturnCode.TCL_OK →
          ∃ o2Ptr newCls, Tcl_GetObjectFromObj className = some o2Ptr
            ∧ (st.objects o2Ptr).classPtr = some newCls
            ∧ (st1.objects oPtr).selfCls = newCls) := by
  have hne : ReturnCode.TCL_OK ≠ ReturnCode.TCL_ERROR := by decide
  have hne2 : ReturnCode.TCL_ERROR ≠ ReturnCode.TCL_OK := by decide
  unfold TclOODefineClassObjCmd
  by_cases h1 : oPtr = (st.classes st.fPtr.objectCls).thisPtr
  · refine ⟨ReturnCode.TCL_ERROR, st, by simp only [if_pos h1], ?_, fun _ => rfl,
      fun h => absurd h hne2⟩
    simp only [h1, true_or]
  by_cases h2 : oPtr = (st.classes st.fPtr.classCls).thisPtr
  · refine ⟨ReturnCode.TCL_ERROR, st, by simp only [if_neg h1, if_pos h2], ?_, fun _ => rfl,
      fun h => absurd h hne2⟩
    simp only [h2, true_or, or_true]
  simp only [if_neg h1, if_neg h2]
  cases hr : Tcl_GetObjectFromObj className with
  | none =>
    refine ⟨ReturnCode.TCL_ERROR, st, rfl, ?_, fun _ => rfl, fun h => absurd h hne2⟩
    simp
  | some o2Ptr =>
    cases hc : (st.objects o2Ptr).classPtr with
    | none =>
      refine ⟨ReturnCode.TCL_ERROR, st, by simp only [hc], ?_, fun _ => rfl,
        fun h => absurd h hne2⟩
      simp [hc]
    | some newCls =>
      obtain ⟨b, hb, hiff⟩ := TclOOIsReachable_spec st.classes rank hac st.fPtr.classCls fuel
        newCls (hfuel newCls)
      simp only [hc, hb]
      by_cases hx : ((st.objects oPtr).classPtr == none) = b
      · refine ⟨ReturnCode.TCL_ERROR, st, by simp only [if_pos hx], ?_, fun _ => rfl,
          fun h => absurd h hne2⟩
        simp only [true_iff]
        refine Or.inr (Or.inr (Or.inr ⟨o2Ptr, newCls, rfl, hc, ?_⟩))
        cases hcp : (st.objects oPtr).classPtr with
        | none =>
          rw [hcp] at hx
          exact Or.inr ⟨rfl, hiff.1 hx.symm⟩
        | some c =>
          rw [hcp] at hx
          refine Or.inl ⟨by simp, fun hreach => ?_⟩
          have := hiff.2 hreach
          rw [this] at hx
          cases hx
      · have hok : ¬ (oPtr = (st.classes st.fPtr.objectCls).thisPtr
            ∨ oPtr = (st.classes st.fPtr.classCls).thisPtr
            ∨ (∀ o, some o2Ptr = some o → (st.objects o).classPtr = none)
            ∨ ∃ o c, some o2Ptr = some o ∧ (st.objects o).classPtr = some c
              ∧ (((st.objects oPtr).classPtr ≠ none
                    ∧ ¬ reachable st.classes c st.fPtr.classCls)
                ∨ ((st.objects oPtr).classPtr = none
                    ∧ reachable st.classes c st.fPtr.classCls))) := by
          rintro (h | h | h | ⟨o, c, ho, hoc, h⟩)
          · exact h1 h
          · exact h2 h
          · have := h o2Ptr rfl
            rw [hc] at this
            cases this
          · simp only [Option.some.injEq] at ho
            subst ho
            rw [hc] at hoc
            simp only [Option.some.injEq] at hoc
            subst hoc
            apply hx
            rcases h with ⟨ha, hb2⟩ | ⟨ha, hb2⟩
            · cases b with
              | true => exact absurd (hiff.1 rfl) hb2
              | false =>
                cases hcp : (st.objects oPtr).classPtr with
                | none => exact absurd hcp ha
                | some c => rfl
            · rw [ha, hiff.2 hb2]
              rfl
        simp only [if_neg hx]
        by_cases hs : (st.objects oPtr).selfCls ≠ newCls
        · simp only [if_pos hs]
          cases hcp : (st.objects oPtr).classPtr with
          | none =>
            rw [hcp] at hok
            refine ⟨ReturnCode.TCL_OK, _, rfl, ⟨fun h => absurd h hne, fun h => absurd h hok⟩,
              fun h => absurd h hne, fun _ => ⟨o2Ptr, newCls, rfl, hc, ?_⟩⟩
            simp only [setAt_same]
          | some c =>
            rw [hcp] at hok
            refine ⟨ReturnCode.TCL_OK, _, rfl, ⟨fun h => absurd h hne, fun h => absurd h hok⟩,
              fun h => absurd h hne, fun _ => ⟨o2Ptr, newCls, rfl, hc, ?_⟩⟩
            rw [BumpGlobalEpoch_selfCls]
            simp only [setAt_same]
        · simp only [if_neg hs]
          exact ⟨ReturnCode.TCL_OK, st, rfl, ⟨fun h => absurd h hne, fun h => absurd h hok⟩,
            fun h => absurd h hne, fun _ => ⟨o2Ptr, newCls, rfl, hc, not_not.1 hs⟩⟩

/-- Witness of C27 on scenario S6: the plain object 100 becomes an instance of
class A; it may not become an instance of the metaclass M. -/
theorem C27_class_change_rejections_witness :
    (∃ code st1, TclOODefineClassObjCmd 3 defineState defineNames (some 100) ["A"]
        = some (code, st1)
      ∧ (code = ReturnCode.TCL_ERROR → st1 = defineState))
    ∧ (∃ code st1, TclOODefineClassObjCmd 3 defineState defineNames (some 100) ["M"]
        = some (code, st1)
      ∧ (code = ReturnCode.TCL_ERROR → st1 = defineState)) :=
  ⟨match C27_class_change_rejections 3 defineState defineRank defineNames 100 "A"
      defineState_acyclicMixed defineRank_lt with
    | ⟨code, st1, h, _, h2, _⟩ => ⟨code, st1, h, h2⟩,
   match C27_class_change_rejections 3 defineState defineRank defineNames 100 "M"
      defineState_acyclicMixed defineRank_lt with
    | ⟨code, st1, h, _, h2, _⟩ => ⟨code, st1, h, h2⟩⟩

/-! ## C23 -/

theorem BumpGlobalEpoch_classes (st : OOState) (classPtr : Option Nat) :
    (BumpGlobalEpoch st classPtr).classes = st.classes := by
  unfold BumpGlobalEpoch
  split
  · split
    · split <;> rfl
    · rfl
  · rfl

/-- The bump for a class in use: the foundation epoch is incremented, no object
changes. -/
theorem BumpGlobalEpoch_inUse (st : OOState) (cls : Nat)
    (h : (st.classes cls).subclasses ≠ [] ∨ (st.classes cls).instances ≠ []
      ∨ (st.classes cls).mixinSubs ≠ []) :
    (BumpGlobalEpoch st (some cls)).fPtr = { st.fPtr with epoch := incrInt st.fPtr.epoch }
    ∧ (BumpGlobalEpoch st (some cls)).objects = st.objects := by
  have hn : ¬ ((st.classes cls).subclasses.length = 0
      ∧ (st.classes cls).instances.length = 0
      ∧ (st.classes cls).mixinSubs.length = 0) := by
    simp only [List.length_eq_zero]
    tauto
  simp only [BumpGlobalEpoch, hn, if_false, and_self]

/-- What a successful `TclOODefineClassObjCmd` leaves: the state as it was when
the class named is already the class of the object, and otherwise the state with
the new `selfCls` and the `instances` back-edges moved, after the epoch bump of
the object (plain object) or `BumpGlobalEpoch` on its class (class object). -/
theorem TclOODefineClassObjCmd_ok (fuel : Nat) (st : OOState)
    (Tcl_GetObjectFromObj : String → Option Nat) (oPtr : Nat) (objv : List String)
    (st1 : OOState)
    (h : TclOODefineClassObjCmd fuel st Tcl_GetObjectFromObj (some oPtr) objv
      = some (ReturnCode.TCL_OK, st1)) :
    st1 = st ∨ ∃ newCls moved,
      moved = ({ st with
        classes := TclOOAddToInstances
          (TclOORemoveFromInstances st.classes oPtr (st.objects oPtr).selfCls) oPtr newCls
        objects := setAt st.objects oPtr { st.objects oPtr with selfCls := newCls } }
        : OOState)
      ∧ (st.objects oPtr).selfCls ≠ newCls
      ∧ ((st.objects oPtr).classPtr = none →
          st1 = { moved with
            objects := setAt moved.objects oPtr
              { st.objects oPtr with
                selfCls := newCls, epoch := incrInt (st.objects oPtr).epoch } })
      ∧ (∀ cls, (st.objects oPtr).classPtr = some cls →
          st1 = BumpGlobalEpoch moved (some cls)) := by
  have hne : ReturnCode.TCL_ERROR ≠ ReturnCode.TCL_OK := by decide
  unfold TclOODefineClassObjCmd at h
  simp only at h
  split at h
  · simp only [Option.some.injEq, Prod.mk.injEq] at h; exact absurd h.1 hne
  split at h
  · simp only [Option.some.injEq, Prod.mk.injEq] at h; exact absurd h.1 hne
  split at h
  · split at h
    · simp only [Option.some.injEq, Prod.mk.injEq] at h; exact absurd h.1 hne
    · split at h
      · simp only [Option.some.injEq, Prod.mk.injEq] at h; exact absurd h.1 hne
      · next newCls _ =>
        split at h
        · cases h
        · split at h
          · simp only [Option.some.injEq, Prod.mk.injEq] at h; exact absurd h.1 hne
          · split at h
            · next hs =>
              refine Or.inr ⟨newCls, _, rfl, hs, ?_, ?_⟩
              · intro hcp
                simp only [hcp, Option.some.injEq, Prod.mk.injEq, true_and] at h
                rw [← h]
                simp only [hcp]
              · intro cls hcp
                simp only [hcp, Option.some.injEq, Prod.mk.injEq, true_and] at h
                rw [← h]
                simp only [hcp]
            · simp only [Option.some.injEq, Prod.mk.injEq, true_and] at h
              exact Or.inl h.symm
  · simp only [Option.some.injEq, Prod.mk.injEq] at h; exact absurd h.1 hne

/-- Counterexample to C23 as stated, in scenario S6: the object 12 of class A is
moved from the class of classes to the metaclass M; the command succeeds,
`selfCls` changes from 1 to 4, and the epoch of the object is what it was (the
foundation epoch is bumped instead, A having a subclass). -/
theorem C23_class_object_counterexample :
    ∃ st1, TclOODefineClassObjCmd 3 defineState defineNames (some 12) ["M"]
        = some (ReturnCode.TCL_OK, st1)
      ∧ (defineState.objects 12).selfCls = 1 ∧ (st1.objects 12).selfCls = 4
      ∧ (st1.objects 12).epoch = (defineState.objects 12).epoch
      ∧ st1.fPtr.epoch = defineState.fPtr.epoch + 1 :=
  ⟨_, rfl, rfl, rfl, rfl, rfl⟩

/-- C23, amended.  Whenever `TclOODefineClassObjCmd` succeeds and leaves the
object with a `selfCls` different from the previous one: the epoch of a plain
object has been incremented once, the foundation being as before; for an object
that is a class, `BumpGlobalEpoch` is applied to that class instead, so that when
the class has (once the `instances` back-edges are moved) subclasses, instances
or mixinSubs, the epoch of the foundation has been incremented once and the epoch
of the object is as before.  The increment is that of a C `int` (`incrInt`: one
more below `INT_MAX` = 2147483647, and `INT_MIN` = -2147483648 from `INT_MAX`),
and the incremented epoch is never the epoch it was. -/
theorem C23_class_change_bumps (fuel : Nat) (st : OOState)
    (Tcl_GetObjectFromObj : String → Option Nat) (oPtr : Nat) (objv : List String)
    (st1 : OOState)
    (h : TclOODefineClassObjCmd fuel st Tcl_GetObjectFromObj (some oPtr) objv
      = some (ReturnCode.TCL_OK, st1))
    (hdiff : (st1.objects oPtr).selfCls ≠ (st.objects oPtr).selfCls) :
    ((st.objects oPtr).classPtr = none →
      (st1.objects oPtr).epoch = incrInt (st.objects oPtr).epoch ∧ st1.fPtr = st.fPtr)
    ∧ (∀ cls, (st.objects oPtr).classPtr = some cls →
        ((st1.classes cls).subclasses ≠ [] ∨ (st1.classes cls).instances ≠ []
          ∨ (st1.classes cls).mixinSubs ≠ []) →
        st1.fPtr.epoch = incrInt st.fPtr.epoch
        ∧ (st1.objects oPtr).epoch = (st.objects oPtr).epoch)
    ∧ (∀ e : Int, -2147483648 ≤ e → e < 2147483647 → incrInt e = e + 1)
    ∧ incrInt 2147483647 = -2147483648
    ∧ (∀ e : Int, incrInt e ≠ e) := by
  rcases TclOODefineClassObjCmd_ok fuel st Tcl_GetObjectFromObj oPtr objv st1 h with
    e | ⟨newCls, moved, hm, _, h1, h2⟩
  · subst e
    exact absurd rfl hdiff
  · refine ⟨?_, ?_, incrInt_below, incrInt_max, incrInt_ne⟩
    · intro hcp
      rw [h1 hcp, hm]
      exact ⟨congrArg Object.epoch (setAt_same _ _ _), rfl⟩
    · intro cls hcp huse
      have e := h2 cls hcp
      have hcl : st1.classes = moved.classes := by
        rw [e]
        exact BumpGlobalEpoch_classes moved (some cls)
      rw [hcl] at huse
      obtain ⟨ef, eo⟩ := BumpGlobalEpoch_inUse moved cls huse
      rw [e, ef, eo, hm]
      refine ⟨rfl, ?_⟩
      simp only [setAt_same]

/-- Witness of C23 on scenario S6: the plain object 100 is moved from class B to
class A and its epoch goes from 0 to 1. -/
theorem C23_class_change_bumps_witness :
    ∃ st1, TclOODefineClassObjCmd 3 defineState defineNames (some 100) ["A"]
        = some (ReturnCode.TCL_OK, st1)
      ∧ (st1.objects 100).epoch = (defineState.objects 100).epoch + 1
      ∧ st1.fPtr = defineState.fPtr :=
  ⟨_, rfl, (C23_class_change_bumps 3 defineState defineNames 100 ["A"] _ rfl
    (by decide)).1 rfl⟩

/-! ## The argument loop of the superclass command -/

/-- Over links without a cycle and with fuel above every rank the argument loop
returns. -/
theorem parseSuperclasses_terminates (fuel : Nat) (st : OOState) (rank : Nat → Nat)
    (Tcl_GetObjectFromObj : String → Option Nat) (classPtr : Nat)
    (hac : acyclicMixed st.classes rank) (hfuel : ∀ c, rank c < fuel) :
    ∀ (objv : List String) (superclasses : List Nat),
      ∃ r, parseSuperclasses fuel st Tcl_GetObjectFromObj classPtr objv superclasses
        = some r := by
  intro objv
  induction objv with
  | nil => intro acc; exact ⟨_, rfl⟩
  | cons word rest ih =>
    intro acc
    unfold parseSuperclasses
    cases hr : Tcl_GetObjectFromObj word with
    | none => exact ⟨_, rfl⟩
    | some o2Ptr =>
      simp only []
      cases hc : (st.objects o2Ptr).classPtr with
      | none => exact ⟨_, rfl⟩
      | some cls =>
        by_cases hd : cls ∈ acc
        · exact ⟨none, by simp only [if_pos hd]⟩
        · obtain ⟨b, hb, _⟩ := TclOOIsReachable_spec st.classes rank hac classPtr fuel cls
            (hfuel cls)
          simp only [if_neg hd, hb]
          cases b with
          | true => exact ⟨_, rfl⟩
          | false => exact ih (acc ++ [cls])

/-- When the argument loop runs to its end, every word names a class, the array
it leaves is the array it started from followed by these classes in order, none
of them is in the array twice, and the class being modified is reached from none
of them. -/
theorem parseSuperclasses_ok (fuel : Nat) (st : OOState) (rank : Nat → Nat)
    (Tcl_GetObjectFromObj : String → Option Nat) (classPtr : Nat)
    (hac : acyclicMixed st.classes rank) (hfuel : ∀ c, rank c < fuel) :
    ∀ (objv : List String) (superclasses result : List Nat),
      parseSuperclasses fuel st Tcl_GetObjectFromObj classPtr objv superclasses
        = some (some result) →
      ∃ cs, namedClasses st Tcl_GetObjectFromObj objv = some cs
        ∧ result = superclasses ++ cs
        ∧ (∀ c ∈ cs, c ∉ superclasses) ∧ cs.Nodup
        ∧ ∀ c ∈ cs, ¬ reachable st.classes c classPtr := by
  intro objv
  induction objv with
  | nil =>
    intro acc result h
    simp only [parseSuperclasses, Option.some.injEq] at h
    subst h
    exact ⟨[], rfl, by simp, by simp, List.nodup_nil, by simp⟩
  | cons word rest ih =>
    intro acc result h
    unfold parseSuperclasses at h
    unfold namedClasses
    cases hr : Tcl_GetObjectFromObj word with
    | none => simp [hr] at h
    | some o2Ptr =>
      simp only [hr] at h
      cases hc : (st.objects o2Ptr).classPtr with
      | none => simp [hc] at h
      | some cls =>
        simp only [hc] at h
        by_cases hd : cls ∈ acc
        · simp [hd] at h
        · obtain ⟨b, hb, hiff⟩ := TclOOIsReachable_spec st.classes rank hac classPtr fuel cls
            (hfuel cls)
          simp only [if_neg hd, hb] at h
          cases b with
          | true => simp at h
          | false =>
            simp only at h
            obtain ⟨cs, hn, hres, hnot, hnd, hreach⟩ := ih (acc ++ [cls]) result h
            refine ⟨cls :: cs, by simp only [hc, hn, Option.map_some'], ?_, ?_, ?_, ?_⟩
            · rw [hres, List.append_assoc]
              rfl
            · intro c hcm
              rcases List.mem_cons.1 hcm with e | e
              · subst e; exact hd
              · intro hin
                exact hnot c e (List.mem_append.2 (Or.inl hin))
            · refine List.nodup_cons.2 ⟨fun hin => ?_, hnd⟩
              exact hnot cls hin (List.mem_append.2 (Or.inr (List.mem_singleton.2 rfl)))
            · intro c hcm
              rcases List.mem_cons.1 hcm with e | e
              · subst e
                intro hre
                have := hiff.2 hre
                cases this
              · exact hreach c e

/-- Updates of the `subclasses` back-edges change no other field of a class. -/
theorem subclasses_only (classes0 : Nat → Class) (subPtr : Nat) (add : Bool)
    (l : List Nat) (classes : Nat → Class)
    (h : ∀ c, { classes c with subclasses := (classes0 c).subclasses } = classes0 c) :
    ∀ c, { (l.foldl (fun acc superPtr =>
        if add = true then TclOOAddToSubclasses acc subPtr superPtr
        else TclOORemoveFromSubclasses acc subPtr superPtr) classes) c with
      subclasses := (classes0 c).subclasses } = classes0 c := by
  apply foldl_inv (fun acc : Nat → Class =>
    ∀ c, { acc c with subclasses := (classes0 c).subclasses } = classes0 c)
  · intro acc x _ hacc c
    split
    · unfold TclOOAddToSubclasses setAt
      split
      · next e => subst e; exact hacc c
      · exact hacc c
    · unfold TclOORemoveFromSubclasses setAt
      split
      · next e => subst e; exact hacc c
      · exact hacc c
  · exact h

/-- What `TclOODefineSuperclassObjCmd` returns in the definition context of an
object, over links without a cycle and with fuel above every rank: `TCL_ERROR`
in the state as it was, or, for a class other than the root and words naming
distinct classes from none of which that class is reached, `TCL_OK` with these
classes as the superclasses. -/
theorem TclOODefineSuperclassObjCmd_cases (fuel : Nat) (st : OOState) (rank : Nat → Nat)
    (Tcl_GetObjectFromObj : String → Option Nat) (oPtr : Nat) (objv : List String)
    (hac : acyclicMixed st.classes rank) (hfuel : ∀ c, rank c < fuel) :
    TclOODefineSuperclassObjCmd fuel st Tcl_GetObjectFromObj (some oPtr) objv
      = some (ReturnCode.TCL_ERROR, st)
    ∨ ∃ classPtr cs st1, (st.objects oPtr).classPtr = some classPtr
        ∧ oPtr ≠ (st.classes st.fPtr.objectCls).thisPtr
        ∧ namedClasses st Tcl_GetObjectFromObj objv = some cs
        ∧ cs.Nodup ∧ (∀ c ∈ cs, ¬ reachable st.classes c classPtr)
        ∧ TclOODefineSuperclassObjCmd fuel st Tcl_GetObjectFromObj (some oPtr) objv
          = some (ReturnCode.TCL_OK, st1)
        ∧ (st1.classes classPtr).superclasses = cs := by
  unfold TclOODefineSuperclassObjCmd
  by_cases hlen : objv.length + 1 < 2
  · exact Or.inl (by simp only [if_pos hlen])
  simp only [if_neg hlen]
  cases hcp : (st.objects oPtr).classPtr with
  | none => exact Or.inl rfl
  | some classPtr =>
    simp only []
    by_cases hroot : oPtr = (st.classes st.fPtr.objectCls).thisPtr
    · exact Or.inl (by simp only [if_pos hroot])
    simp only [if_neg hroot]
    obtain ⟨r, hr⟩ := parseSuperclasses_terminates fuel st rank Tcl_GetObjectFromObj classPtr
      hac hfuel objv []
    cases r with
    | none => exact Or.inl (by simp only [hr])
    | some l =>
      obtain ⟨cs, hn, hres, _, hnd, hreach⟩ := parseSuperclasses_ok fuel st rank
        Tcl_GetObjectFromObj classPtr hac hfuel objv [] l hr
      rw [List.nil_append] at hres
      subst hres
      have hC : ∃ C1 : Nat → Class, C1 = (if (st.classes classPtr).superclasses.length ≠ 0 then
            (st.classes classPtr).superclasses.foldl
              (fun classes superPtr => TclOORemoveFromSubclasses classes classPtr superPtr)
              st.classes
          else st.classes) := ⟨_, rfl⟩
      obtain ⟨C1, hC1⟩ := hC
      refine Or.inr ⟨classPtr, l,
        BumpGlobalEpoch
          { st with classes := (l.foldl
              (fun classes superPtr => TclOOAddToSubclasses classes classPtr superPtr)
              (setAt C1 classPtr { C1 classPtr with superclasses := l })) }
          (some classPtr),
        rfl, hroot, hn, hnd, hreach, by simp only [hr, hC1], ?_⟩
      rw [BumpGlobalEpoch_classes]
      have h3 := subclasses_only (setAt C1 classPtr { C1 classPtr with superclasses := l })
        classPtr true l _ (fun _ => rfl) classPtr
      have h4 := congrArg Class.superclasses h3
      simp only [setAt_same, if_true] at h4
      exact h4

theorem namedClasses_mem (st : OOState) (Tcl_GetObjectFromObj : String → Option Nat)
    (word : String) (o2Ptr c : Nat) (hr : Tcl_GetObjectFromObj word = some o2Ptr)
    (hc : (st.objects o2Ptr).classPtr = some c) :
    ∀ (objv : List String) (cs : List Nat),
      namedClasses st Tcl_GetObjectFromObj objv = some cs → word ∈ objv → c ∈ cs := by
  intro objv
  induction objv with
  | nil => intro cs _ h; cases h
  | cons w rest ih =>
    intro cs hn hw
    unfold namedClasses at hn
    cases hrw : Tcl_GetObjectFromObj w with
    | none => simp [hrw] at hn
    | some o =>
      simp only [hrw] at hn
      cases hcw : (st.objects o).classPtr with
      | none => simp [hcw] at hn
      | some cw =>
        simp only [hcw, Option.map_eq_some'] at hn
        obtain ⟨l, hl, rfl⟩ := hn
        rcases List.mem_cons.1 hw with e | e
        · subst e
          rw [hr] at hrw
          simp only [Option.some.injEq] at hrw
          subst hrw
          rw [hc] at hcw
          simp only [Option.some.injEq] at hcw
          subst hcw
          exact List.mem_cons_self _ _
        · exact List.mem_cons_of_mem _ (ih l hl e)

/-! ## C25 -/

/-- Counterexample to C25 as stated, in scenario S6: class B = 3 has the
superclass A = 2, so A is reachable from B; the command `superclass A` in the
definition context of B is not rejected, it returns `TCL_OK` and leaves B with
the superclass A. -/
theorem C25_reachable_superclass_counterexample :
    ∃ st1, TclOODefineSuperclassObjCmd 3 defineState defineNames (some 13) ["A"]
        = some (ReturnCode.TCL_OK, st1)
      ∧ (defineState.objects 13).classPtr = some 3
      ∧ namedClasses defineState defineNames ["A"] = some [2]
      ∧ reachable defineState.classes 3 2
      ∧ (st1.classes 3).superclasses = [2] :=
  ⟨_, rfl, rfl, rfl, Relation.ReflTransGen.single (Or.inl (by decide)), rfl⟩

/-- C25, amended.  The superclass command rejects a proposed superclass from
which the class being modified is reachable.  In the definition context of a
class, over superclass and mixin links without a cycle and with fuel above every
rank, `TclOODefineSuperclassObjCmd` returns `TCL_ERROR` and leaves the whole
state, so the superclasses of the class, as it was, whenever some word of the
proposed list names a class from which the class being modified is reached along
superclass and mixin links (as it is from itself). -/
theorem C25_cycle_rejected (fuel : Nat) (st : OOState) (rank : Nat → Nat)
    (Tcl_GetObjectFromObj : String → Option Nat) (oPtr : Nat) (objv : List String)
    (hac : acyclicMixed st.classes rank) (hfuel : ∀ c, rank c < fuel)
    (classPtr : Nat) (hcp : (st.objects oPtr).classPtr = some classPtr)
    (word : String) (hw : word ∈ objv) (o2Ptr c : Nat)
    (hr : Tcl_GetObjectFromObj word = some o2Ptr)
    (hc : (st.objects o2Ptr).classPtr = some c)
    (hreach : reachable st.classes c classPtr) :
    TclOODefineSuperclassObjCmd fuel st Tcl_GetObjectFromObj (some oPtr) objv
      = some (ReturnCode.TCL_ERROR, st) := by
  rcases TclOODefineSuperclassObjCmd_cases fuel st rank Tcl_GetObjectFromObj oPtr objv hac
    hfuel with h | ⟨classPtr2, cs, st1, hcp2, _, hn, _, hnot, _, _⟩
  · exact h
  · rw [hcp] at hcp2
    simp only [Option.some.injEq] at hcp2
    subst hcp2
    exact absurd hreach
      (hnot c (namedClasses_mem st Tcl_GetObjectFromObj word o2Ptr c hr hc objv cs hn hw))

/-- Witness of C25 on scenario S6: class A = 2 is reached from its subclass
B = 3, and `superclass B` in the definition context of A is rejected. -/
theorem C25_cycle_rejected_witness :
    TclOODefineSuperclassObjCmd 3 defineState defineNames (some 12) ["B"]
      = some (ReturnCode.TCL_ERROR, defineState) :=
  C25_cycle_rejected 3 defineState defineRank defineNames 12 ["B"] defineState_acyclicMixed
    defineRank_lt 2 rfl "B" (List.mem_singleton.2 rfl) 13 3 rfl rfl
    (Relation.ReflTransGen.single (Or.inl (by decide)))

/-! ## C26 -/

/-- C26.  The superclass command is atomic on failure and rejects duplicates.
In the definition context of object `oPtr`, over superclass and mixin links
without a cycle and with fuel above every rank, `TclOODefineSuperclassObjCmd`
returns.  It returns `TCL_ERROR` whenever the object is not a class, or represents
the root class, or some word names no class (no object, or an object that is not
a class), or the words name the same class twice.  On every `TCL_ERROR` the whole
state is as before the call: the superclasses of the class, every `subclasses`
back-edge and every epoch.  On `TCL_OK` the superclasses of the class are the
classes that the words name, in the order of the words. -/
theorem C26_superclass_atomic (fuel : Nat) (st : OOState) (rank : Nat → Nat)
    (Tcl_GetObjectFromObj : String → Option Nat) (oPtr : Nat) (objv : List String)
    (hac : acyclicMixed st.classes rank) (hfuel : ∀ c, rank c < fuel) :
    ∃ code st1,
      TclOODefineSuperclassObjCmd fuel st Tcl_GetObjectFromObj (some oPtr) objv
        = some (code, st1)
      ∧ (((st.objects oPtr).classPtr = none
          ∨ oPtr = (st.classes st.fPtr.objectCls).thisPtr
          ∨ namedClasses st Tcl_GetObjectFromObj objv = none
          ∨ ∃ cs, namedClasses st Tcl_GetObjectFromObj objv = some cs ∧ ¬ cs.Nodup) →
        code = ReturnCode.TCL_ERROR)
      ∧ (code = ReturnCode.TCL_ERROR → st1 = st)
      ∧ (code = ReturnCode.TCL_OK →
          ∃ classPtr cs, (st.objects oPtr).classPtr = some classPtr
            ∧ namedClasses st Tcl_GetObjectFromObj objv = some cs
            ∧ (st1.classes classPtr).superclasses = cs) := by
  have hne : ReturnCode.TCL_OK ≠ ReturnCode.TCL_ERROR := by decide
  have hne2 : ReturnCode.TCL_ERROR ≠ ReturnCode.TCL_OK := by decide
  rcases TclOODefineSuperclassObjCmd_cases fuel st rank Tcl_GetObjectFromObj oPtr objv hac
    hfuel with h | ⟨classPtr, cs, st1, hcp, hroot, hn, hnd, _, h, hsup⟩
  · exact ⟨ReturnCode.TCL_ERROR, st, h, fun _ => rfl, fun _ => rfl, fun e => absurd e hne2⟩
  · refine ⟨ReturnCode.TCL_OK, st1, h, ?_, fun e => absurd e hne,
      fun _ => ⟨classPtr, cs, hcp, hn, hsup⟩⟩
    rintro (e | e | e | ⟨cs2, e, e2⟩)
    · rw [hcp] at e; cases e
    · exact absurd e hroot
    · rw [hn] at e; cases e
    · rw [hn] at e
      simp only [Option.some.injEq] at e
      subst e
      exact absurd hnd e2

/-- Witness of C26 on scenario S6: `superclass L L` in the definition context of
class B names L twice and is rejected. -/
theorem C26_superclass_atomic_witness :
    ∃ code st1,
      TclOODefineSuperclassObjCmd 3 defineState defineNames (some 13) ["L", "L"]
        = some (code, st1)
      ∧ code = ReturnCode.TCL_ERROR ∧ (code = ReturnCode.TCL_ERROR → st1 = defineState) :=
  match C26_superclass_atomic 3 defineState defineRank defineNames 13 ["L", "L"]
      defineState_acyclicMixed defineRank_lt with
  | ⟨code, st1, h, h1, h2, _⟩ =>
    ⟨code, st1, h, h1 (Or.inr (Or.inr (Or.inr ⟨[5, 5], rfl, by decide⟩))), h2⟩

/-! ## C29 -/

/-- The early `return` of `AddSimpleChainToCallContext`: for a name whose record
in the table of the object lacks `PUBLIC_METHOD`, a public walk that is not for a
constructor or destructor leaves the builder as it was. -/
theorem AddSimpleChainToCallContext_hidden (st : OOState) (fuel oPtr : Nat) (name : String)
    (cb : ChainBuilder) (df : Bool) (flags : Flags) (fd : Option Nat)
    (tbl : HashTable Nat) (mPtr : Nat)
    (h1 : (st.objects oPtr).methodsPtr = some tbl)
    (h2 : Tcl_FindHashEntry tbl name = some mPtr)
    (h3 : (st.methods mPtr).flags.PUBLIC_METHOD = false)
    (hpub : flags.PUBLIC_METHOD = true) (hs : flags.SPECIAL = false)
    (hk : flags.KNOWN_STATE = false) :
    AddSimpleChainToCallContext st fuel oPtr name cb df flags fd = some cb := by
  unfold AddSimpleChainToCallContext
  simp [h1, h2, h3, hpub, hs, hk]

/-- C29.  Object-level hiding.  Let the table of the target object hold, for the
method name, a record (an implemented method or a blank placeholder) whose flags
lack `PUBLIC_METHOD`, and let the flags of the dispatch have `PUBLIC_METHOD`,
neither `CONSTRUCTOR` nor `DESTRUCTOR`, and none of the two `DEFINITE` bits that
only the builder itself sets.  Then the walk for that name leaves every builder
as it was, whatever the mixins of the object, the mixins of its classes, the
object itself and the class hierarchy declare: it adds no entry.  So a chain that
`TclOOGetCallContext` constructs (when it reuses neither the stashed nor a cached
context) is `NULL` or is the `unknown` fallback, with `OO_UNKNOWN_METHOD` set and
`globalEpoch = -1`; and the call returns under the conditions under which every
lookup returns.  In scenario S6 class A declares the public method `m`, and
object 100, an instance of the subclass B of A, dispatches `m` to it; after
`unexport m` on the object, which leaves a blank record without `PUBLIC_METHOD`
in its table, the public dispatch of `m` returns `NULL` for every fuel of at
least 3. -/
theorem C29_object_level_hiding :
    (∀ (st : OOState) (oPtr : Nat) (name : String) (flags : Flags)
      (tbl : HashTable Nat) (mPtr : Nat),
      (st.objects oPtr).methodsPtr = some tbl →
      Tcl_FindHashEntry tbl name = some mPtr →
      (st.methods mPtr).flags.PUBLIC_METHOD = false →
      flags.PUBLIC_METHOD = true → flags.SPECIAL = false → flags.KNOWN_STATE = false →
      (∀ (fuel : Nat) (classes1 : Nat → Class) (cb : ChainBuilder) (doneFilters : Bool)
          (filterDecl : Option Nat),
          AddSimpleChainToCallContext { st with classes := classes1 } fuel oPtr name cb
            doneFilters flags filterDecl = some cb)
      ∧ (∀ (fuel : Nat) (stash : Option Nat) (cache : HashTable (Option Nat))
          (r : GetResult),
          TclOOGetCallContext fuel st oPtr ⟨name, stash⟩ flags cache = some r →
          (∀ p, r.ret ≠ CallResult.stashed p ∧ r.ret ≠ CallResult.cached p) →
          r.ret = CallResult.null
            ∨ ∃ c, r.ret = CallResult.built c ∧ c.flags.OO_UNKNOWN_METHOD = true
                ∧ c.globalEpoch = -1)
      ∧ (∀ (rank : Nat → Nat) (R fuel : Nat),
          acyclicMixed st.classes rank → settled st.fPtr (wellRanked rank) st.classes →
          rank (st.objects oPtr).selfCls ≤ R →
          (∀ m ∈ (st.objects oPtr).mixins, rank m ≤ R) →
          2 * R + 1 < fuel →
          ∃ r, TclOOGetCallContext fuel st oPtr ⟨name, none⟩ flags [] = some r))
    ∧ (∀ k, (TclOOGetCallContext (k + 3) defineState 100 ⟨"m", none⟩
          { PUBLIC_METHOD := true } []).map GetResult.ret
        = some (CallResult.built
            { newContext defineState 100 { PUBLIC_METHOD := true } with
              chain := [⟨20, false, none⟩] }))
    ∧ (Tcl_FindHashEntry ((hiddenState.objects 100).methodsPtr.getD []) "m" = some 32
        ∧ hiddenState.methods 32 = blankMethod)
    ∧ (∀ k, (TclOOGetCallContext (k + 3) hiddenState 100 ⟨"m", none⟩
          { PUBLIC_METHOD := true } []).map GetResult.ret = some CallResult.null) := by
  refine ⟨?_, fun k => rfl, ⟨rfl, rfl⟩, fun k => rfl⟩
  intro st oPtr name flags tbl mPtr h1 h2 h3 hpub hs hk
  have hidden : ∀ (fuel : Nat) (classes1 : Nat → Class) (cb : ChainBuilder)
      (doneFilters : Bool) (filterDecl : Option Nat),
      AddSimpleChainToCallContext { st with classes := classes1 } fuel oPtr name cb
        doneFilters flags filterDecl = some cb :=
    fun fuel classes1 cb df fd =>
      AddSimpleChainToCallContext_hidden { st with classes := classes1 } fuel oPtr name cb df
        flags fd tbl mPtr h1 h2 h3 hpub hs hk
  refine ⟨hidden, ?_, ?_⟩
  · intro fuel stash cache r h hfresh
    rcases TclOOGetCallContext_cases fuel st oPtr ⟨name, stash⟩ flags cache r h with
      ⟨p, hp | hp⟩ | ⟨d, c0, hb, _⟩
    · exact absurd hp (hfresh p).1
    · exact absurd hp (hfresh p).2
    · unfold buildCallContext at hb
      cases hinit : InitClassHierarchy st.fPtr fuel st.classes (st.objects oPtr).selfCls with
      | none => simp [hinit] at hb
      | some classes1 =>
        simp only [hinit] at hb
        cases hfil : (if d = true then
            addAllFilters { st with classes := classes1 } fuel oPtr
              ⟨newContext st oPtr flags, 0⟩
            else some ⟨newContext st oPtr flags, 0⟩) with
        | none => simp [hfil] at hb
        | some cb1 =>
          simp only [hfil, hidden, if_true, hs, Bool.false_eq_true, if_false] at hb
          cases hu : AddSimpleChainToCallContext { st with classes := classes1 } fuel oPtr
              st.fPtr.unknownMethodNameObj
              { cb1 with filterLength := cb1.contextPtr.chain.length } false {} none with
          | none => simp [hu] at hb
          | some cb4 =>
            simp only [hu] at hb
            split at hb
            · simp only [Option.some.injEq, Prod.mk.injEq] at hb
              exact Or.inl hb.1.symm
            · simp only [Option.some.injEq, Prod.mk.injEq] at hb
              exact Or.inr ⟨_, hb.1.symm, rfl, rfl⟩
  · intro rank R fuel hac hset hr1 hr2 hfuel
    exact TclOOGetCallContext_terminates st rank hac hset fuel oPtr R ⟨name, none⟩ flags []
      hr1 hr2 hfuel (fun _ h => by cases h) (fun _ h => by cases h)

/-- Witness of C29 on the state that `unexport m` leaves in scenario S6: the
walk for `m` on object 100 returns the builder it was given. -/
theorem C29_object_level_hiding_witness :
    AddSimpleChainToCallContext { hiddenState with classes := hiddenState.classes } 3 100 "m"
      ⟨newContext hiddenState 100 { PUBLIC_METHOD := true }, 0⟩ false
      { PUBLIC_METHOD := true } none
      = some ⟨newContext hiddenState 100 { PUBLIC_METHOD := true }, 0⟩ :=
  (C29_object_level_hiding.1 hiddenState 100 "m" { PUBLIC_METHOD := true }
    [("a", 30), ("b", 31), ("m", 32)] 32 rfl rfl rfl rfl rfl rfl).1 3 hiddenState.classes
    ⟨newContext hiddenState 100 { PUBLIC_METHOD := true }, 0⟩ false none

/-! ## Entries that a walk leaves in the chain -/

theorem insertLate_keeps (m : Nat) (b : Bool) (fd : Option Nat) (r : List MInvoke)
    (k : Nat) (h : ∃ e ∈ r, holds k b e) : ∃ e ∈ insertLate m b fd r, holds k b e := by
  obtain ⟨e, he, hh⟩ := h
  unfold insertLate
  cases hm : moveToEnd m b r with
  | none => exact ⟨e, List.mem_append.2 (Or.inl he), hh⟩
  | some moved =>
    obtain ⟨l1, x, l2, rfl, hx, _, rfl⟩ := moveToEnd_some m b r moved hm
    simp only [List.mem_append, List.mem_cons] at he
    rcases he with he | rfl | he
    · exact ⟨e, by simp [he], hh⟩
    · refine ⟨⟨m, b, e.filterDeclarer⟩, by simp, ?_⟩
      unfold holds at hh hx ⊢
      exact ⟨hx.1.symm.trans hh.1, rfl⟩
    · exact ⟨e, by simp [he], hh⟩

theorem insertLate_adds (m : Nat) (b : Bool) (fd : Option Nat) (r : List MInvoke) :
    ∃ e ∈ insertLate m b fd r, holds m b e := by
  unfold insertLate
  cases hm : moveToEnd m b r with
  | none => exact ⟨⟨m, b, fd⟩, by simp, rfl, rfl⟩
  | some moved =>
    obtain ⟨l1, x, l2, rfl, _, _, rfl⟩ := moveToEnd_some m b r moved hm
    exact ⟨⟨m, b, x.filterDeclarer⟩, by simp, rfl, rfl⟩

/-- One call of `AddMethodToCallChain` on a builder whose `filterLength` is within
the chain: the entries from `filterLength` on are those `regionAdd` computes, the
rest of the builder is as before. -/
theorem AddMethodToCallChain_drop (st : OOState) (m : Option Nat) (cb : ChainBuilder)
    (df : Bool) (fd : Option Nat) (hlen : cb.filterLength ≤ cb.contextPtr.chain.length) :
    (AddMethodToCallChain st m cb df fd).contextPtr.chain.drop
        (AddMethodToCallChain st m cb df fd).filterLength
      = regionAdd st cb.contextPtr.flags.PRIVATE_METHOD
          (st.objects cb.contextPtr.oPtr).selfCls df
          (cb.contextPtr.chain.drop cb.filterLength) (m, fd)
    ∧ (AddMethodToCallChain st m cb df fd).filterLength = cb.filterLength
    ∧ (AddMethodToCallChain st m cb df fd).contextPtr.flags = cb.contextPtr.flags
    ∧ (AddMethodToCallChain st m cb df fd).contextPtr.oPtr = cb.contextPtr.oPtr
    ∧ cb.filterLength ≤ (AddMethodToCallChain st m cb df fd).contextPtr.chain.length := by
  rw [AddMethodToCallChain_region]
  have htake : (cb.contextPtr.chain.take cb.filterLength).length = cb.filterLength := by
    rw [List.length_take]; omega
  refine ⟨?_, rfl, rfl, rfl, ?_⟩
  · show List.drop cb.filterLength (_ ++ _) = _
    rw [List.drop_append_of_le_length (by omega), List.drop_of_length_le (by omega),
      List.nil_append]
  · show cb.filterLength ≤ (_ ++ _ : List MInvoke).length
    rw [List.length_append]
    omega

theorem carries_add (st : OOState) (priv : Bool) (oPtr : Nat) (m : Option Nat)
    (cb : ChainBuilder) (c fd : Option Nat) (h : carries priv oPtr m cb) :
    carries priv oPtr m (AddMethodToCallChain st c cb false fd) := by
  obtain ⟨h1, h2, h3, h4⟩ := h
  obtain ⟨e1, e2, e3, e4, e5⟩ := AddMethodToCallChain_drop st c cb false fd h1
  refine ⟨by rw [e2]; exact e5, by rw [e3]; exact h2, by rw [e4]; exact h3, ?_⟩
  intro k hk
  rw [e1]
  obtain ⟨e, he, hh⟩ := h4 k hk
  unfold regionAdd
  cases c with
  | none => exact ⟨e, he, hh⟩
  | some x =>
    simp only
    split
    · exact insertLate_keeps x false fd _ k ⟨e, he, hh⟩
    · exact ⟨e, he, hh⟩

theorem carries_add_new (st : OOState) (priv : Bool) (oPtr : Nat) (cb : ChainBuilder)
    (k : Nat) (fd : Option Nat) (h : carries priv oPtr none cb)
    (ha : admitted st priv (st.objects oPtr).selfCls k = true) :
    carries priv oPtr (some k) (AddMethodToCallChain st (some k) cb false fd) := by
  obtain ⟨h1, h2, h3, _⟩ := h
  obtain ⟨e1, e2, e3, e4, e5⟩ := AddMethodToCallChain_drop st (some k) cb false fd h1
  refine ⟨by rw [e2]; exact e5, by rw [e3]; exact h2, by rw [e4]; exact h3, ?_⟩
  intro k2 hk
  simp only [Option.some.injEq] at hk
  subst hk
  rw [e1]
  simp only [regionAdd, h2, h3, ha, if_true]
  exact insertLate_adds k false fd _

theorem carries_weaken (priv : Bool) (oPtr : Nat) (m : Option Nat) (cb : ChainBuilder)
    (h : carries priv oPtr m cb) : carries priv oPtr none cb :=
  ⟨h.1, h.2.1, h.2.2.1, fun _ hk => by cases hk⟩

/-- Every walk of `AddSimpleClassChainToCallContext` keeps what the builder
carries. -/
theorem AddSimpleClassChainToCallContext_keeps (st : OOState) (name : String)
    (fd : Option Nat) (priv : Bool) (oPtr : Nat) (m : Option Nat) :
    ∀ (fuel c : Nat) (cb : ChainBuilder) (flags : Flags) (r : ChainBuilder),
      AddSimpleClassChainToCallContext st name false fd fuel c cb flags = some r →
      carries priv oPtr m cb → carries priv oPtr m r := by
  intro fuel
  induction fuel with
  | zero => intro c cb flags r h; simp [AddSimpleClassChainToCallContext] at h
  | succ n ih =>
    intro c cb flags r h hc
    rw [AddSimpleClassChainToCallContext] at h
    have hstep : ∀ cb1 flags1,
        (if flags.CONSTRUCTOR = true then
          some (AddMethodToCallChain st (st.classes c).constructorPtr cb false fd, flags)
        else if flags.DESTRUCTOR = true then
          some (AddMethodToCallChain st (st.classes c).destructorPtr cb false fd, flags)
        else
          match Tcl_FindHashEntry (st.classes c).classMethods name with
          | none => some (cb, flags)
          | some mPtr =>
            if (!flags.KNOWN_STATE) = true then
              if flags.PUBLIC_METHOD = true then
                if (st.methods mPtr).flags.PUBLIC_METHOD = true then
                  some (AddMethodToCallChain st (some mPtr) cb false fd,
                    { flags with DEFINITE_PUBLIC := true })
                else none
              else
                some (AddMethodToCallChain st (some mPtr) cb false fd,
                  { flags with DEFINITE_PROTECTED := true })
            else
              some (AddMethodToCallChain st (some mPtr) cb false fd, flags))
          = some (cb1, flags1) → carries priv oPtr m cb1 := by
      intro cb1 flags1 hs
      split at hs
      · simp only [Option.some.injEq, Prod.mk.injEq] at hs
        rw [← hs.1]; exact carries_add st priv oPtr m cb _ fd hc
      · split at hs
        · simp only [Option.some.injEq, Prod.mk.injEq] at hs
          rw [← hs.1]; exact carries_add st priv oPtr m cb _ fd hc
        · split at hs
          · simp only [Option.some.injEq, Prod.mk.injEq] at hs
            rw [← hs.1]; exact hc
          · split at hs
            · split at hs
              · split at hs
                · simp only [Option.some.injEq, Prod.mk.injEq] at hs
                  rw [← hs.1]; exact carries_add st priv oPtr m cb _ fd hc
                · cases hs
              · simp only [Option.some.injEq, Prod.mk.injEq] at hs
                rw [← hs.1]; exact carries_add st priv oPtr m cb _ fd hc
            · simp only [Option.some.injEq, Prod.mk.injEq] at hs
              rw [← hs.1]; exact carries_add st priv oPtr m cb _ fd hc
    split at h
    · simp only [Option.some.injEq] at h
      rw [← h]; exact hc
    · next cb1 flags1 hs =>
      have hc1 := hstep cb1 flags1 hs
      split at h
      · simp only [Option.some.injEq] at h
        rw [← h]; exact hc1
      · exact ih _ _ _ _ h hc1
      · exact foldlM_inv (carries priv oPtr m) _ _
          (fun acc x r _ hacc hr => ih _ _ _ _ hr hacc) _ _ hc1 h

theorem foldlM_establish {α β : Type} (Q P : β → Prop) (f : β → α → Option β)
    (l : List α) (x : α) (hx : x ∈ l)
    (hQ : ∀ acc y r, Q acc → f acc y = some r → Q r)
    (h1 : ∀ acc r, Q acc → f acc x = some r → P r)
    (h2 : ∀ acc y r, P acc → f acc y = some r → P r) :
    ∀ a r, Q a → l.foldlM f a = some r → P r := by
  induction l with
  | nil => cases hx
  | cons y rest ih =>
    intro a r ha hf
    simp only [List.foldlM_cons, bind, Option.bind] at hf
    cases hy : f a y with
    | none => simp [hy] at hf
    | some b =>
      simp only [hy] at hf
      rcases List.mem_cons.1 hx with e | e
      · subst e
        exact foldlM_inv P f rest (fun acc z r _ hacc hr => h2 acc z r hacc hr) b r
          (h1 a b ha hy) hf
      · exact ih e b r (hQ a y b ha hy) hf

/-- The walk of `AddSimpleClassChainToCallContext` once the visibility is settled
(`KNOWN_STATE`), for a name that is no constructor or destructor: the record of
the class, if any, is handed to `AddMethodToCallChain` without a look at its
flags, and the walk continues with the superclasses. -/
theorem AddSimpleClassChainToCallContext_known (st : OOState) (name : String) (df : Bool)
    (fd : Option Nat) (n c : Nat) (cb : ChainBuilder) (flags : Flags)
    (hk : flags.KNOWN_STATE = true) (hs : flags.SPECIAL = false) :
    AddSimpleClassChainToCallContext st name df fd (n + 1) c cb flags
      = match (st.classes c).superclasses with
        | [] => some (AddMethodToCallChain st
            (Tcl_FindHashEntry (st.classes c).classMethods name) cb df fd)
        | [superPtr] =>
          AddSimpleClassChainToCallContext st name df fd n superPtr
            (AddMethodToCallChain st
              (Tcl_FindHashEntry (st.classes c).classMethods name) cb df fd) flags
        | supers =>
          supers.foldlM (fun acc superPtr =>
            AddSimpleClassChainToCallContext st name df fd n superPtr acc flags)
            (AddMethodToCallChain st
              (Tcl_FindHashEntry (st.classes c).classMethods name) cb df fd) := by
  have h1 : flags.CONSTRUCTOR = false := by
    simp only [Flags.SPECIAL, Bool.or_eq_false_iff] at hs; exact hs.1
  have h2 : flags.DESTRUCTOR = false := by
    simp only [Flags.SPECIAL, Bool.or_eq_false_iff] at hs; exact hs.2
  rw [AddSimpleClassChainToCallContext]
  simp only [h1, h2, hk, Bool.false_eq_true, if_false, Bool.not_true]
  cases Tcl_FindHashEntry (st.classes c).classMethods name with
  | none => rfl
  | some mPtr => rfl

/-- With the visibility settled, the walk from class `c` leaves in the chain the
record that every class reached from `c` along superclass links has for the
name, when that record is implemented and passes the private-method gate. -/
theorem AddSimpleClassChainToCallContext_reaches (st : OOState) (name : String)
    (fd : Option Nat) (priv : Bool) (oPtr : Nat) (flags : Flags)
    (hk : flags.KNOWN_STATE = true) (hs : flags.SPECIAL = false) :
    ∀ (fuel c : Nat) (cb r : ChainBuilder),
      AddSimpleClassChainToCallContext st name false fd fuel c cb flags = some r →
      carries priv oPtr none cb →
      ∀ x, reaches st.classes c x →
      ∀ k, Tcl_FindHashEntry (st.classes x).classMethods name = some k →
        admitted st priv (st.objects oPtr).selfCls k = true →
        carries priv oPtr (some k) r := by
  intro fuel
  induction fuel with
  | zero => intro c cb r h; simp [AddSimpleClassChainToCallContext] at h
  | succ n ih =>
    intro c cb r h hc x hx k hl ha
    have keeps := AddSimpleClassChainToCallContext_keeps st name fd priv oPtr
    rw [AddSimpleClassChainToCallContext_known st name false fd n c cb flags hk hs] at h
    have hc1 : carries priv oPtr none (AddMethodToCallChain st
        (Tcl_FindHashEntry (st.classes c).classMethods name) cb false fd) :=
      carries_add st priv oPtr none cb _ fd hc
    rcases Relation.ReflTransGen.cases_head hx with e | ⟨s, hs1, hs2⟩
    · subst e
      rw [hl] at h
      have hck := carries_add_new st priv oPtr cb k fd hc ha
      split at h
      · simp only [Option.some.injEq] at h
        rw [← h]; exact hck
      · exact keeps (some k) n _ _ _ _ h hck
      · exact foldlM_inv (carries priv oPtr (some k)) _ _
          (fun acc y r _ hacc hr => keeps (some k) n _ _ _ _ hr hacc) _ _ hck h
    · split at h
      · next hnil => rw [hnil] at hs1; cases hs1
      · next s1 hone =>
        rw [hone] at hs1
        have e := List.mem_singleton.1 hs1
        subst e
        exact ih _ _ _ h hc1 x hs2 k hl ha
      · exact foldlM_establish (carries priv oPtr none) (carries priv oPtr (some k))
          (fun acc superPtr =>
            AddSimpleClassChainToCallContext st name false fd n superPtr acc flags)
          _ s hs1
          (fun acc y r hacc hr => keeps none n _ _ _ _ hr hacc)
          (fun acc r hacc hr => ih _ _ _ hr hacc x hs2 k hl ha)
          (fun acc y r hacc hr => keeps (some k) n _ _ _ _ hr hacc) _ _ hc1 h

/-- The walks of `AddSimpleChainToCallContext` once the visibility is settled:
what they leave in the chain for the classes reached from the classes the walks
start from. -/
theorem walks_exposed (st : OOState) (fuel oPtr : Nat) (name : String)
    (cb r : ChainBuilder) (flags1 : Flags) (priv : Bool) (own : Option Nat)
    (hk1 : flags1.KNOWN_STATE = true) (hs1 : flags1.SPECIAL = false)
    (h : ((if (!flags1.SPECIAL) = true then do
          let cb1 ← (st.objects oPtr).mixins.foldlM
            (fun acc mixinPtr =>
              AddSimpleClassChainToCallContext st name false none fuel mixinPtr acc flags1) cb
          let cb2 ← (st.classes (st.objects oPtr).selfCls).mixins.foldlM
            (fun acc mixinPtr =>
              AddSimpleClassChainToCallContext st name false none fuel mixinPtr acc flags1) cb1
          let cb3 ← (st.classes (st.objects oPtr).selfCls).classHierarchy.foldlM
            (fun acc superPtr => (st.classes superPtr).mixins.foldlM
              (fun acc mixinPtr =>
                AddSimpleClassChainToCallContext st name false none fuel mixinPtr acc flags1)
              acc) cb2
          some (AddMethodToCallChain st own cb3 false none)
        else some cb).bind fun a =>
          AddSimpleClassChainToCallContext st name false none fuel (st.objects oPtr).selfCls a
            flags1) = some r)
    (hc : carries priv oPtr none cb) :
    ∀ start ∈ walkStarts st oPtr, ∀ x, reaches st.classes start x →
      ∀ k, Tcl_FindHashEntry (st.classes x).classMethods name = some k →
        admitted st priv (st.objects oPtr).selfCls k = true →
        carries priv oPtr (some k) r := by
  intro start hstart x hx k hl ha
  have keeps := AddSimpleClassChainToCallContext_keeps st name none priv oPtr
  have est := AddSimpleClassChainToCallContext_reaches st name none priv oPtr flags1 hk1 hs1
  have keepsL : ∀ (m : Option Nat) (l : List Nat) (a b : ChainBuilder),
      carries priv oPtr m a →
      l.foldlM (fun acc mixinPtr =>
        AddSimpleClassChainToCallContext st name false none fuel mixinPtr acc flags1) a = some b →
      carries priv oPtr m b :=
    fun m l a b hca hf => foldlM_inv (carries priv oPtr m) _ l
      (fun acc y r _ hacc hr => keeps m fuel _ _ _ _ hr hacc) a b hca hf
  have estL : ∀ (l : List Nat) (a b : ChainBuilder), start ∈ l →
      carries priv oPtr none a →
      l.foldlM (fun acc mixinPtr =>
        AddSimpleClassChainToCallContext st name false none fuel mixinPtr acc flags1) a = some b →
      carries priv oPtr (some k) b :=
    fun l a b hin hca hf =>
      foldlM_establish (carries priv oPtr none) (carries priv oPtr (some k))
        (fun acc mixinPtr =>
          AddSimpleClassChainToCallContext st name false none fuel mixinPtr acc flags1)
        l start hin
        (fun acc y r hacc hr => keeps none fuel _ _ _ _ hr hacc)
        (fun acc r hacc hr => est fuel _ _ _ hr hacc x hx k hl ha)
        (fun acc y r hacc hr => keeps (some k) fuel _ _ _ _ hr hacc) a b hca hf
  have keepsN : ∀ (m : Option Nat) (l : List Nat) (a b : ChainBuilder),
      carries priv oPtr m a →
      l.foldlM (fun acc superPtr => (st.classes superPtr).mixins.foldlM
        (fun acc mixinPtr =>
          AddSimpleClassChainToCallContext st name false none fuel mixinPtr acc flags1)
        acc) a = some b →
      carries priv oPtr m b :=
    fun m l a b hca hf => foldlM_inv (carries priv oPtr m) _ l
      (fun acc y r _ hacc hr => keepsL m _ _ _ hacc hr) a b hca hf
  simp only [hs1, Bool.not_false, if_true] at h
  cases e1 : (st.objects oPtr).mixins.foldlM
      (fun acc mixinPtr =>
        AddSimpleClassChainToCallContext st name false none fuel mixinPtr acc flags1) cb with
  | none => simp [bind, e1] at h
  | some cb1 =>
    cases e2 : (st.classes (st.objects oPtr).selfCls).mixins.foldlM
        (fun acc mixinPtr =>
          AddSimpleClassChainToCallContext st name false none fuel mixinPtr acc flags1) cb1 with
    | none => simp [bind, e1, e2] at h
    | some cb2 =>
      cases e3 : (st.classes (st.objects oPtr).selfCls).classHierarchy.foldlM
          (fun acc superPtr => (st.classes superPtr).mixins.foldlM
            (fun acc mixinPtr =>
              AddSimpleClassChainToCallContext st name false none fuel mixinPtr acc flags1)
            acc) cb2 with
      | none => simp [bind, e1, e2, e3] at h
      | some cb3 =>
        simp only [bind, e1, e2, e3, Option.some_bind] at h
        have fin : ∀ m, carries priv oPtr m cb3 → carries priv oPtr m r :=
          fun m hm => keeps m fuel _ _ _ _ h (carries_add st priv oPtr m cb3 own none hm)
        simp only [walkStarts, List.mem_append, List.mem_flatMap, List.mem_singleton] at hstart
        rcases hstart with ((hin | hin) | ⟨superPtr, hsup, hin⟩) | hin
        · exact fin _ (keepsN _ _ _ _ (keepsL _ _ _ _ (estL _ _ _ hin hc e1) e2) e3)
        · exact fin _ (keepsN _ _ _ _ (estL _ _ _ hin (keepsL _ _ _ _ hc e1) e2) e3)
        · refine fin _ ?_
          exact foldlM_establish (carries priv oPtr none) (carries priv oPtr (some k))
            (fun acc superPtr => (st.classes superPtr).mixins.foldlM
              (fun acc mixinPtr =>
                AddSimpleClassChainToCallContext st name false none fuel mixinPtr acc flags1)
              acc)
            _ superPtr hsup
            (fun acc y r hacc hr => keepsL none _ _ _ hacc hr)
            (fun acc r hacc hr => estL _ _ _ hin hacc hr)
            (fun acc y r hacc hr => keepsL (some k) _ _ _ hacc hr) cb2 cb3
            (keepsL _ _ _ _ (keepsL _ _ _ _ hc e1) e2) e3
        · subst hin
          exact est fuel _ _ _ h
            (carries_add st priv oPtr none cb3 own none
              (keepsN _ _ _ _ (keepsL _ _ _ _ (keepsL _ _ _ _ hc e1) e2) e3))
            x hx k hl ha

/-- The walk of `AddSimpleChainToCallContext` for a name whose record in the
table of the object has `PUBLIC_METHOD`, under a public dispatch: the chain gets
the record that every class reached by the walks has for the name, when it is
implemented and passes the private-method gate, whatever its own flags say. -/
theorem AddSimpleChainToCallContext_exposed (st : OOState) (fuel oPtr : Nat) (name : String)
    (cb r : ChainBuilder) (flags : Flags) (priv : Bool) (tbl : HashTable Nat) (mPtr : Nat)
    (h1 : (st.objects oPtr).methodsPtr = some tbl)
    (h2 : Tcl_FindHashEntry tbl name = some mPtr)
    (h3 : (st.methods mPtr).flags.PUBLIC_METHOD = true)
    (hpub : flags.PUBLIC_METHOD = true) (hs : flags.SPECIAL = false)
    (hk : flags.KNOWN_STATE = false)
    (h : AddSimpleChainToCallContext st fuel oPtr name cb false flags none = some r)
    (hc : carries priv oPtr none cb) :
    ∀ start ∈ walkStarts st oPtr, ∀ x, reaches st.classes start x →
      ∀ k, Tcl_FindHashEntry (st.classes x).classMethods name = some k →
        admitted st priv (st.objects oPtr).selfCls k = true →
        carries priv oPtr (some k) r := by
  unfold AddSimpleChainToCallContext at h
  simp only [h1, h2, h3, hpub, hs, hk, Option.isSome_some, Option.some_bind, Bool.or_self,
    Bool.not_false, Bool.and_self, if_true, Bool.not_true, Bool.false_eq_true, if_false] at h
  refine walks_exposed st fuel oPtr name cb r _ priv (some mPtr) ?_ ?_ h hc
  · simp [Flags.KNOWN_STATE]
  · simpa [Flags.SPECIAL] using hs

/-! ## The export command on an object -/

theorem boundTo_object (st : OOState) (oPtr : Nat) (name : String) :
    boundTo st oPtr false name
      = Tcl_FindHashEntry ((st.objects oPtr).methodsPtr.getD []) name := by
  unfold boundTo methodTable
  simp only [Bool.false_eq_true, if_false]
  cases (st.objects oPtr).methodsPtr with
  | none => rfl
  | some tbl => rfl

/-- One round of the export and unexport loops on the table of an object: the
name is bound to the record it was bound to, or to a new one, the other names
are bound as before, and the only record written is that one. -/
theorem markMethod_object (ckalloc : OOState → Nat) (oPtr : Nat) (makePublic : Bool)
    (st : OOState) (y : String) :
    (∀ name, boundTo (markMethod ckalloc oPtr none makePublic st y) oPtr false name
      = if name = y then some ((boundTo st oPtr false y).getD (ckalloc st))
        else boundTo st oPtr false name)
    ∧ (markMethod ckalloc oPtr none makePublic st y).methods
      = setAt st.methods ((boundTo st oPtr false y).getD (ckalloc st))
          { (if (boundTo st oPtr false y).isSome then
              st.methods ((boundTo st oPtr false y).getD (ckalloc st))
            else blankMethod) with
            flags := { (if (boundTo st oPtr false y).isSome then
                st.methods ((boundTo st oPtr false y).getD (ckalloc st))
              else blankMethod).flags with PUBLIC_METHOD := makePublic } } := by
  constructor
  · intro name
    rw [boundTo_object, boundTo_object st oPtr y, boundTo_object st oPtr name]
    simp only [markMethod, setAt_same, Option.getD_some]
    cases hf : Tcl_FindHashEntry ((st.objects oPtr).methodsPtr.getD []) y with
    | some m =>
      simp only [Option.isSome_some, if_true, Option.getD_some]
      by_cases hn : name = y
      · subst hn; simp only [if_true, hf]
      · simp only [if_neg hn]
    | none =>
      simp only [Option.isSome_none, Bool.false_eq_true, if_false, Option.getD_none]
      by_cases hn : name = y
      · subst hn
        simp only [if_true]
        exact lookup_append_new name _ _ hf
      · simp only [if_neg hn]
        rw [Tcl_FindHashEntry_append]
        cases Tcl_FindHashEntry ((st.objects oPtr).methodsPtr.getD []) name with
        | some v => rfl
        | none =>
          have hbeq : (name == y) = false := by simpa using hn
          simp [Tcl_FindHashEntry, List.lookup, hbeq]
  · rw [boundTo_object st oPtr y]
    rfl

/-- The export loop on an object keeps an exported record exported, and exports
the record of each name it comes by. -/
theorem markMethod_exported (ckalloc : OOState → Nat) (oPtr : Nat) (st0 : OOState)
    (name : String) (st : OOState) (y : String)
    (h : recordExported st0 st oPtr name
      ∨ (y = name ∧ boundTo st oPtr false name = boundTo st0 oPtr false name)) :
    recordExported st0 (markMethod ckalloc oPtr none true st y) oPtr name := by
  obtain ⟨hb, hm⟩ := markMethod_object ckalloc oPtr true st y
  unfold recordExported
  rw [hb name, hm]
  rcases h with ⟨m, h1, h2, h3, h4⟩ | ⟨hy, hsame⟩
  · by_cases hn : name = y
    · subst hn
      simp only [if_true, h1, Option.getD_some, Option.isSome_some]
      refine ⟨m, rfl, ?_, ?_, h4⟩
      · rw [setAt_same]
      · intro h0
        rw [setAt_same]
        exact h3 h0
    · simp only [if_neg hn]
      refine ⟨m, h1, ?_, ?_, h4⟩
      · unfold setAt
        split
        · rfl
        · exact h2
      · intro h0
        unfold setAt
        split
        · next e =>
          split
          · rw [← e]; exact h3 h0
          · rfl
        · exact h3 h0
  · subst hy
    simp only [if_true]
    refine ⟨_, rfl, ?_, ?_, ?_⟩
    · rw [setAt_same]
    · intro h0
      rw [setAt_same, hsame, h0]
      rfl
    · intro m0 h0
      rw [hsame, h0]
      rfl

theorem exportLoop_exported (ckalloc : OOState → Nat) (oPtr : Nat) (st0 : OOState)
    (name : String) :
    ∀ (objv : List String) (st : OOState),
      (recordExported st0 st oPtr name
        ∨ (name ∈ objv ∧ boundTo st oPtr false name = boundTo st0 oPtr false name)) →
      recordExported st0 (objv.foldl (markMethod ckalloc oPtr none true) st) oPtr name := by
  intro objv
  induction objv with
  | nil =>
    intro st h
    rcases h with h | ⟨h, _⟩
    · exact h
    · cases h
  | cons y rest ih =>
    intro st h
    rw [List.foldl_cons]
    apply ih
    rcases h with h | ⟨hin, hsame⟩
    · exact Or.inl (markMethod_exported ckalloc oPtr st0 name st y (Or.inl h))
    · by_cases hy : y = name
      · exact Or.inl (markMethod_exported ckalloc oPtr st0 name st y (Or.inr ⟨hy, hsame⟩))
      · refine Or.inr ⟨?_, ?_⟩
        · rcases List.mem_cons.1 hin with e | e
          · exact absurd e.symm hy
          · exact e
        · rw [(markMethod_object ckalloc oPtr true st y).1 name,
            if_neg (fun e => hy e.symm), hsame]

/-- The export command in the definition context of an object, for a list of
names that holds `name`: it returns `TCL_OK` and leaves the record of `name`
exported. -/
theorem TclOODefineExportObjCmd_exported (st : OOState) (ckalloc : OOState → Nat)
    (oPtr : Nat) (objv : List String) (name : String) (hin : name ∈ objv) :
    (TclOODefineExportObjCmd st ckalloc true (some oPtr) objv).1 = ReturnCode.TCL_OK
    ∧ recordExported st (TclOODefineExportObjCmd st ckalloc true (some oPtr) objv).2
        oPtr name := by
  have hlen : ¬ objv.length + 1 < 2 := by
    cases objv with
    | nil => cases hin
    | cons a l => simp
  have hloop := exportLoop_exported ckalloc oPtr st name objv st (Or.inr ⟨hin, rfl⟩)
  unfold TclOODefineExportObjCmd
  simp only [if_neg hlen, Bool.not_true, Bool.false_eq_true, false_and, if_false, if_true]
  refine ⟨trivial, ?_⟩
  obtain ⟨m, h1, h2, h3, h4⟩ := hloop
  refine ⟨m, ?_, h2, h3, h4⟩
  rw [boundTo_object] at h1 ⊢
  simp only [setAt_same]
  exact h1

/-! ## C30 -/

/-- C30.  Object-level exposing.  The export command in the definition context
of an object returns `TCL_OK` and leaves, for each name it is given, a record in
the table of the object with `PUBLIC_METHOD` set: the record the name had, or,
when it had none, a placeholder without implementation.  And when the table of
the target object holds a record with `PUBLIC_METHOD` for the method name, a
public dispatch (flags with `PUBLIC_METHOD`, no `CONSTRUCTOR`, no `DESTRUCTOR`,
none of the `DEFINITE` bits that only the builder sets) in which a chain is
constructed does not look at the visibility of the records of the classes: for
every class reached along superclass links from a class with which a walk starts
(a mixin of the object, a mixin of its class, a mixin of a class in the
linearization of its class, its class), the record of that class for the name,
when it is implemented and passes the private-method gate, is a non-filter entry
of the chain returned, whether or not it is marked public; and the chain is not
the `unknown` fallback.  The call returns under the conditions under which every
lookup returns.  In scenario S7 the method `m` of class B is not public and the
public dispatch of `m` on object 100 returns `NULL`; after `export m` on the
object, whose table then binds `m` to a blank public record, the dispatch returns
the chain made of `m` of B and `m` of A, for every fuel of at least 3. -/
theorem C30_object_level_exposing :
    (∀ (st : OOState) (ckalloc : OOState → Nat) (oPtr : Nat) (objv : List String)
      (name : String), name ∈ objv →
      (TclOODefineExportObjCmd st ckalloc true (some oPtr) objv).1 = ReturnCode.TCL_OK
      ∧ ∃ m, boundTo (TclOODefineExportObjCmd st ckalloc true (some oPtr) objv).2
            oPtr false name = some m
          ∧ ((TclOODefineExportObjCmd st ckalloc true (some oPtr) objv).2.methods m).flags.PUBLIC_METHOD
              = true
          ∧ (boundTo st oPtr false name = none →
              ((TclOODefineExportObjCmd st ckalloc true (some oPtr) objv).2.methods m).typePtr
                = none)
          ∧ ∀ m0, boundTo st oPtr false name = some m0 → m = m0)
    ∧ (∀ (st : OOState) (oPtr : Nat) (name : String) (flags : Flags)
        (tbl : HashTable Nat) (mPtr : Nat),
        (st.objects oPtr).methodsPtr = some tbl →
        Tcl_FindHashEntry tbl name = some mPtr →
        (st.methods mPtr).flags.PUBLIC_METHOD = true →
        flags.PUBLIC_METHOD = true → flags.SPECIAL = false → flags.KNOWN_STATE = false →
        (∀ (fuel : Nat) (stash : Option Nat) (cache : HashTable (Option Nat))
            (r : GetResult),
            TclOOGetCallContext fuel st oPtr ⟨name, stash⟩ flags cache = some r →
            (∀ p, r.ret ≠ CallResult.stashed p ∧ r.ret ≠ CallResult.cached p) →
            ∀ start ∈ walkStarts r.st oPtr, ∀ x, reaches r.st.classes start x →
            ∀ k, Tcl_FindHashEntry (r.st.classes x).classMethods name = some k →
              admitted st flags.PRIVATE_METHOD (st.objects oPtr).selfCls k = true →
              ∃ c, r.ret = CallResult.built c ∧ c.flags.OO_UNKNOWN_METHOD = false
                ∧ ∃ e ∈ c.chain, e.mPtr = k ∧ e.isFilter = false)
        ∧ (∀ (rank : Nat → Nat) (R fuel : Nat),
            acyclicMixed st.classes rank → settled st.fPtr (wellRanked rank) st.classes →
            rank (st.objects oPtr).selfCls ≤ R →
            (∀ m ∈ (st.objects oPtr).mixins, rank m ≤ R) →
            2 * R + 1 < fuel →
            ∃ r, TclOOGetCallContext fuel st oPtr ⟨name, none⟩ flags [] = some r))
    ∧ (∀ k, (TclOOGetCallContext (k + 3) exposeState 100 ⟨"m", none⟩
          { PUBLIC_METHOD := true } []).map GetResult.ret = some CallResult.null)
    ∧ (boundTo exposeState 100 false "m" = none
        ∧ boundTo exposedState 100 false "m" = some 32
        ∧ exposedState.methods 32
          = { blankMethod with flags := { PUBLIC_METHOD := true } }
        ∧ (exposedState.methods 21).flags.PUBLIC_METHOD = false)
    ∧ (∀ k, (TclOOGetCallContext (k + 3) exposedState 100 ⟨"m", none⟩
          { PUBLIC_METHOD := true } []).map GetResult.ret
        = some (CallResult.built
            { newContext exposedState 100 { PUBLIC_METHOD := true } with
              chain := [⟨21, false, none⟩, ⟨20, false, none⟩] })) := by
  refine ⟨?_, ?_, fun k => rfl, ⟨rfl, rfl, rfl, rfl⟩, fun k => rfl⟩
  · intro st ckalloc oPtr objv name hin
    exact TclOODefineExportObjCmd_exported st ckalloc oPtr objv name hin
  intro st oPtr name flags tbl mPtr h1 h2 h3 hpub hs hk
  constructor
  · intro fuel stash cache r h hfresh start hstart x hx k hl ha
    rcases TclOOGetCallContext_cases fuel st oPtr ⟨name, stash⟩ flags cache r h with
      ⟨p, hp | hp⟩ | ⟨d, c0, hb, _, ho, hm, _⟩
    · exact absurd hp (hfresh p).1
    · exact absurd hp (hfresh p).2
    · obtain ⟨_, Lf, Lc, _, hLc, hbuilt, _⟩ := buildCallContext_spec fuel st oPtr name flags d
        c0 _ hb
      simp only at hLc hbuilt
      have hst : ({ st with classes := r.st.classes } : OOState).objects = r.st.objects :=
        ho.symm
      have hws : walkStarts { st with classes := r.st.classes } oPtr = walkStarts r.st oPtr := by
        unfold walkStarts
        rw [hst]
      have hc0 : carries flags.PRIVATE_METHOD oPtr none
          ⟨{ newContext st oPtr flags with chain := [] }, ([] : List MInvoke).length⟩ :=
        ⟨Nat.le_refl _, rfl, rfl, fun _ hk => by cases hk⟩
      have hcar := AddSimpleChainToCallContext_exposed { st with classes := r.st.classes } fuel
        oPtr name _ _ flags flags.PRIVATE_METHOD tbl mPtr h1 h2 h3 hpub hs hk
        (hLc ⟨{ newContext st oPtr flags with chain := [] }, ([] : List MInvoke).length⟩) hc0
        start (by rw [hws]; exact hstart) x hx k hl ha
      rw [addAll_fresh] at hcar
      obtain ⟨e, he, hh⟩ := hcar.2.2.2 k rfl
      simp only [List.length_nil, List.drop_zero, List.nil_append] at he
      have hne : regionAll { st with classes := r.st.classes } flags.PRIVATE_METHOD
          (st.objects oPtr).selfCls false Lc [] ≠ [] := by
        intro hnil
        rw [hnil] at he
        cases he
      refine ⟨_, (hbuilt hne).1, rfl, e, ?_, hh.1, hh.2⟩
      exact List.mem_append.2 (Or.inr he)
  · intro rank R fuel hac hset hr1 hr2 hfuel
    exact TclOOGetCallContext_terminates st rank hac hset fuel oPtr R ⟨name, none⟩ flags []
      hr1 hr2 hfuel (fun _ h => by cases h) (fun _ h => by cases h)

/-- The dispatch of `m` after the export in scenario S7 returns. -/
theorem exposedLookup_isSome :
    (TclOOGetCallContext 3 exposedState 100 ⟨"m", none⟩ { PUBLIC_METHOD := true } []).isSome
      = true := rfl

theorem exposedLookup_ret :
    (Option.get (TclOOGetCallContext 3 exposedState 100 ⟨"m", none⟩ { PUBLIC_METHOD := true } [])
      exposedLookup_isSome).ret
      = CallResult.built
          { newContext exposedState 100 { PUBLIC_METHOD := true } with
            chain := [⟨21, false, none⟩, ⟨20, false, none⟩] } := rfl

/-- Witness of C30 on scenario S7 after `export m` on object 100: the export
returns `TCL_OK`, and the public dispatch of `m` returns a chain that holds the
method `m` of class B, which is not marked public. -/
theorem C30_object_level_exposing_witness :
    (TclOODefineExportObjCmd exposeState (fun _ => 32) true (some 100) ["m"]).1
        = ReturnCode.TCL_OK
    ∧ ∃ r, TclOOGetCallContext 3 exposedState 100 ⟨"m", none⟩ { PUBLIC_METHOD := true } []
          = some r
        ∧ ∃ c, r.ret = CallResult.built c ∧ c.flags.OO_UNKNOWN_METHOD = false
            ∧ ∃ e ∈ c.chain, e.mPtr = 21 ∧ e.isFilter = false :=
  ⟨(C30_object_level_exposing.1 exposeState (fun _ => 32) 100 ["m"] "m"
      (List.mem_singleton.2 rfl)).1,
    Option.get _ exposedLookup_isSome, (Option.some_get exposedLookup_isSome).symm,
    (C30_object_level_exposing.2.1 exposedState 100 "m" { PUBLIC_METHOD := true }
      [("a", 30), ("b", 31), ("m", 32)] 32 rfl rfl rfl rfl rfl rfl).1 3 none []
      (Option.get _ exposedLookup_isSome) (Option.some_get exposedLookup_isSome).symm
      (fun p => ⟨by rw [exposedLookup_ret]; simp, by rw [exposedLookup_ret]; simp⟩)
      3 (by decide) 3 Relation.ReflTransGen.refl 21 rfl rfl⟩

/-! ## One step along a call chain -/

/-- The state that `TclOOInvokeContext` leaves when the implementation has left
state `s2` with the context `c2` behind its pointer: the `FILTER_HANDLING` bit of
the object of the context is put back to `wasFilter`, and the methods of the
chain are released when the step was the first. -/
theorem TclOOInvokeContext_eq
    (callProc : Nat → Nat → List String → InvokeState → Option (Int × InvokeState))
    (s : InvokeState) (contextPtr : Nat) (objv : List String) (c : CallContext)
    (e : MInvoke) (hc : s.oo.contexts contextPtr = some c)
    (he : c.chain[c.index]? = some e) (ht : (s.oo.methods e.mPtr).typePtr ≠ none) :
    TclOOInvokeContext callProc s contextPtr objv
      = match callProc e.mPtr contextPtr objv (dispatchState s c e) with
        | none => none
        | some (result, s2) =>
          match s2.oo.contexts contextPtr with
          | none => none
          | some c2 =>
            some (result,
              ⟨{ s2.oo with
                  objects := setAt s2.oo.objects c2.oPtr
                    { s2.oo.objects c2.oPtr with
                      flags := { (s2.oo.objects c2.oPtr).flags with
                        FILTER_HANDLING := (s.oo.objects c.oPtr).flags.FILTER_HANDLING } } },
                if c.index = 0 then
                  c2.chain.foldl (fun p entry => Tcl_Release p entry.mPtr) s2.preserved
                else s2.preserved⟩) := by
  unfold TclOOInvokeContext
  simp only [hc, he]
  cases htp : (s.oo.methods e.mPtr).typePtr with
  | none => exact absurd htp ht
  | some t =>
    simp only [dispatchState, decide_eq_true_eq]

theorem TclOOInvokeContext_some
    (callProc : Nat → Nat → List String → InvokeState → Option (Int × InvokeState))
    (s : InvokeState) (contextPtr : Nat) (objv : List String) (result : Int)
    (s3 : InvokeState)
    (h : TclOOInvokeContext callProc s contextPtr objv = some (result, s3)) :
    ∃ c e, s.oo.contexts contextPtr = some c ∧ c.chain[c.index]? = some e
      ∧ (s.oo.methods e.mPtr).typePtr ≠ none := by
  unfold TclOOInvokeContext at h
  cases hc : s.oo.contexts contextPtr with
  | none => simp [hc] at h
  | some c =>
    simp only [hc] at h
    cases he : c.chain[c.index]? with
    | none => simp [he] at h
    | some e =>
      simp only [he] at h
      cases htp : (s.oo.methods e.mPtr).typePtr with
      | none => simp [htp] at h
      | some t => exact ⟨c, e, rfl, he, by simp [htp]⟩

theorem Tcl_Preserve_all (m : Nat) :
    ∀ (chain : List MInvoke) (preserved : Nat → Int),
      (chain.foldl (fun p entry => Tcl_Preserve p entry.mPtr) preserved) m
        = preserved m + holdCount chain m := by
  intro chain
  induction chain with
  | nil => intro p; simp [holdCount]
  | cons a rest ih =>
    intro p
    rw [List.foldl_cons, ih]
    unfold holdCount Tcl_Preserve setAt
    by_cases ha : a.mPtr = m
    · simp [ha]
      omega
    · have : ¬ m = a.mPtr := fun e => ha e.symm
      simp [ha, this]

theorem Tcl_Release_all (m : Nat) :
    ∀ (chain : List MInvoke) (preserved : Nat → Int),
      (chain.foldl (fun p entry => Tcl_Release p entry.mPtr) preserved) m
        = preserved m - holdCount chain m := by
  intro chain
  induction chain with
  | nil => intro p; simp [holdCount]
  | cons a rest ih =>
    intro p
    rw [List.foldl_cons, ih]
    unfold holdCount Tcl_Release setAt
    by_cases ha : a.mPtr = m
    · simp [ha]
      omega
    · have : ¬ m = a.mPtr := fun e => ha e.symm
      simp [ha, this]

/-- C31: `TclOOInvokeContext` scopes the `FILTER_HANDLING` bit of the object of the
context. For an allocated context whose current entry `e` has an implemented
method, the implementation runs on a state where the flags of the object are those
at entry with `FILTER_HANDLING` set exactly when `e` is a filter or the flags of
the context include `FILTER_HANDLING`. Whenever the implementation returns a code
`result` and a state `s2` that leaves the context allocated for the same object,
`TclOOInvokeContext` returns that same `result`, whatever it is, and the flags of
the object are those of `s2` with `FILTER_HANDLING` put back to its value at entry.
Conversely a returned code is the code of the implementation. -/
theorem C31_scoped_filter_flag
    (callProc : Nat → Nat → List String → InvokeState → Option (Int × InvokeState))
    (s : InvokeState) (contextPtr : Nat) (objv : List String) (c : CallContext)
    (e : MInvoke) (hc : s.oo.contexts contextPtr = some c)
    (he : c.chain[c.index]? = some e) (ht : (s.oo.methods e.mPtr).typePtr ≠ none) :
    ((dispatchState s c e).oo.objects c.oPtr).flags
        = { (s.oo.objects c.oPtr).flags with
            FILTER_HANDLING := e.isFilter || c.flags.FILTER_HANDLING }
    ∧ (((dispatchState s c e).oo.objects c.oPtr).flags.FILTER_HANDLING = true
        ↔ (e.isFilter = true ∨ c.flags.FILTER_HANDLING = true))
    ∧ (∀ (result : Int) (s2 : InvokeState) (c2 : CallContext),
        callProc e.mPtr contextPtr objv (dispatchState s c e) = some (result, s2) →
        s2.oo.contexts contextPtr = some c2 → c2.oPtr = c.oPtr →
        ∃ s3, TclOOInvokeContext callProc s contextPtr objv = some (result, s3)
          ∧ (s3.oo.objects c.oPtr).flags
              = { (s2.oo.objects c.oPtr).flags with
                  FILTER_HANDLING := (s.oo.objects c.oPtr).flags.FILTER_HANDLING }
          ∧ (s3.oo.objects c.oPtr).flags.FILTER_HANDLING
              = (s.oo.objects c.oPtr).flags.FILTER_HANDLING)
    ∧ (∀ (result : Int) (s3 : InvokeState),
        TclOOInvokeContext callProc s contextPtr objv = some (result, s3) →
        ∃ s2, callProc e.mPtr contextPtr objv (dispatchState s c e) = some (result, s2)) := by
  refine ⟨?_, ?_, ?_, ?_⟩
  · simp only [dispatchState, setAt_same]
  · simp only [dispatchState, setAt_same, Bool.or_eq_true]
  · intro result s2 c2 hbody hc2 ho
    rw [TclOOInvokeContext_eq callProc s contextPtr objv c e hc he ht]
    simp only [hbody, hc2]
    refine ⟨_, rfl, ?_, ?_⟩
    · simp only [ho, setAt_same]
    · simp only [ho, setAt_same]
  · intro result s3 h
    rw [TclOOInvokeContext_eq callProc s contextPtr objv c e hc he ht] at h
    cases hb : callProc e.mPtr contextPtr objv (dispatchState s c e) with
    | none => simp [hb] at h
    | some r =>
      obtain ⟨r1, s2⟩ := r
      simp only [hb] at h
      cases hc2 : s2.oo.contexts contextPtr with
      | none => simp [hc2] at h
      | some c2 =>
        simp only [hc2, Option.some.injEq, Prod.mk.injEq] at h
        exact ⟨s2, by rw [h.1]⟩

/-- Witness of C31 in scenario S12, entered at the filter entry of the chain with an
implementation that fails with code 1 after setting `FILTER_HANDLING` and
`PUBLIC_METHOD` on the object: the code 1 is returned, `FILTER_HANDLING` is back
to unset and `PUBLIC_METHOD` stays set. -/
theorem C31_scoped_filter_flag_witness :
    (invokeState 0).oo.contexts 7
        = some { oPtr := 100, globalEpoch := 1, localEpoch := 0,
                 flags := { PUBLIC_METHOD := true }, index := 0, skip := 2,
                 chain := [⟨21, true, some 2⟩, ⟨22, false, none⟩], refCount := 1 }
    ∧ ((dispatchState (invokeState 0)
          { oPtr := 100, globalEpoch := 1, localEpoch := 0,
            flags := { PUBLIC_METHOD := true }, index := 0, skip := 2,
            chain := [⟨21, true, some 2⟩, ⟨22, false, none⟩], refCount := 1 }
          ⟨21, true, some 2⟩).oo.objects 100).flags.FILTER_HANDLING = true
    ∧ ∃ s3, TclOOInvokeContext
          (failingBody { FILTER_HANDLING := true, PUBLIC_METHOD := true })
          (invokeState 0) 7 [] = some (1, s3)
        ∧ (s3.oo.objects 100).flags.FILTER_HANDLING = false
        ∧ (s3.oo.objects 100).flags.PUBLIC_METHOD = true :=
  have h := C31_scoped_filter_flag
    (failingBody { FILTER_HANDLING := true, PUBLIC_METHOD := true })
    (invokeState 0) 7 []
    { oPtr := 100, globalEpoch := 1, localEpoch := 0,
      flags := { PUBLIC_METHOD := true }, index := 0, skip := 2,
      chain := [⟨21, true, some 2⟩, ⟨22, false, none⟩], refCount := 1 }
    ⟨21, true, some 2⟩ rfl rfl (by decide)
  ⟨rfl, h.2.1.2 (Or.inl rfl),
    match h.2.2.1 1 _ _ rfl rfl rfl with
    | ⟨s3, h3, hfl, _⟩ => ⟨s3, h3, by rw [hfl]; rfl, by rw [hfl]; rfl⟩⟩

/-- C32: pinning is owned by the outermost step. For an allocated context whose
current entry has an implemented method, the implementation runs with the pin
count of every method raised by the number of chain entries that hold it when the
index is 0, and with the pin counts of entry otherwise. When the implementation
returns, with any code, `TclOOInvokeContext` returns with the pin counts the
implementation left, lowered by the number of entries of the chain that hold the
method when the index was 0, and unchanged otherwise. So when the implementation
leaves the chain and the pin counts as it found them, every pin count after the
invocation is the one before it. -/
theorem C32_outermost_owns_pinning
    (callProc : Nat → Nat → List String → InvokeState → Option (Int × InvokeState))
    (s : InvokeState) (contextPtr : Nat) (objv : List String) (c : CallContext)
    (e : MInvoke) (hc : s.oo.contexts contextPtr = some c)
    (he : c.chain[c.index]? = some e) (ht : (s.oo.methods e.mPtr).typePtr ≠ none) :
    (∀ m, (dispatchState s c e).preserved m
        = s.preserved m + (if c.index = 0 then (holdCount c.chain m : Int) else 0))
    ∧ (∀ (result : Int) (s2 : InvokeState) (c2 : CallContext),
        callProc e.mPtr contextPtr objv (dispatchState s c e) = some (result, s2) →
        s2.oo.contexts contextPtr = some c2 →
        ∃ s3, TclOOInvokeContext callProc s contextPtr objv = some (result, s3)
          ∧ (∀ m, s3.preserved m
              = s2.preserved m - (if c.index = 0 then (holdCount c2.chain m : Int) else 0))
          ∧ (c2.chain = c.chain →
              (∀ m, s2.preserved m = (dispatchState s c e).preserved m) →
              ∀ m, s3.preserved m = s.preserved m)) := by
  have hpin : ∀ m, (dispatchState s c e).preserved m
      = s.preserved m + (if c.index = 0 then (holdCount c.chain m : Int) else 0) := by
    intro m
    by_cases h0 : c.index = 0
    · simp only [dispatchState, if_pos h0]
      exact Tcl_Preserve_all m c.chain s.preserved
    · simp only [dispatchState, if_neg h0, add_zero]
  refine ⟨hpin, ?_⟩
  intro result s2 c2 hbody hc2
  rw [TclOOInvokeContext_eq callProc s contextPtr objv c e hc he ht]
  simp only [hbody, hc2]
  have hrel : ∀ m, (if c.index = 0 then
        c2.chain.foldl (fun p entry => Tcl_Release p entry.mPtr) s2.preserved
      else s2.preserved) m
      = s2.preserved m - (if c.index = 0 then (holdCount c2.chain m : Int) else 0) := by
    intro m
    by_cases h0 : c.index = 0
    · simp only [if_pos h0]
      exact Tcl_Release_all m c2.chain s2.preserved
    · simp only [if_neg h0, sub_zero]
  refine ⟨_, rfl, hrel, ?_⟩
  intro hchain hkeep m
  have h1 := hrel m
  show (if c.index = 0 then
        c2.chain.foldl (fun p entry => Tcl_Release p entry.mPtr) s2.preserved
      else s2.preserved) m = s.preserved m
  rw [h1, hkeep m, hpin m, hchain]
  exact add_sub_cancel_right _ _

/-- Witness of C32 in scenario S12 entered at index 0: the implementation runs with
method 21 pinned once, and after the failing invocation no method is pinned. -/
theorem C32_outermost_owns_pinning_witness :
    (invokeState 0).oo.contexts 7
        = some { oPtr := 100, globalEpoch := 1, localEpoch := 0,
                 flags := { PUBLIC_METHOD := true }, index := 0, skip := 2,
                 chain := [⟨21, true, some 2⟩, ⟨22, false, none⟩], refCount := 1 }
    ∧ (dispatchState (invokeState 0)
          { oPtr := 100, globalEpoch := 1, localEpoch := 0,
            flags := { PUBLIC_METHOD := true }, index := 0, skip := 2,
            chain := [⟨21, true, some 2⟩, ⟨22, false, none⟩], refCount := 1 }
          ⟨21, true, some 2⟩).preserved 21 = 1
    ∧ ∃ s3, TclOOInvokeContext
          (failingBody { FILTER_HANDLING := true, PUBLIC_METHOD := true })
          (invokeState 0) 7 [] = some (1, s3)
        ∧ s3.preserved 21 = 0 ∧ s3.preserved 22 = 0 :=
  have h := C32_outermost_owns_pinning
    (failingBody { FILTER_HANDLING := true, PUBLIC_METHOD := true })
    (invokeState 0) 7 []
    { oPtr := 100, globalEpoch := 1, localEpoch := 0,
      flags := { PUBLIC_METHOD := true }, index := 0, skip := 2,
      chain := [⟨21, true, some 2⟩, ⟨22, false, none⟩], refCount := 1 }
    ⟨21, true, some 2⟩ rfl rfl (by decide)
  ⟨rfl, (h.1 21).trans (by decide),
    match h.2 1 _ _ rfl rfl with
    | ⟨s3, h3, _, hkeep⟩ =>
      ⟨s3, h3, hkeep rfl (fun _ => rfl) 21, hkeep rfl (fun _ => rfl) 22⟩⟩


/-! ## The visibility decided along a class walk -/

/-- The step of `AddSimpleClassChainToCallContext` at a class while the visibility
is not settled yet, in a public dispatch of a name that is no constructor or
destructor. -/
theorem AddSimpleClassChainToCallContext_undecided (st : OOState) (name : String)
    (df : Bool) (fd : Option Nat) (n c : Nat) (cb : ChainBuilder) (flags : Flags)
    (hpub : flags.PUBLIC_METHOD = true) (hk : flags.KNOWN_STATE = false)
    (hs : flags.SPECIAL = false) :
    AddSimpleClassChainToCallContext st name df fd (n + 1) c cb flags
      = match Tcl_FindHashEntry (st.classes c).classMethods name with
        | none =>
          match (st.classes c).superclasses with
          | [] => some cb
          | [superPtr] => AddSimpleClassChainToCallContext st name df fd n superPtr cb flags
          | supers =>
            supers.foldlM (fun acc superPtr =>
              AddSimpleClassChainToCallContext st name df fd n superPtr acc flags) cb
        | some k =>
          if (st.methods k).flags.PUBLIC_METHOD then
            match (st.classes c).superclasses with
            | [] => some (AddMethodToCallChain st (some k) cb df fd)
            | [superPtr] =>
              AddSimpleClassChainToCallContext st name df fd n superPtr
                (AddMethodToCallChain st (some k) cb df fd)
                { flags with DEFINITE_PUBLIC := true }
            | supers =>
              supers.foldlM (fun acc superPtr =>
                AddSimpleClassChainToCallContext st name df fd n superPtr acc
                  { flags with DEFINITE_PUBLIC := true })
                (AddMethodToCallChain st (some k) cb df fd)
          else some cb := by
  have h1 : flags.CONSTRUCTOR = false := by
    simp only [Flags.SPECIAL, Bool.or_eq_false_iff] at hs; exact hs.1
  have h2 : flags.DESTRUCTOR = false := by
    simp only [Flags.SPECIAL, Bool.or_eq_false_iff] at hs; exact hs.2
  rw [AddSimpleClassChainToCallContext]
  simp only [h1, h2, hk, hpub, Bool.false_eq_true, if_false, Bool.not_false, if_true]
  cases Tcl_FindHashEntry (st.classes c).classMethods name with
  | none => rfl
  | some mPtr =>
    by_cases hp : (st.methods mPtr).flags.PUBLIC_METHOD = true
    · simp only [hp, if_true]
    · simp only [hp, Bool.false_eq_true, if_false]

/-- The walks that `AddSimpleChainToCallContext` makes when the object has no
record of its own for the name: every walk starts with the flags of the call. -/
theorem AddSimpleChainToCallContext_unrecorded (st : OOState) (fuel oPtr : Nat)
    (name : String) (cb : ChainBuilder) (df : Bool) (flags : Flags) (fd : Option Nat)
    (hs : flags.SPECIAL = false)
    (hno : (st.objects oPtr).methodsPtr.bind (fun tbl => Tcl_FindHashEntry tbl name) = none) :
    AddSimpleChainToCallContext st fuel oPtr name cb df flags fd
      = (((st.objects oPtr).mixins.foldlM (fun acc mixinPtr =>
            AddSimpleClassChainToCallContext st name df fd fuel mixinPtr acc flags) cb).bind
          (fun cb1 =>
            ((st.classes (st.objects oPtr).selfCls).mixins.foldlM (fun acc mixinPtr =>
              AddSimpleClassChainToCallContext st name df fd fuel mixinPtr acc flags) cb1).bind
            (fun cb2 =>
              (st.classes (st.objects oPtr).selfCls).classHierarchy.foldlM
                (fun acc superPtr => (st.classes superPtr).mixins.foldlM (fun acc mixinPtr =>
                  AddSimpleClassChainToCallContext st name df fd fuel mixinPtr acc flags) acc)
                cb2))).bind
        (fun cb4 =>
          AddSimpleClassChainToCallContext st name df fd fuel (st.objects oPtr).selfCls cb4
            flags) := by
  unfold AddSimpleChainToCallContext
  simp only [hno, hs]
  have hc : (if (!(flags.KNOWN_STATE || false) && (st.objects oPtr).methodsPtr.isSome) = true
      then some flags else some flags) = some flags := by
    split <;> rfl
  simp only [hc, hs, Bool.not_false, if_true]
  congr 1
  cases (st.objects oPtr).mixins.foldlM (fun acc mixinPtr =>
      AddSimpleClassChainToCallContext st name df fd fuel mixinPtr acc flags) cb with
  | none => rfl
  | some cb1 =>
    simp only [Option.bind_eq_bind, Option.some_bind]
    cases (st.classes (st.objects oPtr).selfCls).mixins.foldlM (fun acc mixinPtr =>
        AddSimpleClassChainToCallContext st name df fd fuel mixinPtr acc flags) cb1 with
    | none => rfl
    | some cb2 =>
      simp only [Option.some_bind]
      cases (st.classes (st.objects oPtr).selfCls).classHierarchy.foldlM
          (fun acc superPtr => (st.classes superPtr).mixins.foldlM (fun acc mixinPtr =>
            AddSimpleClassChainToCallContext st name df fd fuel mixinPtr acc flags) acc)
          cb2 with
      | none => rfl
      | some cb3 => rfl

/-- C40: the class-level visibility abort is local to one walk. In a public dispatch
of a name that is no constructor or destructor, while the visibility is not
settled (which is how every walk starts when the object has no record of its own
for the name: each walk of `AddSimpleChainToCallContext` then runs with the flags
of the call), a walk that meets at class `c` a record without `PUBLIC_METHOD`
returns the builder as it was given: no entry of `c` or of a superclass of `c` is
added by it. A class without a record hands the unsettled flags to each of its
superclasses, and a class with a public record hands the flags with
`DEFINITE_PUBLIC` to each of them, so what one superclass decides does not reach
its siblings. In scenario S8 class 5 has the superclasses 3 and 4, 3 declares the
public `m` (13) and 4 the non-public `m` (14): the chain of its instance 100 is 13
alone. Class 6 declares the public `m` (16) and has the single superclass 4: the
chain of its instance 101 is 16 then 14. -/
theorem C40_visibility_abort_local (st : OOState) (name : String) (flags : Flags)
    (hpub : flags.PUBLIC_METHOD = true) (hk : flags.KNOWN_STATE = false)
    (hs : flags.SPECIAL = false) :
    (∀ (df : Bool) (fd : Option Nat) (n c k : Nat) (cb : ChainBuilder),
      Tcl_FindHashEntry (st.classes c).classMethods name = some k →
      (st.methods k).flags.PUBLIC_METHOD = false →
      AddSimpleClassChainToCallContext st name df fd (n + 1) c cb flags = some cb)
    ∧ (∀ (df : Bool) (fd : Option Nat) (n c : Nat) (cb : ChainBuilder),
      Tcl_FindHashEntry (st.classes c).classMethods name = none →
      AddSimpleClassChainToCallContext st name df fd (n + 1) c cb flags
        = match (st.classes c).superclasses with
          | [] => some cb
          | [superPtr] => AddSimpleClassChainToCallContext st name df fd n superPtr cb flags
          | supers =>
            supers.foldlM (fun acc superPtr =>
              AddSimpleClassChainToCallContext st name df fd n superPtr acc flags) cb)
    ∧ (∀ (df : Bool) (fd : Option Nat) (n c k : Nat) (cb : ChainBuilder),
      Tcl_FindHashEntry (st.classes c).classMethods name = some k →
      (st.methods k).flags.PUBLIC_METHOD = true →
      AddSimpleClassChainToCallContext st name df fd (n + 1) c cb flags
        = match (st.classes c).superclasses with
          | [] => some (AddMethodToCallChain st (some k) cb df fd)
          | [superPtr] =>
            AddSimpleClassChainToCallContext st name df fd n superPtr
              (AddMethodToCallChain st (some k) cb df fd)
              { flags with DEFINITE_PUBLIC := true }
          | supers =>
            supers.foldlM (fun acc superPtr =>
              AddSimpleClassChainToCallContext st name df fd n superPtr acc
                { flags with DEFINITE_PUBLIC := true })
              (AddMethodToCallChain st (some k) cb df fd))
    ∧ (∀ (df : Bool) (fd : Option Nat) (fuel oPtr : Nat) (cb : ChainBuilder),
      (st.objects oPtr).methodsPtr.bind (fun tbl => Tcl_FindHashEntry tbl name) = none →
      AddSimpleChainToCallContext st fuel oPtr name cb df flags fd
        = (((st.objects oPtr).mixins.foldlM (fun acc mixinPtr =>
              AddSimpleClassChainToCallContext st name df fd fuel mixinPtr acc flags) cb).bind
            (fun cb1 =>
              ((st.classes (st.objects oPtr).selfCls).mixins.foldlM (fun acc mixinPtr =>
                AddSimpleClassChainToCallContext st name df fd fuel mixinPtr acc flags) cb1).bind
              (fun cb2 =>
                (st.classes (st.objects oPtr).selfCls).classHierarchy.foldlM
                  (fun acc superPtr => (st.classes superPtr).mixins.foldlM
                    (fun acc mixinPtr =>
                      AddSimpleClassChainToCallContext st name df fd fuel mixinPtr acc flags)
                    acc)
                  cb2))).bind
          (fun cb4 =>
            AddSimpleClassChainToCallContext st name df fd fuel (st.objects oPtr).selfCls cb4
              flags))
    ∧ (∀ k, (TclOOGetCallContext (k + 3) visibilityState 100 ⟨"m", none⟩
          { PUBLIC_METHOD := true } []).map GetResult.ret
        = some (CallResult.built
            { newContext visibilityState 100 { PUBLIC_METHOD := true } with
              chain := [⟨13, false, none⟩] }))
    ∧ (∀ k, (TclOOGetCallContext (k + 3) visibilityState 101 ⟨"m", none⟩
          { PUBLIC_METHOD := true } []).map GetResult.ret
        = some (CallResult.built
            { newContext visibilityState 101 { PUBLIC_METHOD := true } with
              chain := [⟨16, false, none⟩, ⟨14, false, none⟩] })) := by
  refine ⟨?_, ?_, ?_, ?_, fun k => rfl, fun k => rfl⟩
  · intro df fd n c k cb hl hp
    rw [AddSimpleClassChainToCallContext_undecided st name df fd n c cb flags hpub hk hs, hl]
    simp only [hp, Bool.false_eq_true, if_false]
  · intro df fd n c cb hl
    rw [AddSimpleClassChainToCallContext_undecided st name df fd n c cb flags hpub hk hs, hl]
  · intro df fd n c k cb hl hp
    rw [AddSimpleClassChainToCallContext_undecided st name df fd n c cb flags hpub hk hs, hl]
    simp only [hp, if_true]
  · intro df fd fuel oPtr cb hno
    exact AddSimpleChainToCallContext_unrecorded st fuel oPtr name cb df flags fd hs hno

/-- Witness of C40 in scenario S8: the walk for `m` that starts at class 4, whose
record 14 is not public, returns the builder it was given. -/
theorem C40_visibility_abort_local_witness :
    AddSimpleClassChainToCallContext visibilityState "m" false none (2 + 1) 4
      ⟨newContext visibilityState 100 { PUBLIC_METHOD := true }, 0⟩ { PUBLIC_METHOD := true }
      = some ⟨newContext visibilityState 100 { PUBLIC_METHOD := true }, 0⟩ :=
  (C40_visibility_abort_local visibilityState "m" { PUBLIC_METHOD := true } rfl rfl rfl).1
    false none 2 4 14 ⟨newContext visibilityState 100 { PUBLIC_METHOD := true }, 0⟩ rfl rfl


/-! ## Back-edges after an empty mixin list -/

/-- C38, the failing input: in scenario S6 object 100 is an instance of class 3 and
is recorded in its `instances`. `TclOOObjectSetMixins` with the list `[3]` keeps
that record (the guard `mixinPtr != oPtr->selfCls` skips the class of the object).
A second call with the empty list takes the branch without that guard: it removes
the object from the `instances` of class 3, which is still its `selfCls`. The same
second call with the list `[5]` takes the guarded branch and keeps the record. -/
theorem C38_empty_list_drops_selfCls :
    (defineState.objects 100).selfCls = 3
    ∧ (defineState.classes 3).instances = [100]
    ∧ (selfMixedState.objects 100).selfCls = 3
    ∧ (selfMixedState.objects 100).mixins = [3]
    ∧ (selfMixedState.classes 3).instances = [100]
    ∧ ((TclOOObjectSetMixins selfMixedState 100 []).objects 100).selfCls = 3
    ∧ ((TclOOObjectSetMixins selfMixedState 100 []).objects 100).mixins = []
    ∧ ((TclOOObjectSetMixins selfMixedState 100 []).classes 3).instances = []
    ∧ ((TclOOObjectSetMixins selfMixedState 100 [5]).classes 3).instances = [100]
    ∧ ((TclOOObjectSetMixins selfMixedState 100 [5]).classes 5).instances = [100] := by
  refine ⟨rfl, rfl, rfl, rfl, rfl, rfl, rfl, rfl, rfl, rfl⟩

/-! ## A stamped cache after a superclass change -/

/-- C35, the failing input: scenario S9. In scenario S6 no cache is stamped with
the epoch of the foundation. The public dispatch of `m` on object 100 stamps the
cache `[2, 0]` of its class 3; `TclOODefineClassObjCmd` then moves the object to
class 2, which leaves class 3 without instances, subclasses and users as a mixin;
`TclOODefineSuperclassObjCmd` then gives class 3 the single superclass 5 and,
through `BumpGlobalEpoch`, advances no epoch. In the state reached the superclass
list of class 3 is `[5]`, whose walk is `[5, 0]`, its stamp is the epoch of the
foundation, its cache is still `[2, 0]`, and `InitClassHierarchy` of class 3
leaves the store as it is, with any fuel. -/
theorem C35_stale_stamped_cache :
    (∀ c, (defineState.classes c).classHierarchyEpoch ≠ defineState.fPtr.epoch)
    ∧ restampedState.isSome = true
    ∧ restampedState.map (fun st => (st.classes 3).superclasses) = some [5]
    ∧ restampedState.map (fun st =>
          decide ((st.classes 3).classHierarchyEpoch = st.fPtr.epoch)) = some true
    ∧ restampedState.map (fun st => (st.classes 3).classHierarchy) = some [2, 0]
    ∧ restampedState.map (fun st => (ancestors st.classes 2 3).dedup) = some [5, 0]
    ∧ (∀ k, restampedState.bind (fun st =>
          (InitClassHierarchy st.fPtr (k + 1) st.classes 3).map
            (fun classes => ((classes 3).superclasses, (classes 3).classHierarchy)))
        = some ([5], [2, 0])) := by
  refine ⟨?_, rfl, rfl, rfl, rfl, by decide, fun k => rfl⟩
  intro c
  have h : (defineState.classes c).classHierarchyEpoch = 0 := by
    unfold defineState definedClass plainClass
    simp only
    split <;> rfl
  rw [h]
  decide

/-! ## The filter phase on a repeated filter name -/

/-- C34, the failing input: scenario S10, where object 101 has the instance
filters `f` and `g` and its class 2 declares the filter `f`. The filter phase
processes `f` as an object filter, then `g`, then `f` again as a filter of the
class, because the names of the object filters are never entered into
`doneFilters`: the second processing moves the entry of `f` behind that of `g`.
Processing `f` and `g` once each would leave `f` before `g`. -/
theorem C34_object_filter_processed_again :
    (repeatedFilterState.objects 101).filters = ["f", "g"]
    ∧ (repeatedFilterState.classes 2).filters = ["f"]
    ∧ (∀ k, addAllFilters repeatedFilterState (k + 3) 101
          ⟨newContext repeatedFilterState 101 { PUBLIC_METHOD := true }, 0⟩
        = ((AddSimpleChainToCallContext repeatedFilterState (k + 3) 101 "f"
              ⟨newContext repeatedFilterState 101 { PUBLIC_METHOD := true }, 0⟩
              true {} none).bind
            (fun cb1 => AddSimpleChainToCallContext repeatedFilterState (k + 3) 101 "g"
              cb1 true {} none)).bind
            (fun cb2 => AddSimpleChainToCallContext repeatedFilterState (k + 2) 101 "f"
              cb2 true {} (some 2)))
    ∧ (∀ k, (addAllFilters repeatedFilterState (k + 3) 101
          ⟨newContext repeatedFilterState 101 { PUBLIC_METHOD := true }, 0⟩).map
            (fun cb => cb.contextPtr.chain)
        = some [⟨23, true, none⟩, ⟨21, true, none⟩])
    ∧ (∀ k, ((AddSimpleChainToCallContext repeatedFilterState (k + 3) 101 "f"
              ⟨newContext repeatedFilterState 101 { PUBLIC_METHOD := true }, 0⟩
              true {} none).bind
            (fun cb1 => AddSimpleChainToCallContext repeatedFilterState (k + 3) 101 "g"
              cb1 true {} none)).map (fun cb => cb.contextPtr.chain)
        = some [⟨21, true, none⟩, ⟨23, true, none⟩])
    ∧ (∀ k, (TclOOGetCallContext (k + 3) repeatedFilterState 101 ⟨"m", none⟩
          { PUBLIC_METHOD := true } []).map GetResult.ret
        = some (CallResult.built
            { newContext repeatedFilterState 101 { PUBLIC_METHOD := true } with
              chain := [⟨23, true, none⟩, ⟨21, true, none⟩, ⟨22, false, none⟩] })) := by
  refine ⟨rfl, rfl, fun k => rfl, fun k => rfl, fun k => rfl, fun k => rfl⟩

/-! ## A name listed and not dispatched -/

/-- C36, the failing input: scenario S11, where object 100 of class 3 has the mixin
4, class 4 has the mixin 6, and only class 6 declares the public method `x`.
`TclOOGetSortedMethodList` with `PUBLIC_METHOD` lists `x`, because
`AddClassMethodNames` visits the mixins of every class it is called on; the public
dispatch of `x` by `TclOOGetCallContext` returns `NULL`, because the walks of the
builder follow only the superclasses of a mixin. -/
theorem C36_listed_name_not_dispatched :
    (nestedMixinState.objects 100).selfCls = 3
    ∧ (nestedMixinState.objects 100).mixins = [4]
    ∧ (nestedMixinState.classes 4).mixins = [6]
    ∧ Tcl_FindHashEntry (nestedMixinState.classes 6).classMethods "x" = some 81
    ∧ (nestedMixinState.methods 81).flags.PUBLIC_METHOD = true
    ∧ (nestedMixinState.methods 81).typePtr ≠ none
    ∧ (∀ k, TclOOGetSortedMethodList (k + 3) nestedMixinState 100 { PUBLIC_METHOD := true }
        = some ["x"])
    ∧ (∀ k, (TclOOGetCallContext (k + 3) nestedMixinState 100 ⟨"x", none⟩
          { PUBLIC_METHOD := true } []).map GetResult.ret = some CallResult.null) := by
  refine ⟨rfl, rfl, rfl, rfl, rfl, by decide, fun k => ?_, fun k => rfl⟩
  rfl


/-! ## Links redirected at one class -/

/-- A path that arrives at `K` in a graph that differs from `E` only in the links
that leave `K` is, up to its first arrival, a path of `E`. -/
theorem arrival_of_redirected (E F : Nat → Nat → Prop) (K : Nat)
    (hsame : ∀ x z, x ≠ K → F x z → E x z) (y : Nat)
    (h : Relation.ReflTransGen F y K) : Relation.ReflTransGen E y K := by
  induction h using Relation.ReflTransGen.head_induction_on with
  | refl => exact Relation.ReflTransGen.refl
  | head hab hbK ih =>
    rename_i a b
    by_cases ha : a = K
    · rw [ha]
    · exact Relation.ReflTransGen.head (hsame a b ha hab) ih

/-- A path of the redirected graph is a path of `E` or passes through `K`. -/
theorem path_of_redirected (E F : Nat → Nat → Prop) (K : Nat)
    (hsame : ∀ x z, x ≠ K → F x z → E x z) (a b : Nat)
    (h : Relation.TransGen F a b) :
    Relation.TransGen E a b
      ∨ (Relation.ReflTransGen F a K ∧ ∃ z, F K z ∧ Relation.ReflTransGen F z b) := by
  induction h using Relation.TransGen.head_induction_on with
  | base hab =>
    rename_i a
    by_cases ha : a = K
    · rw [ha] at hab ⊢
      exact Or.inr ⟨Relation.ReflTransGen.refl, b, hab, Relation.ReflTransGen.refl⟩
    · exact Or.inl (Relation.TransGen.single (hsame a b ha hab))
  | ih hac hcb ih =>
    rename_i a c
    by_cases ha : a = K
    · rw [ha] at hac ⊢
      exact Or.inr ⟨Relation.ReflTransGen.refl, c, hac, hcb.to_reflTransGen⟩
    · rcases ih with h1 | ⟨h1, z, hz, h2⟩
      · exact Or.inl (Relation.TransGen.head (hsame a c ha hac) h1)
      · exact Or.inr ⟨Relation.ReflTransGen.head hac h1, z, hz, h2⟩

/-- Redirecting the links that leave `K` to classes from which `K` was not reached
creates no cycle. -/
theorem noCycle_redirect (E F : Nat → Nat → Prop) (K : Nat)
    (hsame : ∀ x z, x ≠ K → F x z → E x z)
    (hnew : ∀ z, F K z → ¬ Relation.ReflTransGen E z K)
    (hold : ∀ c, ¬ Relation.TransGen E c c) :
    ∀ c, ¬ Relation.TransGen F c c := by
  intro c hc
  rcases path_of_redirected E F K hsame c c hc with h | ⟨h1, z, hz, h2⟩
  · exact hold c h
  · exact hnew z hz (arrival_of_redirected E F K hsame z (h2.trans h1))

/-- Ranks that decrease along every link exclude cycles. -/
theorem cycleFree_of_acyclicMixed (classes : Nat → Class) (rank : Nat → Nat)
    (hac : acyclicMixed classes rank) : cycleFree classes := by
  have hlt : ∀ a b, Relation.TransGen
      (fun x y => y ∈ (classes x).superclasses ∨ y ∈ (classes x).mixins) a b →
      rank b < rank a := by
    intro a b h
    induction h with
    | single h1 => exact hac _ _ h1
    | tail _ h2 ih => exact lt_trans (hac _ _ h2) ih
  intro c hc
  exact lt_irrefl _ (hlt c c hc)

/-- What the loop of `TclOOIsReachable` returns when it returns, whatever the
fuel. -/
theorem TclOOIsReachable_loop_sound (classes : Nat → Class) (fuel targetPtr : Nat)
    (P : Nat → Prop)
    (hP : ∀ s b, TclOOIsReachable classes fuel targetPtr s = some b → (b = true ↔ P s)) :
    ∀ (l : List Nat) (found b : Bool),
      l.foldl
          (fun found superPtr =>
            match found with
            | some false => TclOOIsReachable classes fuel targetPtr superPtr
            | r => r)
          (some found) = some b →
      (b = true ↔ found = true ∨ ∃ s ∈ l, P s) := by
  have hnone : ∀ l : List Nat, l.foldl
      (fun found superPtr =>
        match found with
        | some false => TclOOIsReachable classes fuel targetPtr superPtr
        | r => r) none = none := by
    intro l
    induction l with
    | nil => rfl
    | cons x rest ih => rw [List.foldl_cons]; exact ih
  intro l
  induction l with
  | nil =>
    intro found b h
    simp only [List.foldl_nil, Option.some.injEq] at h
    subst h
    simp
  | cons x rest ih =>
    intro found b h
    rw [List.foldl_cons] at h
    cases found with
    | true =>
      have := ih true b h
      rw [this]
      simp
    | false =>
      simp only at h
      cases hx : TclOOIsReachable classes fuel targetPtr x with
      | none =>
        rw [hx, hnone] at h
        cases h
      | some bx =>
        rw [hx] at h
        have h1 := ih bx b h
        have h2 := hP x bx hx
        rw [h1, h2]
        simp

/-- Whatever the fuel, what `TclOOIsReachable` returns is whether the target is
reached from the start along superclass and mixin links. -/
theorem TclOOIsReachable_sound (classes : Nat → Class) (targetPtr : Nat) :
    ∀ (fuel startPtr : Nat) (b : Bool),
      TclOOIsReachable classes fuel targetPtr startPtr = some b →
      (b = true ↔ reachable classes startPtr targetPtr) := by
  intro fuel
  induction fuel with
  | zero => intro s b h; simp [TclOOIsReachable] at h
  | succ n ih =>
    intro s b h
    unfold TclOOIsReachable at h
    by_cases he : s = targetPtr
    · subst he
      simp only [if_true, Option.some.injEq] at h
      subst h
      simp [reachable, Relation.ReflTransGen.refl]
    · simp only [he, if_false] at h
      have hiff := TclOOIsReachable_loop_sound classes n targetPtr
        (fun x => reachable classes x targetPtr) (fun x bx hx => ih x bx hx)
        ((classes s).superclasses ++ (classes s).mixins) false b h
      rw [hiff]
      simp only [Bool.false_eq_true, false_or, List.mem_append]
      constructor
      · rintro ⟨x, hx, hr⟩
        exact Relation.ReflTransGen.head hx hr
      · intro hr
        rcases Relation.ReflTransGen.cases_head hr with e | ⟨x, hx, hr2⟩
        · exact absurd e he
        · exact ⟨x, hx, hr2⟩

/-! ## The links that the superclass and the mixin command leave -/

/-- A loop of back-edge updates changes no superclass and no mixin list. -/
theorem backEdges_links (f : (Nat → Class) → Nat → Nat → Nat → Class)
    (hf : ∀ classes a b c, (f classes a b c).superclasses = (classes c).superclasses
      ∧ (f classes a b c).mixins = (classes c).mixins)
    (K : Nat) (l : List Nat) (classes : Nat → Class) :
    ∀ c, ((l.foldl (fun acc p => f acc K p) classes) c).superclasses
          = (classes c).superclasses
      ∧ ((l.foldl (fun acc p => f acc K p) classes) c).mixins = (classes c).mixins := by
  apply foldl_inv (fun acc : Nat → Class =>
    ∀ c, (acc c).superclasses = (classes c).superclasses
      ∧ (acc c).mixins = (classes c).mixins)
  · intro acc x _ hacc c
    exact ⟨(hf acc K x c).1.trans (hacc c).1, (hf acc K x c).2.trans (hacc c).2⟩
  · intro c
    exact ⟨rfl, rfl⟩

theorem TclOORemoveFromSubclasses_links (classes : Nat → Class) (a b c : Nat) :
    (TclOORemoveFromSubclasses classes a b c).superclasses = (classes c).superclasses
    ∧ (TclOORemoveFromSubclasses classes a b c).mixins = (classes c).mixins := by
  unfold TclOORemoveFromSubclasses setAt
  split
  · next e => subst e; exact ⟨rfl, rfl⟩
  · exact ⟨rfl, rfl⟩

theorem TclOOAddToSubclasses_links (classes : Nat → Class) (a b c : Nat) :
    (TclOOAddToSubclasses classes a b c).superclasses = (classes c).superclasses
    ∧ (TclOOAddToSubclasses classes a b c).mixins = (classes c).mixins := by
  unfold TclOOAddToSubclasses setAt
  split
  · next e => subst e; exact ⟨rfl, rfl⟩
  · exact ⟨rfl, rfl⟩

theorem TclOORemoveFromMixinSubs_links (classes : Nat → Class) (a b c : Nat) :
    (TclOORemoveFromMixinSubs classes a b c).superclasses = (classes c).superclasses
    ∧ (TclOORemoveFromMixinSubs classes a b c).mixins = (classes c).mixins := by
  unfold TclOORemoveFromMixinSubs setAt
  split
  · next e => subst e; exact ⟨rfl, rfl⟩
  · exact ⟨rfl, rfl⟩

theorem TclOOAddToMixinSubs_links (classes : Nat → Class) (a b c : Nat) :
    (TclOOAddToMixinSubs classes a b c).superclasses = (classes c).superclasses
    ∧ (TclOOAddToMixinSubs classes a b c).mixins = (classes c).mixins := by
  unfold TclOOAddToMixinSubs setAt
  split
  · next e => subst e; exact ⟨rfl, rfl⟩
  · exact ⟨rfl, rfl⟩

/-- Whatever the fuel, when the argument loop of the superclass command runs to
its end, the class being modified is reached from none of the classes it adds to
the array. -/
theorem parseSuperclasses_sound (fuel : Nat) (st : OOState)
    (Tcl_GetObjectFromObj : String → Option Nat) (classPtr : Nat) :
    ∀ (objv : List String) (superclasses result : List Nat),
      parseSuperclasses fuel st Tcl_GetObjectFromObj classPtr objv superclasses
        = some (some result) →
      ∀ c ∈ result, c ∈ superclasses ∨ ¬ reachable st.classes c classPtr := by
  intro objv
  induction objv with
  | nil =>
    intro acc result h c hc
    simp only [parseSuperclasses, Option.some.injEq] at h
    subst h
    exact Or.inl hc
  | cons word rest ih =>
    intro acc result h c hc
    unfold parseSuperclasses at h
    cases hr : Tcl_GetObjectFromObj word with
    | none => simp [hr] at h
    | some o2Ptr =>
      simp only [hr] at h
      cases hcp : (st.objects o2Ptr).classPtr with
      | none => simp [hcp] at h
      | some cls =>
        simp only [hcp] at h
        by_cases hd : cls ∈ acc
        · simp [hd] at h
        · simp only [if_neg hd] at h
          cases ht : TclOOIsReachable st.classes fuel classPtr cls with
          | none => simp [ht] at h
          | some b =>
            cases b with
            | true => simp [ht] at h
            | false =>
              simp only [ht] at h
              rcases ih (acc ++ [cls]) result h c hc with h1 | h1
              · rcases List.mem_append.1 h1 with h2 | h2
                · exact Or.inl h2
                · rw [List.mem_singleton] at h2
                  subst h2
                  refine Or.inr (fun hre => ?_)
                  have := (TclOOIsReachable_sound st.classes classPtr fuel c false ht).2 hre
                  cases this
              · exact Or.inr h1

/-- Whatever the fuel, when the argument loop of the class form of the mixin
command runs to its end, the class being modified is reached from none of the
classes it adds to the array. -/
theorem parseMixins_sound (fuel : Nat) (st : OOState)
    (Tcl_GetObjectFromObj : String → Option Nat) (classPtr : Nat) :
    ∀ (objv : List String) (mixins result : List Nat),
      parseMixins fuel st Tcl_GetObjectFromObj false (some classPtr) objv mixins
        = some (some result) →
      ∀ c ∈ result, c ∈ mixins ∨ ¬ reachable st.classes c classPtr := by
  intro objv
  induction objv with
  | nil =>
    intro acc result h c hc
    simp only [parseMixins, Option.some.injEq] at h
    subst h
    exact Or.inl hc
  | cons word rest ih =>
    intro acc result h c hc
    unfold parseMixins at h
    cases hr : Tcl_GetObjectFromObj word with
    | none => simp [hr] at h
    | some o2Ptr =>
      simp only [hr] at h
      cases hcp : (st.objects o2Ptr).classPtr with
      | none => simp [hcp] at h
      | some cls =>
        simp only [hcp, Bool.false_eq_true, if_false] at h
        cases ht : TclOOIsReachable st.classes fuel classPtr cls with
        | none => simp [ht] at h
        | some b =>
          cases b with
          | true => simp [ht] at h
          | false =>
            simp only [ht] at h
            rcases ih (acc ++ [cls]) result h c hc with h1 | h1
            · rcases List.mem_append.1 h1 with h2 | h2
              · exact Or.inl h2
              · rw [List.mem_singleton] at h2
                subst h2
                refine Or.inr (fun hre => ?_)
                have := (TclOOIsReachable_sound st.classes classPtr fuel c false ht).2 hre
                cases this
            · exact Or.inr h1

/-- The links that a successful `TclOODefineSuperclassObjCmd` leaves: the
superclasses of the class being modified are the array of the argument loop, and
no other superclass list and no mixin list changes. -/
theorem TclOODefineSuperclassObjCmd_links (fuel : Nat) (st st1 : OOState)
    (Tcl_GetObjectFromObj : String → Option Nat) (context : Option Nat)
    (objv : List String)
    (h : TclOODefineSuperclassObjCmd fuel st Tcl_GetObjectFromObj context objv
      = some (ReturnCode.TCL_OK, st1)) :
    ∃ K result, parseSuperclasses fuel st Tcl_GetObjectFromObj K objv []
          = some (some result)
      ∧ (∀ x, (st1.classes x).mixins = (st.classes x).mixins)
      ∧ (∀ x, x ≠ K → (st1.classes x).superclasses = (st.classes x).superclasses)
      ∧ (st1.classes K).superclasses = result := by
  unfold TclOODefineSuperclassObjCmd at h
  by_cases hlen : objv.length + 1 < 2
  · simp [hlen] at h
  simp only [if_neg hlen] at h
  cases context with
  | none => simp at h
  | some oPtr =>
    simp only at h
    cases hcp : (st.objects oPtr).classPtr with
    | none => simp [hcp] at h
    | some K =>
      simp only [hcp] at h
      by_cases hroot : oPtr = (st.classes st.fPtr.objectCls).thisPtr
      · simp [hroot] at h
      simp only [if_neg hroot] at h
      cases hp : parseSuperclasses fuel st Tcl_GetObjectFromObj K objv [] with
      | none => simp [hp] at h
      | some r =>
        cases r with
        | none => simp [hp] at h
        | some result =>
          simp only [hp, Option.some.injEq, Prod.mk.injEq, true_and] at h
          have hC : ∃ C1 : Nat → Class, C1 = (if (st.classes K).superclasses.length ≠ 0 then
                (st.classes K).superclasses.foldl
                  (fun classes superPtr => TclOORemoveFromSubclasses classes K superPtr)
                  st.classes
              else st.classes) := ⟨_, rfl⟩
          obtain ⟨C1, hC1⟩ := hC
          have h1 : ∀ c, (C1 c).superclasses = (st.classes c).superclasses
              ∧ (C1 c).mixins = (st.classes c).mixins := by
            intro c
            rw [hC1]
            split
            · exact backEdges_links TclOORemoveFromSubclasses
                TclOORemoveFromSubclasses_links K _ st.classes c
            · exact ⟨rfl, rfl⟩
          rw [← hC1] at h
          have h3 := backEdges_links TclOOAddToSubclasses TclOOAddToSubclasses_links K result
            (setAt C1 K { C1 K with superclasses := result })
          have hcl : st1.classes = result.foldl
              (fun classes superPtr => TclOOAddToSubclasses classes K superPtr)
              (setAt C1 K { C1 K with superclasses := result }) := by
            rw [← h, BumpGlobalEpoch_classes]
          refine ⟨K, result, hp, ?_, ?_, ?_⟩
          · intro x
            rw [hcl, (h3 x).2]
            by_cases hx : x = K
            · subst hx; rw [setAt_same]; exact (h1 x).2
            · rw [setAt_other _ _ _ _ hx]; exact (h1 x).2
          · intro x hx
            rw [hcl, (h3 x).1, setAt_other _ _ _ _ hx]
            exact (h1 x).1
          · rw [hcl, (h3 K).1, setAt_same]

/-- The links that `TclOOClassSetMixins` leaves: the mixins of the class are the
array given, and no other mixin list and no superclass list changes. -/
theorem TclOOClassSetMixins_links (st : OOState) (K : Nat) (mixins : List Nat) :
    (∀ x, ((TclOOClassSetMixins st K mixins).classes x).superclasses
        = (st.classes x).superclasses)
    ∧ (∀ x, x ≠ K → ((TclOOClassSetMixins st K mixins).classes x).mixins
        = (st.classes x).mixins)
    ∧ ((TclOOClassSetMixins st K mixins).classes K).mixins = mixins := by
  have hrem := backEdges_links TclOORemoveFromMixinSubs TclOORemoveFromMixinSubs_links K
    (st.classes K).mixins st.classes
  unfold TclOOClassSetMixins
  simp only [BumpGlobalEpoch_classes]
  by_cases h0 : mixins.length = 0
  · have hm : mixins = [] := List.length_eq_zero.1 h0
    simp only [if_pos h0]
    by_cases h1 : (st.classes K).mixins.length ≠ 0
    · simp only [if_pos h1]
      refine ⟨?_, ?_, ?_⟩
      · intro x
        by_cases hx : x = K
        · subst hx; rw [setAt_same]; exact (hrem x).1
        · rw [setAt_other _ _ _ _ hx]; exact (hrem x).1
      · intro x hx
        rw [setAt_other _ _ _ _ hx]; exact (hrem x).2
      · rw [setAt_same, hm]
    · simp only [if_neg h1]
      refine ⟨fun _ => trivial, fun _ _ => trivial, ?_⟩
      rw [hm]
      exact List.length_eq_zero.1 (not_not.1 h1)
  · simp only [if_neg h0]
    have hC : ∃ C1 : Nat → Class, C1 = (if (st.classes K).mixins.length ≠ 0 then
          (st.classes K).mixins.foldl
            (fun classes mixinPtr => TclOORemoveFromMixinSubs classes K mixinPtr)
            st.classes
        else st.classes) := ⟨_, rfl⟩
    obtain ⟨C1, hC1⟩ := hC
    have h1 : ∀ c, (C1 c).superclasses = (st.classes c).superclasses
        ∧ (C1 c).mixins = (st.classes c).mixins := by
      intro c
      rw [hC1]
      split
      · exact hrem c
      · exact ⟨rfl, rfl⟩
    rw [← hC1]
    have h3 := backEdges_links TclOOAddToMixinSubs TclOOAddToMixinSubs_links K mixins
      (setAt C1 K { C1 K with mixins := mixins })
    refine ⟨?_, ?_, ?_⟩
    · intro x
      rw [(h3 x).1]
      by_cases hx : x = K
      · subst hx; rw [setAt_same]; exact (h1 x).1
      · rw [setAt_other _ _ _ _ hx]; exact (h1 x).1
    · intro x hx
      rw [(h3 x).2, setAt_other _ _ _ _ hx]
      exact (h1 x).2
    · rw [(h3 K).2, setAt_same]

/-- The links that a successful class form of `TclOODefineMixinObjCmd` leaves. -/
theorem TclOODefineMixinObjCmd_links (fuel : Nat) (st st1 : OOState)
    (Tcl_GetObjectFromObj : String → Option Nat) (context : Option Nat)
    (objv : List String)
    (h : TclOODefineMixinObjCmd fuel st Tcl_GetObjectFromObj false context objv
      = some (ReturnCode.TCL_OK, st1)) :
    ∃ K result, parseMixins fuel st Tcl_GetObjectFromObj false (some K) objv []
          = some (some result)
      ∧ (∀ x, (st1.classes x).superclasses = (st.classes x).superclasses)
      ∧ (∀ x, x ≠ K → (st1.classes x).mixins = (st.classes x).mixins)
      ∧ (st1.classes K).mixins = result := by
  unfold TclOODefineMixinObjCmd at h
  cases context with
  | none => simp at h
  | some oPtr =>
    simp only at h
    cases hcp : (st.objects oPtr).classPtr with
    | none => simp [hcp] at h
    | some K =>
      simp only [hcp, Bool.not_false, Option.isNone_some, Bool.and_false,
        Bool.false_eq_true, if_false] at h
      cases hp : parseMixins fuel st Tcl_GetObjectFromObj false (some K) objv [] with
      | none => simp [hp] at h
      | some r =>
        cases r with
        | none => simp [hp] at h
        | some result =>
          simp only [hp, Option.some.injEq, Prod.mk.injEq, true_and] at h
          rw [← h]
          exact ⟨K, result, hp, TclOOClassSetMixins_links st K result⟩

/-- C37: acyclicity is preserved. Let no class of the state be reached from itself
along one or more superclass and mixin links. Whenever
`TclOODefineSuperclassObjCmd`, with one or several words, or the class form of
`TclOODefineMixinObjCmd` returns `TCL_OK`, with any fuel for the reachability test
`TclOOIsReachable` (which, when it returns, says whether the target is reached from
the start along such links), no class of the state it leaves is reached from itself
along one or more superclass and mixin links. -/
theorem C37_acyclicity_preserved (fuel : Nat) (st st1 : OOState)
    (Tcl_GetObjectFromObj : String → Option Nat) (context : Option Nat)
    (objv : List String) (hac : cycleFree st.classes) :
    (TclOODefineSuperclassObjCmd fuel st Tcl_GetObjectFromObj context objv
        = some (ReturnCode.TCL_OK, st1) → cycleFree st1.classes)
    ∧ (TclOODefineMixinObjCmd fuel st Tcl_GetObjectFromObj false context objv
        = some (ReturnCode.TCL_OK, st1) → cycleFree st1.classes) := by
  have hold : ∀ K z, (z ∈ (st.classes K).superclasses ∨ z ∈ (st.classes K).mixins) →
      ¬ reachable st.classes z K := by
    intro K z hz hre
    exact hac K (Relation.TransGen.head' hz hre)
  constructor
  · intro h
    obtain ⟨K, result, hp, hmix, hsup, hK⟩ :=
      TclOODefineSuperclassObjCmd_links fuel st st1 Tcl_GetObjectFromObj context objv h
    have hsound := parseSuperclasses_sound fuel st Tcl_GetObjectFromObj K objv [] result hp
    refine noCycle_redirect
      (fun x y => y ∈ (st.classes x).superclasses ∨ y ∈ (st.classes x).mixins)
      (fun x y => y ∈ (st1.classes x).superclasses ∨ y ∈ (st1.classes x).mixins) K
      ?_ ?_ hac
    · intro x z hx hz
      rw [hsup x hx, hmix x] at hz
      exact hz
    · intro z hz
      rw [hK, hmix K] at hz
      rcases hz with hz | hz
      · rcases hsound z hz with h1 | h1
        · cases h1
        · exact h1
      · exact hold K z (Or.inr hz)
  · intro h
    obtain ⟨K, result, hp, hsup, hmix, hK⟩ :=
      TclOODefineMixinObjCmd_links fuel st st1 Tcl_GetObjectFromObj context objv h
    have hsound := parseMixins_sound fuel st Tcl_GetObjectFromObj K objv [] result hp
    refine noCycle_redirect
      (fun x y => y ∈ (st.classes x).superclasses ∨ y ∈ (st.classes x).mixins)
      (fun x y => y ∈ (st1.classes x).superclasses ∨ y ∈ (st1.classes x).mixins) K
      ?_ ?_ hac
    · intro x z hx hz
      rw [hsup x, hmix x hx] at hz
      exact hz
    · intro z hz
      rw [hK, hsup K] at hz
      rcases hz with hz | hz
      · exact hold K z (Or.inl hz)
      · rcases hsound z hz with h1 | h1
        · cases h1
        · exact h1

/-- Witness of C37 in scenario S6: `superclass L A` in the definition context of
class B = 3 succeeds and leaves B with the superclasses 5 and 2, and no class of
the state it leaves is reached from itself. -/
theorem C37_acyclicity_preserved_witness :
    cycleFree defineState.classes
    ∧ TclOODefineSuperclassObjCmd 3 defineState defineNames (some 13) ["L", "A"]
        = some (ReturnCode.TCL_OK,
            (Option.get (TclOODefineSuperclassObjCmd 3 defineState defineNames (some 13)
              ["L", "A"]) rfl).2)
    ∧ ((Option.get (TclOODefineSuperclassObjCmd 3 defineState defineNames (some 13)
          ["L", "A"]) rfl).2.classes 3).superclasses = [5, 2]
    ∧ cycleFree (Option.get (TclOODefineSuperclassObjCmd 3 defineState defineNames (some 13)
          ["L", "A"]) rfl).2.classes :=
  ⟨cycleFree_of_acyclicMixed _ _ defineState_acyclicMixed, rfl, rfl,
    (C37_acyclicity_preserved 3 defineState _ defineNames (some 13) ["L", "A"]
      (cycleFree_of_acyclicMixed _ _ defineState_acyclicMixed)).1 rfl⟩


/-! ## The walks as sequences of candidates -/

/-- A loop of walks, each of which acts as the sequence of `AddMethodToCallChain`
calls for its candidates, acts as the sequence for all the candidates in order. -/
theorem foldlM_addAll {α : Type} (st : OOState) (df : Bool)
    (w : ChainBuilder → α → Option ChainBuilder)
    (L : α → List (Option Nat × Option Nat)) :
    ∀ (l : List α) (cb r : ChainBuilder),
      (∀ x ∈ l, ∀ cb r, w cb x = some r → r = addAll st df (L x) cb) →
      l.foldlM w cb = some r → r = addAll st df (l.flatMap L) cb := by
  intro l
  induction l with
  | nil =>
    intro cb r _ h
    simp only [List.foldlM_nil, pure, Option.some.injEq] at h
    subst h
    rfl
  | cons x rest ih =>
    intro cb r hw h
    rw [List.foldlM_cons] at h
    cases hx : w cb x with
    | none => simp [hx, bind] at h
    | some cb1 =>
      simp only [hx, bind, Option.bind] at h
      have h1 := hw x (List.mem_cons_self _ _) cb cb1 hx
      have h2 := ih cb1 r (fun y hy => hw y (List.mem_cons_of_mem _ hy)) h
      rw [h2, h1, List.flatMap_cons, addAll_append]

/-- The step of `AddSimpleClassChainToCallContext` at a class while the visibility
is not settled yet, in a dispatch that is not public, of a name that is no
constructor or destructor. -/
theorem AddSimpleClassChainToCallContext_protected (st : OOState) (name : String)
    (df : Bool) (fd : Option Nat) (n c : Nat) (cb : ChainBuilder) (flags : Flags)
    (hpub : flags.PUBLIC_METHOD = false) (hk : flags.KNOWN_STATE = false)
    (hs : flags.SPECIAL = false) :
    AddSimpleClassChainToCallContext st name df fd (n + 1) c cb flags
      = match Tcl_FindHashEntry (st.classes c).classMethods name with
        | none =>
          match (st.classes c).superclasses with
          | [] => some cb
          | [superPtr] => AddSimpleClassChainToCallContext st name df fd n superPtr cb flags
          | supers =>
            supers.foldlM (fun acc superPtr =>
              AddSimpleClassChainToCallContext st name df fd n superPtr acc flags) cb
        | some k =>
          match (st.classes c).superclasses with
          | [] => some (AddMethodToCallChain st (some k) cb df fd)
          | [superPtr] =>
            AddSimpleClassChainToCallContext st name df fd n superPtr
              (AddMethodToCallChain st (some k) cb df fd)
              { flags with DEFINITE_PROTECTED := true }
          | supers =>
            supers.foldlM (fun acc superPtr =>
              AddSimpleClassChainToCallContext st name df fd n superPtr acc
                { flags with DEFINITE_PROTECTED := true })
              (AddMethodToCallChain st (some k) cb df fd) := by
  have h1 : flags.CONSTRUCTOR = false := by
    simp only [Flags.SPECIAL, Bool.or_eq_false_iff] at hs; exact hs.1
  have h2 : flags.DESTRUCTOR = false := by
    simp only [Flags.SPECIAL, Bool.or_eq_false_iff] at hs; exact hs.2
  rw [AddSimpleClassChainToCallContext]
  simp only [h1, h2, hk, hpub, Bool.false_eq_true, if_false, Bool.not_false, if_true]
  cases Tcl_FindHashEntry (st.classes c).classMethods name with
  | none => rfl
  | some mPtr => rfl

/-- The walk of `AddSimpleClassChainToCallContext` for a name that is no
constructor or destructor is, when it returns, the sequence of
`AddMethodToCallChain` calls for the records of the class-then-superclasses
walk. -/
theorem AddSimpleClassChainToCallContext_classWalk (st : OOState) (name : String)
    (fd : Option Nat) :
    ∀ (fuel c : Nat) (cb r : ChainBuilder) (flags : Flags),
      flags.SPECIAL = false →
      AddSimpleClassChainToCallContext st name false fd fuel c cb flags = some r →
      r = addAll st false
        ((classWalk st name flags.PUBLIC_METHOD fuel flags.KNOWN_STATE c).map
          (fun m => (some m, fd))) cb := by
  intro fuel
  induction fuel with
  | zero => intro c cb r flags _ h; simp [AddSimpleClassChainToCallContext] at h
  | succ n ih =>
    intro c cb r flags hs h
    have h1 : flags.CONSTRUCTOR = false := by
      simp only [Flags.SPECIAL, Bool.or_eq_false_iff] at hs; exact hs.1
    have h2 : flags.DESTRUCTOR = false := by
      simp only [Flags.SPECIAL, Bool.or_eq_false_iff] at hs; exact hs.2
    have tail : ∀ (flags1 : Flags) (cb1 r : ChainBuilder), flags1.SPECIAL = false →
        (match (st.classes c).superclasses with
          | [] => some cb1
          | [superPtr] =>
            AddSimpleClassChainToCallContext st name false fd n superPtr cb1 flags1
          | supers => supers.foldlM (fun acc superPtr =>
              AddSimpleClassChainToCallContext st name false fd n superPtr acc flags1) cb1)
          = some r →
        r = addAll st false
          (((st.classes c).superclasses.flatMap
            (classWalk st name flags1.PUBLIC_METHOD n flags1.KNOWN_STATE)).map
              (fun m => (some m, fd))) cb1 := by
      intro flags1 cb1 r hs1 hm
      have hr : (st.classes c).superclasses.foldlM (fun acc superPtr =>
          AddSimpleClassChainToCallContext st name false fd n superPtr acc flags1) cb1
          = some r := by
        split at hm
        · next he => rw [he]; exact hm
        · next s he =>
          rw [he]
          simp only [List.foldlM_cons, List.foldlM_nil, hm, bind, Option.bind, pure]
        · exact hm
      have := foldlM_addAll st false (fun acc superPtr =>
          AddSimpleClassChainToCallContext st name false fd n superPtr acc flags1)
        (fun s => (classWalk st name flags1.PUBLIC_METHOD n flags1.KNOWN_STATE s).map
          (fun m => (some m, fd)))
        (st.classes c).superclasses cb1 r
        (fun x _ cb2 r2 h2 => ih x cb2 r2 flags1 hs1 h2) hr
      rw [this, List.map_flatMap]
    have hsp : ∀ f : Flags, f.CONSTRUCTOR = flags.CONSTRUCTOR →
        f.DESTRUCTOR = flags.DESTRUCTOR → f.SPECIAL = false := by
      intro f e1 e2
      simp only [Flags.SPECIAL, e1, e2, h1, h2, Bool.or_self]
    unfold classWalk
    by_cases hk : flags.KNOWN_STATE = true
    · rw [AddSimpleClassChainToCallContext_known st name false fd n c cb flags hk hs] at h
      have := tail flags _ r hs h
      rw [hk] at this
      cases hl : Tcl_FindHashEntry (st.classes c).classMethods name with
      | none =>
        rw [hl] at this
        simp only [hk]
        exact this
      | some m =>
        rw [hl] at this
        simp only [hk, Bool.not_true, Bool.false_and, Bool.false_eq_true, if_false,
          List.map_cons, addAll]
        exact this
    · simp only [Bool.not_eq_true] at hk
      by_cases hp : flags.PUBLIC_METHOD = true
      · rw [AddSimpleClassChainToCallContext_undecided st name false fd n c cb flags hp hk
          hs] at h
        cases hl : Tcl_FindHashEntry (st.classes c).classMethods name with
        | none =>
          simp only [hl] at h
          exact tail flags cb r hs h
        | some m =>
          simp only [hl] at h
          by_cases hm : (st.methods m).flags.PUBLIC_METHOD = true
          · simp only [hm, if_true] at h
            have := tail { flags with DEFINITE_PUBLIC := true } _ r (hsp _ rfl rfl) h
            have e1 : ({ flags with DEFINITE_PUBLIC := true } : Flags).KNOWN_STATE = true := by
              simp [Flags.KNOWN_STATE]
            rw [e1] at this
            simp only [hp] at this
            simp only [hk, hp, hm, Bool.not_false, Bool.not_true, Bool.and_false,
              Bool.false_eq_true, if_false, List.map_cons, addAll]
            exact this
          · simp only [hm, Bool.false_eq_true, if_false, Option.some.injEq] at h
            simp only [Bool.not_eq_true] at hm
            simp only [hk, hp, hm, Bool.not_false, Bool.and_self, if_true, List.map_nil,
              addAll]
            exact h.symm
      · simp only [Bool.not_eq_true] at hp
        rw [AddSimpleClassChainToCallContext_protected st name false fd n c cb flags hp hk
          hs] at h
        cases hl : Tcl_FindHashEntry (st.classes c).classMethods name with
        | none =>
          simp only [hl] at h
          exact tail flags cb r hs h
        | some m =>
          simp only [hl] at h
          have := tail { flags with DEFINITE_PROTECTED := true } _ r (hsp _ rfl rfl) h
          have e1 : ({ flags with DEFINITE_PROTECTED := true } : Flags).KNOWN_STATE = true := by
            simp [Flags.KNOWN_STATE]
          rw [e1] at this
          simp only [hp] at this
          simp only [hk, hp, Bool.not_false, Bool.and_false, Bool.false_and,
            Bool.false_eq_true, if_false, List.map_cons, addAll]
          exact this

/-- The walks of `AddSimpleChainToCallContext` once the pre-check has left the
flags `flags1`, for a name that is no constructor or destructor: when they return
they are the sequence of `AddMethodToCallChain` calls for the candidates of the
mixins of the object, of the mixins of its class, of the mixins of the classes of
its hierarchy, for the record `own` of the object, and for the walk of its
class. -/
theorem walks_candidates (st : OOState) (fuel oPtr : Nat) (name : String)
    (cb r : ChainBuilder) (flags1 : Flags) (own : Option Nat)
    (hs1 : flags1.SPECIAL = false)
    (h : ((if (!flags1.SPECIAL) = true then do
          let cb1 ← (st.objects oPtr).mixins.foldlM
            (fun acc mixinPtr =>
              AddSimpleClassChainToCallContext st name false none fuel mixinPtr acc flags1) cb
          let cb2 ← (st.classes (st.objects oPtr).selfCls).mixins.foldlM
            (fun acc mixinPtr =>
              AddSimpleClassChainToCallContext st name false none fuel mixinPtr acc flags1) cb1
          let cb3 ← (st.classes (st.objects oPtr).selfCls).classHierarchy.foldlM
            (fun acc superPtr => (st.classes superPtr).mixins.foldlM
              (fun acc mixinPtr =>
                AddSimpleClassChainToCallContext st name false none fuel mixinPtr acc flags1)
              acc) cb2
          some (AddMethodToCallChain st own cb3 false none)
        else some cb).bind fun a =>
          AddSimpleClassChainToCallContext st name false none fuel (st.objects oPtr).selfCls a
            flags1) = some r) :
    r = addAll st false
      (((st.objects oPtr).mixins.flatMap
            (classWalk st name flags1.PUBLIC_METHOD fuel flags1.KNOWN_STATE)
          ++ (st.classes (st.objects oPtr).selfCls).mixins.flatMap
            (classWalk st name flags1.PUBLIC_METHOD fuel flags1.KNOWN_STATE)
          ++ (st.classes (st.objects oPtr).selfCls).classHierarchy.flatMap
            (fun superPtr => (st.classes superPtr).mixins.flatMap
              (classWalk st name flags1.PUBLIC_METHOD fuel flags1.KNOWN_STATE))
          ++ own.toList
          ++ classWalk st name flags1.PUBLIC_METHOD fuel flags1.KNOWN_STATE
              (st.objects oPtr).selfCls).map (fun m => (some m, none))) cb := by
  have one := AddSimpleClassChainToCallContext_classWalk st name none fuel
  have many : ∀ (l : List Nat) (a b : ChainBuilder),
      l.foldlM (fun acc mixinPtr =>
        AddSimpleClassChainToCallContext st name false none fuel mixinPtr acc flags1) a = some b →
      b = addAll st false
        ((l.flatMap (classWalk st name flags1.PUBLIC_METHOD fuel flags1.KNOWN_STATE)).map
          (fun m => (some m, none))) a := by
    intro l a b hf
    have := foldlM_addAll st false (fun acc mixinPtr =>
        AddSimpleClassChainToCallContext st name false none fuel mixinPtr acc flags1)
      (fun s => (classWalk st name flags1.PUBLIC_METHOD fuel flags1.KNOWN_STATE s).map
        (fun m => (some m, none))) l a b
      (fun x _ cb2 r2 h2 => one x cb2 r2 flags1 hs1 h2) hf
    rw [this, List.map_flatMap]
  have nested : ∀ (l : List Nat) (a b : ChainBuilder),
      l.foldlM (fun acc superPtr => (st.classes superPtr).mixins.foldlM
        (fun acc mixinPtr =>
          AddSimpleClassChainToCallContext st name false none fuel mixinPtr acc flags1)
        acc) a = some b →
      b = addAll st false
        ((l.flatMap (fun superPtr => (st.classes superPtr).mixins.flatMap
            (classWalk st name flags1.PUBLIC_METHOD fuel flags1.KNOWN_STATE))).map
          (fun m => (some m, none))) a := by
    intro l a b hf
    have := foldlM_addAll st false (fun acc superPtr => (st.classes superPtr).mixins.foldlM
        (fun acc mixinPtr =>
          AddSimpleClassChainToCallContext st name false none fuel mixinPtr acc flags1)
        acc)
      (fun superPtr => ((st.classes superPtr).mixins.flatMap
          (classWalk st name flags1.PUBLIC_METHOD fuel flags1.KNOWN_STATE)).map
        (fun m => (some m, none))) l a b
      (fun x _ cb2 r2 h2 => many _ cb2 r2 h2) hf
    rw [this, List.map_flatMap]
  simp only [hs1, Bool.not_false, if_true] at h
  cases e1 : (st.objects oPtr).mixins.foldlM
      (fun acc mixinPtr =>
        AddSimpleClassChainToCallContext st name false none fuel mixinPtr acc flags1) cb with
  | none => simp [bind, e1] at h
  | some cb1 =>
    cases e2 : (st.classes (st.objects oPtr).selfCls).mixins.foldlM
        (fun acc mixinPtr =>
          AddSimpleClassChainToCallContext st name false none fuel mixinPtr acc flags1) cb1 with
    | none => simp [bind, e1, e2] at h
    | some cb2 =>
      cases e3 : (st.classes (st.objects oPtr).selfCls).classHierarchy.foldlM
          (fun acc superPtr => (st.classes superPtr).mixins.foldlM
            (fun acc mixinPtr =>
              AddSimpleClassChainToCallContext st name false none fuel mixinPtr acc flags1)
            acc) cb2 with
      | none => simp [bind, e1, e2, e3] at h
      | some cb3 =>
        simp only [bind, e1, e2, e3, Option.some_bind] at h
        have h4 := one _ _ _ flags1 hs1 h
        have hown : AddMethodToCallChain st own cb3 false none
            = addAll st false (own.toList.map (fun m => (some m, none))) cb3 := by
          cases own with
          | none => rfl
          | some m => rfl
        rw [h4, hown, nested _ _ _ e3, many _ _ _ e2, many _ _ _ e1]
        simp only [List.map_append, addAll_append]

/-- The walk of `AddSimpleChainToCallContext` for a name that is no constructor or
destructor, when the pre-check lets the dispatch pass (the object has no record of
its own for the name, or the visibility is settled, or the dispatch is not public,
or the record is public): when it returns it is the sequence of
`AddMethodToCallChain` calls for the candidates of the core phase. -/
theorem AddSimpleChainToCallContext_candidates (st : OOState) (fuel oPtr : Nat)
    (name : String) (cb r : ChainBuilder) (flags : Flags)
    (hs : flags.SPECIAL = false)
    (hpre : ∀ m, (st.objects oPtr).methodsPtr.bind (fun tbl => Tcl_FindHashEntry tbl name)
        = some m → flags.KNOWN_STATE = false → flags.PUBLIC_METHOD = true →
      (st.methods m).flags.PUBLIC_METHOD = true)
    (h : AddSimpleChainToCallContext st fuel oPtr name cb false flags none = some r) :
    r = addAll st false
      ((coreCandidates st fuel oPtr name flags).map (fun m => (some m, none))) cb := by
  unfold coreCandidates
  simp only
  unfold AddSimpleChainToCallContext at h
  cases hown : (st.objects oPtr).methodsPtr.bind (fun tbl => Tcl_FindHashEntry tbl name) with
  | none =>
    simp only [hown, hs] at h
    have hc : (if (!(flags.KNOWN_STATE || false) && (st.objects oPtr).methodsPtr.isSome) = true
        then some flags else some flags) = some flags := by
      split <;> rfl
    simp only [hc] at h
    have := walks_candidates st fuel oPtr name cb r flags none hs h
    simp only [Option.isSome_none, Bool.or_false]
    exact this
  | some m =>
    have hsome : (st.objects oPtr).methodsPtr.isSome = true := by
      cases hmp : (st.objects oPtr).methodsPtr with
      | none => simp [hmp] at hown
      | some _ => rfl
    simp only [hown, hs, hsome, Bool.or_false, Bool.and_true, Option.isSome_some,
      Bool.or_true] at h ⊢
    by_cases hk : flags.KNOWN_STATE = true
    · simp only [hk, Bool.not_true, Bool.false_eq_true, if_false] at h
      have := walks_candidates st fuel oPtr name cb r flags (some m) hs h
      rw [hk] at this
      exact this
    · simp only [Bool.not_eq_true] at hk
      simp only [hk, Bool.not_false, if_true] at h
      by_cases hp : flags.PUBLIC_METHOD = true
      · have hm := hpre m hown hk hp
        simp only [hp, hm, if_true, Bool.not_true, Bool.false_eq_true, if_false] at h
        have := walks_candidates st fuel oPtr name cb r _ (some m)
          (by simpa [Flags.SPECIAL] using hs) h
        simpa [Flags.KNOWN_STATE, hp] using this
      · simp only [Bool.not_eq_true] at hp
        simp only [hp, Bool.false_eq_true, if_false] at h
        have := walks_candidates st fuel oPtr name cb r _ (some m)
          (by simpa [Flags.SPECIAL] using hs) h
        simpa [Flags.KNOWN_STATE, hp] using this

/-! ## The region as the candidates with the last occurrence kept -/

theorem moveToEnd_map (m : Nat) (fd : Option Nat) :
    ∀ D : List Nat,
      moveToEnd m false (D.map (fun k => (⟨k, false, fd⟩ : MInvoke)))
        = if m ∈ D then
            some ((D.erase m ++ [m]).map (fun k => (⟨k, false, fd⟩ : MInvoke)))
          else none := by
  intro D
  induction D with
  | nil => rfl
  | cons a rest ih =>
    simp only [List.map_cons, moveToEnd]
    by_cases ha : a = m
    · subst ha
      simp
    · have hne : ¬ (a = m ∧ True) := fun h => ha h.1
      have hb : (a == m) = false := by simpa using ha
      simp only [ha, false_and, if_false, ih, List.mem_cons, List.erase_cons, hb]
      have hma : ¬ m = a := fun e => ha e.symm
      by_cases hin : m ∈ rest
      · simp [hin, hma]
      · simp [hin, hma]

theorem dedup_append_singleton (m : Nat) :
    ∀ P : List Nat, (P ++ [m]).dedup = P.dedup.erase m ++ [m] := by
  intro P
  induction P with
  | nil => simp
  | cons a rest ih =>
    rw [List.cons_append]
    by_cases ha : a ∈ rest
    · rw [List.dedup_cons_of_mem (List.mem_append_left _ ha), ih,
        List.dedup_cons_of_mem ha]
    · by_cases hm : a = m
      · subst hm
        rw [List.dedup_cons_of_mem (List.mem_append_right _ (List.mem_singleton.2 rfl)), ih,
          List.dedup_cons_of_not_mem ha, List.erase_cons_head]
        rw [List.erase_of_not_mem (fun h => ha (List.mem_dedup.1 h))]
      · have hn : a ∉ rest ++ [m] := by
          simp only [List.mem_append, List.mem_singleton, not_or]
          exact ⟨ha, hm⟩
        rw [List.dedup_cons_of_not_mem hn, ih, List.dedup_cons_of_not_mem ha]
        have hb : (a == m) = false := by simpa using hm
        simp only [List.erase_cons, hb, Bool.false_eq_true, if_false, List.cons_append]

/-- A sequence of `AddMethodToCallChain` calls for candidates leaves, from
`filterLength` on, the admitted candidates with only the last occurrence of each
kept. -/
theorem regionAll_candidates (st : OOState) (priv : Bool) (sc : Nat) :
    ∀ (C P : List Nat),
      regionAll st priv sc false (C.map (fun m => (some m, none)))
          (((P.filter (admitted st priv sc)).dedup).map
            (fun k => (⟨k, false, none⟩ : MInvoke)))
        = ((((P ++ C).filter (admitted st priv sc)).dedup).map
            (fun k => (⟨k, false, none⟩ : MInvoke))) := by
  intro C
  induction C with
  | nil => intro P; simp [regionAll]
  | cons m rest ih =>
    intro P
    simp only [List.map_cons, regionAll, List.foldl_cons]
    have hstep : regionAdd st priv sc false
        (((P.filter (admitted st priv sc)).dedup).map
          (fun k => (⟨k, false, none⟩ : MInvoke))) (some m, none)
        = ((((P ++ [m]).filter (admitted st priv sc)).dedup).map
            (fun k => (⟨k, false, none⟩ : MInvoke))) := by
      unfold regionAdd
      simp only
      by_cases ha : admitted st priv sc m = true
      · simp only [ha, if_true, insertLate, moveToEnd_map]
        rw [List.filter_append]
        simp only [List.filter_cons, ha, if_true, List.filter_nil]
        rw [dedup_append_singleton]
        by_cases hin : m ∈ (P.filter (admitted st priv sc)).dedup
        · simp only [hin, if_true]
        · simp only [hin, if_false]
          rw [List.erase_of_not_mem hin, List.map_append]
          rfl
      · simp only [ha, Bool.false_eq_true, if_false]
        rw [List.filter_append]
        simp only [List.filter_cons, ha, Bool.false_eq_true, if_false, List.filter_nil,
          List.append_nil]
    have := ih (P ++ [m])
    simp only [regionAll] at this
    rw [hstep, this, List.append_assoc]
    rfl

/-- C39: source order of the core phase. Take a dispatch that is not for a
constructor or destructor and passes the visibility pre-check (the object has no
record of its own for the name, or the visibility is settled, or the dispatch is
not public, or that record is public), answered by `TclOOGetCallContext` with
neither the stashed nor a cached context. The candidate sequence is, in the state
that `InitClassHierarchy` leaves: the class-then-superclasses walk of each mixin of
the object in order, then of each mixin of its class, then of each mixin of each
class of the `classHierarchy` of its class in hierarchy order, then the record of
the object itself, then the walk of its class. Let `core` be that sequence with the
records that are not implemented or that the private-method gate drops removed and
with only the last occurrence of every record kept, as non-filter entries. When
`core` is not empty the value returned is a context without `OO_UNKNOWN_METHOD`
whose non-filter part is `core`. When it is empty the value is `NULL` or a context
with `OO_UNKNOWN_METHOD` whose non-filter part is built by the same rule from the
candidate sequence of the name `unknown` under flags 0. -/
theorem C39_core_source_order (fuel : Nat) (st : OOState) (oPtr : Nat)
    (nameObj : MethodNameObj) (flags : Flags) (cache : HashTable (Option Nat))
    (r : GetResult) (hs : flags.SPECIAL = false)
    (hpre : ∀ m,
      (st.objects oPtr).methodsPtr.bind (fun tbl => Tcl_FindHashEntry tbl nameObj.bytes)
        = some m →
      flags.KNOWN_STATE = false → flags.PUBLIC_METHOD = true →
      (st.methods m).flags.PUBLIC_METHOD = true)
    (h : TclOOGetCallContext fuel st oPtr nameObj flags cache = some r)
    (hfresh : ∀ p, r.ret ≠ CallResult.stashed p ∧ r.ret ≠ CallResult.cached p) :
    ((((coreCandidates { st with classes := r.st.classes } fuel oPtr nameObj.bytes
          flags).filter
        (admitted { st with classes := r.st.classes } flags.PRIVATE_METHOD
          (st.objects oPtr).selfCls)).dedup).map (fun k => (⟨k, false, none⟩ : MInvoke)) ≠ [] →
      ∃ c, r.ret = CallResult.built c ∧ c.flags.OO_UNKNOWN_METHOD = false
        ∧ nonFilterPart c
          = (((coreCandidates { st with classes := r.st.classes } fuel oPtr nameObj.bytes
                flags).filter
              (admitted { st with classes := r.st.classes } flags.PRIVATE_METHOD
                (st.objects oPtr).selfCls)).dedup).map
            (fun k => (⟨k, false, none⟩ : MInvoke)))
    ∧ ((((coreCandidates { st with classes := r.st.classes } fuel oPtr nameObj.bytes
          flags).filter
        (admitted { st with classes := r.st.classes } flags.PRIVATE_METHOD
          (st.objects oPtr).selfCls)).dedup).map (fun k => (⟨k, false, none⟩ : MInvoke)) = [] →
      r.ret = CallResult.null
      ∨ ∃ c, r.ret = CallResult.built c ∧ c.flags.OO_UNKNOWN_METHOD = true
        ∧ nonFilterPart c
          = (((coreCandidates { st with classes := r.st.classes } fuel oPtr
                st.fPtr.unknownMethodNameObj {}).filter
              (admitted { st with classes := r.st.classes } flags.PRIVATE_METHOD
                (st.objects oPtr).selfCls)).dedup).map
            (fun k => (⟨k, false, none⟩ : MInvoke))) := by
  rcases TclOOGetCallContext_cases fuel st oPtr nameObj flags cache r h with
    ⟨p, hp | hp⟩ | ⟨d, c0, hb, _, _, _, _⟩
  · exact absurd hp (hfresh p).1
  · exact absurd hp (hfresh p).2
  obtain ⟨_, Lf, Lc, _, hLc, h1, h2⟩ := buildCallContext_spec fuel st oPtr
    nameObj.bytes flags d c0 _ hb
  simp only at hLc h1 h2
  have fF := regionAll_forall { st with classes := r.st.classes } flags.PRIVATE_METHOD
    (st.objects oPtr).selfCls true (fun e => e.isFilter = true) Lf []
    (fun _ _ _ => rfl) (by simp)
  have fR : ∀ l, ∀ e ∈ regionAll { st with classes := r.st.classes } flags.PRIVATE_METHOD
      (st.objects oPtr).selfCls false l [], e.isFilter = false :=
    fun l => regionAll_forall { st with classes := r.st.classes } flags.PRIVATE_METHOD
      (st.objects oPtr).selfCls false (fun e => e.isFilter = false) l []
      (fun _ _ _ => rfl) (by simp)
  have hchain : ∀ l, (addAll { st with classes := r.st.classes } false l
      ⟨newContext st oPtr flags, 0⟩).contextPtr.chain
      = regionAll { st with classes := r.st.classes } flags.PRIVATE_METHOD
          (st.objects oPtr).selfCls false l [] := by
    intro l
    have e := addAll_fresh { st with classes := r.st.classes } st oPtr flags [] l
    have e2 : (⟨{ newContext st oPtr flags with chain := [] },
        ([] : List MInvoke).length⟩ : ChainBuilder) = ⟨newContext st oPtr flags, 0⟩ := rfl
    rw [e2] at e
    rw [e]
    simp
  -- the region of a walk is the candidates with the last occurrence kept
  have hregion : ∀ (name : String) (fl : Flags) (L : List (Option Nat × Option Nat)),
      fl.SPECIAL = false →
      (∀ m, (st.objects oPtr).methodsPtr.bind (fun tbl => Tcl_FindHashEntry tbl name)
          = some m →
        fl.KNOWN_STATE = false → fl.PUBLIC_METHOD = true →
        (st.methods m).flags.PUBLIC_METHOD = true) →
      (∀ cb, AddSimpleChainToCallContext { st with classes := r.st.classes } fuel oPtr name cb
          false fl none = some (addAll { st with classes := r.st.classes } false L cb)) →
      regionAll { st with classes := r.st.classes } flags.PRIVATE_METHOD
          (st.objects oPtr).selfCls false L []
        = (((coreCandidates { st with classes := r.st.classes } fuel oPtr name fl).filter
              (admitted { st with classes := r.st.classes } flags.PRIVATE_METHOD
                (st.objects oPtr).selfCls)).dedup).map
            (fun k => (⟨k, false, none⟩ : MInvoke)) := by
    intro name fl L hsf hpf hL
    have e1 := AddSimpleChainToCallContext_candidates { st with classes := r.st.classes }
      fuel oPtr name ⟨newContext st oPtr flags, 0⟩ _ fl hsf hpf (hL _)
    have e2 := congrArg (fun cb : ChainBuilder => cb.contextPtr.chain) e1
    simp only [hchain] at e2
    rw [e2]
    have e3 := regionAll_candidates { st with classes := r.st.classes } flags.PRIVATE_METHOD
      (st.objects oPtr).selfCls
      (coreCandidates { st with classes := r.st.classes } fuel oPtr name fl) []
    simpa using e3
  have hcore := hregion nameObj.bytes flags Lc hs hpre hLc
  rw [← hcore]
  constructor
  · intro hne
    refine ⟨_, (h1 hne).1, rfl, ?_⟩
    exact filter_nonfilter _ _ fF (fR Lc)
  · intro hR
    obtain ⟨Lu, hLu, hu1, hu2⟩ := (h2 hR).2.2 hs
    have hunk := hregion st.fPtr.unknownMethodNameObj {} Lu rfl
      (fun _ _ _ hp => by cases hp) hLu
    rw [← hunk]
    by_cases hU : regionAll { st with classes := r.st.classes } flags.PRIVATE_METHOD
        (st.objects oPtr).selfCls false Lu [] = []
    · exact Or.inl (hu1 hU)
    · refine Or.inr ⟨_, hu2 hU, rfl, ?_⟩
      exact filter_nonfilter _ _ fF (fR Lu)

/-- The lookup of `m` on object 100 in scenario S13 returns. -/
theorem ancestorMixinLookup_isSome :
    (TclOOGetCallContext 4 ancestorMixinState 100 ⟨"m", none⟩
      { PUBLIC_METHOD := true } []).isSome = true := rfl

/-- Witness of C39 in scenario S13: the candidate sequence is the method of the
mixin M of the ancestor A, the method of the object, the method of B and the
method of A, and that is the chain built. -/
theorem C39_core_source_order_witness :
    coreCandidates
        { ancestorMixinState with
          classes := (Option.get _ ancestorMixinLookup_isSome).st.classes }
        4 100 "m" { PUBLIC_METHOD := true } = [14, 19, 13, 12]
    ∧ ∃ c, (Option.get _ ancestorMixinLookup_isSome).ret = CallResult.built c
      ∧ c.flags.OO_UNKNOWN_METHOD = false
      ∧ nonFilterPart c
        = [⟨14, false, none⟩, ⟨19, false, none⟩, ⟨13, false, none⟩, ⟨12, false, none⟩] :=
  ⟨rfl,
    (C39_core_source_order 4 ancestorMixinState 100 ⟨"m", none⟩ { PUBLIC_METHOD := true } []
      (Option.get _ ancestorMixinLookup_isSome) rfl
      (fun m hm _ _ => by
        have e : some 19 = some m := hm
        cases e
        rfl)
      (Option.some_get ancestorMixinLookup_isSome).symm
      (fun p => ⟨fun e => (by cases e), fun e => (by cases e)⟩)).1 (by decide)⟩


/-! ## Lookups that never reach an unused class -/

theorem withBackEdges_other (B C : Nat → Class) (L x : Nat) (hx : x ≠ L) :
    (withBackEdges B C L x).superclasses = (C x).superclasses
    ∧ (withBackEdges B C L x).mixins = (C x).mixins
    ∧ (withBackEdges B C L x).classMethods = (C x).classMethods
    ∧ (withBackEdges B C L x).filters = (C x).filters
    ∧ (withBackEdges B C L x).constructorPtr = (C x).constructorPtr
    ∧ (withBackEdges B C L x).destructorPtr = (C x).destructorPtr
    ∧ (withBackEdges B C L x).classHierarchy = (C x).classHierarchy
    ∧ (withBackEdges B C L x).classHierarchyEpoch = (C x).classHierarchyEpoch := by
  unfold withBackEdges
  simp only [if_neg hx, and_self]

theorem withBackEdges_setAt (B C : Nat → Class) (L c : Nat) (hc : c ≠ L)
    (ch : List Nat) (ep : Int) :
    setAt (withBackEdges B C L) c
        { withBackEdges B C L c with classHierarchy := ch, classHierarchyEpoch := ep }
      = withBackEdges B (setAt C c { C c with classHierarchy := ch, classHierarchyEpoch := ep })
          L := by
  funext x
  unfold withBackEdges setAt
  by_cases hx : x = c
  · subst hx
    simp only [if_true, if_neg hc]
  · simp only [if_neg hx]

theorem withBackEdges_setAt_list (B C : Nat → Class) (L c : Nat) (hc : c ≠ L)
    (ch : List Nat) :
    setAt (withBackEdges B C L) c { withBackEdges B C L c with classHierarchy := ch }
      = withBackEdges B (setAt C c { C c with classHierarchy := ch }) L := by
  funext x
  unfold withBackEdges setAt
  by_cases hx : x = c
  · subst hx
    simp only [if_true, if_neg hc]
  · simp only [if_neg hx]

/-- The store that `InitClassHierarchy` leaves keeps every superclass list. -/
theorem InitClassHierarchy_superclasses (fPtr : Foundation) (fuel : Nat)
    (classes : Nat → Class) (c : Nat) (classes1 : Nat → Class)
    (h : InitClassHierarchy fPtr fuel classes c = some classes1) (x : Nat) :
    (classes1 x).superclasses = (classes x).superclasses :=
  (onlyHierarchyChanged_data _ _ (InitClassHierarchy_fields fPtr fuel classes c classes1 h) x).1

/-- `InitClassHierarchy` neither reads nor writes a class that is the superclass of
no class, nor any back-edge: run from another class on the store seen from another
state, it leaves the store it leaves otherwise, seen from that state. -/
theorem InitClassHierarchy_withBackEdges (fPtr : Foundation) (B : Nat → Class) (L : Nat) :
    ∀ (fuel : Nat) (C : Nat → Class) (c : Nat), c ≠ L →
      (∀ x, L ∉ (C x).superclasses) →
      InitClassHierarchy fPtr fuel (withBackEdges B C L) c
        = (InitClassHierarchy fPtr fuel C c).map (fun C1 => withBackEdges B C1 L) := by
  intro fuel
  induction fuel with
  | zero => intro C c _ _; rfl
  | succ n ih =>
    intro C c hc hun
    have hloop : ∀ (l : List Nat) (C0 : Nat → Class), (∀ s ∈ l, s ≠ L) →
        (∀ x, L ∉ (C0 x).superclasses) →
        l.foldlM (fun acc superPtr => InitClassHierarchy fPtr n acc superPtr)
            (withBackEdges B C0 L)
          = (l.foldlM (fun acc superPtr => InitClassHierarchy fPtr n acc superPtr) C0).map
              (fun C1 => withBackEdges B C1 L) := by
      intro l
      induction l with
      | nil => intro C0 _ _; rfl
      | cons s rest ihl =>
        intro C0 hl hun0
        rw [List.foldlM_cons, List.foldlM_cons, ih C0 s (hl s (List.mem_cons_self _ _)) hun0]
        cases hs : InitClassHierarchy fPtr n C0 s with
        | none => rfl
        | some C2 =>
          simp only [Option.map_some', bind, Option.bind]
          exact ihl C2 (fun y hy => hl y (List.mem_cons_of_mem _ hy))
            (fun x => by
              rw [InitClassHierarchy_superclasses fPtr n C0 s C2 hs x]
              exact hun0 x)
    have hw := withBackEdges_other B C L c hc
    by_cases hroot : c = fPtr.objectCls
    · rw [hroot, InitClassHierarchy_root, InitClassHierarchy_root]
      rfl
    · by_cases he : (C c).classHierarchyEpoch = fPtr.epoch
      · rw [InitClassHierarchy_current fPtr n C c he,
          InitClassHierarchy_current fPtr n _ c (by rw [hw.2.2.2.2.2.2.2]; exact he)]
        rfl
      · rw [InitClassHierarchy_step fPtr n C c hroot he,
          InitClassHierarchy_step fPtr n _ c hroot (by rw [hw.2.2.2.2.2.2.2]; exact he),
          hw.1, hloop (C c).superclasses C
            (fun s hs e => hun c (e ▸ hs)) hun]
        cases hf : (C c).superclasses.foldlM
            (fun acc superPtr => InitClassHierarchy fPtr n acc superPtr) C with
        | none => rfl
        | some C1 =>
          simp only [Option.map_some', Option.some.injEq]
          have hsup1 : ∀ x, (C1 x).superclasses = (C x).superclasses := by
            have := foldlM_rel (fun a b : Nat → Class =>
                ∀ x, (b x).superclasses = (a x).superclasses)
              (fun _ _ => rfl) (fun a b c h1 h2 x => (h2 x).trans (h1 x))
              (fun acc superPtr => InitClassHierarchy fPtr n acc superPtr)
              (C c).superclasses
              (fun acc s r _ hr => InitClassHierarchy_superclasses fPtr n acc s r hr)
              C C1 hf
            exact this
          have hw1 := withBackEdges_other B C1 L c hc
          have hother : ∀ s ∈ (C1 c).superclasses,
              (withBackEdges B C1 L s).classHierarchy = (C1 s).classHierarchy := by
            intro s hs
            have hsL : s ≠ L := fun e => hun c (by rw [← hsup1 c, ← e]; exact hs)
            exact (withBackEdges_other B C1 L s hsL).2.2.2.2.2.2.1
          have hreb : rebuilt fPtr (withBackEdges B C1 L) c = rebuilt fPtr C1 c := by
            unfold rebuilt
            rw [hw1.1]
            split
            · next s hs =>
              rw [hother s (by rw [hs]; exact List.mem_singleton.2 rfl)]
            · congr 1
              apply List.flatMap_congr
              intro s hs
              rw [hother s hs]
          have hres : restamped fPtr (withBackEdges B C1 L) c = restamped fPtr C1 c := by
            unfold restamped
            rw [hw1.1, hw1.2.2.2.2.2.2.2]
          rw [hreb, hres]
          exact withBackEdges_setAt B C1 L c hc _ _

theorem foldlM_congr_mem {α β : Type} (f g : β → α → Option β) (l : List α)
    (h : ∀ x ∈ l, ∀ acc, f acc x = g acc x) : ∀ a, l.foldlM f a = l.foldlM g a := by
  induction l with
  | nil => intro a; rfl
  | cons x rest ih =>
    intro a
    rw [List.foldlM_cons, List.foldlM_cons, h x (List.mem_cons_self _ _) a]
    cases g a x with
    | none => rfl
    | some b => exact ih (fun y hy => h y (List.mem_cons_of_mem _ hy)) b

theorem sameRead_fields (a b : Class) (h : sameRead a b) :
    b.superclasses = a.superclasses ∧ b.mixins = a.mixins
    ∧ b.classMethods = a.classMethods ∧ b.filters = a.filters
    ∧ b.constructorPtr = a.constructorPtr ∧ b.destructorPtr = a.destructorPtr
    ∧ b.classHierarchy = a.classHierarchy
    ∧ b.classHierarchyEpoch = a.classHierarchyEpoch := by
  unfold sameRead at h
  rw [h]
  exact ⟨rfl, rfl, rfl, rfl, rfl, rfl, rfl, rfl⟩

theorem sameRead_withBackEdges (B C : Nat → Class) (L x : Nat) (hx : x ≠ L) :
    sameRead (C x) (withBackEdges B C L x) := by
  unfold sameRead withBackEdges
  simp only [if_neg hx]

/-- `AddMethodToCallChain` reads the record of the method and the class of the
object of the context, nothing else of the state. -/
theorem AddMethodToCallChain_congr (st st1 : OOState) (m : Option Nat) (cb : ChainBuilder)
    (df : Bool) (fd : Option Nat)
    (hsc : ∀ x, (st1.objects x).selfCls = (st.objects x).selfCls)
    (hm : ∀ k, m = some k → st1.methods k = st.methods k) :
    AddMethodToCallChain st1 m cb df fd = AddMethodToCallChain st m cb df fd := by
  cases m with
  | none => rfl
  | some k =>
    unfold AddMethodToCallChain
    simp only [hm k rfl, hsc]

/-- The walk of `AddSimpleClassChainToCallContext` from a class other than `L` is
the same in two states that agree on what a walk reads of the classes other than
`L` and of the methods bound in them, when `L` is the superclass of no class. -/
theorem AddSimpleClassChainToCallContext_congr (L : Nat) (st st1 : OOState)
    (name : String) (df : Bool) (fd : Option Nat)
    (hsc : ∀ x, (st1.objects x).selfCls = (st.objects x).selfCls)
    (hcl : ∀ x, x ≠ L → sameRead (st.classes x) (st1.classes x))
    (hun : ∀ x, L ∉ (st.classes x).superclasses)
    (hm : ∀ x, x ≠ L → ∀ m, boundIn (st.classes x) m → st1.methods m = st.methods m) :
    ∀ (fuel c : Nat) (cb : ChainBuilder) (flags : Flags), c ≠ L →
      AddSimpleClassChainToCallContext st1 name df fd fuel c cb flags
        = AddSimpleClassChainToCallContext st name df fd fuel c cb flags := by
  intro fuel
  induction fuel with
  | zero => intro c cb flags _; rfl
  | succ n ih =>
    intro c cb flags hc
    obtain ⟨e1, _, e2, _, e3, e4, _, _⟩ := sameRead_fields _ _ (hcl c hc)
    have tail : ∀ (flags1 : Flags) (cb1 : ChainBuilder),
        (match (st.classes c).superclasses with
          | [] => some cb1
          | [superPtr] => AddSimpleClassChainToCallContext st1 name df fd n superPtr cb1 flags1
          | supers => supers.foldlM (fun acc superPtr =>
              AddSimpleClassChainToCallContext st1 name df fd n superPtr acc flags1) cb1)
        = (match (st.classes c).superclasses with
          | [] => some cb1
          | [superPtr] => AddSimpleClassChainToCallContext st name df fd n superPtr cb1 flags1
          | supers => supers.foldlM (fun acc superPtr =>
              AddSimpleClassChainToCallContext st name df fd n superPtr acc flags1) cb1) := by
      intro flags1 cb1
      have hs : ∀ s ∈ (st.classes c).superclasses, s ≠ L := fun s hs e => hun c (e ▸ hs)
      split
      · rfl
      · next s he => exact ih s cb1 flags1 (hs s (by rw [he]; exact List.mem_singleton.2 rfl))
      · exact foldlM_congr_mem _ _ _ (fun s hsm acc => ih s acc flags1 (hs s hsm)) cb1
    have hadd : ∀ (m : Option Nat) (cb0 : ChainBuilder),
        (∀ k, m = some k → boundIn (st.classes c) k) →
        AddMethodToCallChain st1 m cb0 df fd = AddMethodToCallChain st m cb0 df fd :=
      fun m cb0 hb => AddMethodToCallChain_congr st st1 m cb0 df fd hsc
        (fun k hk => hm c hc k (hb k hk))
    have key : ∀ stp : Option (ChainBuilder × Flags),
        (match stp with
          | none => some cb
          | some (cb1, flags1) =>
            match (st.classes c).superclasses with
            | [] => some cb1
            | [superPtr] =>
              AddSimpleClassChainToCallContext st1 name df fd n superPtr cb1 flags1
            | supers => supers.foldlM (fun acc superPtr =>
                AddSimpleClassChainToCallContext st1 name df fd n superPtr acc flags1) cb1)
        = (match stp with
          | none => some cb
          | some (cb1, flags1) =>
            match (st.classes c).superclasses with
            | [] => some cb1
            | [superPtr] =>
              AddSimpleClassChainToCallContext st name df fd n superPtr cb1 flags1
            | supers => supers.foldlM (fun acc superPtr =>
                AddSimpleClassChainToCallContext st name df fd n superPtr acc flags1) cb1) := by
      intro stp
      cases stp with
      | none => rfl
      | some p =>
        obtain ⟨cb1, flags1⟩ := p
        exact tail flags1 cb1
    rw [AddSimpleClassChainToCallContext, AddSimpleClassChainToCallContext]
    simp only [e1, e2, e3, e4]
    rw [hadd _ cb (fun k hk => Or.inr (Or.inl hk)), hadd _ cb (fun k hk => Or.inr (Or.inr hk))]
    cases hl : Tcl_FindHashEntry (st.classes c).classMethods name with
    | none => exact key _
    | some mPtr =>
      have hb : boundIn (st.classes c) mPtr := Or.inl ⟨name, hl⟩
      have hmm := hm c hc mPtr hb
      have ha := hadd (some mPtr) cb (fun k hk => by cases hk; exact hb)
      simp only [hmm, ha]
      exact key _

/-- The walk of `AddSimpleChainToCallContext` for an object that is no instance of
`L` and does not mix `L` in is the same in two states that agree on the object, on
what a walk reads of the classes other than `L` and on the methods bound in them
and in the object, when `L` is the superclass and the mixin of no class and the
hierarchy of the class of the object does not list it. -/
theorem AddSimpleChainToCallContext_congr (L : Nat) (st st1 : OOState) (oPtr : Nat)
    (name : String) (df : Bool) (fd : Option Nat)
    (hsc : ∀ x, (st1.objects x).selfCls = (st.objects x).selfCls)
    (hcl : ∀ x, x ≠ L → sameRead (st.classes x) (st1.classes x))
    (hun : ∀ x, L ∉ (st.classes x).superclasses ∧ L ∉ (st.classes x).mixins)
    (hm : ∀ x, x ≠ L → ∀ m, boundIn (st.classes x) m → st1.methods m = st.methods m)
    (hobj : st1.objects oPtr = st.objects oPtr)
    (hown : ∀ m, (st.objects oPtr).methodsPtr.bind (fun tbl => Tcl_FindHashEntry tbl name)
      = some m → st1.methods m = st.methods m)
    (hoL : (st.objects oPtr).selfCls ≠ L) (homix : L ∉ (st.objects oPtr).mixins)
    (hhier : L ∉ (st.classes (st.objects oPtr).selfCls).classHierarchy)
    (fuel : Nat) (cb : ChainBuilder) (flags : Flags) :
    AddSimpleChainToCallContext st1 fuel oPtr name cb df flags fd
      = AddSimpleChainToCallContext st fuel oPtr name cb df flags fd := by
  have walk := AddSimpleClassChainToCallContext_congr L st st1 name df fd hsc hcl
    (fun x => (hun x).1) hm fuel
  obtain ⟨_, e2, _, _, _, _, e7, _⟩ := sameRead_fields _ _ (hcl _ hoL)
  have many : ∀ (l : List Nat) (flags1 : Flags), L ∉ l → ∀ cb0,
      l.foldlM (fun acc mixinPtr =>
        AddSimpleClassChainToCallContext st1 name df fd fuel mixinPtr acc flags1) cb0
      = l.foldlM (fun acc mixinPtr =>
        AddSimpleClassChainToCallContext st name df fd fuel mixinPtr acc flags1) cb0 :=
    fun l flags1 hl cb0 => foldlM_congr_mem _ _ l
      (fun s hs acc => walk s acc flags1 (fun e => hl (e ▸ hs))) cb0
  have nested : ∀ (flags1 : Flags) (cb0 : ChainBuilder),
      (st.classes (st.objects oPtr).selfCls).classHierarchy.foldlM
        (fun acc superPtr => (st1.classes superPtr).mixins.foldlM (fun acc mixinPtr =>
          AddSimpleClassChainToCallContext st1 name df fd fuel mixinPtr acc flags1) acc) cb0
      = (st.classes (st.objects oPtr).selfCls).classHierarchy.foldlM
        (fun acc superPtr => (st.classes superPtr).mixins.foldlM (fun acc mixinPtr =>
          AddSimpleClassChainToCallContext st name df fd fuel mixinPtr acc flags1) acc) cb0 :=
    fun flags1 cb0 => foldlM_congr_mem _ _ _
      (fun s hs acc => by
        have hsL : s ≠ L := fun e => hhier (e ▸ hs)
        rw [(sameRead_fields _ _ (hcl s hsL)).2.1]
        exact many _ flags1 (hun s).2 acc) cb0
  have h1 := fun flags1 => many (st.objects oPtr).mixins flags1 homix
  have h2 := fun flags1 =>
    many (st.classes (st.objects oPtr).selfCls).mixins flags1 (hun _).2
  have h3 := fun flags1 cb0 => walk (st.objects oPtr).selfCls cb0 flags1 hoL
  unfold AddSimpleChainToCallContext
  simp only [hobj, e2, e7, h1, h2, h3, nested]
  cases hown1 : (st.objects oPtr).methodsPtr.bind
      (fun tbl => Tcl_FindHashEntry tbl name) with
  | none => rfl
  | some m =>
    have hmm := hown m hown1
    have hadd : ∀ cb0, AddMethodToCallChain st1 (some m) cb0 df fd
        = AddMethodToCallChain st (some m) cb0 df fd :=
      fun cb0 => AddMethodToCallChain_congr st st1 (some m) cb0 df fd hsc
        (fun k hk => by cases hk; exact hmm)
    simp only [hmm, hadd]

/-- The filter walk of `AddClassFiltersToCallContext` from a class other than `L`
is the same in two states that agree away from `L`. -/
theorem AddClassFiltersToCallContext_congr (L : Nat) (st st1 : OOState) (oPtr : Nat)
    (hsc : ∀ x, (st1.objects x).selfCls = (st.objects x).selfCls)
    (hcl : ∀ x, x ≠ L → sameRead (st.classes x) (st1.classes x))
    (hun : ∀ x, L ∉ (st.classes x).superclasses ∧ L ∉ (st.classes x).mixins)
    (hm : ∀ x, x ≠ L → ∀ m, boundIn (st.classes x) m → st1.methods m = st.methods m)
    (hobj : st1.objects oPtr = st.objects oPtr)
    (hown : ∀ name m,
      (st.objects oPtr).methodsPtr.bind (fun tbl => Tcl_FindHashEntry tbl name) = some m →
      st1.methods m = st.methods m)
    (hoL : (st.objects oPtr).selfCls ≠ L) (homix : L ∉ (st.objects oPtr).mixins)
    (hhier : L ∉ (st.classes (st.objects oPtr).selfCls).classHierarchy) :
    ∀ (fuel : Nat) (c : Option Nat) (cb : ChainBuilder) (done : List String),
      (∀ x, c = some x → x ≠ L) →
      AddClassFiltersToCallContext st1 oPtr fuel c cb done
        = AddClassFiltersToCallContext st oPtr fuel c cb done := by
  intro fuel
  induction fuel with
  | zero => intro c cb done _; rfl
  | succ n ih =>
    intro c cb done hc
    cases c with
    | none => rfl
    | some x =>
      have hx : x ≠ L := hc x rfl
      obtain ⟨e1, e2, _, e4, _, _, _, _⟩ := sameRead_fields _ _ (hcl x hx)
      have hsimple : ∀ (name : String) (cb0 : ChainBuilder) (fd : Option Nat),
          AddSimpleChainToCallContext st1 n oPtr name cb0 true {} fd
            = AddSimpleChainToCallContext st n oPtr name cb0 true {} fd :=
        fun name cb0 fd => AddSimpleChainToCallContext_congr L st st1 oPtr name true fd hsc hcl
          hun hm hobj (hown name) hoL homix hhier n cb0 {}
      have hmixins : ∀ a : ChainBuilder × List String,
          (st.classes x).mixins.foldlM (fun acc mixinPtr =>
            AddClassFiltersToCallContext st1 oPtr n (some mixinPtr) acc.1 acc.2) a
          = (st.classes x).mixins.foldlM (fun acc mixinPtr =>
            AddClassFiltersToCallContext st oPtr n (some mixinPtr) acc.1 acc.2) a :=
        fun a => foldlM_congr_mem _ _ _
          (fun s hs acc => ih (some s) acc.1 acc.2
            (fun y hy => by cases hy; exact fun e => (hun x).2 (e ▸ hs))) a
      have hsupers : ∀ (l : List Nat) (a : ChainBuilder × List String),
          (∀ s ∈ l, s ≠ L) →
          l.foldlM (fun acc superPtr =>
            AddClassFiltersToCallContext st1 oPtr n (some superPtr) acc.1 acc.2) a
          = l.foldlM (fun acc superPtr =>
            AddClassFiltersToCallContext st oPtr n (some superPtr) acc.1 acc.2) a :=
        fun l a hl => foldlM_congr_mem _ _ _
          (fun s hs acc => ih (some s) acc.1 acc.2
            (fun y hy => by cases hy; exact hl s hs)) a
      have hsL : ∀ s ∈ (st.classes x).superclasses, s ≠ L :=
        fun s hs e => (hun x).1 (e ▸ hs)
      have tail : ∀ r2 : ChainBuilder × List String,
          (match (st.classes x).superclasses with
            | [] => some r2
            | [superPtr] =>
              AddClassFiltersToCallContext st1 oPtr n (some superPtr) r2.1 r2.2
            | supers => supers.foldlM (fun acc superPtr =>
                AddClassFiltersToCallContext st1 oPtr n (some superPtr) acc.1 acc.2) r2)
          = (match (st.classes x).superclasses with
            | [] => some r2
            | [superPtr] =>
              AddClassFiltersToCallContext st oPtr n (some superPtr) r2.1 r2.2
            | supers => supers.foldlM (fun acc superPtr =>
                AddClassFiltersToCallContext st oPtr n (some superPtr) acc.1 acc.2) r2) := by
        intro r2
        split
        · rfl
        · next s he =>
          exact ih (some s) r2.1 r2.2
            (fun y hy => by
              cases hy
              exact hsL s (by rw [he]; exact List.mem_singleton.2 rfl))
        · exact hsupers _ r2 hsL
      rw [AddClassFiltersToCallContext, AddClassFiltersToCallContext]
      simp only [e1, e2, e4, hsimple, hmixins, tail]

/-- The filter phase is the same in two states that agree away from `L`. -/
theorem addAllFilters_congr (L : Nat) (st st1 : OOState) (oPtr : Nat)
    (hsc : ∀ x, (st1.objects x).selfCls = (st.objects x).selfCls)
    (hcl : ∀ x, x ≠ L → sameRead (st.classes x) (st1.classes x))
    (hun : ∀ x, L ∉ (st.classes x).superclasses ∧ L ∉ (st.classes x).mixins)
    (hm : ∀ x, x ≠ L → ∀ m, boundIn (st.classes x) m → st1.methods m = st.methods m)
    (hobj : st1.objects oPtr = st.objects oPtr)
    (hown : ∀ name m,
      (st.objects oPtr).methodsPtr.bind (fun tbl => Tcl_FindHashEntry tbl name) = some m →
      st1.methods m = st.methods m)
    (hoL : (st.objects oPtr).selfCls ≠ L) (homix : L ∉ (st.objects oPtr).mixins)
    (hhier : L ∉ (st.classes (st.objects oPtr).selfCls).classHierarchy)
    (fuel : Nat) (cb : ChainBuilder) :
    addAllFilters st1 fuel oPtr cb = addAllFilters st fuel oPtr cb := by
  have hclass := AddClassFiltersToCallContext_congr L st st1 oPtr hsc hcl hun hm hobj hown
    hoL homix hhier fuel
  have hsimple : ∀ (name : String) (cb0 : ChainBuilder),
      AddSimpleChainToCallContext st1 fuel oPtr name cb0 true {} none
        = AddSimpleChainToCallContext st fuel oPtr name cb0 true {} none :=
    fun name cb0 => AddSimpleChainToCallContext_congr L st st1 oPtr name true none hsc hcl
      hun hm hobj (hown name) hoL homix hhier fuel cb0 {}
  have hmixins : ∀ a : ChainBuilder × List String,
      (st.objects oPtr).mixins.foldlM (fun acc mixinPtr =>
        AddClassFiltersToCallContext st1 oPtr fuel (some mixinPtr) acc.1 acc.2) a
      = (st.objects oPtr).mixins.foldlM (fun acc mixinPtr =>
        AddClassFiltersToCallContext st oPtr fuel (some mixinPtr) acc.1 acc.2) a :=
    fun a => foldlM_congr_mem _ _ _
      (fun s hs acc => hclass (some s) acc.1 acc.2
        (fun y hy => by cases hy; exact fun e => homix (e ▸ hs))) a
  have hself : ∀ (cb0 : ChainBuilder) (done : List String),
      AddClassFiltersToCallContext st1 oPtr fuel (some (st.objects oPtr).selfCls) cb0 done
        = AddClassFiltersToCallContext st oPtr fuel (some (st.objects oPtr).selfCls) cb0 done :=
    fun cb0 done => hclass _ cb0 done (fun y hy => by cases hy; exact hoL)
  unfold addAllFilters
  simp only [hobj, hsimple, hmixins, hself]

/-- The hierarchy that `InitClassHierarchy` leaves in a class does not list a class
that is the superclass of no class, when no hierarchy stamped with the current
epoch listed it. -/
theorem InitClassHierarchy_unlisted (fPtr : Foundation) (L fuel : Nat)
    (classes : Nat → Class) (c : Nat) (classes1 : Nat → Class)
    (hun : ∀ x, L ∉ (classes x).superclasses)
    (hset : settled fPtr (fun x l => x ≠ L → L ∉ l) classes) (hc : c ≠ L)
    (h : InitClassHierarchy fPtr fuel classes c = some classes1) :
    L ∉ (classes1 c).classHierarchy := by
  have hQ : ∀ (cl : Nat → Class) (c : Nat),
      (∀ x, (cl x).superclasses = (classes x).superclasses) →
      (cl fPtr.objectCls).classHierarchy = [] → c ≠ fPtr.objectCls →
      (∀ s ∈ (classes c).superclasses, s ≠ fPtr.objectCls →
        (s ≠ L → L ∉ (cl s).classHierarchy)) →
      (c ≠ L → L ∉ rebuilt fPtr cl c) := by
    intro cl c hsup hroot _ hs _
    have hmem : ∀ s ∈ (classes c).superclasses,
        L ∉ s :: (if s = fPtr.objectCls then [] else (cl s).classHierarchy) := by
      intro s hsm hin
      have hsL : s ≠ L := fun e => hun c (e ▸ hsm)
      rcases List.mem_cons.1 hin with e | e
      · exact hsL e.symm
      · by_cases hr : s = fPtr.objectCls
        · simp [hr] at e
        · simp only [hr, if_false] at e
          exact hs s hsm hr hsL e
    unfold rebuilt
    rw [hsup c]
    split
    · next s he =>
      have hsm : s ∈ (classes c).superclasses := by rw [he]; exact List.mem_singleton.2 rfl
      have hsL : s ≠ L := fun e => hun c (e ▸ hsm)
      intro hin
      rcases List.mem_cons.1 hin with e | e
      · exact hsL e.symm
      · by_cases hr : s = fPtr.objectCls
        · rw [hr, hroot] at e
          exact List.not_mem_nil _ e
        · exact hs s hsm hr hsL e
    · rw [dropEarlierDuplicates_eq_dedup]
      intro hin
      rw [List.mem_dedup, List.mem_flatMap] at hin
      obtain ⟨s, hsm, hin⟩ := hin
      exact hmem s hsm hin
  obtain ⟨hset1, _, hcq⟩ := InitClassHierarchy_settled fPtr
    (fun x => (classes x).superclasses) (fun x l => x ≠ L → L ∉ l) hQ fuel classes c classes1
    (fun _ => rfl) hset h
  by_cases hr : c = fPtr.objectCls
  · rw [hr, hset1.1]
    exact List.not_mem_nil _
  · exact hcq hr hc

/-- The construction of a chain is the same, up to the class store it leaves, in a
state and in the state seen with other back-edges, another record of class `L`,
and other records of the methods that no class but `L` and not the object binds. -/
theorem buildCallContext_isolated (L oPtr : Nat) (st : OOState)
    (O : Nat → Object) (B : Nat → Class) (M : Nat → Method)
    (K : Nat → Option CallContext) (fuel : Nat) (name : String) (flags : Flags)
    (doFilters : Bool) (cache : HashTable (Option Nat))
    (hsc : ∀ x, (O x).selfCls = (st.objects x).selfCls)
    (hobj : O oPtr = st.objects oPtr)
    (hun : ∀ x, L ∉ (st.classes x).superclasses ∧ L ∉ (st.classes x).mixins)
    (hm : ∀ x, x ≠ L → ∀ m, boundIn (st.classes x) m → M m = st.methods m)
    (hown : ∀ name m,
      (st.objects oPtr).methodsPtr.bind (fun tbl => Tcl_FindHashEntry tbl name) = some m →
      M m = st.methods m)
    (hoL : (st.objects oPtr).selfCls ≠ L) (homix : L ∉ (st.objects oPtr).mixins)
    (hset : settled st.fPtr (fun x l => x ≠ L → L ∉ l) st.classes) :
    (buildCallContext fuel
        { fPtr := st.fPtr, objects := O, classes := withBackEdges B st.classes L,
          methods := M, contexts := K } oPtr name flags doFilters cache).map
        (fun r => (r.1, r.2.2))
      = (buildCallContext fuel st oPtr name flags doFilters cache).map
        (fun r => (r.1, r.2.2)) := by
  unfold buildCallContext
  simp only [hobj]
  rw [InitClassHierarchy_withBackEdges st.fPtr B L fuel st.classes _ hoL (fun x => (hun x).1)]
  cases hinit : InitClassHierarchy st.fPtr fuel st.classes (st.objects oPtr).selfCls with
  | none => rfl
  | some C1 =>
    simp only [Option.map_some']
    have hdata := onlyHierarchyChanged_data _ _
      (InitClassHierarchy_fields st.fPtr fuel st.classes _ C1 hinit)
    have hun1 : ∀ x, L ∉ (C1 x).superclasses ∧ L ∉ (C1 x).mixins := by
      intro x
      rw [(hdata x).1, (hdata x).2.1]
      exact hun x
    have hm1 : ∀ x, x ≠ L → ∀ m, boundIn (C1 x) m → M m = st.methods m := by
      intro x hx m hb
      apply hm x hx m
      unfold boundIn at hb ⊢
      rw [(hdata x).2.2.2.1, (hdata x).2.2.2.2.1, (hdata x).2.2.2.2.2] at hb
      exact hb
    have hhier : L ∉ (C1 (st.objects oPtr).selfCls).classHierarchy :=
      InitClassHierarchy_unlisted st.fPtr L fuel st.classes _ C1 (fun x => (hun x).1) hset hoL
        hinit
    have hnc : newContext
        { fPtr := st.fPtr, objects := O, classes := withBackEdges B st.classes L,
          methods := M, contexts := K } oPtr flags = newContext st oPtr flags := by
      unfold newContext
      simp only [hobj]
    have hfil : ∀ cb, addAllFilters
        { fPtr := st.fPtr, objects := O, classes := withBackEdges B C1 L,
          methods := M, contexts := K } fuel oPtr cb
        = addAllFilters { st with classes := C1 } fuel oPtr cb :=
      fun cb => addAllFilters_congr L { st with classes := C1 } _ oPtr hsc
        (fun x hx => sameRead_withBackEdges B C1 L x hx) hun1 hm1 hobj hown hoL homix hhier
        fuel cb
    have hwalk : ∀ nm cb fl, AddSimpleChainToCallContext
        { fPtr := st.fPtr, objects := O, classes := withBackEdges B C1 L,
          methods := M, contexts := K } fuel oPtr nm cb false fl none
        = AddSimpleChainToCallContext { st with classes := C1 } fuel oPtr nm cb false fl none :=
      fun nm cb fl => AddSimpleChainToCallContext_congr L { st with classes := C1 } _ oPtr nm
        false none hsc (fun x hx => sameRead_withBackEdges B C1 L x hx) hun1 hm1 hobj
        (hown nm) hoL homix hhier fuel cb fl
    simp only [hnc, hfil, hwalk]
    repeat (first | rfl | split)

theorem bind_map_congr {α β γ : Type} (x : Option α) (f g : α → Option β) (k : β → γ)
    (h : ∀ a, (f a).map k = (g a).map k) : (x.bind f).map k = (x.bind g).map k := by
  cases x with
  | none => rfl
  | some a => exact h a

/-- The value that `TclOOGetCallContext` returns is the same in a state and in the
state seen with other back-edges, another record of class `L`, other epochs of
other objects, and other records of the methods that no class but `L` and not the
object binds. -/
theorem TclOOGetCallContext_isolated (L oPtr : Nat) (st : OOState)
    (O : Nat → Object) (B : Nat → Class) (M : Nat → Method) (fuel : Nat)
    (nameObj : MethodNameObj) (flags : Flags) (cache : HashTable (Option Nat))
    (hsc : ∀ x, (O x).selfCls = (st.objects x).selfCls)
    (hce : ∀ x, (O x).creationEpoch = (st.objects x).creationEpoch)
    (hobj : O oPtr = st.objects oPtr)
    (hun : ∀ x, L ∉ (st.classes x).superclasses ∧ L ∉ (st.classes x).mixins)
    (hm : ∀ x, x ≠ L → ∀ m, boundIn (st.classes x) m → M m = st.methods m)
    (hown : ∀ name m,
      (st.objects oPtr).methodsPtr.bind (fun tbl => Tcl_FindHashEntry tbl name) = some m →
      M m = st.methods m)
    (hoL : (st.objects oPtr).selfCls ≠ L) (homix : L ∉ (st.objects oPtr).mixins)
    (hset : settled st.fPtr (fun x l => x ≠ L → L ∉ l) st.classes) :
    (TclOOGetCallContext fuel
        { fPtr := st.fPtr, objects := O, classes := withBackEdges B st.classes L,
          methods := M, contexts := st.contexts } oPtr nameObj flags cache).map GetResult.ret
      = (TclOOGetCallContext fuel st oPtr nameObj flags cache).map GetResult.ret := by
  have hfin : ∀ (contexts : Nat → Option CallContext) (nm : MethodNameObj)
      (c : HashTable (Option Nat)) (d : Bool),
      ((buildCallContext fuel
          { fPtr := st.fPtr, objects := O, classes := withBackEdges B st.classes L,
            methods := M, contexts := st.contexts } oPtr nameObj.bytes flags d c).map
        (fun r => (⟨r.1,
          { fPtr := st.fPtr, objects := O, classes := r.2.1, methods := M,
            contexts := contexts }, nm, r.2.2⟩ : GetResult))).map GetResult.ret
      = ((buildCallContext fuel st oPtr nameObj.bytes flags d c).map
        (fun r => (⟨r.1, { st with classes := r.2.1, contexts := contexts }, nm,
          r.2.2⟩ : GetResult))).map GetResult.ret := by
    intro contexts nm c d
    have := congrArg (Option.map Prod.fst)
      (buildCallContext_isolated L oPtr st O B M st.contexts fuel nameObj.bytes flags d c
        hsc hobj hun hm hown hoL homix hset)
    simp only [Option.map_map] at this ⊢
    exact this
  unfold TclOOGetCallContext
  simp only [hobj, hce]
  repeat (first | rfl | exact hfin _ _ _ _ | (apply bind_map_congr; intro _) | split)

/-! ## Isolation of an unused class -/

/-- Isolation of an unused class in a state with complete back-edges and current
caches. Let class `L` have no subclasses, no instances and
no `mixinSubs`, in a state where these back-edges of `L` are complete (every class
that has `L` as a superclass or mixin is recorded in them, and so is the object of
the dispatch if it is an instance of `L` or mixes it in) and where no hierarchy
stamped with the current epoch lists `L` (the root class has none). Let `st1` be a
state after a mutation of `L`: it differs from `st` at most in the record of `L`,
in the back-edges of the other classes, in the epoch of the object representing
`L`, and in the records of methods that no class but `L` and not the object of the
dispatch binds. Then for every object other than the one representing `L`, every
name, all flags, every cache and every fuel, `TclOOGetCallContext` returns the same
value in `st1` as in `st`, so the same chain. -/
theorem leaf_class_isolation (L oPtr : Nat) (st st1 : OOState) (fuel : Nat)
    (nameObj : MethodNameObj) (flags : Flags) (cache : HashTable (Option Nat))
    (hleaf : (st.classes L).subclasses = [] ∧ (st.classes L).instances = []
      ∧ (st.classes L).mixinSubs = [])
    (hsub : ∀ x, L ∈ (st.classes x).superclasses → x ∈ (st.classes L).subclasses)
    (hmixs : ∀ x, L ∈ (st.classes x).mixins → x ∈ (st.classes L).mixinSubs)
    (hinst : (st.objects oPtr).selfCls = L ∨ L ∈ (st.objects oPtr).mixins →
      oPtr ∈ (st.classes L).instances)
    (hset : settled st.fPtr (fun x l => x ≠ L → L ∉ l) st.classes)
    (hf : st1.fPtr = st.fPtr) (hctx : st1.contexts = st.contexts)
    (hobjs : ∀ x, st1.objects x = { st.objects x with epoch := (st1.objects x).epoch })
    (hep : ∀ x, x ≠ (st.classes L).thisPtr → (st1.objects x).epoch = (st.objects x).epoch)
    (ho : oPtr ≠ (st.classes L).thisPtr)
    (hcls : ∀ x, x ≠ L → sameRead (st.classes x) (st1.classes x))
    (hm : ∀ x, x ≠ L → ∀ m, boundIn (st.classes x) m → st1.methods m = st.methods m)
    (hown : ∀ name m,
      (st.objects oPtr).methodsPtr.bind (fun tbl => Tcl_FindHashEntry tbl name) = some m →
      st1.methods m = st.methods m) :
    (TclOOGetCallContext fuel st1 oPtr nameObj flags cache).map GetResult.ret
      = (TclOOGetCallContext fuel st oPtr nameObj flags cache).map GetResult.ret := by
  have hun : ∀ x, L ∉ (st.classes x).superclasses ∧ L ∉ (st.classes x).mixins := by
    intro x
    constructor
    · intro h
      have := hsub x h
      rw [hleaf.1] at this
      exact List.not_mem_nil _ this
    · intro h
      have := hmixs x h
      rw [hleaf.2.2] at this
      exact List.not_mem_nil _ this
  have hoL : (st.objects oPtr).selfCls ≠ L := by
    intro h
    have := hinst (Or.inl h)
    rw [hleaf.2.1] at this
    exact List.not_mem_nil _ this
  have homix : L ∉ (st.objects oPtr).mixins := by
    intro h
    have := hinst (Or.inr h)
    rw [hleaf.2.1] at this
    exact List.not_mem_nil _ this
  have hsc : ∀ x, (st1.objects x).selfCls = (st.objects x).selfCls := by
    intro x; rw [hobjs x]
  have hce : ∀ x, (st1.objects x).creationEpoch = (st.objects x).creationEpoch := by
    intro x; rw [hobjs x]
  have hobj : st1.objects oPtr = st.objects oPtr := by
    rw [hobjs oPtr, hep oPtr ho]
  have hcl : st1.classes = withBackEdges st1.classes st.classes L := by
    funext x
    unfold withBackEdges
    by_cases hx : x = L
    · simp only [if_pos hx]
    · simp only [if_neg hx]
      exact hcls x hx
  have hst : st1 = (⟨st.fPtr, st1.objects, withBackEdges st1.classes st.classes L,
      st1.methods, st.contexts⟩ : OOState) := by
    rw [← hf, ← hctx, ← hcl]
  have := TclOOGetCallContext_isolated L oPtr st st1.objects st1.classes st1.methods fuel
    nameObj flags cache hsc hce hobj hun hm hown hoL homix hset
  rw [← hst] at this
  exact this

/-- The superclass command of scenario S6 on the unused class L returns. -/
theorem reparentedState_isSome : reparentedState.isSome = true := rfl

/-- In scenario S6 no class has L = 5 as a superclass or as a mixin. -/
theorem defineState_unreferenced (x : Nat) :
    5 ∉ (defineState.classes x).superclasses ∧ 5 ∉ (defineState.classes x).mixins := by
  match x with
  | 0 => simp [defineState, definedClass, plainClass]
  | 1 => simp [defineState, definedClass, plainClass]
  | 2 => simp [defineState, definedClass, plainClass]
  | 3 => simp [defineState, definedClass, plainClass]
  | 4 => simp [defineState, definedClass, plainClass]
  | 5 => simp [defineState, definedClass, plainClass]
  | n + 6 => simp [defineState, definedClass, plainClass]

/-- In scenario S6 no hierarchy is stamped with the epoch of the foundation. -/
theorem defineState_unstamped (x : Nat) :
    (defineState.classes x).classHierarchyEpoch ≠ defineState.fPtr.epoch := by
  have h : (defineState.classes x).classHierarchyEpoch = 0 := by
    unfold defineState definedClass plainClass
    simp only
    split <;> rfl
  rw [h]
  decide

/-- The superclass command on L leaves the other classes of scenario S6 as they
were, up to their back-edges. -/
theorem reparentedState_sameRead (x : Nat) (hx : x ≠ 5) :
    sameRead (defineState.classes x)
      ((Option.get reparentedState reparentedState_isSome).classes x) := by
  match x, hx with
  | 0, _ => rfl
  | 1, _ => rfl
  | 2, _ => rfl
  | 3, _ => rfl
  | 4, _ => rfl
  | 5, h => exact absurd rfl h
  | n + 6, _ => rfl

/-- The isolation in scenario S6: `superclass A` in the definition context of the
unused class L = 5 changes the superclasses of L from the root to A, and the public
dispatch of `m` on object 100 returns the same value before and after, the chain
made of method 20. -/
theorem leaf_class_isolation_defineState :
    (defineState.classes 5).superclasses = [0]
    ∧ ((Option.get reparentedState reparentedState_isSome).classes 5).superclasses = [2]
    ∧ (TclOOGetCallContext 3 (Option.get reparentedState reparentedState_isSome) 100
          ⟨"m", none⟩ { PUBLIC_METHOD := true } []).map GetResult.ret
        = (TclOOGetCallContext 3 defineState 100 ⟨"m", none⟩
          { PUBLIC_METHOD := true } []).map GetResult.ret
    ∧ (TclOOGetCallContext 3 defineState 100 ⟨"m", none⟩
          { PUBLIC_METHOD := true } []).bind builtChain = some [⟨20, false, none⟩] :=
  ⟨rfl, rfl,
    leaf_class_isolation 5 100 defineState
      (Option.get reparentedState reparentedState_isSome) 3 ⟨"m", none⟩
      { PUBLIC_METHOD := true } [] ⟨rfl, rfl, rfl⟩
      (fun x h => absurd h (defineState_unreferenced x).1)
      (fun x h => absurd h (defineState_unreferenced x).2)
      (fun h => by
        rcases h with h | h
        · exact absurd h (by decide)
        · exact absurd h (by decide))
      ⟨rfl, fun x _ hs => absurd hs (defineState_unstamped x)⟩
      rfl rfl (fun _ => rfl) (fun _ _ => rfl) (by decide)
      reparentedState_sameRead (fun _ _ _ _ => rfl) (fun _ _ _ => rfl),
    rfl⟩

/-! ## An unused class listed in a stale hierarchy -/

/-- C33, the failing input: scenario S14. The public dispatch of `m` on object 100
and `class A` on the object leave scenario S14 stamped: the hierarchy `[2, 0]` of
B = 3 is current and B is unused. Then `superclass L` on B advances no epoch and
leaves that hierarchy, and `class B` makes the object an instance of B again. In
the state reached class A = 2 has no subclasses, no instances and no `mixinSubs`,
the superclass of B is L = 5, and the public dispatch of `m` on object 100 returns
`NULL`. The mutation `mixin M` of the unused class A returns `TCL_OK` and advances
neither the epoch of the foundation nor that of object 100; after it the same
dispatch on object 100, which is not the object 12 representing A, returns the
chain made of the method 24 of M, reached through the stale hierarchy of B. -/
theorem C33_stale_hierarchy_breaks_isolation :
    (TclOOGetCallContext 3 mixinMethodState 100 ⟨"m", none⟩ { PUBLIC_METHOD := true } []).bind
        (fun r => (TclOODefineClassObjCmd 3 r.st defineNames (some 100) ["A"]).map
          (fun q => (q.1, q.2.fPtr, q.2.objects 100, q.2.classes 0, q.2.classes 1,
            q.2.classes 2, q.2.classes 3, q.2.classes 4, q.2.classes 5)))
      = some (ReturnCode.TCL_OK, stampedState.fPtr, stampedState.objects 100,
          stampedState.classes 0, stampedState.classes 1, stampedState.classes 2,
          stampedState.classes 3, stampedState.classes 4, stampedState.classes 5)
    ∧ staleHierarchyState.map (fun st =>
        ((st.classes 2).subclasses, (st.classes 2).instances, (st.classes 2).mixinSubs))
      = some ([], [], [])
    ∧ staleHierarchyState.map (fun st =>
        ((st.objects 100).selfCls, (st.objects 100).mixins, (st.classes 3).superclasses,
          (st.classes 3).mixins, (st.classes 5).superclasses, (st.classes 5).mixins))
      = some (3, [], [5], [], [0], [])
    ∧ staleHierarchyState.map (fun st =>
        ((st.classes 3).classHierarchy,
          decide ((st.classes 3).classHierarchyEpoch = st.fPtr.epoch)))
      = some ([2, 0], true)
    ∧ staleHierarchyState.bind (fun st =>
        (TclOOGetCallContext 3 st 100 ⟨"m", none⟩ { PUBLIC_METHOD := true } []).map
          GetResult.ret)
      = some CallResult.null
    ∧ staleHierarchyState.bind (fun st =>
        (TclOODefineMixinObjCmd 3 st defineNames false (some 12) ["M"]).map
          (fun r => (r.1, (r.2.classes 2).mixins,
            decide (r.2.fPtr.epoch = st.fPtr.epoch),
            decide ((r.2.objects 100).epoch = (st.objects 100).epoch))))
      = some (ReturnCode.TCL_OK, [4], true, true)
    ∧ mixedLeafState.bind (fun st =>
        (TclOOGetCallContext 3 st 100 ⟨"m", none⟩ { PUBLIC_METHOD := true } []).bind
          builtChain)
      = some [⟨24, false, none⟩] := by
  refine ⟨rfl, rfl, rfl, rfl, rfl, rfl, rfl⟩


/-! ## A class listed twice by the fast path -/

theorem regraftedState_isSome : regraftedState.isSome = true := rfl

/-- The superclass list of every class in the state that the three `superclass`
commands leave. -/
theorem regraftedState_superclasses (c : Nat) :
    ((Option.get regraftedState regraftedState_isSome).classes c).superclasses
      = regraftSupers c := by
  match c with
  | 0 => rfl
  | 1 => rfl
  | 2 => rfl
  | 3 => rfl
  | 4 => rfl
  | 5 => rfl
  | 6 => rfl
  | 7 => rfl
  | n + 8 => rfl

/-- The superclass graph that the three `superclass` commands leave has no
cycle. -/
theorem regraftedState_acyclic (st : OOState) (h : regraftedState = some st) :
    acyclic st.classes regraftRank := by
  have hs : some (Option.get regraftedState regraftedState_isSome) = some st :=
    (Option.some_get regraftedState_isSome).trans h
  injection hs with hs
  subst hs
  intro c s hin
  rw [regraftedState_superclasses] at hin
  match c with
  | 0 => simp [regraftSupers] at hin
  | 1 => simp [regraftSupers] at hin; subst hin; decide
  | 2 => simp [regraftSupers] at hin; subst hin; decide
  | 3 => simp [regraftSupers] at hin; subst hin; decide
  | 4 => simp [regraftSupers] at hin; subst hin; decide
  | 5 => simp [regraftSupers] at hin; subst hin; decide
  | 6 => simp [regraftSupers] at hin; subst hin; decide
  | 7 => simp [regraftSupers] at hin; subst hin; decide
  | n + 8 => simp [regraftSupers] at hin

/-- C13, the failing input: scenario S16.  The public dispatch of `m` on object
100 and `class T` on the object leave scenario S16 stamped: the list `[4, 2, 3, 0]`
of S = 5 is current and S is unused.  `superclass T` on S, `superclass S` on X = 4
and `superclass X` on Y = 7 all return `TCL_OK` and advance no epoch, each class
being unused when it is changed.  In the state reached the superclass links are
Y to X, X to S, S to T and T to the root, the graph of all classes has no cycle
(`regraftRank` decreases along every link), the list of S is still
`[4, 2, 3, 0]` with the current stamp, and Y is not stamped.  `InitClassHierarchy`
of Y, with any fuel of at least 3, rebuilds X as S followed by the list of S and
Y as X followed by the list of X: the list left in Y is the concatenation
`[4, 5, 4, 2, 3, 0]` itself, where X = 4 occurs again later, and not
`[5, 4, 2, 3, 0]`, the concatenation with only the last occurrences kept. -/
theorem C13_fast_path_keeps_earlier_occurrence :
    (TclOOGetCallContext 4 regraftState 100 ⟨"m", none⟩ { PUBLIC_METHOD := true } []).bind
        (fun r => (TclOODefineClassObjCmd 4 r.st regraftNames (some 100) ["T"]).map
          (fun q => (q.1, q.2.fPtr, q.2.objects 100, q.2.classes 0, q.2.classes 1,
            q.2.classes 2, q.2.classes 3, q.2.classes 4, q.2.classes 5, q.2.classes 6,
            q.2.classes 7)))
      = some (ReturnCode.TCL_OK, regraftStamped.fPtr, regraftStamped.objects 100,
          regraftStamped.classes 0, regraftStamped.classes 1, regraftStamped.classes 2,
          regraftStamped.classes 3, regraftStamped.classes 4, regraftStamped.classes 5,
          regraftStamped.classes 6, regraftStamped.classes 7)
    ∧ regraftedState.map (fun st =>
        ([0, 1, 2, 3, 4, 5, 6, 7].map (fun c => (st.classes c).superclasses),
          decide (st.fPtr.epoch = regraftStamped.fPtr.epoch)))
      = some ([[], [0], [0], [0], [5], [6], [0], [4]], true)
    ∧ (∀ st, regraftedState = some st → acyclic st.classes regraftRank)
    ∧ regraftedState.map (fun st =>
        ((st.classes 5).classHierarchy,
          decide ((st.classes 5).classHierarchyEpoch = st.fPtr.epoch),
          decide ((st.classes 4).classHierarchyEpoch = st.fPtr.epoch),
          decide ((st.classes 7).classHierarchyEpoch = st.fPtr.epoch)))
      = some ([4, 2, 3, 0], true, false, false)
    ∧ (∀ k, regraftedState.bind (fun st =>
          (InitClassHierarchy st.fPtr (k + 3) st.classes 7).map (fun cl =>
            ((cl 7).classHierarchy,
              (cl 7).superclasses.flatMap (fun s => s :: (cl s).classHierarchy),
              ((cl 7).superclasses.flatMap (fun s => s :: (cl s).classHierarchy)).dedup)))
        = some ([4, 5, 4, 2, 3, 0], [4, 5, 4, 2, 3, 0], [5, 4, 2, 3, 0])) := by
  refine ⟨rfl, rfl, regraftedState_acyclic, rfl, fun k => rfl⟩

/-- C14, the failing input: scenario S16, in the state that the three `superclass`
commands leave (no epoch advanced, the stamped list `[4, 2, 3, 0]` of S = 5 kept).
The superclass graph has no cycle (`regraftRank` decreases along every link).
The class Y = 7 has the single superclass X = 4 and is not stamped, and X has the
single superclass S.  `InitClassHierarchy` of Y, with any fuel of at least 3,
leaves by the fast path, which runs no pass over the list, `[5, 4, 2, 3, 0]` in X
(X is a member of its own list) and `[4, 5, 4, 2, 3, 0]` in Y, where X occurs
twice. -/
theorem C14_class_listed_twice :
    (TclOOGetCallContext 4 regraftState 100 ⟨"m", none⟩ { PUBLIC_METHOD := true } []).bind
        (fun r => (TclOODefineClassObjCmd 4 r.st regraftNames (some 100) ["T"]).map
          (fun q => (q.1, q.2.fPtr, q.2.objects 100, q.2.classes 0, q.2.classes 1,
            q.2.classes 2, q.2.classes 3, q.2.classes 4, q.2.classes 5, q.2.classes 6,
            q.2.classes 7)))
      = some (ReturnCode.TCL_OK, regraftStamped.fPtr, regraftStamped.objects 100,
          regraftStamped.classes 0, regraftStamped.classes 1, regraftStamped.classes 2,
          regraftStamped.classes 3, regraftStamped.classes 4, regraftStamped.classes 5,
          regraftStamped.classes 6, regraftStamped.classes 7)
    ∧ regraftedState.map (fun st =>
        ([0, 1, 2, 3, 4, 5, 6, 7].map (fun c => (st.classes c).superclasses),
          decide ((st.classes 7).classHierarchyEpoch = st.fPtr.epoch)))
      = some ([[], [0], [0], [0], [5], [6], [0], [4]], false)
    ∧ (∀ st, regraftedState = some st → acyclic st.classes regraftRank)
    ∧ (∀ k, regraftedState.bind (fun st =>
          (InitClassHierarchy st.fPtr (k + 3) st.classes 7).map (fun cl =>
            ((cl 4).classHierarchy, (cl 7).classHierarchy,
              (cl 7).classHierarchy.count 4)))
        = some ([5, 4, 2, 3, 0], [4, 5, 4, 2, 3, 0], 2))
    ∧ ¬ ([4, 5, 4, 2, 3, 0] : List Nat).Nodup := by
  refine ⟨rfl, rfl, regraftedState_acyclic, fun k => rfl, by decide⟩


/-! ## The root class and the direct superclasses in a rebuilt list -/

/-- Nothing that `InitClassHierarchy` does changes the record of the root class. -/
theorem InitClassHierarchy_root_kept (fPtr : Foundation) :
    ∀ (fuel : Nat) (classes : Nat → Class) (c : Nat) (classes1 : Nat → Class),
      InitClassHierarchy fPtr fuel classes c = some classes1 →
      classes1 fPtr.objectCls = classes fPtr.objectCls := by
  intro fuel
  induction fuel with
  | zero => intro classes c classes1 h; simp [InitClassHierarchy] at h
  | succ n ih =>
    intro classes c classes1 h
    by_cases hroot : c = fPtr.objectCls
    · subst hroot
      rw [InitClassHierarchy_root] at h
      cases h
      rfl
    · by_cases he : (classes c).classHierarchyEpoch = fPtr.epoch
      · rw [InitClassHierarchy_current fPtr n classes c he] at h
        cases h
        rfl
      · rw [InitClassHierarchy_step fPtr n classes c hroot he, Option.map_eq_some'] at h
        obtain ⟨cl, hfold, rfl⟩ := h
        have hcl : cl fPtr.objectCls = classes fPtr.objectCls :=
          foldlM_inv (fun acc : Nat → Class => acc fPtr.objectCls = classes fPtr.objectCls)
            (fun acc superPtr => InitClassHierarchy fPtr n acc superPtr) _
            (fun acc x r _ hacc hr => (ih acc x r hr).trans hacc)
            classes cl rfl hfold
        rw [setAt_other _ _ _ _ (fun e => hroot e.symm)]
        exact hcl

/-- Every direct superclass is a member of the list that a rebuild stores. -/
theorem rebuilt_superclasses (fPtr : Foundation) (classes : Nat → Class) (c s : Nat)
    (hs : s ∈ (classes c).superclasses) : s ∈ rebuilt fPtr classes c := by
  unfold rebuilt
  split
  · rename_i superPtr hsc
    rw [hsc] at hs
    rw [List.mem_singleton.1 hs]
    exact List.mem_cons_self _ _
  · rw [dropEarlierDuplicates_eq_dedup, List.mem_dedup, List.mem_flatMap]
    exact ⟨s, hs, List.mem_cons_self _ _⟩

/-! ## C16, amended -/

/-- C16, amended.  Only the linearization of the root itself is never built; the
root is listed like any other superclass.  A call of `InitClassHierarchy` on the
root class returns at once and leaves the store as it is, and no call changes the
record of the root class.  Over an acyclic superclass graph, a call with fuel
above the rank of a non-root class `c` whose stamp is not current returns and
leaves in `c` a list that has every direct superclass of `c` as a member, the
root class included when it is one.  Moreover, when the root class has no
superclass and no cached list and every class already stamped with the current
epoch holds the last-occurrence walk of its present superclasses, the root class
is a member of the list left in a non-root class `c` exactly when it is among the
ancestors of `c`.  In scenario S1 class A gets `[root]` and class B gets
`[A, root]`, for every fuel of at least 3. -/
theorem C16_root_listed :
    (∀ (fPtr : Foundation) (rank : Nat → Nat) (fuel : Nat) (classes : Nat → Class)
      (c : Nat),
      acyclic classes rank → c ≠ fPtr.objectCls →
      (classes c).classHierarchyEpoch ≠ fPtr.epoch → rank c < fuel →
      ∃ classes1, InitClassHierarchy fPtr fuel classes c = some classes1
        ∧ classes1 fPtr.objectCls = classes fPtr.objectCls
        ∧ (∀ s ∈ (classes c).superclasses, s ∈ (classes1 c).classHierarchy)
        ∧ (fPtr.objectCls ∈ (classes c).superclasses →
            fPtr.objectCls ∈ (classes1 c).classHierarchy))
    ∧ (∀ (fPtr : Foundation) (rank : Nat → Nat) (fuel : Nat) (classes : Nat → Class)
        (c : Nat),
        acyclic classes rank → (classes fPtr.objectCls).superclasses = [] →
        settled fPtr (coherent classes rank) classes →
        c ≠ fPtr.objectCls → rank c < fuel →
        ∃ classes1, InitClassHierarchy fPtr fuel classes c = some classes1
          ∧ (classes1 fPtr.objectCls).classHierarchy = []
          ∧ (fPtr.objectCls ∈ (classes1 c).classHierarchy
              ↔ fPtr.objectCls ∈ ancestors classes (rank c) c))
    ∧ (∀ (fPtr : Foundation) (n : Nat) (classes : Nat → Class),
        InitClassHierarchy fPtr (n + 1) classes fPtr.objectCls = some classes)
    ∧ (∀ k, (InitClassHierarchy scenarioFoundation (k + 3) linearState.classes 3).map
          (fun cl => ((cl 0).classHierarchy, (cl 2).classHierarchy, (cl 3).classHierarchy))
        = some ([], [0], [2, 0])) := by
  refine ⟨?_, ?_, InitClassHierarchy_root, fun k => rfl⟩
  · intro fPtr rank fuel classes c hac hroot hstale hfuel
    obtain ⟨classes1, h⟩ := InitClassHierarchy_terminates fPtr rank fuel classes c hac hfuel
    have hsup := (onlyHierarchyChanged_data _ _
      (InitClassHierarchy_fields fPtr _ classes c classes1 h) c).1
    have hself : c ∉ (classes c).superclasses := fun hin => lt_irrefl _ (hac c c hin)
    have hreb := InitClassHierarchy_rebuilds fPtr fuel classes c classes1 hroot hstale hself h
    have hall : ∀ s ∈ (classes c).superclasses, s ∈ (classes1 c).classHierarchy := by
      intro s hs
      rw [hreb]
      exact rebuilt_superclasses fPtr classes1 c s (by rw [hsup]; exact hs)
    exact ⟨classes1, h, InitClassHierarchy_root_kept fPtr fuel classes c classes1 h, hall,
      hall _⟩
  · intro fPtr rank fuel classes c hac h0 hset hroot hfuel
    obtain ⟨classes1, h, hs1, hw⟩ :=
      InitClassHierarchy_coherent fPtr rank fuel classes c hac h0 hset hfuel
    have hc : (classes1 c).classHierarchy = (ancestors classes (rank c) c).dedup := hw hroot
    refine ⟨classes1, h, hs1.1, ?_⟩
    rw [hc, List.mem_dedup]

/-- Witness of C16: class A of scenario S1, whose superclass is the root, ranked
by class number, fuel 3. -/
theorem C16_root_listed_witness :
    ∃ classes1, InitClassHierarchy scenarioFoundation 3 linearState.classes 2 = some classes1
      ∧ classes1 scenarioFoundation.objectCls = linearState.classes scenarioFoundation.objectCls
      ∧ (∀ s ∈ (linearState.classes 2).superclasses, s ∈ (classes1 2).classHierarchy)
      ∧ (scenarioFoundation.objectCls ∈ (linearState.classes 2).superclasses →
          scenarioFoundation.objectCls ∈ (classes1 2).classHierarchy) :=
  C16_root_listed.1 scenarioFoundation id 3 linearState.classes 2
    linearState_acyclic (by decide) (by decide) (by decide)


/-! ## A class with two superclasses above single-inheritance chains -/

theorem InitClassHierarchy_fork (fPtr : Foundation) (classes : Nat → Class) (d b c : Nat)
    (restB restC : List Nat) (fuel : Nat)
    (hd : (classes d).superclasses = [b, c])
    (hB : isChain classes (b :: restB)) (hC : isChain classes (c :: restC))
    (hfB : (b :: restB).length < fuel) (hfC : (c :: restC).length < fuel) :
    ∃ classes1, InitClassHierarchy fPtr fuel classes d = some classes1 := by
  cases fuel with
  | zero => simp at hfB
  | succ n =>
    by_cases hroot : d = fPtr.objectCls
    · subst hroot
      exact ⟨classes, InitClassHierarchy_root fPtr n classes⟩
    · by_cases he : (classes d).classHierarchyEpoch = fPtr.epoch
      · exact ⟨classes, InitClassHierarchy_current fPtr n classes d he⟩
      · rw [InitClassHierarchy_step fPtr n classes d hroot he, hd]
        obtain ⟨classes2, h2⟩ := InitClassHierarchy_chain fPtr (b :: restB) b restB classes n
          rfl hB (Nat.lt_succ_iff.1 hfB)
        have hf2 := InitClassHierarchy_fields fPtr n classes b classes2 h2
        have hC2 : isChain classes2 (c :: restC) :=
          isChain_congr _ _ (fun x => (onlyHierarchyChanged_data _ _ hf2 x).1) _ hC
        obtain ⟨classes3, h3⟩ := InitClassHierarchy_chain fPtr (c :: restC) c restC classes2 n
          rfl hC2 (Nat.lt_succ_iff.1 hfC)
        simp only [List.foldlM_cons, List.foldlM_nil, bind, Option.bind, h2, h3, pure,
          Option.map_some']
        exact ⟨_, rfl⟩

theorem AddClassFiltersToCallContext_fork (st : OOState) (oPtr d b c : Nat)
    (restB restC : List Nat) (fuel : Nat) (cb : ChainBuilder) (done : List String)
    (hd : (st.classes d).superclasses = [b, c])
    (hdm : (st.classes d).mixins = []) (hdf : (st.classes d).filters = [])
    (hB : isChain st.classes (b :: restB)) (hC : isChain st.classes (c :: restC))
    (hnoB : ∀ x ∈ b :: restB, (st.classes x).mixins = [] ∧ (st.classes x).filters = [])
    (hnoC : ∀ x ∈ c :: restC, (st.classes x).mixins = [] ∧ (st.classes x).filters = [])
    (hfB : (b :: restB).length < fuel) (hfC : (c :: restC).length < fuel) :
    AddClassFiltersToCallContext st oPtr fuel (some d) cb done = some (cb, done) := by
  cases fuel with
  | zero => simp at hfB
  | succ n =>
    have e1 := AddClassFiltersToCallContext_chain st oPtr (b :: restB) b restB n cb done rfl hB
      hnoB (Nat.lt_succ_iff.1 hfB)
    have e2 := AddClassFiltersToCallContext_chain st oPtr (c :: restC) c restC n cb done rfl hC
      hnoC (Nat.lt_succ_iff.1 hfC)
    simp [AddClassFiltersToCallContext, hdm, hdf, hd, e1, e2]

theorem AddSimpleClassChainToCallContext_fork (st : OOState) (name : String) (df : Bool)
    (fd : Option Nat) (d b c : Nat) (restB restC : List Nat) (fuel : Nat) (cb : ChainBuilder)
    (flags : Flags) (md : Nat)
    (hd : (st.classes d).superclasses = [b, c])
    (hB : isChain st.classes (b :: restB)) (hC : isChain st.classes (c :: restC))
    (hfB : (b :: restB).length < fuel) (hfC : (c :: restC).length < fuel)
    (hC0 : flags.CONSTRUCTOR = false) (hD0 : flags.DESTRUCTOR = false)
    (hmd : Tcl_FindHashEntry (st.classes d).classMethods name = some md)
    (hvis : flags.KNOWN_STATE = true ∨ flags.PUBLIC_METHOD = false
      ∨ (st.methods md).flags.PUBLIC_METHOD = true) :
    AddSimpleClassChainToCallContext st name df fd fuel d cb flags
      = some (addAll st df
          ((md :: (records st name (b :: restB) ++ records st name (c :: restC))).map
            (fun m => (some m, fd))) cb) := by
  cases fuel with
  | zero => simp at hfB
  | succ n =>
    have tail : ∀ (cb1 : ChainBuilder) (flags1 : Flags),
        flags1.CONSTRUCTOR = false → flags1.DESTRUCTOR = false →
        flags1.KNOWN_STATE = true →
        [b, c].foldlM (fun acc superPtr =>
            AddSimpleClassChainToCallContext st name df fd n superPtr acc flags1) cb1
          = some (addAll st df
              ((records st name (b :: restB) ++ records st name (c :: restC)).map
                (fun m => (some m, fd))) cb1) := by
      intro cb1 flags1 h1 h2 hk
      have e1 := AddSimpleClassChainToCallContext_chain st name df fd (b :: restB) b restB n
        cb1 flags1 rfl hB (Nat.lt_succ_iff.1 hfB) h1 h2 (Or.inl hk)
      have e2 := fun cb2 => AddSimpleClassChainToCallContext_chain st name df fd (c :: restC)
        c restC n cb2 flags1 rfl hC (Nat.lt_succ_iff.1 hfC) h1 h2 (Or.inl hk)
      simp only [List.foldlM_cons, List.foldlM_nil, bind, Option.bind, e1, e2, pure,
        List.map_append, addAll_append]
    unfold AddSimpleClassChainToCallContext
    simp only [hC0, hD0, Bool.false_eq_true, if_false, hmd, hd, List.map_cons, addAll]
    by_cases hk : flags.KNOWN_STATE = true
    · simp only [hk, Bool.not_true, Bool.false_eq_true, if_false]
      exact tail _ flags hC0 hD0 hk
    · simp only [Bool.not_eq_true] at hk
      simp only [hk, Bool.not_false, if_true]
      by_cases hp : flags.PUBLIC_METHOD = true
      · have hpub : (st.methods md).flags.PUBLIC_METHOD = true := by
          rcases hvis with h1 | h1 | h1
          · rw [hk] at h1; cases h1
          · rw [hp] at h1; cases h1
          · exact h1
        simp only [hp, hpub, if_true]
        exact tail _ _ rfl rfl (by simp [Flags.KNOWN_STATE])
      · simp only [hp, Bool.false_eq_true, if_false]
        exact tail _ _ rfl rfl (by simp [Flags.KNOWN_STATE])

theorem AddSimpleChainToCallContext_fork (st : OOState) (oPtr : Nat) (name : String)
    (df : Bool) (fd : Option Nat) (d b c : Nat) (restB restC : List Nat) (fuel : Nat)
    (cb : ChainBuilder) (flags : Flags) (md : Nat)
    (hself : (st.objects oPtr).selfCls = d)
    (hd : (st.classes d).superclasses = [b, c])
    (hB : isChain st.classes (b :: restB)) (hC : isChain st.classes (c :: restC))
    (hfB : (b :: restB).length < fuel) (hfC : (c :: restC).length < fuel)
    (hobjm : (st.objects oPtr).methodsPtr.bind (fun tbl => Tcl_FindHashEntry tbl name) = none)
    (hobjmix : (st.objects oPtr).mixins = [])
    (hmix : ∀ x, (st.classes x).mixins = [])
    (hC0 : flags.CONSTRUCTOR = false) (hD0 : flags.DESTRUCTOR = false)
    (hmd : Tcl_FindHashEntry (st.classes d).classMethods name = some md)
    (hvis : flags.KNOWN_STATE = true ∨ flags.PUBLIC_METHOD = false
      ∨ (st.methods md).flags.PUBLIC_METHOD = true) :
    AddSimpleChainToCallContext st fuel oPtr name cb df flags fd
      = some (addAll st df
          ((md :: (records st name (b :: restB) ++ records st name (c :: restC))).map
            (fun m => (some m, fd))) cb) := by
  unfold AddSimpleChainToCallContext
  have hsp : flags.SPECIAL = false := by simp [Flags.SPECIAL, hC0, hD0]
  have hchecked : (if (!(flags.KNOWN_STATE || flags.SPECIAL)
        && (st.objects oPtr).methodsPtr.isSome) = true then
      match (st.objects oPtr).methodsPtr.bind (fun tbl => Tcl_FindHashEntry tbl name) with
      | some mPtr =>
        if flags.PUBLIC_METHOD = true then
          if (!(st.methods mPtr).flags.PUBLIC_METHOD) = true then none
          else some { flags with DEFINITE_PUBLIC := true }
        else some { flags with DEFINITE_PROTECTED := true }
      | none => some flags
    else some flags) = some flags := by
    rw [hobjm]
    simp
  simp only [hchecked, hsp, Bool.not_false, if_true, hobjmix, hmix, hobjm, hself]
  have h3 : (st.classes d).classHierarchy.foldlM
      (fun (acc : ChainBuilder) (superPtr : Nat) => (some acc : Option ChainBuilder)) cb
      = some cb := foldlM_const _ _ (fun _ _ _ => rfl) cb
  simp only [List.foldlM_nil, pure, bind, Option.bind, h3, ite_self, hsp, Bool.not_false]
  exact AddSimpleClassChainToCallContext_fork st name df fd d b c restB restC fuel cb flags md
    hd hB hC hfB hfC hC0 hD0 hmd hvis

theorem addAllFilters_fork (st : OOState) (oPtr d b c : Nat) (restB restC : List Nat)
    (fuel : Nat) (cb : ChainBuilder)
    (hself : (st.objects oPtr).selfCls = d)
    (hd : (st.classes d).superclasses = [b, c])
    (hdm : (st.classes d).mixins = []) (hdf : (st.classes d).filters = [])
    (hB : isChain st.classes (b :: restB)) (hC : isChain st.classes (c :: restC))
    (hnoB : ∀ x ∈ b :: restB, (st.classes x).mixins = [] ∧ (st.classes x).filters = [])
    (hnoC : ∀ x ∈ c :: restC, (st.classes x).mixins = [] ∧ (st.classes x).filters = [])
    (hfB : (b :: restB).length < fuel) (hfC : (c :: restC).length < fuel)
    (hobjmix : (st.objects oPtr).mixins = []) (hobjfil : (st.objects oPtr).filters = []) :
    addAllFilters st fuel oPtr cb = some cb := by
  unfold addAllFilters
  simp only [hobjmix, hobjfil, List.foldlM_nil, pure, bind, Option.bind, hself]
  rw [AddClassFiltersToCallContext_fork st oPtr d b c restB restC fuel cb [] hd hdm hdf hB hC
    hnoB hnoC hfB hfC]

/-- What `buildCallContext` returns when the linearization is built, the filter
phase leaves the entries `F` and the walk for the name adds the entries `R`, at
least one. -/
theorem buildCallContext_assemble (fuel : Nat) (st : OOState) (oPtr : Nat) (name : String)
    (flags : Flags) (doFilters : Bool) (cache : HashTable (Option Nat))
    (classes1 : Nat → Class) (F R : List MInvoke)
    (hinit : InitClassHierarchy st.fPtr fuel st.classes (st.objects oPtr).selfCls
      = some classes1)
    (hfilt : (if doFilters = true then
        addAllFilters { st with classes := classes1 } fuel oPtr ⟨newContext st oPtr flags, 0⟩
      else some ⟨newContext st oPtr flags, 0⟩)
        = some ⟨{ newContext st oPtr flags with chain := F }, 0⟩)
    (hcore : AddSimpleChainToCallContext { st with classes := classes1 } fuel oPtr name
        ⟨{ newContext st oPtr flags with chain := F }, F.length⟩ false flags none
      = some ⟨{ newContext st oPtr flags with chain := F ++ R }, F.length⟩)
    (hR : R ≠ []) :
    buildCallContext fuel st oPtr name flags doFilters cache
      = some (CallResult.built { newContext st oPtr flags with chain := F ++ R }, classes1,
          if doFilters = true then Tcl_SetHashValue cache name none else cache) := by
  have hlen : ¬ (F.length = (F ++ R).length) := by
    rw [List.length_append]
    have := List.length_pos.mpr hR
    omega
  unfold buildCallContext
  rw [hinit]
  simp only [hfilt]
  rw [hcore]
  simp only [hlen, if_false]
  cases doFilters <;> rfl

/-- A lookup with nothing stashed in the name and no context cached for it
returns what `buildCallContext` builds. -/
theorem TclOOGetCallContext_of_build (fuel : Nat) (st : OOState) (oPtr : Nat)
    (nameObj : MethodNameObj) (flags : Flags) (cache : HashTable (Option Nat))
    (chain : List MInvoke)
    (hstash : nameObj.stash = none)
    (hcache : ∀ p, Tcl_FindHashEntry cache nameObj.bytes ≠ some (some p))
    (hb : ∀ (c : HashTable (Option Nat)), ∃ ctx classes1 cache1,
      buildCallContext fuel st oPtr nameObj.bytes flags
          (!(flags.SPECIAL || flags.FILTER_HANDLING
            || (st.objects oPtr).flags.FILTER_HANDLING)) c
        = some (CallResult.built ctx, classes1, cache1) ∧ ctx.chain = chain) :
    (TclOOGetCallContext fuel st oPtr nameObj flags cache).bind builtChain = some chain := by
  have fin : ∀ (contexts : Nat → Option CallContext) (n : MethodNameObj)
      (c : HashTable (Option Nat)),
      ((buildCallContext fuel st oPtr nameObj.bytes flags
          (!(flags.SPECIAL || flags.FILTER_HANDLING
            || (st.objects oPtr).flags.FILTER_HANDLING)) c).map
        (fun x => (⟨x.1, { st with classes := x.2.1, contexts := contexts }, n,
          x.2.2⟩ : GetResult))).bind builtChain = some chain := by
    intro contexts n c
    obtain ⟨ctx, classes1, cache1, hbuild, hch⟩ := hb c
    rw [hbuild, ← hch]
    rfl
  unfold TclOOGetCallContext
  simp only [hstash]
  by_cases hm : (flags.SPECIAL || flags.FILTER_HANDLING
      || (st.objects oPtr).flags.FILTER_HANDLING) = true
  · have := fin st.contexts nameObj cache
    rw [hm] at this
    simp only [hm, if_true]
    exact this
  · have hm2 : (flags.SPECIAL || flags.FILTER_HANDLING
      || (st.objects oPtr).flags.FILTER_HANDLING) = false := by simpa using hm
    have fin2 := fun contexts n c => fin contexts n c
    simp only [hm2, Bool.not_false] at fin2
    simp only [hm2, Bool.false_eq_true, if_false]
    cases hl : Tcl_FindHashEntry cache nameObj.bytes with
    | none => exact fin2 _ _ _
    | some v =>
      cases v with
      | none => exact fin2 _ _ _
      | some p => exact absurd hl (hcache p)

theorem dedup_diamond (md mb mc ma : Nat) (h : [md, mb, mc, ma].Nodup) :
    [md, mb, ma, mc, ma].dedup = [md, mb, mc, ma] := by
  simp only [List.nodup_cons, List.mem_cons, List.mem_singleton, List.not_mem_nil,
    not_or, or_false, not_false_eq_true, List.nodup_nil, and_true] at h
  obtain ⟨⟨h1, h2, h3⟩, ⟨h4, h5⟩, h6⟩ := h
  rw [List.dedup_cons_of_not_mem (by simp [h1, h2, h3]),
    List.dedup_cons_of_not_mem (by simp [h4, h5]),
    List.dedup_cons_of_mem (by simp),
    List.dedup_cons_of_not_mem (by simp [h6]),
    List.dedup_cons_of_not_mem (by simp)]
  rfl

/-- An implemented method that the private-method gate lets through is admitted. -/
theorem admitted_of_gate (st : OOState) (priv : Bool) (sc m : Nat)
    (hi : (st.methods m).typePtr.isSome = true)
    (hg : priv = true ∨ (st.methods m).flags.PRIVATE_METHOD = false
      ∨ (st.methods m).declaringClassPtr = none
      ∨ (st.methods m).declaringClassPtr = some sc) :
    admitted st priv sc m = true := by
  unfold admitted
  rw [hi]
  rcases hg with h | h | h | h <;> simp [h]

/-- The chain built over a diamond: class `d` with the superclasses `b`, `c`, both
with the superclass `a`, above which runs the single-inheritance chain `top`. -/
theorem buildCallContext_diamond (st : OOState) (oPtr : Nat) (name : String) (flags : Flags)
    (doFilters : Bool) (cache : HashTable (Option Nat)) (a b c d : Nat) (top : List Nat)
    (ma mb mc md : Nat) (fuel : Nat)
    (hself : (st.objects oPtr).selfCls = d)
    (hd : (st.classes d).superclasses = [b, c])
    (hB : isChain st.classes (b :: a :: top)) (hC : isChain st.classes (c :: a :: top))
    (hfuel : top.length + 3 ≤ fuel)
    (hmd : Tcl_FindHashEntry (st.classes d).classMethods name = some md)
    (hmb : Tcl_FindHashEntry (st.classes b).classMethods name = some mb)
    (hmc : Tcl_FindHashEntry (st.classes c).classMethods name = some mc)
    (hma : Tcl_FindHashEntry (st.classes a).classMethods name = some ma)
    (htop : records st name top = [])
    (hnd : [md, mb, mc, ma].Nodup)
    (hadm : ∀ m ∈ [md, mb, mc, ma], admitted st flags.PRIVATE_METHOD d m = true)
    (hobjm : (st.objects oPtr).methodsPtr.bind (fun tbl => Tcl_FindHashEntry tbl name) = none)
    (hobjmix : (st.objects oPtr).mixins = []) (hobjfil : (st.objects oPtr).filters = [])
    (hmix : ∀ x, (st.classes x).mixins = [])
    (hfil : ∀ x ∈ d :: b :: c :: a :: top, (st.classes x).filters = [])
    (hC0 : flags.CONSTRUCTOR = false) (hD0 : flags.DESTRUCTOR = false)
    (hvis : flags.PUBLIC_METHOD = false ∨ (st.methods md).flags.PUBLIC_METHOD = true) :
    ∃ classes1 cache1,
      buildCallContext fuel st oPtr name flags doFilters cache
        = some (CallResult.built
            { newContext st oPtr flags with
              chain := [⟨md, false, none⟩, ⟨mb, false, none⟩, ⟨mc, false, none⟩,
                ⟨ma, false, none⟩] }, classes1, cache1) := by
  have hlen : (b :: a :: top).length < fuel := by
    simp only [List.length_cons]; omega
  have hlen2 : (c :: a :: top).length < fuel := by
    simp only [List.length_cons]; omega
  obtain ⟨classes1, hinit⟩ := InitClassHierarchy_fork st.fPtr st.classes d b c (a :: top)
    (a :: top) fuel hd hB hC hlen hlen2
  have hf := InitClassHierarchy_fields st.fPtr fuel st.classes d classes1 hinit
  have hdata := onlyHierarchyChanged_data _ _ hf
  have hB1 : isChain classes1 (b :: a :: top) :=
    isChain_congr _ _ (fun x => (hdata x).1) _ hB
  have hC1 : isChain classes1 (c :: a :: top) :=
    isChain_congr _ _ (fun x => (hdata x).1) _ hC
  have hd1 : (classes1 d).superclasses = [b, c] := by rw [(hdata d).1, hd]
  have hmix1 : ∀ x, (classes1 x).mixins = [] := fun x => by rw [(hdata x).2.1, hmix]
  have hfil1 : ∀ x ∈ d :: b :: c :: a :: top, (classes1 x).filters = [] :=
    fun x hx => by rw [(hdata x).2.2.1, hfil x hx]
  have hrec : ∀ cs, records { st with classes := classes1 } name cs = records st name cs :=
    records_congr _ _ name (fun x => (hdata x).2.2.2.1)
  have hrB : records st name (b :: a :: top) = [mb, ma] := by
    simp [records, hmb, hma] at htop ⊢
    exact htop
  have hrC : records st name (c :: a :: top) = [mc, ma] := by
    simp [records, hmc, hma] at htop ⊢
    exact htop
  have hfilt : (if doFilters = true then
        addAllFilters { st with classes := classes1 } fuel oPtr ⟨newContext st oPtr flags, 0⟩
      else some ⟨newContext st oPtr flags, 0⟩)
        = some ⟨{ newContext st oPtr flags with chain := [] }, 0⟩ := by
    cases doFilters with
    | false => rfl
    | true =>
      simp only [if_true]
      exact addAllFilters_fork { st with classes := classes1 } oPtr d b c (a :: top)
        (a :: top) fuel _ hself hd1 (hmix1 d) (hfil1 d (List.mem_cons_self _ _)) hB1 hC1
        (fun x hx => ⟨hmix1 x, hfil1 x (by
          simp only [List.mem_cons] at hx ⊢
          tauto)⟩)
        (fun x hx => ⟨hmix1 x, hfil1 x (by
          simp only [List.mem_cons] at hx ⊢
          tauto)⟩)
        hlen hlen2 hobjmix hobjfil
  have hcore := AddSimpleChainToCallContext_fork { st with classes := classes1 } oPtr name
    false none d b c (a :: top) (a :: top) fuel
    ⟨{ newContext st oPtr flags with chain := [] }, ([] : List MInvoke).length⟩ flags md
    hself hd1 hB1 hC1 hlen hlen2 hobjm hobjmix hmix1 hC0 hD0
    (by rw [(hdata d).2.2.2.1]; exact hmd) (Or.inr hvis)
  rw [hrec, hrec, hrB, hrC, addAll_fresh] at hcore
  have hcand := regionAll_candidates { st with classes := classes1 } flags.PRIVATE_METHOD
    (st.objects oPtr).selfCls ([md, mb, ma] ++ [mc, ma]) []
  have hall : ([md, mb, ma] ++ [mc, ma]).filter
      (admitted { st with classes := classes1 } flags.PRIVATE_METHOD (st.objects oPtr).selfCls)
      = [md, mb, ma] ++ [mc, ma] := by
    rw [List.filter_eq_self]
    intro m hm
    rw [hself]
    have hm2 : m ∈ [md, mb, mc, ma] := by
      simp only [List.mem_append, List.mem_cons, List.mem_singleton, List.not_mem_nil,
        or_false] at hm ⊢
      tauto
    exact hadm m hm2
  simp only [List.filter_nil, List.dedup_nil, List.map_nil, List.nil_append] at hcand
  rw [hall] at hcand
  have hdd : ([md, mb, ma] ++ [mc, ma]).dedup = [md, mb, mc, ma] := dedup_diamond md mb mc ma hnd
  rw [hdd] at hcand
  have hcore2 : AddSimpleChainToCallContext { st with classes := classes1 } fuel oPtr name
      ⟨{ newContext st oPtr flags with chain := [] }, ([] : List MInvoke).length⟩ false flags
      none
      = some ⟨{ newContext st oPtr flags with
          chain := [] ++ [⟨md, false, none⟩, ⟨mb, false, none⟩, ⟨mc, false, none⟩,
            ⟨ma, false, none⟩] }, ([] : List MInvoke).length⟩ := by
    rw [hcore]
    have e : regionAll { st with classes := classes1 } flags.PRIVATE_METHOD
        (({ st with classes := classes1 } : OOState).objects oPtr).selfCls false
        ((md :: ([mb, ma] ++ [mc, ma])).map (fun m => (some m, none))) []
        = [⟨md, false, none⟩, ⟨mb, false, none⟩, ⟨mc, false, none⟩, ⟨ma, false, none⟩] :=
      hcand
    rw [e]
  exact ⟨classes1, _, buildCallContext_assemble fuel st oPtr name flags doFilters cache
    classes1 [] _ (by rw [hself]; exact hinit) hfilt hcore2 (by simp)⟩

/-! ## C1 -/

/-- C1.  Diamond order (scenario S2).  Take classes `a`; `b` and `c`, each with `a`
as its only superclass; `d` with the superclasses `b`, `c` in that order; and above
`a` the single-inheritance chain `top` (empty, or the root class alone), whose
classes have no record for the name.  Each of `d`, `b`, `c`, `a` has its own
implemented method for the name (the records `md`, `mb`, `mc`, `ma`, pairwise
distinct) that the private-method gate lets through for an object of class `d`.
The object is a direct instance of `d` without mixins, filters and a method of
its own for the name; no class of the store has a mixin and the classes named
declare no filter.  For a dispatch that is not for a constructor or destructor and
that is not public-only unless `md` is exported, with nothing stashed or cached
for the name, `TclOOGetCallContext` returns, for every fuel of at least the
length of `top` plus 3, a chain that is exactly `[md, mb, mc, ma]`, all non-filter
entries.  In scenario S2 the chain is `[D.m, B.m, C.m, A.m]` for every fuel of at
least 4, for a public and for a non-public dispatch, and whether A has no
superclass or the root class as its superclass. -/
theorem C1_diamond_order :
    (∀ (st : OOState) (oPtr : Nat) (nameObj : MethodNameObj) (flags : Flags)
      (cache : HashTable (Option Nat)) (a b c d : Nat) (top : List Nat)
      (ma mb mc md : Nat) (fuel : Nat),
      (st.objects oPtr).selfCls = d →
      (st.classes d).superclasses = [b, c] →
      isChain st.classes (b :: a :: top) → isChain st.classes (c :: a :: top) →
      top.length + 3 ≤ fuel →
      Tcl_FindHashEntry (st.classes d).classMethods nameObj.bytes = some md →
      Tcl_FindHashEntry (st.classes b).classMethods nameObj.bytes = some mb →
      Tcl_FindHashEntry (st.classes c).classMethods nameObj.bytes = some mc →
      Tcl_FindHashEntry (st.classes a).classMethods nameObj.bytes = some ma →
      records st nameObj.bytes top = [] →
      [md, mb, mc, ma].Nodup →
      (∀ m ∈ [md, mb, mc, ma], (st.methods m).typePtr.isSome = true) →
      (∀ m ∈ [md, mb, mc, ma], flags.PRIVATE_METHOD = true
        ∨ (st.methods m).flags.PRIVATE_METHOD = false
        ∨ (st.methods m).declaringClassPtr = none
        ∨ (st.methods m).declaringClassPtr = some d) →
      (st.objects oPtr).methodsPtr.bind (fun tbl => Tcl_FindHashEntry tbl nameObj.bytes)
        = none →
      (st.objects oPtr).mixins = [] → (st.objects oPtr).filters = [] →
      (∀ x, (st.classes x).mixins = []) →
      (∀ x ∈ d :: b :: c :: a :: top, (st.classes x).filters = []) →
      flags.CONSTRUCTOR = false → flags.DESTRUCTOR = false →
      (flags.PUBLIC_METHOD = false ∨ (st.methods md).flags.PUBLIC_METHOD = true) →
      nameObj.stash = none →
      (∀ p, Tcl_FindHashEntry cache nameObj.bytes ≠ some (some p)) →
      (TclOOGetCallContext fuel st oPtr nameObj flags cache).bind builtChain
        = some [⟨md, false, none⟩, ⟨mb, false, none⟩, ⟨mc, false, none⟩,
            ⟨ma, false, none⟩])
    ∧ (∀ k,
        (TclOOGetCallContext (k + 4) (diamondState []) 100 ⟨"m", none⟩
            { PUBLIC_METHOD := true } []).bind builtChain
          = some [⟨15, false, none⟩, ⟨13, false, none⟩, ⟨14, false, none⟩,
              ⟨12, false, none⟩]
        ∧ (TclOOGetCallContext (k + 4) (diamondState []) 100 ⟨"m", none⟩ {} []).bind
            builtChain
          = some [⟨15, false, none⟩, ⟨13, false, none⟩, ⟨14, false, none⟩,
              ⟨12, false, none⟩]
        ∧ (TclOOGetCallContext (k + 4) (diamondState [0]) 100 ⟨"m", none⟩
            { PUBLIC_METHOD := true } []).bind builtChain
          = some [⟨15, false, none⟩, ⟨13, false, none⟩, ⟨14, false, none⟩,
              ⟨12, false, none⟩]
        ∧ (TclOOGetCallContext (k + 4) (diamondState [0]) 100 ⟨"m", none⟩ {} []).bind
            builtChain
          = some [⟨15, false, none⟩, ⟨13, false, none⟩, ⟨14, false, none⟩,
              ⟨12, false, none⟩]) := by
  refine ⟨?_, fun k => ⟨rfl, rfl, rfl, rfl⟩⟩
  intro st oPtr nameObj flags cache a b c d top ma mb mc md fuel hself hd hB hC hfuel hmd hmb
    hmc hma htop hnd himpl hgate hobjm hobjmix hobjfil hmix hfil hC0 hD0 hvis hstash hcache
  apply TclOOGetCallContext_of_build fuel st oPtr nameObj flags cache _ hstash hcache
  intro cch
  obtain ⟨classes1, cache1, hb⟩ := buildCallContext_diamond st oPtr nameObj.bytes flags
    (!(flags.SPECIAL || flags.FILTER_HANDLING || (st.objects oPtr).flags.FILTER_HANDLING))
    cch a b c d top ma mb mc md fuel hself hd hB hC hfuel hmd hmb hmc hma htop hnd
    (fun m hm => admitted_of_gate st flags.PRIVATE_METHOD d m (himpl m hm) (hgate m hm))
    hobjm hobjmix hobjfil hmix hfil hC0 hD0 hvis
  exact ⟨_, classes1, cache1, hb, rfl⟩

/-- Witness of C1 on scenario S2 with A under the root class: the classes
D = 5, B = 3, C = 4, A = 2 and the chain `[0]` above A, a public dispatch, fuel 4. -/
theorem C1_diamond_order_witness :
    (TclOOGetCallContext 4 (diamondState [0]) 100 ⟨"m", none⟩ { PUBLIC_METHOD := true }
        []).bind builtChain
      = some [⟨15, false, none⟩, ⟨13, false, none⟩, ⟨14, false, none⟩, ⟨12, false, none⟩] :=
  C1_diamond_order.1 (diamondState [0]) 100 ⟨"m", none⟩ { PUBLIC_METHOD := true } []
    2 3 4 5 [0] 12 13 14 15 4 rfl rfl (by decide) (by decide) (by decide) rfl rfl rfl rfl rfl
    (by decide) (by decide) (by decide) rfl rfl rfl
    (fun x => by
      unfold diamondState
      simp only
      split <;> rfl)
    (by decide) rfl rfl (Or.inr rfl) rfl (fun p h => by cases h)


/-! ## Filter walks over a single-inheritance chain -/

/-- The walk for a filter name (flags 0) over a single-inheritance chain without
mixins: the method of the object itself for the name, if any, then the class
records along the chain, all added as filter entries. -/
theorem AddSimpleChainToCallContext_filter (st : OOState) (oPtr : Nat) (name : String)
    (fd : Option Nat) (cs : List Nat) (c0 : Nat) (rest : List Nat) (fuel : Nat)
    (cb : ChainBuilder)
    (hcs : cs = c0 :: rest) (hself : (st.objects oPtr).selfCls = c0)
    (hchain : isChain st.classes cs) (hfuel : cs.length ≤ fuel)
    (hobjmix : (st.objects oPtr).mixins = [])
    (hmix : ∀ c, (st.classes c).mixins = []) :
    AddSimpleChainToCallContext st fuel oPtr name cb true {} fd
      = some (addAll st true
          ((((st.objects oPtr).methodsPtr.bind
              (fun tbl => Tcl_FindHashEntry tbl name)).toList
            ++ records st name cs).map (fun m => (some m, fd))) cb) := by
  cases hown : (st.objects oPtr).methodsPtr.bind (fun tbl => Tcl_FindHashEntry tbl name) with
  | none =>
    rw [AddSimpleChainToCallContext_chain st oPtr name true fd cs c0 rest fuel cb {} hcs hself
      hchain hfuel hown hobjmix hmix rfl rfl (Or.inr (Or.inl rfl))]
    rfl
  | some m =>
    have hsome : (st.objects oPtr).methodsPtr.isSome = true := by
      cases hp : (st.objects oPtr).methodsPtr with
      | none => rw [hp] at hown; cases hown
      | some _ => rfl
    unfold AddSimpleChainToCallContext
    simp only [hown, hsome, hobjmix, hmix, hself]
    have h3 : (st.classes c0).classHierarchy.foldlM
        (fun (acc : ChainBuilder) (superPtr : Nat) => (some acc : Option ChainBuilder)) cb
        = some cb := foldlM_const _ _ (fun _ _ _ => rfl) cb
    have e := AddSimpleClassChainToCallContext_chain st name true fd cs c0 rest fuel
      (AddMethodToCallChain st (some m) cb true fd) { DEFINITE_PROTECTED := true } hcs hchain
      hfuel rfl rfl (Or.inl rfl)
    simp only [List.foldlM_nil, pure, bind, Option.bind, h3, Option.toList, List.cons_append,
      List.nil_append, List.map_cons, addAll]
    exact e

/-- The filter walk from a class that declares the single filter `fname` at the
head of a single-inheritance chain whose other classes declare none: the
candidates of `fname`, added as filter entries declared by the class. -/
theorem AddClassFiltersToCallContext_declared (st : OOState) (oPtr : Nat) (fname : String)
    (cs : List Nat) (c0 : Nat) (rest : List Nat) (fuel : Nat) (cb : ChainBuilder)
    (hcs : cs = c0 :: rest) (hself : (st.objects oPtr).selfCls = c0)
    (hchain : isChain st.classes cs) (hfuel : cs.length < fuel)
    (hobjmix : (st.objects oPtr).mixins = [])
    (hmix : ∀ c, (st.classes c).mixins = [])
    (hf0 : (st.classes c0).filters = [fname])
    (hfr : ∀ x ∈ rest, (st.classes x).filters = []) :
    AddClassFiltersToCallContext st oPtr fuel (some c0) cb []
      = some (addAll st true
          ((((st.objects oPtr).methodsPtr.bind
              (fun tbl => Tcl_FindHashEntry tbl fname)).toList
            ++ records st fname cs).map (fun m => (some m, some c0))) cb, [fname]) := by
  cases fuel with
  | zero => simp at hfuel
  | succ n =>
    have hw := AddSimpleChainToCallContext_filter st oPtr fname (some c0) cs c0 rest n cb hcs
      hself hchain (Nat.lt_succ_iff.1 hfuel) hobjmix hmix
    subst hcs
    cases rest with
    | nil =>
      simp only [isChain] at hchain
      simp [AddClassFiltersToCallContext, hmix, hf0, hchain, hw]
    | cons d rest2 =>
      simp only [isChain] at hchain
      have hup := fun cb1 done => AddClassFiltersToCallContext_chain st oPtr (d :: rest2) d rest2
        n cb1 done rfl hchain.2
        (fun x hx => ⟨hmix x, hfr x hx⟩)
        (by simp only [List.length_cons] at hfuel ⊢; omega)
      simp [AddClassFiltersToCallContext, hmix, hf0, hchain.1, hw, hup]

/-- The filter phase for an object without mixins whose class heads a
single-inheritance chain and declares the single filter `fname`: the candidates
of the filters of the object, in order, then those of `fname`. -/
theorem addAllFilters_declared (st : OOState) (oPtr : Nat) (fname : String)
    (cs : List Nat) (c0 : Nat) (rest : List Nat) (fuel : Nat) (cb : ChainBuilder)
    (hcs : cs = c0 :: rest) (hself : (st.objects oPtr).selfCls = c0)
    (hchain : isChain st.classes cs) (hfuel : cs.length < fuel)
    (hobjmix : (st.objects oPtr).mixins = [])
    (hmix : ∀ c, (st.classes c).mixins = [])
    (hf0 : (st.classes c0).filters = [fname])
    (hfr : ∀ x ∈ rest, (st.classes x).filters = []) :
    addAllFilters st fuel oPtr cb
      = some (addAll st true
          ((st.objects oPtr).filters.flatMap (fun g =>
              (((st.objects oPtr).methodsPtr.bind
                  (fun tbl => Tcl_FindHashEntry tbl g)).toList
                ++ records st g cs).map (fun m => (some m, (none : Option Nat))))
            ++ (((st.objects oPtr).methodsPtr.bind
                (fun tbl => Tcl_FindHashEntry tbl fname)).toList
              ++ records st fname cs).map (fun m => (some m, some c0))) cb) := by
  have hobj : ∀ (l : List String) (cb1 : ChainBuilder),
      l.foldlM (fun acc filterObj =>
          AddSimpleChainToCallContext st fuel oPtr filterObj acc true {} none) cb1
        = some (addAll st true
            (l.flatMap (fun g =>
              (((st.objects oPtr).methodsPtr.bind
                  (fun tbl => Tcl_FindHashEntry tbl g)).toList
                ++ records st g cs).map (fun m => (some m, (none : Option Nat))))) cb1) := by
    intro l
    induction l with
    | nil => intro cb1; rfl
    | cons g l ih =>
      intro cb1
      simp only [List.foldlM_cons, List.flatMap_cons]
      rw [AddSimpleChainToCallContext_filter st oPtr g none cs c0 rest fuel cb1 hcs hself
        hchain (Nat.le_of_lt hfuel) hobjmix hmix]
      simp only [Option.bind_eq_bind, Option.some_bind]
      rw [ih, addAll_append]
  unfold addAllFilters
  simp only [hobjmix, List.foldlM_nil, pure, Option.bind_eq_bind, Option.some_bind, hself]
  rw [hobj]
  simp only [Option.some_bind]
  rw [AddClassFiltersToCallContext_declared st oPtr fname cs c0 rest fuel _ hcs hself hchain
    hfuel hobjmix hmix hf0 hfr]
  simp only [Option.some_bind, addAll_append]

/-- The chain built for an object without mixins and without a method of its own
for the name, whose class heads a single-inheritance chain, declares the single
filter `fname` and has the only class record `mm` for the name: the entries `F`
that the filter candidates leave, followed by `mm`. -/
theorem buildCallContext_filtered (st : OOState) (oPtr : Nat) (name fname : String)
    (flags : Flags) (cache : HashTable (Option Nat)) (cs : List Nat) (c0 : Nat)
    (rest : List Nat) (fuel : Nat) (mm : Nat) (F : List MInvoke)
    (hcs : cs = c0 :: rest) (hself : (st.objects oPtr).selfCls = c0)
    (hchain : isChain st.classes cs) (hfuel : cs.length < fuel)
    (hobjmix : (st.objects oPtr).mixins = [])
    (hmix : ∀ c, (st.classes c).mixins = [])
    (hf0 : (st.classes c0).filters = [fname])
    (hfr : ∀ x ∈ rest, (st.classes x).filters = [])
    (hobjm : (st.objects oPtr).methodsPtr.bind (fun tbl => Tcl_FindHashEntry tbl name) = none)
    (hrecm : records st name cs = [mm])
    (hadm : admitted st flags.PRIVATE_METHOD c0 mm = true)
    (hC0 : flags.CONSTRUCTOR = false) (hD0 : flags.DESTRUCTOR = false)
    (hvis : flags.PUBLIC_METHOD = false ∨ (st.methods mm).flags.PUBLIC_METHOD = true)
    (hF : regionAll st flags.PRIVATE_METHOD c0 true
        ((st.objects oPtr).filters.flatMap (fun g =>
            (((st.objects oPtr).methodsPtr.bind
                (fun tbl => Tcl_FindHashEntry tbl g)).toList
              ++ records st g cs).map (fun m => (some m, (none : Option Nat))))
          ++ (((st.objects oPtr).methodsPtr.bind
              (fun tbl => Tcl_FindHashEntry tbl fname)).toList
            ++ records st fname cs).map (fun m => (some m, some c0))) [] = F) :
    ∃ classes1 cache1,
      buildCallContext fuel st oPtr name flags true cache
        = some (CallResult.built
            { newContext st oPtr flags with chain := F ++ [⟨mm, false, none⟩] },
            classes1, cache1) := by
  obtain ⟨classes1, hinit⟩ := InitClassHierarchy_chain st.fPtr cs c0 rest st.classes fuel hcs
    hchain (Nat.le_of_lt hfuel)
  have hf := InitClassHierarchy_fields st.fPtr fuel st.classes c0 classes1 hinit
  have hdata := onlyHierarchyChanged_data _ _ hf
  have hchain1 : isChain classes1 cs := isChain_congr _ _ (fun x => (hdata x).1) cs hchain
  have hmix1 : ∀ c, (classes1 c).mixins = [] := fun c => by rw [(hdata c).2.1, hmix]
  have hf01 : (classes1 c0).filters = [fname] := by rw [(hdata c0).2.2.1, hf0]
  have hfr1 : ∀ x ∈ rest, (classes1 x).filters = [] :=
    fun x hx => by rw [(hdata x).2.2.1, hfr x hx]
  have hrec : ∀ n l, records { st with classes := classes1 } n l = records st n l :=
    fun n l => records_congr _ _ n (fun x => (hdata x).2.2.2.1) l
  have hphase := addAllFilters_declared { st with classes := classes1 } oPtr fname cs c0 rest
    fuel ⟨newContext st oPtr flags, 0⟩ hcs hself hchain1 hfuel hobjmix hmix1 hf01 hfr1
  simp only [hrec] at hphase
  rw [addAll_newContext _ true _ _ [] rfl rfl] at hphase
  have hreg := regionAll_methods { st with classes := classes1 } st rfl flags.PRIVATE_METHOD
    c0 true
    ((st.objects oPtr).filters.flatMap (fun g =>
        (((st.objects oPtr).methodsPtr.bind
            (fun tbl => Tcl_FindHashEntry tbl g)).toList
          ++ records st g cs).map (fun m => (some m, (none : Option Nat))))
      ++ (((st.objects oPtr).methodsPtr.bind
          (fun tbl => Tcl_FindHashEntry tbl fname)).toList
        ++ records st fname cs).map (fun m => (some m, some c0))) []
  rw [hF] at hreg
  have hfilt : (if true = true then
        addAllFilters { st with classes := classes1 } fuel oPtr ⟨newContext st oPtr flags, 0⟩
      else some ⟨newContext st oPtr flags, 0⟩)
        = some ⟨{ newContext st oPtr flags with chain := F }, 0⟩ := by
    simp only [if_true]
    rw [hphase]
    have e : regionAll { st with classes := classes1 }
        (newContext st oPtr flags).flags.PRIVATE_METHOD
        (({ st with classes := classes1 } : OOState).objects
          (newContext st oPtr flags).oPtr).selfCls true
        ((st.objects oPtr).filters.flatMap (fun g =>
            (((st.objects oPtr).methodsPtr.bind
                (fun tbl => Tcl_FindHashEntry tbl g)).toList
              ++ records st g cs).map (fun m => (some m, (none : Option Nat))))
          ++ (((st.objects oPtr).methodsPtr.bind
              (fun tbl => Tcl_FindHashEntry tbl fname)).toList
            ++ records st fname cs).map (fun m => (some m, some c0))) [] = F := by
      rw [← hreg, ← hself]
      rfl
    simp only [e]
    rfl
  have hcore := AddSimpleChainToCallContext_chain { st with classes := classes1 } oPtr name
    false none cs c0 rest fuel
    ⟨{ newContext st oPtr flags with chain := F }, F.length⟩ flags hcs hself
    hchain1 (Nat.le_of_lt hfuel) hobjm hobjmix hmix1 hC0 hD0
    (Or.inr (by
      rw [hrec, hrecm]
      rcases hvis with h | h
      · exact Or.inl h
      · exact Or.inr (fun m0 hm0 => by
          simp only [List.head?_cons, Option.some.injEq] at hm0
          rw [← hm0]; exact h)))
  rw [hrec, hrecm, addAll_fresh] at hcore
  have hadm1 : admitted { st with classes := classes1 } flags.PRIVATE_METHOD
      (({ st with classes := classes1 } : OOState).objects oPtr).selfCls mm = true := by
    rw [← hadm, ← hself]
    rfl
  have hR : regionAll { st with classes := classes1 } flags.PRIVATE_METHOD
      (({ st with classes := classes1 } : OOState).objects oPtr).selfCls false
      ([mm].map (fun m => (some m, (none : Option Nat)))) [] = [⟨mm, false, none⟩] := by
    simp [regionAll, regionAdd, hadm1, insertLate, moveToEnd]
  rw [hR] at hcore
  exact ⟨classes1, _, buildCallContext_assemble fuel st oPtr name flags true cache classes1 F
    [⟨mm, false, none⟩] (by rw [hself]; exact hinit) hfilt hcore (by simp)⟩

/-- What `TclOOObjectSetFilters` leaves: the object with the given filters and its
epoch incremented, everything else as it was. -/
theorem TclOOObjectSetFilters_eq (st : OOState) (oPtr : Nat) (filters : List String) :
    TclOOObjectSetFilters st oPtr filters
      = { st with
          objects := setAt st.objects oPtr
            { st.objects oPtr with
              filters := filters, epoch := incrInt (st.objects oPtr).epoch } } := by
  unfold TclOOObjectSetFilters
  by_cases h : filters.length = 0
  · have e : filters = [] := List.length_eq_zero.1 h
    subst e
    rfl
  · simp only [if_neg h]

/-! ## C3 -/

/-- C3.  Filter ordering (scenario S3).  Take an object without mixins whose class
`c0` heads the single-inheritance chain `c0 :: rest`, in a store where no class
has a mixin; `c0` declares the single class filter `fname` and the classes above
it declare none; `c0` has the record `mf` for `fname` and the record `mm` for the
name dispatched, the classes above have no record for either, and the object has
no method of its own for either; `mf` and `mm` are implemented and pass the
private-method gate.  For a dispatch that is not for a constructor or destructor,
not made while a filter is being handled, not public-only unless `mm` is exported,
with nothing stashed or cached for the name, and for every fuel of at least the
length of the chain plus 1: when the object has no filter of its own, the chain
that `TclOOGetCallContext` returns is `mf` as a filter entry declared by `c0`
followed by `mm` as a non-filter entry; and after `TclOOObjectSetFilters` has
given the object the single filter `gname`, whose only method, of the object
itself or along the chain, is the implemented `mg`, other than `mf`, the chain is
`mg` (filter), `mf` (filter), `mm`.  In scenario S3 the chains are
`[f (filter), m]` and `[g (filter), f (filter), m]`, whether `g` is a method of
the class or of the object, for every fuel of at least 3. -/
theorem C3_filter_ordering :
    (∀ (st : OOState) (oPtr : Nat) (nameObj : MethodNameObj) (fname : String)
      (flags : Flags) (cache : HashTable (Option Nat)) (c0 : Nat) (rest : List Nat)
      (mf mm : Nat) (fuel : Nat),
      (st.objects oPtr).selfCls = c0 → isChain st.classes (c0 :: rest) →
      rest.length + 2 ≤ fuel →
      (st.classes c0).filters = [fname] → (∀ x ∈ rest, (st.classes x).filters = []) →
      (∀ x, (st.classes x).mixins = []) →
      (st.objects oPtr).mixins = [] →
      (st.objects oPtr).methodsPtr.bind (fun tbl => Tcl_FindHashEntry tbl nameObj.bytes)
        = none →
      (st.objects oPtr).methodsPtr.bind (fun tbl => Tcl_FindHashEntry tbl fname) = none →
      Tcl_FindHashEntry (st.classes c0).classMethods fname = some mf →
      Tcl_FindHashEntry (st.classes c0).classMethods nameObj.bytes = some mm →
      records st fname rest = [] → records st nameObj.bytes rest = [] →
      (∀ m ∈ [mf, mm], (st.methods m).typePtr.isSome = true) →
      (∀ m ∈ [mf, mm], flags.PRIVATE_METHOD = true
        ∨ (st.methods m).flags.PRIVATE_METHOD = false
        ∨ (st.methods m).declaringClassPtr = none
        ∨ (st.methods m).declaringClassPtr = some c0) →
      flags.CONSTRUCTOR = false → flags.DESTRUCTOR = false →
      flags.FILTER_HANDLING = false → (st.objects oPtr).flags.FILTER_HANDLING = false →
      (flags.PUBLIC_METHOD = false ∨ (st.methods mm).flags.PUBLIC_METHOD = true) →
      nameObj.stash = none →
      (∀ p, Tcl_FindHashEntry cache nameObj.bytes ≠ some (some p)) →
      ((st.objects oPtr).filters = [] →
        (TclOOGetCallContext fuel st oPtr nameObj flags cache).bind builtChain
          = some [⟨mf, true, some c0⟩, ⟨mm, false, none⟩])
      ∧ (∀ (gname : String) (mg : Nat),
          ((st.objects oPtr).methodsPtr.bind (fun tbl => Tcl_FindHashEntry tbl gname)).toList
            ++ records st gname (c0 :: rest) = [mg] →
          mg ≠ mf → (st.methods mg).typePtr.isSome = true →
          (flags.PRIVATE_METHOD = true ∨ (st.methods mg).flags.PRIVATE_METHOD = false
            ∨ (st.methods mg).declaringClassPtr = none
            ∨ (st.methods mg).declaringClassPtr = some c0) →
          (TclOOGetCallContext fuel (TclOOObjectSetFilters st oPtr [gname]) oPtr nameObj
              flags cache).bind builtChain
            = some [⟨mg, true, none⟩, ⟨mf, true, some c0⟩, ⟨mm, false, none⟩]))
    ∧ (∀ k,
        (∀ gOnClass, (TclOOGetCallContext (k + 3) (filterState gOnClass) 100 ⟨"m", none⟩
            { PUBLIC_METHOD := true } []).bind builtChain
          = some [⟨21, true, some 2⟩, ⟨22, false, none⟩])
        ∧ (TclOOGetCallContext (k + 3) (filterState true) 101 ⟨"m", none⟩
            { PUBLIC_METHOD := true } []).bind builtChain
          = some [⟨23, true, none⟩, ⟨21, true, some 2⟩, ⟨22, false, none⟩]
        ∧ (TclOOGetCallContext (k + 3) (filterState false) 101 ⟨"m", none⟩
            { PUBLIC_METHOD := true } []).bind builtChain
          = some [⟨24, true, none⟩, ⟨21, true, some 2⟩, ⟨22, false, none⟩]) := by
  refine ⟨?_, fun k => ⟨fun g => by cases g <;> rfl, rfl, rfl⟩⟩
  intro st oPtr nameObj fname flags cache c0 rest mf mm fuel hself hchain hfuel hf0 hfr hmix
    hobjmix hobjm hobjf hmf hmm hrf hrm himpl hgate hC0 hD0 hFH hoFH hvis hstash hcache
  have hlen : (c0 :: rest).length < fuel := by
    simp only [List.length_cons]; omega
  have hrecf : records st fname (c0 :: rest) = [mf] := by
    simp [records, hmf] at hrf ⊢
    exact hrf
  have hrecm : records st nameObj.bytes (c0 :: rest) = [mm] := by
    simp [records, hmm] at hrm ⊢
    exact hrm
  have hadmf : admitted st flags.PRIVATE_METHOD c0 mf = true :=
    admitted_of_gate st _ c0 mf (himpl mf (by simp)) (hgate mf (by simp))
  have hadmm : admitted st flags.PRIVATE_METHOD c0 mm = true :=
    admitted_of_gate st _ c0 mm (himpl mm (by simp)) (hgate mm (by simp))
  have hsp : flags.SPECIAL = false := by simp [Flags.SPECIAL, hC0, hD0]
  constructor
  · intro hobjfil
    apply TclOOGetCallContext_of_build fuel st oPtr nameObj flags cache _ hstash hcache
    intro cch
    have hcond : (!(flags.SPECIAL || flags.FILTER_HANDLING
        || (st.objects oPtr).flags.FILTER_HANDLING)) = true := by
      simp [hsp, hFH, hoFH]
    rw [hcond]
    obtain ⟨classes1, cache1, hb⟩ := buildCallContext_filtered st oPtr nameObj.bytes fname
      flags cch (c0 :: rest) c0 rest fuel mm [⟨mf, true, some c0⟩] rfl hself hchain hlen
      hobjmix hmix hf0 hfr hobjm hrecm hadmm hC0 hD0 hvis
      (by
        rw [hobjfil, hobjf, hrecf]
        simp [regionAll, regionAdd, hadmf, insertLate, moveToEnd])
    exact ⟨_, classes1, cache1, hb, rfl⟩
  · intro gname mg hg hne himg hgg
    have hadmg : admitted st flags.PRIVATE_METHOD c0 mg = true :=
      admitted_of_gate st _ c0 mg himg hgg
    have hst2 := TclOOObjectSetFilters_eq st oPtr [gname]
    have ho : (TclOOObjectSetFilters st oPtr [gname]).objects oPtr
        = { st.objects oPtr with
            filters := [gname], epoch := incrInt (st.objects oPtr).epoch } := by
      rw [hst2]
      exact setAt_same _ _ _
    have hcl : (TclOOObjectSetFilters st oPtr [gname]).classes = st.classes := by
      rw [hst2]
    have hme : (TclOOObjectSetFilters st oPtr [gname]).methods = st.methods := by
      rw [hst2]
    have hrec2 : ∀ n l, records (TclOOObjectSetFilters st oPtr [gname]) n l = records st n l :=
      fun n l => records_congr _ _ n (fun x => by rw [hcl]) l
    have hadm2 : ∀ m, admitted (TclOOObjectSetFilters st oPtr [gname]) flags.PRIVATE_METHOD
        c0 m = admitted st flags.PRIVATE_METHOD c0 m := by
      intro m
      unfold admitted
      rw [hme]
    apply TclOOGetCallContext_of_build fuel _ oPtr nameObj flags cache _ hstash hcache
    intro cch
    have hcond : (!(flags.SPECIAL || flags.FILTER_HANDLING
        || ((TclOOObjectSetFilters st oPtr [gname]).objects oPtr).flags.FILTER_HANDLING))
        = true := by
      rw [ho]
      simp [hsp, hFH, hoFH]
    rw [hcond]
    obtain ⟨classes1, cache1, hb⟩ := buildCallContext_filtered
      (TclOOObjectSetFilters st oPtr [gname]) oPtr nameObj.bytes fname
      flags cch (c0 :: rest) c0 rest fuel mm [⟨mg, true, none⟩, ⟨mf, true, some c0⟩] rfl
      (by rw [ho]; exact hself) (by rw [hcl]; exact hchain) hlen
      (by rw [ho]; exact hobjmix) (by rw [hcl]; exact hmix) (by rw [hcl]; exact hf0)
      (by rw [hcl]; exact hfr) (by rw [ho]; exact hobjm) (by rw [hrec2]; exact hrecm)
      (by rw [hadm2]; exact hadmm) hC0 hD0 (by rw [hme]; exact hvis)
      (by
        rw [regionAll_methods _ st hme]
        simp only [hrec2, ho, List.flatMap_cons, List.flatMap_nil, List.append_nil]
        rw [hg, hobjf, hrecf]
        have hne2 : ¬ (mg = mf) := hne
        simp [regionAll, regionAdd, hadmf, hadmg, insertLate, moveToEnd, hne2])
    exact ⟨_, classes1, cache1, hb, rfl⟩

/-- Witness of C3 on scenario S3 with `g` a method of the class: object 100 of
class C = 2 under the root, a public dispatch of `m` with fuel 3, before and after
`TclOOObjectSetFilters` gives the object the filter `g`. -/
theorem C3_filter_ordering_witness :
    (TclOOGetCallContext 3 (filterState true) 100 ⟨"m", none⟩ { PUBLIC_METHOD := true }
        []).bind builtChain
      = some [⟨21, true, some 2⟩, ⟨22, false, none⟩]
    ∧ (TclOOGetCallContext 3 (TclOOObjectSetFilters (filterState true) 100 ["g"]) 100
        ⟨"m", none⟩ { PUBLIC_METHOD := true } []).bind builtChain
      = some [⟨23, true, none⟩, ⟨21, true, some 2⟩, ⟨22, false, none⟩] :=
  (fun h => ⟨h.1 rfl, h.2 "g" 23 rfl (by decide) rfl (Or.inr (Or.inl rfl))⟩)
    (C3_filter_ordering.1 (filterState true) 100 ⟨"m", none⟩ "f" { PUBLIC_METHOD := true } []
      2 [0] 21 22 3 rfl (by decide) (by decide) rfl (by decide)
      (fun x => by
        unfold filterState
        simp only
        split <;> rfl)
      rfl rfl rfl rfl rfl rfl rfl (by decide) (by decide) rfl rfl rfl rfl (Or.inr rfl) rfl
      (fun p h => by cases h))

end TclOO
